import Mathlib

/-!
Test scheduling in `jiri-test/internal/test/run.go`.

A shallow embedding of the test dependency graph (`createTestDepGraph`,
`findCycle`), of the test runner (`runTests`, `RunTests`) and of the
scheduling loop (`RunProjectTests`), together with the parts of
`tooldata/config.go` and `internal/test/test.go` they use.

Conventions of the embedding.

* A Go `map[string]T` is an association list with pairwise distinct keys
  (`GoMap`); `mapGet` is the lookup `m[k]` and `mapSet` the assignment
  `m[k] = v`.
* A map of pointers (`map[string]*testNode`, `map[string]*test.Result`) is a
  map of values: every pointer is stored under one key only, so a write
  through the pointer is an update of the entry.
* Everything outside the package (file system, xUnit helpers, the registered
  test functions) is a field of `Env`, acting on an abstract world `σ`.
* A run records a trace of `Event`s, so that statements about the moment a
  test function is invoked can be made.
-/

namespace Devtools

/-! ## Go maps -/

/-- A Go map with string keys: an association list. -/
abbrev GoMap (β : Type) := List (String × β)

/-- The lookup `m[k]`; `none` when the key is absent. -/
def mapGet {β : Type} : GoMap β → String → Option β
  | [], _ => none
  | (k', v) :: m, k => if k' = k then some v else mapGet m k

/-- The assignment `m[k] = v`: replaces the entry of `k` or adds one. -/
def mapSet {β : Type} : GoMap β → String → β → GoMap β
  | [], k, v => [(k, v)]
  | (k', v') :: m, k, v => if k' = k then (k, v) :: m else (k', v') :: mapSet m k v

/-- The keys of a map. -/
def mapKeys {β : Type} (m : GoMap β) : List String := m.map Prod.fst

/-! ## `internal/test/test.go` -/

/-- The type `test.Status`, with the constants declared by `iota`. -/
inductive Status
  | Pending
  | Skipped
  | Passed
  | Failed
  | MergeConflict
  | ToolsBuildFailure
  | TimedOut
  deriving DecidableEq, Repr

/-- The struct `test.Result`; durations are nanoseconds. -/
structure Result where
  Status : Status := Status.Pending
  TimeoutValue : Int := 0
  MergeConflictCL : String := ""
  ToolsBuildFailureMsg : String := ""
  ExcludedTests : GoMap (List String) := []
  SkippedTests : GoMap (List String) := []
  deriving DecidableEq, Repr

/-- The variable `test.DefaultTimeout`: ten minutes, in nanoseconds. -/
def DefaultTimeout : Int := 10 * 60 * 1000000000

/-! ## `tooldata/config.go` -/

/-- The fields of `tooldata.Config` read by the test scheduler. -/
structure Config where
  projectTests : GoMap (List String) := []
  testDependencies : GoMap (List String) := []
  testGroups : GoMap (List String) := []
  deriving DecidableEq, Repr

/-- The comparison `a < b` of Go strings, on the characters of both. -/
def lessChars : List Char → List Char → Bool
  | [], [] => false
  | [], _ :: _ => true
  | _ :: _, [] => false
  | a :: as, b :: bs =>
    if a.toNat < b.toNat then true
    else if b.toNat < a.toNat then false
    else lessChars as bs

/-- The order used by `sort.Strings`: `a` may stand before `b`. -/
def stringLE (a b : String) : Prop := lessChars b.data a.data = false

instance stringLE_decidable : DecidableRel stringLE := fun a b =>
  inferInstanceAs (Decidable (lessChars b.data a.data = false))

/-- The call `sort.Strings`. -/
def sortStrings (l : List String) : List String := List.insertionSort stringLE l

/-- The method `Config.TestDependencies`: `c.testDependencies[test]`. -/
def Config.TestDependencies (c : Config) (test : String) : List String :=
  (mapGet c.testDependencies test).getD []

/-- The members added to `testSet` for one entry of a project's test list:
the members of the group it names, or the entry itself. -/
def Config.expandTest (c : Config) (test : String) : List String :=
  match mapGet c.testGroups test with
  | some testGroup => testGroup
  | none => [test]

/-- The method `Config.ProjectTests`. The set `testSet` is the list of its
members without repetition; `set.String.ToSlice` followed by `sort.Strings`
is the sorted list of the members. -/
def Config.ProjectTests (c : Config) (projects : List String) : List String :=
  let testSet : List String :=
    (projects.flatMap fun project =>
      ((mapGet c.projectTests project).getD []).flatMap c.expandTest).dedup
  sortStrings testSet

/-! ## The dependency graph -/

/-- The struct `testNode`. -/
structure testNode where
  deps : List String
  visited : Bool := false
  stack : Bool := false
  deriving DecidableEq, Repr

/-- The type `testDepGraph`. -/
abbrev testDepGraph := GoMap testNode

/-- The loop `for _, dep := range node.deps` of `findCycle`, over the
remaining dependencies; `recurse` is the recursive call. `none` is a nil
dereference (`depGraph[dep]` absent) or an exhausted recursion budget. -/
def findCycleDeps (recurse : String → testDepGraph → Option (Bool × testDepGraph)) :
    List String → testDepGraph → Option (Bool × testDepGraph)
  | [], g => some (false, g)
  | dep :: rest, g =>
    match mapGet g dep with
    | none => none
    | some depNode =>
      if depNode.stack then some (true, g)
      else if depNode.visited then findCycleDeps recurse rest g
      else
        match recurse dep g with
        | none => none
        | some (true, g') => some (true, g')
        | some (false, g') => findCycleDeps recurse rest g'

/-- The function `findCycle`, with a bound on the depth of the recursion.
The result is the returned boolean and the graph with the marks left by
the search. -/
def findCycle : Nat → String → testDepGraph → Option (Bool × testDepGraph)
  | 0, _, _ => none
  | fuel + 1, name, g =>
    match mapGet g name with
    | none => none
    | some node =>
      let g1 := mapSet g name { node with visited := true, stack := true }
      match findCycleDeps (findCycle fuel) node.deps g1 with
      | none => none
      | some (true, g2) => some (true, g2)
      | some (false, g2) =>
        match mapGet g2 name with
        | none => none
        | some node2 => some (false, mapSet g2 name { node2 with stack := false })

/-- The loop `for _, test := range tests` that computes `isDepInTests`. -/
def isDepInTests (curDep : String) : List String → Bool
  | [] => false
  | test :: rest => if curDep = test then true else isDepInTests curDep rest

/-- The loop `for _, curDep := range config.TestDependencies(test)` of
`createTestDepGraph`, from the current value of `deps`. -/
def collectDeps (tests : List String) : List String → List String → List String
  | [], deps => deps
  | curDep :: rest, deps =>
    if isDepInTests curDep tests then collectDeps tests rest (deps ++ [curDep])
    else collectDeps tests rest deps

/-- The first loop of `createTestDepGraph`, over the remaining tests
`todo`, from the current value of `depGraph`. -/
def buildDepGraphFrom (config : Config) (tests : List String) :
    List String → testDepGraph → testDepGraph
  | [], depGraph => depGraph
  | test :: todo, depGraph =>
    buildDepGraphFrom config tests todo
      (mapSet depGraph test { deps := collectDeps tests (config.TestDependencies test) [] })

/-- The first loop of `createTestDepGraph`: the graph before the search
for a dependency loop. -/
def buildDepGraph (config : Config) (tests : List String) : testDepGraph :=
  buildDepGraphFrom config tests tests []

/-- A non-nil value of the Go type `error`. -/
inductive GoError
  /-- An error made by `fmt.Errorf`, with its message. -/
  | errorf (msg : String)
  /-- An error returned by code outside the package, with its message. -/
  | external (msg : String)
  /-- The struct `internalTestError` of `common.go`. -/
  | internalTestError (err : GoError) (name : String) (caller : String)
  deriving DecidableEq, Repr

/-- The method `Error()` of an error value. -/
def GoError.Error : GoError → String
  | .errorf msg => msg
  | .external msg => msg
  | .internalTestError err name caller => name ++ ": " ++ caller ++ "\n" ++ err.Error ++ "\n"

/-- The ways a call ends without a result. -/
inductive Failure
  /-- A non-nil `error` is returned. -/
  | error (e : GoError)
  /-- The error `fmt.Errorf("found dependency loop: %v", depGraph)`; the
  value keeps the graph, whose rendering prints pointers. -/
  | dependencyLoop (depGraph : testDepGraph)
  /-- A run-time panic: a nil pointer is dereferenced. -/
  | panic
  deriving DecidableEq, Repr

deriving instance DecidableEq for Except

/-- The loop `for name, info := range depGraph` of `createTestDepGraph`.
`order` is the order in which the range yields the keys (any order, in Go);
a name that is not a key is not yielded. -/
def detectLoop (fuel : Nat) : List String → testDepGraph → Option (Bool × testDepGraph)
  | [], g => some (false, g)
  | name :: rest, g =>
    match mapGet g name with
    | none => detectLoop fuel rest g
    | some info =>
      if info.visited then detectLoop fuel rest g
      else
        match findCycle fuel name g with
        | none => none
        | some (true, g') => some (true, g')
        | some (false, g') => detectLoop fuel rest g'

/-- The function `createTestDepGraph`. The recursion budget of `findCycle`
is the number of nodes, which the search never exhausts
(`createTestDepGraph_ne_panic`). -/
def createTestDepGraph (config : Config) (tests : List String) (order : List String) :
    Except Failure testDepGraph :=
  let depGraph := buildDepGraph config tests
  match detectLoop depGraph.length order depGraph with
  | none => .error .panic
  | some (true, g) => .error (.dependencyLoop g)
  | some (false, g) => .ok g

/-! ## The collaborators of the package -/

/-- The interface `Opt`: the two option types `runTests` reads, and the
other ones. -/
inductive Opt
  | OutputDirOpt (dir : String)
  | CleanGoOpt (clean : Bool)
  | other (name : String)
  deriving DecidableEq, Repr

/-- What a call `testFn(newX, t, opts...)` yields: the returned pair
`(*test.Result, error)` and the text captured in the buffer `out`. -/
structure TestFnReturn where
  result : Option Result
  err : Option GoError := none
  out : String := ""
  deriving DecidableEq, Repr

/-- The fields of `xunit.TestSuite` read by the package; `Cases` is
`len(suite.Cases)`. -/
structure TestSuite where
  Cases : Nat
  Failures : Int
  Errors : Int
  deriving DecidableEq, Repr

/-- The result map `map[string]*test.Result`; `none` is a nil pointer. -/
abbrev ResultMap := GoMap (Option Result)

/-- The type of the registered test functions, applied to the test name
and the options. -/
abbrev TestFn (σ : Type) := String → List Opt → σ → TestFnReturn × σ

/-- The code outside `run.go` that it calls, over a world `σ` (file system,
process state). Of the writes to standard output and standard error, those
that `run.go` itself makes into the buffer `out` of `runTests` are modelled;
the calls of the environment are taken to print nothing. -/
structure Env (σ : Type) where
  /-- The variable `testFunctions`. -/
  testFunctions : GoMap (TestFn σ)
  /-- The call `tooldata.LoadConfig(jirix)`. -/
  LoadConfig : σ → Except GoError Config
  /-- The assignment to the package variable `cleanGo`. -/
  setCleanGo : Bool → σ → σ
  /-- The call `os.Create(fileName)`; the file is named by its path. -/
  Create : String → σ → Option GoError × σ
  /-- The call `outputFile.Write(data)`. -/
  Write : String → String → σ → Option GoError × σ
  /-- The call `outputFile.Close()`. -/
  Close : String → σ → Option GoError × σ
  /-- The error of `jirix.NewSeq().Stat(path)`. -/
  Stat : String → σ → Option GoError
  /-- The predicate `runutil.IsNotExist`. -/
  IsNotExist : GoError → Bool
  /-- The predicate `runutil.IsTimeout`. -/
  IsTimeout : GoError → Bool
  /-- The call `WriteFile(path, data, 0644).Done()` of a sequence. -/
  WriteFile : String → String → σ → Option GoError × σ
  /-- The calls `ioutil.ReadFile(path)` and `ReadFile(path)` of a sequence. -/
  ReadFile : String → σ → Except GoError String
  /-- The call `RemoveAll(path)` of a sequence, whose error is dropped. -/
  RemoveAll : String → σ → σ
  /-- The call `xml.Unmarshal(bytes, &suites)`: the field `Suites`. -/
  Unmarshal : String → Except GoError (List TestSuite)
  /-- The function `xunit.ReportPath`. -/
  ReportPath : String → String
  /-- The function `xunit.CreateFailureReport`, after the context. -/
  CreateFailureReport : String → String → String → String → String → σ → Option GoError × σ
  /-- The call `json.Marshal(results)`. -/
  Marshal : ResultMap → Except GoError String
  /-- The rendering of a result map by the verb `%v`. -/
  Sprint : ResultMap → String
  /-- The function `filepath.Join` of two elements. -/
  Join : String → String → String
  /-- The function `filepath.Dir`. -/
  Dir : String → String
  /-- The method `String()` of `time.Duration`. -/
  formatDuration : Int → String

/-- What a run does, in order. -/
inductive Event
  /-- The test function of `t` is called; `results` is the result map at
  that moment and `ret` what the call yields. -/
  | invoke (t : String) (results : ResultMap) (ret : TestFnReturn)
  /-- The scheduling loop sets the status of `t` to `Skipped`. -/
  | markSkipped (t : String)
  /-- The call `writeTimedOutTestReport` for `t`, with its message. -/
  | timedOutReport (t : String) (errorMessage : String)
  /-- The text `data` is written to the aggregate output file. -/
  | outputWrite (fileName : String) (data : String)
  /-- The results file is written. -/
  | resultsWrite (fileName : String) (data : String)
  deriving DecidableEq, Repr

/-- The state a run acts on: the result map, the world, and the record of
what happened (events, iterations of the scheduling loop begun). -/
structure RunState (σ : Type) where
  results : ResultMap
  world : σ
  trace : List Event := []
  iterations : Nat := 0

/-- The constant `numLinesToOutput`. -/
def numLinesToOutput : Nat := 50

/-- The constant `dummyTestResult`. -/
def dummyTestResult : String :=
  "<?xml version=\"1.0\" encoding=\"utf-8\"?>\n<!--\n" ++
  "  This file will be used to generate a dummy test results file\n" ++
  "  in case the presubmit tests produce no test result files.\n-->\n" ++
  "<testsuites>\n" ++
  "  <testsuite name=\"NO_TESTS\" tests=\"1\" errors=\"0\" failures=\"0\" skip=\"0\">\n" ++
  "    <testcase classname=\"NO_TESTS\" name=\"NO_TESTS\" time=\"0\">\n" ++
  "    </testcase>\n  </testsuite>\n</testsuites>\n"

/-- The message of `writeTimedOutTestReport`. -/
def timedOutMessage {σ : Type} (env : Env σ) (result : Result) : String :=
  let timeoutValue := if result.TimeoutValue ≠ 0 then result.TimeoutValue else DefaultTimeout
  "The test timed out after " ++ env.formatDuration timeoutValue ++ "."

/-- The text that `fmt.Fprintf(stderr, "%v\n", err)` prints when `err` is
not nil; for nil the statement is not reached. -/
def errorLine (err : Option GoError) : String :=
  match err with
  | some e => e.Error ++ "\n"
  | none => ""

/-- The function `writeTimedOutTestReport`: what it prints to
`jirix.Stderr()`, which is the error of the report writer, and the world it
leaves. -/
def writeTimedOutTestReport {σ : Type} (env : Env σ) (testName : String) (result : Result)
    (w : σ) : String × σ :=
  let errorMessage := timedOutMessage env result
  let created := env.CreateFailureReport testName testName "Timeout" errorMessage errorMessage w
  (errorLine created.1, created.2)

/-- The function `checkTestReportFile`. -/
def checkTestReportFile {σ : Type} (env : Env σ) (testName : String) (w : σ) :
    Option GoError × σ :=
  if testName = "vanadium-presubmit-test" then (none, w)
  else
    let xUnitReportFile := env.ReportPath testName
    match env.Stat xUnitReportFile w with
    | some err =>
      if !env.IsNotExist err then (some err, w)
      else
        let dummyFile := env.Join (env.Dir xUnitReportFile) "tests_dummy.xml"
        match env.WriteFile dummyFile dummyTestResult w with
        | (some err, w1) =>
          (some (.errorf ("WriteFile(" ++ dummyFile ++ ") failed: " ++ err.Error)), w1)
        | (none, w1) => (none, w1)
    | none =>
      match env.ReadFile xUnitReportFile w with
      | .error err =>
        (some (.errorf ("ReadFile(" ++ xUnitReportFile ++ ") failed: " ++ err.Error)), w)
      | .ok bytes =>
        match env.Unmarshal bytes with
        | .error err =>
          env.CreateFailureReport testName testName "Invalid xUnit Report"
            "Invalid xUnit Report" err.Error (env.RemoveAll xUnitReportFile w)
        | .ok suites =>
          let numTestCases := (suites.map fun suite => suite.Cases).sum
          if numTestCases = 0 then
            env.CreateFailureReport testName testName "No Test Cases" "No Test Cases" ""
              (env.RemoveAll xUnitReportFile w)
          else (none, w)

/-- The call `strings.Split(output, "\n")`, on the characters. -/
def splitLines : List Char → List (List Char)
  | [] => [[]]
  | c :: cs =>
    match splitLines cs with
    | [] => [[]]
    | line :: lines => if c = Char.ofNat 10 then [] :: line :: lines else (c :: line) :: lines

/-- The index `startLine` of `generateXUnitReportForError`:
`int(math.Max(0, float64(len(lines)-numLinesToOutput)))`. -/
def startLine (lines : List (List Char)) : Nat := lines.length - numLinesToOutput

/-- The string `consoleOutput` of `generateXUnitReportForError`. -/
def consoleOutput (output : String) : String :=
  let lines := splitLines output.data
  "......\n" ++ "\n".intercalate ((lines.drop (startLine lines)).map String.mk)

/-- The flag `createXUnitFile` of `generateXUnitReportForError`, or the
error the function returns while computing it. -/
def createXUnitFile {σ : Type} (env : Env σ) (xUnitFilePath : String) (w : σ) :
    Except GoError Bool :=
  match env.Stat xUnitFilePath w with
  | some err => if env.IsNotExist err then .ok true else .error err
  | none =>
    match env.ReadFile xUnitFilePath w with
    | .error err => .error err
    | .ok bytes =>
      match env.Unmarshal bytes with
      | .error _ => .ok true
      | .ok existingSuites =>
        .ok (!existingSuites.any fun curSuite =>
          decide (curSuite.Failures > 0 ∨ curSuite.Errors > 0))

/-- The function `generateXUnitReportForError`. -/
def generateXUnitReportForError {σ : Type} (env : Env σ) (testName : String) (err : GoError)
    (output : String) (w : σ) : Except GoError Result × σ :=
  if testName = "vanadium-presubmit-test" then (.ok { Status := .Passed }, w)
  else
    match createXUnitFile env (env.ReportPath testName) w with
    | .error e => (.error e, w)
    | .ok false => (.ok { Status := .Failed }, w)
    | .ok true =>
      let (errType, err) : String × GoError :=
        match err with
        | .internalTestError inner name _ => (name, inner)
        | other => ("Internal Error", other)
      let errMsg := "Error message:\n" ++ errType ++ ":\n" ++ err.Error ++
        "\n\n\nConsole output:\n" ++ consoleOutput output ++ "\n"
      match env.CreateFailureReport testName testName errType errType errMsg w with
      | (some e, w1) => (.error e, w1)
      | (none, w1) =>
        if env.IsTimeout err then (.ok { Status := .TimedOut }, w1)
        else (.ok { Status := .Failed }, w1)

/-- The statement `if result != nil && result.Status == test.TimedOut` of
`runTests` and its call of `writeTimedOutTestReport`. -/
def reportTimedOut {σ : Type} (env : Env σ) (t : String) (ret : TestFnReturn)
    (s : RunState σ) : RunState σ :=
  match ret.result with
  | some result =>
    if result.Status = .TimedOut then
      { s with
        world := (writeTimedOutTestReport env t result s.world).2
        trace := s.trace ++ [.timedOutReport t (timedOutMessage env result)] }
    else s
  | none => s

/-- What the statement `if result != nil && result.Status == test.TimedOut`
of `runTests`, entered in the world `w`, prints into the buffer `out`: the
context `newX` given to `writeTimedOutTestReport` writes to the buffer. -/
def timedOutOutput {σ : Type} (env : Env σ) (t : String) (ret : TestFnReturn) (w : σ) :
    String :=
  match ret.result with
  | some result =>
    if result.Status = .TimedOut then (writeTimedOutTestReport env t result w).1 else ""
  | none => ""

/-- The statement `if err == nil { err = checkTestReportFile(newX, t) }` of
`runTests` after a test function has returned `ret`: the value of `err`
after it, and the world. -/
def checkedError {σ : Type} (env : Env σ) (t : String) (ret : TestFnReturn) (w : σ) :
    Option GoError × σ :=
  match ret.err with
  | none => checkTestReportFile env t w
  | some e => (some e, w)

/-- The two statements `if err == nil` and `if err != nil` of `runTests`
after a test function has returned `ret`: the value of `result` they leave,
or the error `runTests` returns. `out` is the content of the buffer `out`
before them; an error is printed into the buffer before the buffer is
handed to `generateXUnitReportForError`. -/
def settleResult {σ : Type} (env : Env σ) (t : String) (ret : TestFnReturn) (out : String)
    (w : σ) : Except GoError (Option Result) × σ :=
  let checked := checkedError env t ret w
  match checked.1 with
  | none => (.ok ret.result, checked.2)
  | some e =>
    match generateXUnitReportForError env t e (out ++ errorLine (some e)) checked.2 with
    | (.error e1, w1) => (.error e1, w1)
    | (.ok r, w1) => (.ok (some r), w1)

/-- The content of the buffer `out` after the two statements `if err == nil`
and `if err != nil` of `runTests`, which held `out` before them. -/
def settledOutput {σ : Type} (env : Env σ) (t : String) (ret : TestFnReturn) (out : String)
    (w : σ) : String :=
  out ++ errorLine (checkedError env t ret w).1

/-- The call `outputFile.Write(out.Bytes())` of `runTests`; without an
output directory the file is a `nopWriteCloser`. -/
def writeOutput {σ : Type} (env : Env σ) (outputFile : Option String) (out : String)
    (s : RunState σ) : Option GoError × RunState σ :=
  match outputFile with
  | none => (none, s)
  | some fileName =>
    match env.Write fileName out s.world with
    | (some e, w) => (some e, { s with world := w })
    | (none, w) => (none, { s with world := w, trace := s.trace ++ [.outputWrite fileName out] })

/-- The body of the loop `for _, t := range tests` of `runTests` that runs
the tests, for one test. `outputFile` is the aggregate output file, when
there is one. The last `match` is the dereference `results[t].Status`. -/
def runTest {σ : Type} (env : Env σ) (opts : List Opt) (outputFile : Option String)
    (t : String) (s : RunState σ) : Option Failure × RunState σ :=
  match mapGet env.testFunctions t with
  | none => (some .panic, s)
  | some testFn =>
    let call := testFn t opts s.world
    let s1 : RunState σ :=
      { s with world := call.2, trace := s.trace ++ [.invoke t s.results call.1] }
    let s2 := reportTimedOut env t call.1 s1
    let out := call.1.out ++ timedOutOutput env t call.1 s1.world
    let settled := settleResult env t call.1 out s2.world
    match settled.1 with
    | .error e1 => (some (.error e1), { s2 with world := settled.2 })
    | .ok result =>
      let written := writeOutput env outputFile (settledOutput env t call.1 out s2.world)
        { s2 with world := settled.2, results := mapSet s2.results t result }
      match written.1 with
      | some e => (some (.error e), written.2)
      | none =>
        match result with
        | none => (some .panic, written.2)
        | some _ => (none, written.2)

/-- The loop `for _, t := range tests` of `runTests` that runs the tests. -/
def runTestsLoop {σ : Type} (env : Env σ) (opts : List Opt) (outputFile : Option String) :
    List String → RunState σ → Option Failure × RunState σ
  | [], s => (none, s)
  | t :: rest, s =>
    match runTest env opts outputFile t s with
    | (some f, s1) => (some f, s1)
    | (none, s1) => runTestsLoop env opts outputFile rest s1

/-- The value of `outputDir` after the loop over the options. -/
def outputDirOf (opts : List Opt) : String :=
  opts.foldl (fun dir opt => match opt with | .OutputDirOpt d => d | _ => dir) ""

/-- The effect of the loop over the options on the variable `cleanGo`. -/
def applyCleanGo {σ : Type} (env : Env σ) (opts : List Opt) (w : σ) : σ :=
  opts.foldl (fun w opt => match opt with | .CleanGoOpt b => env.setCleanGo b w | _ => w) w

/-- The end of `runTests`: the results file, when an output directory is
given. -/
def writeResults {σ : Type} (env : Env σ) (outputDir : String) (s : RunState σ) :
    Option Failure × RunState σ :=
  if outputDir ≠ "" then
    match env.Marshal s.results with
    | .error err =>
      (some (.error (.errorf
        ("Marshal(" ++ env.Sprint s.results ++ ") failed: " ++ err.Error))), s)
    | .ok bytes =>
      let resultsFile := env.Join outputDir "results"
      match env.WriteFile resultsFile bytes s.world with
      | (some err, w) => (some (.error err), { s with world := w })
      | (none, w) =>
        (none, { s with world := w, trace := s.trace ++ [.resultsWrite resultsFile bytes] })
  else (none, s)

/-- The part of `runTests` after the output file is set up: validation of
the test names, the tests, the results file. -/
def runTestsBody {σ : Type} (env : Env σ) (opts : List Opt) (outputDir : String)
    (outputFile : Option String) (tests : List String) (s : RunState σ) :
    Option Failure × RunState σ :=
  match tests.find? fun t => (mapGet env.testFunctions t).isNone with
  | some t => (some (.error (.errorf ("test " ++ t ++ " does not exist"))), s)
  | none =>
    match runTestsLoop env opts outputFile tests s with
    | (some f, s1) => (some f, s1)
    | (none, s1) => writeResults env outputDir s1

/-- The call `collect.Error(fn, &e)` once `fn` has returned `closeErr`:
the error of `fn` is kept when `e` is nil. -/
def collectError (closeErr : Option GoError) (e : Option Failure) : Option Failure :=
  match e, closeErr with
  | none, some err => some (.error err)
  | e, _ => e

/-- The function `runTests`: the returned error (`none` is nil) and the
state it leaves. -/
def runTests {σ : Type} (env : Env σ) (tests : List String) (opts : List Opt)
    (s : RunState σ) : Option Failure × RunState σ :=
  let outputDir := outputDirOf opts
  let s0 : RunState σ := { s with world := applyCleanGo env opts s.world }
  if outputDir ≠ "" then
    let fileName := env.Join outputDir "output"
    match env.Create fileName s0.world with
    | (some err, w) =>
      (some (.error (.errorf ("Create(" ++ fileName ++ ") failed: " ++ err.Error))),
        { s0 with world := w })
    | (none, w) =>
      let body := runTestsBody env opts outputDir (some fileName) tests { s0 with world := w }
      let closed := env.Close fileName body.2.world
      (collectError closed.1 body.1, { body.2 with world := closed.2 })
  else runTestsBody env opts outputDir none tests s0

/-! ## The scheduling loop -/

/-- What the loop `for _, dep := range node.deps` of `RunProjectTests`
decides for a pending test. -/
inductive DepsVerdict
  /-- A dependency is `Skipped`, `Failed` or `TimedOut`: `continue run`
  after the test is marked `Skipped`. -/
  | skip
  /-- The loop ends with this value of `ready`. -/
  | ready (ready : Bool)
  /-- The entry `results[dep]` is nil. -/
  | panic
  deriving DecidableEq, Repr

/-- The loop `for _, dep := range node.deps` of `RunProjectTests`, from the
current value of `ready`. The `break` of the case `Pending` leaves the
`switch` only, so the loop goes on with the next dependency. -/
def checkDeps (results : ResultMap) : List String → Bool → DepsVerdict
  | [], ready => .ready ready
  | dep :: rest, ready =>
    match mapGet results dep with
    | some (some depResult) =>
      match depResult.Status with
      | .Skipped | .Failed | .TimedOut => .skip
      | .Pending => checkDeps results rest false
      | _ => checkDeps results rest ready
    | _ => .panic

/-- How one pass of the loop `for _, t := range tests` ends. -/
inductive ScanResult (σ : Type)
  /-- A test was marked `Skipped` or run: `continue run`. -/
  | continueRun (s : RunState σ)
  /-- The function returns `nil, err`, or panics. -/
  | fail (f : Failure) (s : RunState σ)
  /-- No test could be marked or run. -/
  | exhausted (s : RunState σ)

/-- The loop `for _, t := range tests` of `RunProjectTests`, over the
remaining tests. -/
def scanTests {σ : Type} (env : Env σ) (opts : List Opt) (graph : testDepGraph) :
    List String → RunState σ → ScanResult σ
  | [], s => .exhausted s
  | t :: rest, s =>
    match mapGet s.results t with
    | some (some result) =>
      if result.Status ≠ .Pending then scanTests env opts graph rest s
      else
        match mapGet graph t with
        | none => .fail .panic s
        | some node =>
          match checkDeps s.results node.deps true with
          | .skip =>
            .continueRun { s with
              results := mapSet s.results t (some { result with Status := .Skipped })
              trace := s.trace ++ [.markSkipped t] }
          | .panic => .fail .panic s
          | .ready false => scanTests env opts graph rest s
          | .ready true =>
            match runTests env [t] opts s with
            | (some f, s1) => .fail f s1
            | (none, s1) => .continueRun s1
    | _ => .fail .panic s

/-- The loop `for i := 0; i < len(graph); i++` of `RunProjectTests`, with
`n` iterations left: the returned error and the final state. -/
def runLoop {σ : Type} (env : Env σ) (opts : List Opt) (graph : testDepGraph)
    (tests : List String) : Nat → RunState σ → Option Failure × RunState σ
  | 0, s => (none, s)
  | n + 1, s =>
    match scanTests env opts graph tests { s with iterations := s.iterations + 1 } with
    | .continueRun s1 => runLoop env opts graph tests n s1
    | .fail f s1 => (some f, s1)
    | .exhausted s1 => (some (.error (.errorf "erroneous test running logic")), s1)

/-- The map `results` with `results[t] = &test.Result{}` for every test. -/
def initResults (tests : List String) : ResultMap :=
  tests.foldl (fun results t => mapSet results t (some {})) []

/-- What a call of `RunProjectTests` or `RunTests` returns and leaves:
`ret` is the returned pair (`.ok none` for `nil, nil`), the rest is the
final state. -/
structure Run (σ : Type) where
  ret : Except Failure (Option ResultMap)
  world : σ
  trace : List Event
  iterations : Nat

/-- The function `RunProjectTests`. `order` is the order in which the map
of the dependency graph is ranged over in `createTestDepGraph`; the
environment variables of `newTestContext` belong to the world. -/
def RunProjectTests {σ : Type} (env : Env σ) (projects : List String) (opts : List Opt)
    (order : List String) (w : σ) : Run σ :=
  match env.LoadConfig w with
  | .error err => { ret := .error (.error err), world := w, trace := [], iterations := 0 }
  | .ok config =>
    let tests := config.ProjectTests projects
    if tests.length = 0 then { ret := .ok none, world := w, trace := [], iterations := 0 }
    else
      let tests := sortStrings tests
      match createTestDepGraph config tests order with
      | .error f => { ret := .error f, world := w, trace := [], iterations := 0 }
      | .ok graph =>
        match runLoop env opts graph tests graph.length
            { results := initResults tests, world := w } with
        | (some f, s) =>
          { ret := .error f, world := s.world, trace := s.trace, iterations := s.iterations }
        | (none, s) =>
          { ret := .ok (some s.results), world := s.world, trace := s.trace,
            iterations := s.iterations }

/-- The function `RunTests`. -/
def RunTests {σ : Type} (env : Env σ) (tests : List String) (opts : List Opt) (w : σ) :
    Run σ :=
  match runTests env tests opts { results := initResults tests, world := w } with
  | (some f, s) =>
    { ret := .error f, world := s.world, trace := s.trace, iterations := s.iterations }
  | (none, s) =>
    { ret := .ok (some s.results), world := s.world, trace := s.trace,
      iterations := s.iterations }

/-! ## Notions used in the statements -/

/-- The mark `visited` of the node of `n`; false when there is none. -/
def isVisited (g : testDepGraph) (n : String) : Bool :=
  match mapGet g n with
  | some node => node.visited
  | none => false

/-- The mark `stack` of the node of `n`; false when there is none. -/
def onStack (g : testDepGraph) (n : String) : Bool :=
  match mapGet g n with
  | some node => node.stack
  | none => false

/-- The field `deps` of the node of `n`, when there is one. -/
def nodeDeps (g : testDepGraph) (n : String) : Option (List String) :=
  (mapGet g n).map testNode.deps

/-- The number of nodes not yet visited. -/
def unvisited (g : testDepGraph) : Nat :=
  (g.filter fun p => !p.2.visited).length

/-- The edge `d → n` of a graph: `d` is among the dependencies of `n`. -/
def Edge (g : testDepGraph) (d n : String) : Prop :=
  ∃ node, mapGet g n = some node ∧ d ∈ node.deps

/-- Every dependency of a node has a node of its own. -/
def Closed (g : testDepGraph) : Prop :=
  ∀ n node, mapGet g n = some node → ∀ d ∈ node.deps, ∃ depNode, mapGet g d = some depNode

/-- The search went from `g` to `g1` and came back: same nodes and
dependencies, same stack, nothing unvisited that was visited. -/
structure Grows (g g1 : testDepGraph) : Prop where
  keys : mapKeys g1 = mapKeys g
  deps : ∀ n, nodeDeps g1 n = nodeDeps g n
  stack : ∀ n, onStack g1 n = onStack g n
  visited : ∀ n, isVisited g n = true → isVisited g1 n = true
  count : unvisited g1 ≤ unvisited g

/-- The node of `n` is visited and off the stack. -/
def Black (g : testDepGraph) (n : String) : Prop :=
  isVisited g n = true ∧ onStack g n = false

/-- The test `a` of the target list depends on the test `b` of the target
list, according to the config. -/
def dependsOn (config : Config) (tests : List String) (a b : String) : Prop :=
  a ∈ tests ∧ b ∈ tests ∧ b ∈ config.TestDependencies a

/-- The dependency relation restricted to the target tests has a cycle: a
test reaches itself in one or more steps. -/
def HasCycle (config : Config) (tests : List String) : Prop :=
  ∃ t, Relation.TransGen (dependsOn config tests) t t

/-- The relation `E` is the edge relation of the graph `g`. -/
def EdgeIs (E : String → String → Prop) (g : testDepGraph) : Prop :=
  ∀ d n, E d n ↔ Edge g d n

/-- Every node that is visited and off the stack is accessible for `E`:
no infinite chain of dependencies starts from it. -/
def BlackAcc (E : String → String → Prop) (g : testDepGraph) : Prop :=
  ∀ n, Black g n → Acc E n

/-- What a search `f` that reports no cycle from `name` guarantees. -/
def SearchSpec (E : String → String → Prop)
    (f : String → testDepGraph → Option (Bool × testDepGraph)) : Prop :=
  ∀ name g g1, f name g = some (false, g1) → onStack g name = false →
    Grows g g1 ∧ isVisited g1 name = true ∧ (EdgeIs E g → BlackAcc E g → BlackAcc E g1)

/-- What a search `f` that reports a cycle from `name` guarantees, when
every node on the stack is reached from `name` along the edges. -/
def CycleSpec (E : String → String → Prop)
    (f : String → testDepGraph → Option (Bool × testDepGraph)) : Prop :=
  ∀ name g g1, f name g = some (true, g1) → EdgeIs E g →
    (∀ n, onStack g n = true → Relation.ReflTransGen E name n) →
    ∃ t, Relation.TransGen E t t

/-! ## Notions for runs -/

/-- The status of `t` in a result map; `none` when the entry is nil or
absent. -/
def statusOf (results : ResultMap) (t : String) : Option Status :=
  match mapGet results t with
  | some (some r) => some r.Status
  | _ => none

/-- The invocations of test functions recorded in a trace, in order: the
test, the result map at the call, what the call yields. -/
def invocations (trace : List Event) : List (String × ResultMap × TestFnReturn) :=
  trace.filterMap fun e =>
    match e with
    | .invoke t results ret => some (t, results, ret)
    | _ => none

/-- The tests the scheduling loop marked `Skipped`, in order. -/
def skips (trace : List Event) : List String :=
  trace.filterMap fun e =>
    match e with
    | .markSkipped t => some t
    | _ => none

/-- The tests whose function is invoked in a trace, in order. -/
def invoked (trace : List Event) : List String :=
  (invocations trace).map Prod.fst

/-- The map `r2` keeps every status of `r1` other than `Pending`. -/
def Extends (r1 r2 : ResultMap) : Prop :=
  ∀ n st, statusOf r1 n = some st → st ≠ .Pending → statusOf r2 n = some st

/-- The statuses of a dependency with which the scheduling loop lets the
dependent test run: the ones its `switch` has no case for. -/
def Status.letsRun : Status → Bool
  | .Passed | .MergeConflict | .ToolsBuildFailure => true
  | _ => false

/-- The statuses of a dependency for which the scheduling loop marks the
dependent test `Skipped`. -/
def Status.blocks : Status → Bool
  | .Skipped | .Failed | .TimedOut => true
  | _ => false

/-- The entry of a result map is a result with status `Pending`. -/
def isPending (entry : Option Result) : Bool :=
  match entry with
  | some r => decide (r.Status = .Pending)
  | none => false

/-- The number of entries of a result map with status `Pending`. -/
def pendingCount (results : ResultMap) : Nat :=
  (results.filter fun p => isPending p.2).length

/-- Every result returned by an invoked test function has a status other
than `Pending`. -/
def ReturnsSettled (trace : List Event) : Prop :=
  ∀ t snap ret, (t, snap, ret) ∈ invocations trace →
    ∀ r, ret.result = some r → r.Status ≠ .Pending

/-- From `s` to `s1` no test function is invoked, no test is marked and the
result map is not written. -/
structure SameMarks {σ : Type} (s s1 : RunState σ) : Prop where
  invocations : invocations s1.trace = invocations s.trace
  skips : skips s1.trace = skips s.trace
  iterations : s1.iterations = s.iterations
  results : s1.results = s.results

/-- The statuses `generateXUnitReportForError` gives. -/
def Status.fromError : Status → Prop
  | .Passed | .Failed | .TimedOut => True
  | _ => False

/-- From `s` to `s1` the function of `t` is invoked once, yielding `ret`,
and nothing else is invoked or marked. -/
structure Invoked {σ : Type} (t : String) (ret : TestFnReturn) (s s1 : RunState σ) :
    Prop where
  invocations : invocations s1.trace = invocations s.trace ++ [(t, s.results, ret)]
  skips : skips s1.trace = skips s.trace
  iterations : s1.iterations = s.iterations

/-- The result `res` recorded for a test whose function yields `ret`: the
returned result when no error occurs, a result made from the error else. -/
def Settles (ret : TestFnReturn) (res : Result) : Prop :=
  (ret.err = none ∧ ret.result = some res) ∨ res.Status.fromError

/-- The scan passes over the test `t`: it is settled, or it is pending
with a pending dependency and none that blocks it. -/
def Waits (graph : testDepGraph) (results : ResultMap) (t : String) : Prop :=
  ∃ st, statusOf results t = some st ∧
    (st ≠ .Pending ∨
      ∃ node, mapGet graph t = some node ∧ checkDeps results node.deps true = .ready false)

/-- The state after the scheduling loop marks `t` as `Skipped`. -/
def markSkipped {σ : Type} (s : RunState σ) (t : String) (result : Result) : RunState σ :=
  { s with
    results := mapSet s.results t (some { result with Status := .Skipped })
    trace := s.trace ++ [.markSkipped t] }

/-- The scan acts on the pending test `t` in the state `s`, with the
outcome `out`: it marks `t` as `Skipped`, or hands it to `runTests`. -/
inductive Acts {σ : Type} (env : Env σ) (opts : List Opt) (graph : testDepGraph)
    (s : RunState σ) (t : String) : ScanResult σ → Prop
  | skip (result : Result) (node : testNode) :
      mapGet s.results t = some (some result) → result.Status = .Pending →
      mapGet graph t = some node → checkDeps s.results node.deps true = .skip →
      Acts env opts graph s t (.continueRun (markSkipped s t result))
  | ran (node : testNode) (s1 : RunState σ) :
      statusOf s.results t = some .Pending →
      mapGet graph t = some node → checkDeps s.results node.deps true = .ready true →
      runTests env [t] opts s = (none, s1) →
      Acts env opts graph s t (.continueRun s1)
  | failed (node : testNode) (f : Failure) (s1 : RunState σ) :
      statusOf s.results t = some .Pending →
      mapGet graph t = some node → checkDeps s.results node.deps true = .ready true →
      runTests env [t] opts s = (some f, s1) →
      Acts env opts graph s t (.fail f s1)

/-- The scan panics at the test `t`: its result is nil, or it is pending
and its node or the result of one of its dependencies is nil. -/
def PanicAt (graph : testDepGraph) (results : ResultMap) (t : String) : Prop :=
  statusOf results t = none ∨
    (statusOf results t = some .Pending ∧
      (mapGet graph t = none ∨
        ∃ node, mapGet graph t = some node ∧ checkDeps results node.deps true = .panic))

/-- What holds of the invocations `inv` and the marks `sk` recorded by the
scheduling loop, whatever the test functions do: a test is pending when its
function is invoked; its dependencies then have a status that lets it run;
a later invocation sees every settled status of an earlier one; a test
marked `Skipped` is not invoked. -/
structure TraceOK (graph : testDepGraph) (inv : List (String × ResultMap × TestFnReturn))
    (sk : List String) : Prop where
  pending : ∀ t snap ret, (t, snap, ret) ∈ inv → statusOf snap t = some .Pending
  deps : ∀ t snap ret, (t, snap, ret) ∈ inv → ∃ node, mapGet graph t = some node ∧
    ∀ d ∈ node.deps, ∃ st, statusOf snap d = some st ∧ st.letsRun = true
  order : inv.Pairwise fun a b => Extends a.2.1 b.2.1
  apart : ∀ t ∈ sk, t ∉ inv.map Prod.fst

/-- What holds of the invocations, the marks and the result map between two
iterations of the scheduling loop. -/
structure Sched (graph : testDepGraph) (inv : List (String × ResultMap × TestFnReturn))
    (sk : List String) (results : ResultMap) : Prop where
  traceOK : TraceOK graph inv sk
  ext : ∀ t snap ret, (t, snap, ret) ∈ inv → Extends snap results
  skipped : ∀ t ∈ sk, statusOf results t = some .Skipped
  settled : ∀ t st, statusOf results t = some st → st ≠ .Pending →
    t ∈ inv.map Prod.fst ∨ t ∈ sk

/-- What holds in addition when the results returned by the invoked test
functions are settled: an invoked test has a status other than `Pending`,
and no test is invoked twice. -/
structure Done (inv : List (String × ResultMap × TestFnReturn)) (results : ResultMap) :
    Prop where
  done : ∀ t ∈ inv.map Prod.fst, ∃ st, statusOf results t = some st ∧ st ≠ .Pending
  nodup : (inv.map Prod.fst).Nodup

/-- Every test with a result in `r1` has one in `r2`. -/
def Keeps (r1 r2 : ResultMap) : Prop :=
  ∀ n, statusOf r1 n ≠ none → statusOf r2 n ≠ none

/-- The check of `ReturnsSettled` on the invocations of a trace. -/
def returnsSettled (trace : List Event) : Bool :=
  (invocations trace).all fun x =>
    match x.2.2.result with
    | some r => decide (r.Status ≠ .Pending)
    | none => true

/-- No operation on the aggregate output file and on the results file
fails. -/
structure OutputOK {σ : Type} (env : Env σ) : Prop where
  create : ∀ path w, (env.Create path w).1 = none
  write : ∀ path data w, (env.Write path data w).1 = none
  close : ∀ path w, (env.Close path w).1 = none
  marshal : ∀ results, ∃ bytes, env.Marshal results = .ok bytes
  writeFile : ∀ path data w, (env.WriteFile path data w).1 = none

/-- Nothing makes `runTests` fail on the tests `tests` with the options
`opts`: each test has a registered function, which returns without error a
result whose status is not `Pending`; the check of the report file returns
no error; and, when an output directory is given, no operation on the
output files fails. -/
structure Reliable {σ : Type} (env : Env σ) (opts : List Opt) (tests : List String) :
    Prop where
  registered : ∀ t ∈ tests, ∃ f, mapGet env.testFunctions t = some f
  returns : ∀ t f w, mapGet env.testFunctions t = some f →
    (f t opts w).1.err = none ∧ ∃ r, (f t opts w).1.result = some r ∧ r.Status ≠ .Pending
  check : ∀ t w, (checkTestReportFile env t w).1 = none
  output : outputDirOf opts = "" ∨ OutputOK env

/-- The keys of a returned result map; a nil map has none. -/
def returnedKeys (ret : Option ResultMap) : List String := mapKeys (ret.getD [])

/-- The statuses other than `Pending` and `Skipped`. -/
def Status.afterRun : Status → Prop
  | .Passed | .Failed | .TimedOut | .MergeConflict | .ToolsBuildFailure => True
  | _ => False

/-- The test `t` has a result whose status is one of `afterRun`. -/
def RanStatus (results : ResultMap) (t : String) : Prop :=
  ∃ st, statusOf results t = some st ∧ st.afterRun

/-! ## Concrete configurations and environments -/

/-- A test function that returns a result with the given status, no error
and no output. -/
def returning (status : Status) : TestFn Unit :=
  fun _ _ w => ({ result := some { Status := status } }, w)

/-- An environment over the trivial world in which the config is `config`,
the registered functions are `fns`, no operation fails and every report
file holds one test case. -/
def quietEnv (fns : GoMap (TestFn Unit)) (config : Config) : Env Unit where
  testFunctions := fns
  LoadConfig := fun _ => .ok config
  setCleanGo := fun _ w => w
  Create := fun _ w => (none, w)
  Write := fun _ _ w => (none, w)
  Close := fun _ w => (none, w)
  Stat := fun _ _ => none
  IsNotExist := fun _ => false
  IsTimeout := fun _ => false
  WriteFile := fun _ _ w => (none, w)
  ReadFile := fun _ _ => .ok ""
  RemoveAll := fun _ w => w
  Unmarshal := fun _ => .ok [{ Cases := 1, Failures := 0, Errors := 0 }]
  ReportPath := fun t => t
  CreateFailureReport := fun _ _ _ _ _ w => (none, w)
  Marshal := fun _ => .ok ""
  Sprint := fun _ => ""
  Join := fun a b => a ++ "/" ++ b
  Dir := fun a => a
  formatDuration := fun _ => ""

/-- Project `p` has the tests `A` and `B`, which depend on each other. -/
def loopConfig : Config :=
  { projectTests := [("p", ["A", "B"])]
    testDependencies := [("A", ["B"]), ("B", ["A"])] }

/-- Project `p` has the tests `A` and `B`; `B` depends on `A`. -/
def chainConfig : Config :=
  { projectTests := [("p", ["A", "B"])]
    testDependencies := [("B", ["A"])] }

/-- Project `p` has the tests `A`, `B` and `C`; `B` and `C` depend on `A`,
and `C` also on a test `X` that the project does not have. -/
def fanConfig : Config :=
  { projectTests := [("p", ["B", "A", "C"])]
    testDependencies := [("B", ["A"]), ("C", ["X", "A"])] }

/-- The environment `quietEnv` in which every `Stat` of a report file fails
with an error that is not a not-exist error. -/
def statFailEnv (fns : GoMap (TestFn Unit)) (config : Config) : Env Unit :=
  { quietEnv fns config with Stat := fun _ _ => some (.external "permission denied") }

/-- The environment `quietEnv` in which the aggregate output file cannot be
created. -/
def createFailEnv (fns : GoMap (TestFn Unit)) (config : Config) : Env Unit :=
  { quietEnv fns config with
    Create := fun _ w => (some (.external "no space left on device"), w) }

/-- Project `p` has the tests `A` and `B`, without dependencies. -/
def pairConfig : Config :=
  { projectTests := [("p", ["A", "B"])] }

/-! ## `Config.GroupTests` and the order of strings -/

/-- The method `Config.GroupTests`. The set `testSet` is the list of its
members without repetition; a group that is no key of `c.testGroups` adds
nothing. -/
def Config.GroupTests (c : Config) (groups : List String) : List String :=
  let testSet : List String :=
    (groups.flatMap fun group =>
      match mapGet c.testGroups group with
      | some testGroup => testGroup
      | none => []).dedup
  sortStrings testSet

/-- The order `a < b` of Go strings. -/
def stringLess (a b : String) : Prop := lessChars a.data b.data = true

instance stringLess_decidable : DecidableRel stringLess := fun a b =>
  inferInstanceAs (Decidable (lessChars a.data b.data = true))

/-! ## `lib/util/project.go` -/

/-- The type `Project`. -/
structure Project where
  Name : String
  Path : String
  Protocol : String := ""
  deriving DecidableEq, Repr

/-- The type `Projects`: projects by name. -/
abbrev Projects := GoMap Project

/-- The type `operationType`, with its constants in the order of their
declaration. -/
inductive operationType
  | deleteOperation
  | moveOperation
  | createOperation
  | updateOperation
  deriving DecidableEq, Repr

/-- The integer of an operation type, given by `iota`. -/
def operationType.toInt : operationType → Int
  | .deleteOperation => 0
  | .moveOperation => 1
  | .createOperation => 2
  | .updateOperation => 3

/-- The type `operation`. -/
structure operation where
  project : Project
  destination : String
  source : String
  ty : operationType
  deriving DecidableEq, Repr

/-- The method `operations.Less`, of the two elements compared. -/
def operations.Less (a b : operation) : Bool :=
  if a.ty ≠ b.ty then decide (a.ty.toInt < b.ty.toInt)
  else lessChars a.project.Name.data b.project.Name.data

/-- The order that `sort.Sort` establishes: `b` is not less than `a`. -/
def operationsLE (a b : operation) : Prop := operations.Less b a = false

instance operationsLE_decidable : DecidableRel operationsLE := fun a b =>
  inferInstanceAs (Decidable (operations.Less b a = false))

/-- The call `sort.Sort(result)`. Elements of which neither is less than
the other are kept in their order, which `sort.Sort` does not promise. -/
def sortOperations (ops : List operation) : List operation :=
  List.insertionSort operationsLE ops

/-- The body of the loop `for name, _ := range allProjects` of
`computeOperations`: the operation appended to `result`, if any, or the
error returned. -/
def operationFor (localProjects remoteProjects : Projects) (gc : Bool) (name : String) :
    Except GoError (Option operation) :=
  match mapGet localProjects name with
  | some localProject =>
    match mapGet remoteProjects name with
    | some remoteProject =>
      if localProject.Path = remoteProject.Path then
        .ok (some ⟨localProject, remoteProject.Path, localProject.Path, .updateOperation⟩)
      else
        .ok (some ⟨localProject, remoteProject.Path, localProject.Path, .moveOperation⟩)
    | none =>
      if gc then .ok (some ⟨localProject, "", localProject.Path, .deleteOperation⟩)
      else .ok none
  | none =>
    match mapGet remoteProjects name with
    | some remoteProject =>
      .ok (some ⟨remoteProject, remoteProject.Path, "", .createOperation⟩)
    | none => .error (.errorf ("project " ++ name ++ " does not exist"))

/-- The set `allProjects` of `computeOperations`. -/
def allProjects (localProjects remoteProjects : Projects) : GoMap Unit :=
  (mapKeys remoteProjects).foldl (fun m name => mapSet m name ())
    ((mapKeys localProjects).foldl (fun m name => mapSet m name ()) [])

/-- The loop `for name, _ := range allProjects` of `computeOperations`, over
the names in the order in which the map yields them; a name that is no key
of the map is not yielded. -/
def operationsLoop (localProjects remoteProjects : Projects) (gc : Bool) (all : GoMap Unit) :
    List String → List operation → Except GoError (List operation)
  | [], result => .ok result
  | name :: rest, result =>
    match mapGet all name with
    | none => operationsLoop localProjects remoteProjects gc all rest result
    | some _ =>
      match operationFor localProjects remoteProjects gc name with
      | .error err => .error err
      | .ok (some op) =>
        operationsLoop localProjects remoteProjects gc all rest (result ++ [op])
      | .ok none => operationsLoop localProjects remoteProjects gc all rest result

/-- The function `computeOperations`. `order` is the order in which the map
`allProjects` is ranged over. -/
def computeOperations (localProjects remoteProjects : Projects) (gc : Bool)
    (order : List String) : Except GoError (List operation) :=
  match operationsLoop localProjects remoteProjects gc
      (allProjects localProjects remoteProjects) order [] with
  | .error err => .error err
  | .ok result => .ok (sortOperations result)

/-- What is said of the operation, if any, of the project `name`: an update
when both maps have the name with equal paths, a move from the local to the
remote path when the paths differ, a delete for a local project when `gc`
is set, a create at the remote path for a remote project, and none
otherwise. -/
def OperationOf (localProjects remoteProjects : Projects) (gc : Bool) (name : String)
    (op : Option operation) : Prop :=
  match mapGet localProjects name, mapGet remoteProjects name with
  | some localProject, some remoteProject =>
    if localProject.Path = remoteProject.Path then
      op.map (fun o => o.ty) = some .updateOperation
    else
      op.map (fun o => (o.ty, o.source, o.destination)) =
        some (.moveOperation, localProject.Path, remoteProject.Path)
  | some _, none =>
    if gc then op.map (fun o => o.ty) = some .deleteOperation else op = none
  | none, some remoteProject =>
    op.map (fun o => (o.ty, o.destination)) = some (.createOperation, remoteProject.Path)
  | none, none => op = none

/-- The project names of the two maps, each once. -/
def projectNames (localProjects remoteProjects : Projects) : List String :=
  (mapKeys localProjects ++ mapKeys remoteProjects).dedup

/-- The operation appended for a name, `none` also where the loop body
returns an error. -/
def appended (localProjects remoteProjects : Projects) (gc : Bool) (name : String) :
    Option operation :=
  match operationFor localProjects remoteProjects gc name with
  | .ok op => op
  | .error _ => none

/-- The local map of an example: `a` stays, `b` moves, `c` is gone from the
remote map, which has the new project `d`. -/
def localExample : Projects :=
  [("a", { Name := "a", Path := "/a" }), ("b", { Name := "b", Path := "/b" }),
   ("c", { Name := "c", Path := "/c" })]

/-- The remote map of the example. -/
def remoteExample : Projects :=
  [("a", { Name := "a", Path := "/a" }), ("b", { Name := "b", Path := "/b2" }),
   ("d", { Name := "d", Path := "/d" })]

/-- The operations of the example, in the order of their types. -/
def exampleOperations : List operation :=
  [⟨{ Name := "c", Path := "/c" }, "", "/c", .deleteOperation⟩,
   ⟨{ Name := "b", Path := "/b" }, "/b2", "/b", .moveOperation⟩,
   ⟨{ Name := "d", Path := "/d" }, "/d", "", .createOperation⟩,
   ⟨{ Name := "a", Path := "/a" }, "/a", "/a", .updateOperation⟩]

/-! ## Notions for the progress of the scheduling loop -/

/-- The result map has a result for every target test and no other key. -/
structure Whole (tests : List String) (results : ResultMap) : Prop where
  has : ∀ t ∈ tests, ∃ st, statusOf results t = some st
  nodup : (mapKeys results).Nodup
  sub : ∀ t ∈ mapKeys results, t ∈ tests

/-- The state in which an iteration of the scheduling loop scans the
tests. -/
def RunState.begin {σ : Type} (s : RunState σ) : RunState σ :=
  { s with iterations := s.iterations + 1 }

/-! ## Notions for the comparison of two runs -/

/-- The environment answers alike in two worlds that `R` relates, and
leaves them related: what a test function returns and prints, and the
answer of every operation on files, are the same in both. -/
structure Alike {σ : Type} (env : Env σ) (opts : List Opt) (R : σ → σ → Prop) : Prop where
  fns : ∀ t f w1 w2, mapGet env.testFunctions t = some f → R w1 w2 →
    (f t opts w1).1 = (f t opts w2).1 ∧ R (f t opts w1).2 (f t opts w2).2
  setCleanGo : ∀ b w1 w2, R w1 w2 → R (env.setCleanGo b w1) (env.setCleanGo b w2)
  create : ∀ path w1 w2, R w1 w2 →
    (env.Create path w1).1 = (env.Create path w2).1 ∧
      R (env.Create path w1).2 (env.Create path w2).2
  write : ∀ path data w1 w2, R w1 w2 →
    (env.Write path data w1).1 = (env.Write path data w2).1 ∧
      R (env.Write path data w1).2 (env.Write path data w2).2
  close : ∀ path w1 w2, R w1 w2 →
    (env.Close path w1).1 = (env.Close path w2).1 ∧
      R (env.Close path w1).2 (env.Close path w2).2
  stat : ∀ path w1 w2, R w1 w2 → env.Stat path w1 = env.Stat path w2
  writeFile : ∀ path data w1 w2, R w1 w2 →
    (env.WriteFile path data w1).1 = (env.WriteFile path data w2).1 ∧
      R (env.WriteFile path data w1).2 (env.WriteFile path data w2).2
  readFile : ∀ path w1 w2, R w1 w2 → env.ReadFile path w1 = env.ReadFile path w2
  removeAll : ∀ path w1 w2, R w1 w2 → R (env.RemoveAll path w1) (env.RemoveAll path w2)
  createFailureReport : ∀ a b c d m w1 w2, R w1 w2 →
    (env.CreateFailureReport a b c d m w1).1 = (env.CreateFailureReport a b c d m w2).1 ∧
      R (env.CreateFailureReport a b c d m w1).2 (env.CreateFailureReport a b c d m w2).2

/-- A test function that returns `Passed` in every world. -/
def passing : TestFn Bool :=
  fun _ _ w => ({ result := some { Status := .Passed } }, w)

/-- An environment over worlds that tell whether the disk is full: a file
is created only when it is not, and nothing else fails. -/
def spaceEnv (fns : GoMap (TestFn Bool)) (config : Config) : Env Bool where
  testFunctions := fns
  LoadConfig := fun _ => .ok config
  setCleanGo := fun _ w => w
  Create := fun _ full =>
    (if full then some (.external "no space left on device") else none, full)
  Write := fun _ _ w => (none, w)
  Close := fun _ w => (none, w)
  Stat := fun _ _ => none
  IsNotExist := fun _ => false
  IsTimeout := fun _ => false
  WriteFile := fun _ _ w => (none, w)
  ReadFile := fun _ _ => .ok ""
  RemoveAll := fun _ w => w
  Unmarshal := fun _ => .ok [{ Cases := 1, Failures := 0, Errors := 0 }]
  ReportPath := fun t => t
  CreateFailureReport := fun _ _ _ _ _ w => (none, w)
  Marshal := fun _ => .ok ""
  Sprint := fun _ => ""
  Join := fun a b => a ++ "/" ++ b
  Dir := fun a => a
  formatDuration := fun _ => ""

/-- Two states of two runs agree: the same result map, the same tests
invoked and marked so far, worlds that `R` relates. -/
structure Agree {σ : Type} (R : σ → σ → Prop) (s1 s2 : RunState σ) : Prop where
  results : s1.results = s2.results
  invoked : invoked s1.trace = invoked s2.trace
  skips : skips s1.trace = skips s2.trace
  world : R s1.world s2.world

/-- Two passes of the scheduling loop end alike. -/
def AgreeScan {σ : Type} (R : σ → σ → Prop) : ScanResult σ → ScanResult σ → Prop
  | .continueRun s1, .continueRun s2 => Agree R s1 s2
  | .fail f1 s1, .fail f2 s2 => f1 = f2 ∧ Agree R s1 s2
  | .exhausted s1, .exhausted s2 => Agree R s1 s2
  | _, _ => False

/-! ## Notions for the errors of tests -/

/-- The error that `generateXUnitReportForError` examines: the error inside
an `internalTestError`, and the error itself otherwise. -/
def GoError.cause : GoError → GoError
  | .internalTestError inner _ _ => inner
  | other => other

/-- The world after the statement `if result != nil && result.Status ==
test.TimedOut` of `runTests`, entered in the world `w`. -/
def reportedWorld {σ : Type} (env : Env σ) (t : String) (ret : TestFnReturn) (w : σ) : σ :=
  match ret.result with
  | some result =>
    if result.Status = .TimedOut then (writeTimedOutTestReport env t result w).2 else w
  | none => w

/-- The value of `err` after the statement `if err == nil` of `runTests`,
for the test `t` whose function is `f`, and the world then: the error
of the test function, or else that of the check of the report file. -/
def examined {σ : Type} (env : Env σ) (opts : List Opt) (t : String) (f : TestFn σ)
    (s : RunState σ) : Option GoError × σ :=
  let call := f t opts s.world
  match call.1.err with
  | none => checkTestReportFile env t (reportedWorld env t call.1 call.2)
  | some e => (some e, reportedWorld env t call.1 call.2)

/-- A test function that returns no result and an error. -/
def erring (err : GoError) : TestFn Unit :=
  fun _ _ w => ({ result := none, err := some err }, w)

/-- The environment `quietEnv` in which no report file exists and the error
`deadline exceeded` is a timeout. -/
def timeoutEnv (fns : GoMap (TestFn Unit)) (config : Config) : Env Unit :=
  { quietEnv fns config with
    Stat := fun _ _ => some (.external "no such file")
    IsNotExist := fun _ => true
    IsTimeout := fun err => decide (err = .external "deadline exceeded") }

/-! ## A file system -/

/-- A file system: the content of the files by their path. -/
abbrev Disk := GoMap String

/-- A test function that returns a result with the given status and no
error after writing `out` to its output. -/
def printing (status : Status) (out : String) : TestFn Disk :=
  fun _ _ w => ({ result := some { Status := status }, out := out }, w)

/-- The integer of a status, as `json.Marshal` writes it. -/
def renderStatus : Status → String
  | .Pending => "0"
  | .Skipped => "1"
  | .Passed => "2"
  | .Failed => "3"
  | .MergeConflict => "4"
  | .ToolsBuildFailure => "5"
  | .TimedOut => "6"

/-- A serialization of a result map that shows the status of every test. -/
def renderResults (results : ResultMap) : String :=
  String.join (results.map fun entry =>
    entry.1 ++ "=" ++
      (match entry.2 with
       | some result => renderStatus result.Status
       | none => "null") ++ ";")

/-- An environment over a file system in which nothing fails: `os.Create`
leaves an empty file, `Write` appends to a file and `WriteFile` replaces
its content. -/
def diskEnv (fns : GoMap (TestFn Disk)) (config : Config) : Env Disk where
  testFunctions := fns
  LoadConfig := fun _ => .ok config
  setCleanGo := fun _ w => w
  Create := fun path w => (none, mapSet w path "")
  Write := fun path data w => (none, mapSet w path ((mapGet w path).getD "" ++ data))
  Close := fun _ w => (none, w)
  Stat := fun path w =>
    if (mapGet w path).isSome then none else some (.external "no such file")
  IsNotExist := fun err => decide (err = .external "no such file")
  IsTimeout := fun _ => false
  WriteFile := fun path data w => (none, mapSet w path data)
  ReadFile := fun path w =>
    match mapGet w path with
    | some data => .ok data
    | none => .error (.external "no such file")
  RemoveAll := fun path w => w.filter fun entry => entry.1 ≠ path
  Unmarshal := fun _ => .ok [{ Cases := 1, Failures := 0, Errors := 0 }]
  ReportPath := fun t => "tests_" ++ t ++ ".xml"
  CreateFailureReport := fun testName _ _ _ message w =>
    (none, mapSet w ("tests_" ++ testName ++ ".xml") message)
  Marshal := fun results => .ok (renderResults results)
  Sprint := renderResults
  Join := fun a b => a ++ "/" ++ b
  Dir := fun _ => "."
  formatDuration := fun _ => ""

/-! ## Notions for the timeout reports -/

/-- A call of `xunit.CreateFailureReport`: the five strings that follow
the context, in the order of the call. -/
structure ReportCall where
  testName : String
  className : String
  caseName : String
  message : String
  output : String
  deriving DecidableEq, Repr

/-- The function `calls` reads off a world the calls of
`xunit.CreateFailureReport` that `run.go` has made, in order: such a call
adds its arguments to the record, whether it fails or not, and the test
functions and the other operations of the environment leave the record as
it is. -/
structure Logs {σ : Type} (env : Env σ) (opts : List Opt) (calls : σ → List ReportCall) :
    Prop where
  fns : ∀ t f w, mapGet env.testFunctions t = some f → calls (f t opts w).2 = calls w
  setCleanGo : ∀ b w, calls (env.setCleanGo b w) = calls w
  create : ∀ path w, calls (env.Create path w).2 = calls w
  write : ∀ path data w, calls (env.Write path data w).2 = calls w
  close : ∀ path w, calls (env.Close path w).2 = calls w
  writeFile : ∀ path data w, calls (env.WriteFile path data w).2 = calls w
  removeAll : ∀ path w, calls (env.RemoveAll path w) = calls w
  createFailureReport : ∀ a b c d m w,
    calls (env.CreateFailureReport a b c d m w).2 = calls w ++ [⟨a, b, c, d, m⟩]

/-- The timeout report for the test `t` whose function returned `result`:
the failure report of the case `Timeout` whose message names the value
`TimeoutValue` of the result when it is not zero and ten minutes, in
nanoseconds, when it is. `format` renders a duration. -/
def timeoutReport (format : Int → String) (t : String) (result : Result) : ReportCall :=
  let duration := if result.TimeoutValue ≠ 0 then result.TimeoutValue else 600000000000
  let message := "The test timed out after " ++ format duration ++ "."
  { testName := t, className := t, caseName := "Timeout", message := message,
    output := message }

/-- The call writes a timeout report: a report of the case `Timeout` whose
message begins with the words of the timeout message. The other calls of
`run.go` are not of this form: those of `checkTestReportFile` are of the
cases `Invalid xUnit Report` and `No Test Cases`, and the message of the
call of `generateXUnitReportForError` is the name of its case. -/
def ReportCall.isTimeout (c : ReportCall) : Bool :=
  decide (c.caseName = "Timeout") &&
    "The test timed out after ".data.isPrefixOf c.message.data

/-- The timeout reports that invocations call for, in order: one for each
invocation that returns a result, not nil, with the status `TimedOut`. -/
def timeoutReportsDue {σ : Type} (env : Env σ)
    (inv : List (String × ResultMap × TestFnReturn)) : List ReportCall :=
  inv.filterMap fun call =>
    match call.2.2.result with
    | some result =>
      if result.Status = .TimedOut then some (timeoutReport env.formatDuration call.1 result)
      else none
    | none => none

/-- From the world `w` to the world `w1` no timeout report is written: the
calls of `xunit.CreateFailureReport` made are not of that form. -/
def Quiet {σ : Type} (calls : σ → List ReportCall) (w w1 : σ) : Prop :=
  ∃ new, calls w1 = calls w ++ new ∧ new.filter ReportCall.isTimeout = []

/-- From `s` to `s1` the trace grows by `events` and the record of calls by
`new`, and the timeout reports among the calls are, in order, those that
the invocations among the events call for. -/
def Logged {σ : Type} (env : Env σ) (calls : σ → List ReportCall) (s s1 : RunState σ) : Prop :=
  ∃ events new, s1.trace = s.trace ++ events ∧ calls s1.world = calls s.world ++ new ∧
    new.filter ReportCall.isTimeout = timeoutReportsDue env (invocations events)

/-- A test function that returns the status `TimedOut` with the value
`timeoutValue`. -/
def timingOut {σ : Type} (timeoutValue : Int) : TestFn σ :=
  fun _ _ w => ({ result := some { Status := .TimedOut, TimeoutValue := timeoutValue } }, w)

/-- A test function that returns the status `status`, in any world. -/
def returningIn {σ : Type} (status : Status) : TestFn σ :=
  fun _ _ w => ({ result := some { Status := status } }, w)

/-- An environment whose world is the record of the calls of
`xunit.CreateFailureReport`: no report file exists and nothing fails. Ten
minutes and five seconds are rendered as `time.Duration` renders them. -/
def logEnv (fns : GoMap (TestFn (List ReportCall))) : Env (List ReportCall) where
  testFunctions := fns
  LoadConfig := fun _ => .ok {}
  setCleanGo := fun _ w => w
  Create := fun _ w => (none, w)
  Write := fun _ _ w => (none, w)
  Close := fun _ w => (none, w)
  Stat := fun _ _ => some (.external "no such file")
  IsNotExist := fun _ => true
  IsTimeout := fun _ => false
  WriteFile := fun _ _ w => (none, w)
  ReadFile := fun _ _ => .ok ""
  RemoveAll := fun _ w => w
  Unmarshal := fun _ => .ok []
  ReportPath := fun t => "tests_" ++ t ++ ".xml"
  CreateFailureReport := fun a b c d m w => (none, w ++ [⟨a, b, c, d, m⟩])
  Marshal := fun _ => .ok ""
  Sprint := fun _ => ""
  Join := fun a b => a ++ "/" ++ b
  Dir := fun _ => "."
  formatDuration := fun d =>
    if d = 600000000000 then "10m0s" else if d = 5000000000 then "5s" else ""

/-- The functions of the tests `A`, `B` and `C`: `A` times out without a
timeout value, `B` passes, `C` times out after five seconds. -/
def timeoutFns : GoMap (TestFn (List ReportCall)) :=
  [("A", timingOut 0), ("B", returningIn .Passed), ("C", timingOut 5000000000)]

/-! ## `vloggy/impl/cmd.go` -/

/-- The call `strings.Split(s, sep)` for a separator of one character, on
the characters. -/
def splitChar (sep : Char) : List Char → List (List Char)
  | [] => [[]]
  | c :: cs =>
    match splitChar sep cs with
    | [] => [[]]
    | piece :: pieces => if c = sep then [] :: piece :: pieces else (c :: piece) :: pieces

/-- The predicate `unicode.IsSpace`: the white space of Unicode. -/
def isSpace (c : Char) : Bool :=
  let n := c.toNat
  (9 ≤ n && n ≤ 13) || n = 32 || n = 133 || n = 160 || n = 5760 ||
    (8192 ≤ n && n ≤ 8202) || n = 8232 || n = 8233 || n = 8239 || n = 8287 || n = 12288

/-- The call `strings.TrimSpace`, on the characters. -/
def trimSpace (cs : List Char) : List Char :=
  ((cs.dropWhile isSpace).reverse.dropWhile isSpace).reverse

/-- The function `splitCommaSeparatedValues`. -/
def splitCommaSeparatedValues (s : String) : List String :=
  (splitChar ',' s.data).filterMap fun v =>
    let trimmed := trimSpace v
    if trimmed.length > 0 then some (String.mk trimmed) else none

/-! ## `internal/golib/go.go` -/

/-- The variable `nonBoolBuild`. -/
def nonBoolBuild : List String :=
  ["p", "asmflags", "buildmode", "ccflags", "compiler", "gccgoflags", "gcflags",
   "installsuffix", "ldflags", "pkgdir", "tags", "toolexec"]

/-- The variable `nonBoolTest`. -/
def nonBoolTest : List String :=
  ["bench", "benchtime", "blockprofile", "blockprofilerate", "count", "covermode", "coverpkg",
   "coverprofile", "cpu", "cpuprofile", "memprofile", "memprofilerate", "outputdir",
   "parallel", "run", "timeout", "trace"]

/-- The keys of the set `nonBoolGoBuild`. -/
def nonBoolGoBuild : List String := nonBoolBuild ++ ["o"]

/-- The keys of the set `nonBoolGoGenerate`. -/
def nonBoolGoGenerate : List String := ["run"]

/-- The keys of the set `nonBoolGoInstall`. -/
def nonBoolGoInstall : List String := nonBoolBuild

/-- The keys of the set `nonBoolGoRun`. -/
def nonBoolGoRun : List String := nonBoolBuild ++ ["exec"]

/-- The keys of the set `nonBoolGoTest`. -/
def nonBoolGoTest : List String := nonBoolBuild ++ nonBoolTest ++ ["exec", "o"]

/-- The call `goFlagRE.FindStringSubmatch(arg)` for the expression
`^--?([^=]+)(=?)(.*)`: the three groups of the match, if there is one. The
second dash is taken when a name can follow it; the name goes up to the
first `=`; the value ends before the first line break, which `.` does not
match. -/
def goFlagMatch (arg : String) : Option (String × String × String) :=
  match arg.data with
  | '-' :: r =>
    let r1 :=
      match r with
      | '-' :: c :: r2 => if c ≠ '=' then c :: r2 else r
      | _ => r
    match r1 with
    | [] => none
    | c :: _ =>
      if c = '=' then none
      else
        let name := r1.takeWhile fun x => x ≠ '='
        match r1.dropWhile fun x => x ≠ '=' with
        | [] => some (String.mk name, "", "")
        | _ :: value =>
          some (String.mk name, "=", String.mk (value.takeWhile fun x => x ≠ Char.ofNat 10))
  | _ => none

/-- What the loop that skips the flags does with one argument. -/
inductive FlagKind
  /-- The argument is `--`: the loop ends behind it. -/
  | terminator
  /-- The argument is no flag: the loop ends at it. -/
  | noFlag
  /-- A flag of one token; `goTags` is the new value of `goTags` when the
  flag is `tags`. -/
  | one (goTags : Option String)
  /-- A flag whose value is the next token; `isTags` tells whether the flag
  is `tags`. -/
  | two (isTags : Bool)
  deriving DecidableEq, Repr

/-- The body of the loop `for start < len(args)` of `processGoCmdAndArgs`
for the argument `arg`, with the flags `nonBool`. -/
def classify (nonBool : List String) (arg : String) : FlagKind :=
  if arg = "--" then .terminator
  else
    match goFlagMatch arg with
    | none => .noFlag
    | some (name, eq, value) =>
      if nonBool.contains name && eq = "" then .two (name = "tags")
      else if name = "tags" then .one (some (if eq = "=" then value else arg))
      else .one none

/-- How the loop that skips the flags ends. -/
inductive FlagScan
  /-- With `start` at most `len(args)`: the arguments from `start` on. -/
  | rest (rest : List String) (goTags : String)
  /-- With `start` one more than `len(args)`. -/
  | past (goTags : String)
  /-- With the index `start-1` out of range. -/
  | panic
  deriving DecidableEq, Repr

/-- The loop `for start < len(args)` of `processGoCmdAndArgs`, over the
arguments from `start` on. -/
def skipFlags (nonBool : List String) : List String → String → FlagScan
  | [], goTags => .rest [] goTags
  | [arg], goTags =>
    match classify nonBool arg with
    | .terminator => .rest [] goTags
    | .noFlag => .rest [arg] goTags
    | .one tags => .rest [] (tags.getD goTags)
    | .two isTags => if isTags then .panic else .past goTags
  | arg :: next :: rest, goTags =>
    match classify nonBool arg with
    | .terminator => .rest (next :: rest) goTags
    | .noFlag => .rest (arg :: next :: rest) goTags
    | .one tags => skipFlags nonBool (next :: rest) (tags.getD goTags)
    | .two isTags => skipFlags nonBool rest (if isTags then next else goTags)

/-- The map `nonBool` of `processGoCmdAndArgs`, by its keys. -/
def nonBoolOf (cmd : String) : List String :=
  if cmd = "build" then nonBoolGoBuild
  else if cmd = "generate" then nonBoolGoGenerate
  else if cmd = "install" then nonBoolGoInstall
  else if cmd = "run" then nonBoolGoRun
  else if cmd = "test" then nonBoolGoTest
  else []

/-- The arguments `args[start:end]` of `processGoCmdAndArgs`, from the
arguments from `start` on. -/
def selectArgs (cmd : String) (rest : List String) : List String :=
  if cmd = "test" then rest.takeWhile fun a => !"-".data.isPrefixOf a.data
  else if cmd = "run" then rest.takeWhile fun a => ".go".data.isSuffixOf a.data
  else rest

/-- The function `processGoCmdAndArgs`: the packages, the files and the
tags; `none` when it panics. -/
def processGoCmdAndArgs (cmd : String) (args : List String) :
    Option (List String × List String × String) :=
  match skipFlags (nonBoolOf cmd) args "" with
  | .panic => none
  | .past goTags => if cmd = "test" ∨ cmd = "run" then some ([], [], goTags) else none
  | .rest rest goTags =>
    let selected := selectArgs cmd rest
    if selected = [] then some ([], [], goTags)
    else
      match rest with
      | first :: _ =>
        if ".go".data.isSuffixOf first.data then some ([], selected, goTags)
        else some (selected, [], goTags)
      | [] => some (selected, [], goTags)

/-- The arguments are flags, each with the token of its value when it has
one. -/
inductive Flags (nonBool : List String) : List String → Prop
  | nil : Flags nonBool []
  | one (arg : String) (tags : Option String) (rest : List String) :
      classify nonBool arg = .one tags → Flags nonBool rest → Flags nonBool (arg :: rest)
  | two (arg value : String) (isTags : Bool) (rest : List String) :
      classify nonBool arg = .two isTags → Flags nonBool rest →
      Flags nonBool (arg :: value :: rest)

/-- The arguments are flags other than `tags`, each with the token of its
value when it has one. -/
inductive OtherFlags (nonBool : List String) : List String → Prop
  | nil : OtherFlags nonBool []
  | one (arg : String) (rest : List String) :
      classify nonBool arg = .one none → OtherFlags nonBool rest →
      OtherFlags nonBool (arg :: rest)
  | two (arg value : String) (rest : List String) :
      classify nonBool arg = .two false → OtherFlags nonBool rest →
      OtherFlags nonBool (arg :: value :: rest)

/-- The arguments do not go on with a flag: there is none, or the first is
`--` or no flag. -/
def EndsFlags (nonBool : List String) (rest : List String) : Prop :=
  rest = [] ∨ ∃ a r, rest = a :: r ∧
    (classify nonBool a = .terminator ∨ classify nonBool a = .noFlag)

/-! ## `madb/name.go` -/

/-- The class `[A-Za-z0-9:\-\._]` of the regular expression of
`isValidDeviceSerial`. -/
def isSerialChar (c : Char) : Bool :=
  c.isAlphanum || c = ':' || c = '-' || c = '.' || c = '_'

/-- The class `\w` of regular expressions: `[0-9A-Za-z_]`. -/
def isWordChar (c : Char) : Bool := c.isAlphanum || c = '_'

/-- The function `isValidDeviceSerial`: the whole string matches
`[A-Za-z0-9:\-\._]+` or `@\d+`. -/
def isValidDeviceSerial (serial : String) : Bool :=
  match serial.data with
  | [] => false
  | c :: cs =>
    (c :: cs).all isSerialChar || (c = '@' && !cs.isEmpty && cs.all Char.isDigit)

/-- The function `isValidNickname`: the whole string matches `\w+`. -/
def isValidNickname (nickname : String) : Bool :=
  !nickname.data.isEmpty && nickname.data.all isWordChar

/-- The statement `delete(m, k)`. -/
def mapDelete {β : Type} (m : GoMap β) (k : String) : GoMap β :=
  m.filter fun p => p.1 ≠ k

/-- The function `reverseMap`; `order` is the order in which the source
map is ranged over. -/
def reverseMap (source : GoMap String) (order : List String) : GoMap String :=
  order.foldl (fun reversed k =>
    match mapGet source k with
    | some v => mapSet reversed v k
    | none => reversed) []

/-- The file of nicknames. -/
inductive NameFile
  /-- The file does not exist. -/
  | missing
  /-- The file holds what `json` cannot decode into a map. -/
  | corrupt
  /-- The file holds the encoding of the map. -/
  | stored (nsm : GoMap String)
  deriving DecidableEq, Repr

/-- The errors, if any, of the operations on the file of nicknames during
one command: `os.Open` (other than that the file does not exist),
`os.Remove`, `os.Create` and `Encode`. -/
structure NameIO where
  openErr : Option GoError := none
  removeErr : Option GoError := none
  createErr : Option GoError := none
  encodeErr : Option GoError := none

/-- The function `readNicknameSerialMap`: the returned pair and the file it
leaves. -/
def readNicknameSerialMap (io : NameIO) (file : NameFile) :
    Except GoError (GoMap String) × NameFile :=
  match file with
  | .missing => (.ok [], file)
  | .corrupt =>
    match io.openErr with
    | some err => (.error err, file)
    | none =>
      match io.removeErr with
      | some err => (.error err, file)
      | none => (.ok [], .missing)
  | .stored nsm =>
    match io.openErr with
    | some err => (.error err, file)
    | none => (.ok nsm, file)

/-- The function `writeNicknameSerialMap`: the returned error and the file
it leaves. The file that `os.Create` has emptied does not decode when
`Encode` fails. -/
def writeNicknameSerialMap (io : NameIO) (nsm : GoMap String) (file : NameFile) :
    Option GoError × NameFile :=
  match io.createErr with
  | some err => (some err, file)
  | none =>
    match io.encodeErr with
    | some err => (some err, .corrupt)
    | none => (none, .stored nsm)

/-- The error of `env.UsageErrorf`. -/
def usageError (msg : String) : GoError := .external ("usage error: " ++ msg)

/-- The function `runMadbNameSet`: the returned error and the file it
leaves. `order` is the order in which `reverseMap` ranges over the map. -/
def runMadbNameSet (io : NameIO) (order : List String) (args : List String)
    (file : NameFile) : Option GoError × NameFile :=
  match args with
  | [serial, nickname] =>
    if !isValidDeviceSerial serial then
      (some (usageError ("Not a valid device serial: " ++ serial)), file)
    else if !isValidNickname nickname then
      (some (usageError ("Not a valid nickname: " ++ nickname)), file)
    else
      match readNicknameSerialMap io file with
      | (.error err, file1) => (some err, file1)
      | (.ok nsm, file1) =>
        if (mapGet nsm nickname).isSome then
          (some (.errorf ("The provided nickname \"" ++ nickname ++ "\" is already in use.")),
            file1)
        else
          let nsm1 :=
            match mapGet (reverseMap nsm order) serial with
            | some nn => mapDelete nsm nn
            | none => nsm
          writeNicknameSerialMap io (mapSet nsm1 nickname serial) file1
  | _ => (some (usageError "There must be exactly two arguments."), file)

/-- The loop `for nickname, serial := range nsm` of `runMadbNameUnset`, over
the nicknames in the order in which the map yields them: the map after the
deletion, when an entry is found. -/
def unsetLoop (name : String) (nsm : GoMap String) : List String → Option (GoMap String)
  | [] => none
  | nickname :: rest =>
    match mapGet nsm nickname with
    | none => unsetLoop name nsm rest
    | some serial =>
      if nickname = name ∨ serial = name then some (mapDelete nsm nickname)
      else unsetLoop name nsm rest

/-- The function `runMadbNameUnset`: the returned error and the file it
leaves. `order` is the order in which the map is ranged over. -/
def runMadbNameUnset (io : NameIO) (order : List String) (args : List String)
    (file : NameFile) : Option GoError × NameFile :=
  match args with
  | [name] =>
    if !isValidDeviceSerial name && !isValidNickname name then
      (some (usageError ("Not a valid device serial or name: " ++ name)), file)
    else
      match readNicknameSerialMap io file with
      | (.error err, file1) => (some err, file1)
      | (.ok nsm, file1) =>
        match unsetLoop name nsm order with
        | none =>
          (some (.errorf
            "The provided argument is neither a known nickname nor a device serial."), file1)
        | some nsm1 => writeNicknameSerialMap io nsm1 file1
  | _ => (some (usageError "There must be exactly one argument."), file)

/-- The map that the file of nicknames stores: the one that
`readNicknameSerialMap` returns for it. -/
def storedMap : NameFile → GoMap String
  | .stored nsm => nsm
  | _ => []

/-- No two nicknames of the map have the same serial. -/
def OneToOne (nsm : GoMap String) : Prop :=
  ∀ k1 k2 v, mapGet nsm k1 = some v → mapGet nsm k2 = some v → k1 = k2

/-! ## Notions for the choice of the scan -/

/-- The test `t` has a dependency whose status is `Skipped`, `Failed` or
`TimedOut`. -/
def HasBlockedDep (graph : testDepGraph) (results : ResultMap) (t : String) : Prop :=
  ∃ node, mapGet graph t = some node ∧
    ∃ d ∈ node.deps, ∃ st, statusOf results d = some st ∧ st.blocks = true

/-- The test `t` has a dependency whose status is `Pending`. -/
def HasPendingDep (graph : testDepGraph) (results : ResultMap) (t : String) : Prop :=
  ∃ node, mapGet graph t = some node ∧ ∃ d ∈ node.deps, statusOf results d = some .Pending

/-- The test `t` is one to act on: it is pending, and it has a dependency
that is `Skipped`, `Failed` or `TimedOut` or no pending dependency. -/
def Actionable (graph : testDepGraph) (results : ResultMap) (t : String) : Prop :=
  statusOf results t = some .Pending ∧
    (HasBlockedDep graph results t ∨ ¬ HasPendingDep graph results t)

/-- The state in which a pass of the scheduling loop ends. -/
def ScanResult.state {σ : Type} : ScanResult σ → RunState σ
  | .continueRun s => s
  | .fail _ s => s
  | .exhausted s => s

/-! ## Properties of maps -/

theorem mapGet_mapSet_self {β : Type} (m : GoMap β) (k : String) (v : β) :
    mapGet (mapSet m k v) k = some v := by
  induction m with
  | nil => simp [mapSet, mapGet]
  | cons p m ih =>
    obtain ⟨k1, v1⟩ := p
    by_cases h : k1 = k
    · simp [mapSet, mapGet, h]
    · simp [mapSet, mapGet, h, ih]

theorem mapGet_mapSet_ne {β : Type} (m : GoMap β) (k n : String) (v : β) (h : k ≠ n) :
    mapGet (mapSet m k v) n = mapGet m n := by
  induction m with
  | nil => simp [mapSet, mapGet, h]
  | cons p m ih =>
    obtain ⟨k1, v1⟩ := p
    by_cases h1 : k1 = k
    · subst h1; simp [mapSet, mapGet, h]
    · by_cases h2 : k1 = n
      · subst h2; simp [mapSet, mapGet, h1]
      · simp [mapSet, mapGet, h1, h2, ih]

theorem mapGet_mapSet {β : Type} (m : GoMap β) (k n : String) (v : β) :
    mapGet (mapSet m k v) n = if k = n then some v else mapGet m n := by
  by_cases h : k = n
  · subst h; simp [mapGet_mapSet_self]
  · simp [h, mapGet_mapSet_ne m k n v h]

theorem mapKeys_mapSet_of_get {β : Type} (m : GoMap β) (k : String) (v v1 : β)
    (h : mapGet m k = some v1) : mapKeys (mapSet m k v) = mapKeys m := by
  induction m with
  | nil => simp [mapGet] at h
  | cons p m ih =>
    obtain ⟨k1, v2⟩ := p
    by_cases h1 : k1 = k
    · simp [mapSet, mapKeys, h1]
    · simp only [mapGet, h1, if_false] at h
      have := ih h
      simp only [mapKeys] at this
      simp [mapSet, mapKeys, h1, this]

theorem mem_mapKeys_mapSet {β : Type} (m : GoMap β) (k n : String) (v : β) :
    n ∈ mapKeys (mapSet m k v) ↔ n = k ∨ n ∈ mapKeys m := by
  induction m with
  | nil => simp [mapSet, mapKeys]
  | cons p m ih =>
    obtain ⟨k1, v2⟩ := p
    by_cases h1 : k1 = k
    · subst h1; simp [mapSet, mapKeys]
    · simp only [mapKeys] at ih
      simp only [mapSet, h1, if_false, mapKeys, List.map_cons, List.mem_cons, ih]
      tauto

theorem mapGet_isSome_iff {β : Type} (m : GoMap β) (n : String) :
    (∃ v, mapGet m n = some v) ↔ n ∈ mapKeys m := by
  induction m with
  | nil => simp [mapGet, mapKeys]
  | cons p m ih =>
    obtain ⟨k1, v2⟩ := p
    by_cases h1 : k1 = n
    · simp [mapGet, mapKeys, h1]
    · simp only [mapKeys] at ih
      simp only [mapGet, h1, if_false, ih, mapKeys, List.map_cons, List.mem_cons]
      constructor
      · intro h; exact Or.inr h
      · rintro (h | h)
        · exact absurd h.symm h1
        · exact h

/-! ## Marks of the search -/

theorem isVisited_mapSet (g : testDepGraph) (k n : String) (node : testNode) :
    isVisited (mapSet g k node) n = if k = n then node.visited else isVisited g n := by
  unfold isVisited
  rw [mapGet_mapSet]
  by_cases h : k = n <;> simp [h]

theorem onStack_mapSet (g : testDepGraph) (k n : String) (node : testNode) :
    onStack (mapSet g k node) n = if k = n then node.stack else onStack g n := by
  unfold onStack
  rw [mapGet_mapSet]
  by_cases h : k = n <;> simp [h]

theorem nodeDeps_mapSet (g : testDepGraph) (k n : String) (node node1 : testNode)
    (h : mapGet g k = some node) (hd : node1.deps = node.deps) :
    nodeDeps (mapSet g k node1) n = nodeDeps g n := by
  unfold nodeDeps
  rw [mapGet_mapSet]
  by_cases h1 : k = n
  · subst h1; simp [h, hd]
  · simp [h1]

theorem unvisited_mapSet (g : testDepGraph) (k : String) (node node1 : testNode)
    (h : mapGet g k = some node) :
    unvisited (mapSet g k node1) + (if node.visited then 0 else 1)
      = unvisited g + (if node1.visited then 0 else 1) := by
  induction g with
  | nil => simp [mapGet] at h
  | cons p g ih =>
    obtain ⟨k1, v1⟩ := p
    by_cases h1 : k1 = k
    · simp only [mapGet, h1, if_true, Option.some.injEq] at h
      subst h
      simp only [mapSet, h1, if_true, unvisited, List.filter_cons]
      cases hv : v1.visited <;> cases hv1 : node1.visited <;> simp
    · simp only [mapGet, h1, if_false] at h
      have := ih h
      simp only [unvisited] at this
      simp only [mapSet, h1, if_false, unvisited, List.filter_cons]
      cases hv : v1.visited <;> simp <;> omega

theorem unvisited_mapSet_same (g : testDepGraph) (k : String) (node node1 : testNode)
    (h : mapGet g k = some node) (hv : node1.visited = node.visited) :
    unvisited (mapSet g k node1) = unvisited g := by
  have := unvisited_mapSet g k node node1 h
  rw [hv] at this
  omega

theorem unvisited_mapSet_mark (g : testDepGraph) (k : String) (node node1 : testNode)
    (h : mapGet g k = some node) (hv : node1.visited = true) :
    unvisited (mapSet g k node1) ≤ unvisited g ∧
      (node.visited = false → unvisited (mapSet g k node1) + 1 = unvisited g) := by
  have := unvisited_mapSet g k node node1 h
  rw [hv] at this
  simp only [if_true] at this
  constructor
  · omega
  · intro hf
    rw [hf] at this
    simpa using this

theorem edge_iff_nodeDeps (g : testDepGraph) (d n : String) :
    Edge g d n ↔ ∃ deps, nodeDeps g n = some deps ∧ d ∈ deps := by
  unfold Edge nodeDeps
  constructor
  · rintro ⟨node, h, hd⟩; exact ⟨node.deps, by simp [h], hd⟩
  · rintro ⟨deps, h, hd⟩
    cases hg : mapGet g n with
    | none => simp [hg] at h
    | some node =>
      simp [hg] at h
      exact ⟨node, rfl, by rw [h]; exact hd⟩

theorem Grows.grows_refl (g : testDepGraph) : Grows g g :=
  ⟨rfl, fun _ => rfl, fun _ => rfl, fun _ h => h, le_refl _⟩

theorem Grows.grows_trans {g g1 g2 : testDepGraph} (h1 : Grows g g1) (h2 : Grows g1 g2) :
    Grows g g2 :=
  ⟨h2.keys.trans h1.keys, fun n => (h2.deps n).trans (h1.deps n),
    fun n => (h2.stack n).trans (h1.stack n), fun n h => h2.visited n (h1.visited n h),
    le_trans h2.count h1.count⟩

theorem Grows.black {g g1 : testDepGraph} (h : Grows g g1) {n : String} (hb : Black g n) :
    Black g1 n :=
  ⟨h.visited n hb.1, (h.stack n).trans hb.2⟩

theorem Grows.edgeIs {g g1 : testDepGraph} (h : Grows g g1) {E : String → String → Prop}
    (hE : EdgeIs E g) : EdgeIs E g1 := by
  intro d n
  rw [hE d n, edge_iff_nodeDeps, edge_iff_nodeDeps, h.deps n]

theorem closed_of_same {g g1 : testDepGraph} (hk : mapKeys g1 = mapKeys g)
    (hd : ∀ n, nodeDeps g1 n = nodeDeps g n) (hc : Closed g) : Closed g1 := by
  intro n node hn d hd1
  have h1 : Edge g d n := by
    rw [edge_iff_nodeDeps, ← hd n, ← edge_iff_nodeDeps]
    exact ⟨node, hn, hd1⟩
  obtain ⟨node0, hn0, hd0⟩ := h1
  have h2 := (mapGet_isSome_iff g d).1 (hc n node0 hn0 d hd0)
  rw [← hk] at h2
  exact (mapGet_isSome_iff g1 d).2 h2

theorem Grows.closed {g g1 : testDepGraph} (h : Grows g g1) (hc : Closed g) : Closed g1 :=
  closed_of_same h.keys h.deps hc

theorem Grows.get {g g1 : testDepGraph} (h : Grows g g1) {n : String}
    (hn : ∃ node, mapGet g n = some node) : ∃ node, mapGet g1 n = some node := by
  rw [mapGet_isSome_iff] at hn ⊢
  rw [h.keys]; exact hn

theorem unvisited_pos (g : testDepGraph) (n : String) (node : testNode)
    (h : mapGet g n = some node) (hv : isVisited g n = false) : 0 < unvisited g := by
  have hv1 : node.visited = false := by simpa only [isVisited, h] using hv
  have := (unvisited_mapSet_mark g n node { node with visited := true } h rfl).2 hv1
  omega

/-! ## The search for a dependency loop -/

theorem findCycleDeps_false (E : String → String → Prop)
    (recurse : String → testDepGraph → Option (Bool × testDepGraph))
    (hrec : SearchSpec E recurse) (deps : List String) :
    ∀ g g1, findCycleDeps recurse deps g = some (false, g1) →
      Grows g g1 ∧ (∀ d ∈ deps, Black g1 d) ∧ (EdgeIs E g → BlackAcc E g → BlackAcc E g1) := by
  induction deps with
  | nil =>
    intro g g1 h
    simp only [findCycleDeps, Option.some.injEq, Prod.mk.injEq, true_and] at h
    subst h
    exact ⟨Grows.grows_refl g, by simp, fun _ hb => hb⟩
  | cons dep rest ih =>
    intro g g1 h
    simp only [findCycleDeps] at h
    cases hdep : mapGet g dep with
    | none => simp [hdep] at h
    | some depNode =>
      simp only [hdep] at h
      by_cases hs : depNode.stack = true
      · simp [hs] at h
      · simp only [hs, if_false] at h
        have hstack : onStack g dep = false := by
          simp only [onStack, hdep]; simpa using hs
        by_cases hv : depNode.visited = true
        · simp only [hv, if_true] at h
          obtain ⟨hg, hblack, hacc⟩ := ih g g1 h
          have hb : Black g dep := ⟨by simp only [isVisited, hdep]; exact hv, hstack⟩
          refine ⟨hg, ?_, hacc⟩
          intro d hd
          rcases List.mem_cons.1 hd with rfl | hd
          · exact hg.black hb
          · exact hblack d hd
        · simp only [hv, if_false] at h
          cases hr : recurse dep g with
          | none => simp [hr] at h
          | some r =>
            obtain ⟨b, g2⟩ := r
            cases b with
            | true => simp [hr] at h
            | false =>
              simp only [hr] at h
              obtain ⟨hg2, hvis, hacc2⟩ := hrec dep g g2 hr hstack
              obtain ⟨hg, hblack, hacc⟩ := ih g2 g1 h
              have hb : Black g2 dep := ⟨hvis, (hg2.stack dep).trans hstack⟩
              refine ⟨hg2.grows_trans hg, ?_, fun hE hB => hacc (hg2.edgeIs hE) (hacc2 hE hB)⟩
              intro d hd
              rcases List.mem_cons.1 hd with rfl | hd
              · exact hg.black hb
              · exact hblack d hd

theorem findCycle_false (E : String → String → Prop) (fuel : Nat) :
    SearchSpec E (findCycle fuel) := by
  induction fuel with
  | zero => intro name g g1 h; simp [findCycle] at h
  | succ fuel ih =>
    intro name g g3 h hstack
    simp only [findCycle] at h
    cases hn : mapGet g name with
    | none => simp [hn] at h
    | some node =>
      simp only [hn] at h
      cases hl : findCycleDeps (findCycle fuel) node.deps
          (mapSet g name { node with visited := true, stack := true }) with
      | none => simp [hl] at h
      | some r =>
        obtain ⟨b, g2⟩ := r
        cases b with
        | true => simp [hl] at h
        | false =>
          simp only [hl] at h
          cases hn2 : mapGet g2 name with
          | none => simp [hn2] at h
          | some node2 =>
            simp only [hn2, Option.some.injEq, Prod.mk.injEq, true_and] at h
            subst h
            obtain ⟨hg, hblack, hacc⟩ := findCycleDeps_false E _ ih node.deps _ _ hl
            have hv2 : isVisited g2 name = true :=
              hg.visited name (by rw [isVisited_mapSet]; simp)
            have hnv : node2.visited = true := by
              simpa only [isVisited, hn2] using hv2
            have hcount := (unvisited_mapSet_mark g name node
              { node with visited := true, stack := true } hn rfl).1
            have hcount2 := unvisited_mapSet_same g2 name node2 { node2 with stack := false }
              hn2 rfl
            refine ⟨⟨?_, ?_, ?_, ?_, ?_⟩, ?_, ?_⟩
            · rw [mapKeys_mapSet_of_get g2 name _ node2 hn2, hg.keys,
                mapKeys_mapSet_of_get g name _ node hn]
            · intro n
              rw [nodeDeps_mapSet g2 name n node2 { node2 with stack := false } hn2 rfl,
                hg.deps n,
                nodeDeps_mapSet g name n node { node with visited := true, stack := true } hn rfl]
            · intro n
              rw [onStack_mapSet]
              by_cases hk : name = n
              · subst hk; simp [hstack]
              · simp only [hk, if_false]
                rw [hg.stack n, onStack_mapSet]; simp [hk]
            · intro n hvn
              rw [isVisited_mapSet]
              by_cases hk : name = n
              · subst hk; simpa using hnv
              · simp only [hk, if_false]
                apply hg.visited n
                rw [isVisited_mapSet]; simpa [hk] using hvn
            · have := hg.count
              omega
            · rw [isVisited_mapSet]; simpa using hnv
            · intro hE hB n hbn
              have hE1 : EdgeIs E (mapSet g name { node with visited := true, stack := true }) := by
                intro d m
                rw [hE d m, edge_iff_nodeDeps, edge_iff_nodeDeps,
                  nodeDeps_mapSet g name m node { node with visited := true, stack := true } hn rfl]
              have hB1 : BlackAcc E (mapSet g name { node with visited := true, stack := true }) := by
                intro m hm
                apply hB m
                obtain ⟨hm1, hm2⟩ := hm
                rw [isVisited_mapSet] at hm1
                rw [onStack_mapSet] at hm2
                by_cases hk : name = m
                · subst hk; simp at hm2
                · simp only [hk, if_false] at hm1 hm2
                  exact ⟨hm1, hm2⟩
              have hB2 := hacc hE1 hB1
              by_cases hk : name = n
              · subst hk
                constructor
                intro d hd
                obtain ⟨node0, hn0, hd0⟩ := (hE d name).1 hd
                rw [hn] at hn0
                cases hn0
                exact hB2 d (hblack d hd0)
              · apply hB2 n
                obtain ⟨hm1, hm2⟩ := hbn
                rw [isVisited_mapSet] at hm1
                rw [onStack_mapSet] at hm2
                simp only [hk, if_false] at hm1 hm2
                exact ⟨hm1, hm2⟩

theorem findCycleDeps_isSome (bound : Nat)
    (recurse : String → testDepGraph → Option (Bool × testDepGraph))
    (hspec : SearchSpec (fun _ _ => True) recurse)
    (htot : ∀ name g, Closed g → (∃ node, mapGet g name = some node) →
      isVisited g name = false → unvisited g ≤ bound → ∃ r, recurse name g = some r)
    (deps : List String) :
    ∀ g, Closed g → (∀ d ∈ deps, ∃ node, mapGet g d = some node) → unvisited g ≤ bound →
      ∃ r, findCycleDeps recurse deps g = some r := by
  induction deps with
  | nil => intro g _ _ _; exact ⟨_, rfl⟩
  | cons dep rest ih =>
    intro g hc hkeys hb
    obtain ⟨depNode, hdep⟩ := hkeys dep (List.mem_cons_self _ _)
    have hrest : ∀ d ∈ rest, ∃ node, mapGet g d = some node :=
      fun d hd => hkeys d (List.mem_cons_of_mem _ hd)
    simp only [findCycleDeps, hdep]
    by_cases hs : depNode.stack = true
    · simp [hs]
    · simp only [hs, if_false]
      by_cases hv : depNode.visited = true
      · simp only [hv, if_true]
        exact ih g hc hrest hb
      · simp only [hv, if_false]
        have hvis : isVisited g dep = false := by
          simp only [isVisited, hdep]; simpa using hv
        have hstack : onStack g dep = false := by
          simp only [onStack, hdep]; simpa using hs
        obtain ⟨r, hr⟩ := htot dep g hc ⟨depNode, hdep⟩ hvis hb
        obtain ⟨b, g2⟩ := r
        cases b with
        | true => simp [hr]
        | false =>
          simp only [hr]
          obtain ⟨hg, -, -⟩ := hspec dep g g2 hr hstack
          exact ih g2 (hg.closed hc) (fun d hd => hg.get (hrest d hd))
            (le_trans hg.count hb)

theorem findCycle_isSome (fuel : Nat) :
    ∀ name g, Closed g → (∃ node, mapGet g name = some node) →
      isVisited g name = false → unvisited g ≤ fuel → ∃ r, findCycle fuel name g = some r := by
  induction fuel with
  | zero =>
    intro name g _ hn hv hb
    obtain ⟨node, hn⟩ := hn
    have := unvisited_pos g name node hn hv
    omega
  | succ fuel ih =>
    intro name g hc hn hv hb
    obtain ⟨node, hn⟩ := hn
    have hv1 : node.visited = false := by simpa only [isVisited, hn] using hv
    have hmark := unvisited_mapSet_mark g name node
      { node with visited := true, stack := true } hn rfl
    have hkeys1 := mapKeys_mapSet_of_get g name
      { node with visited := true, stack := true } node hn
    have hdeps1 : ∀ n, nodeDeps (mapSet g name { node with visited := true, stack := true }) n
        = nodeDeps g n :=
      fun n => nodeDeps_mapSet g name n node _ hn rfl
    have hc1 := closed_of_same hkeys1 hdeps1 hc
    have hdk : ∀ d ∈ node.deps,
        ∃ nd, mapGet (mapSet g name { node with visited := true, stack := true }) d = some nd := by
      intro d hd
      rw [mapGet_isSome_iff, hkeys1, ← mapGet_isSome_iff]
      exact hc name node hn d hd
    obtain ⟨r, hr⟩ := findCycleDeps_isSome fuel (findCycle fuel)
      (findCycle_false (fun _ _ => True) fuel) ih node.deps _ hc1 hdk
      (by have := hmark.2 hv1; omega)
    simp only [findCycle, hn, hr]
    obtain ⟨b, g2⟩ := r
    cases b with
    | true => exact ⟨_, rfl⟩
    | false =>
      obtain ⟨hg, -, -⟩ := findCycleDeps_false (fun _ _ => True) _
        (findCycle_false (fun _ _ => True) fuel) node.deps _ _ hr
      have hn2 : ∃ node2, mapGet g2 name = some node2 := by
        rw [mapGet_isSome_iff, hg.keys, hkeys1, ← mapGet_isSome_iff]
        exact ⟨node, hn⟩
      obtain ⟨node2, hn2⟩ := hn2
      simp only [hn2]
      exact ⟨_, rfl⟩

theorem detectLoop_false (E : String → String → Prop) (fuel : Nat) (order : List String) :
    ∀ g g1, detectLoop fuel order g = some (false, g1) → (∀ n, onStack g n = false) →
      Grows g g1 ∧ (∀ n ∈ order, n ∈ mapKeys g → isVisited g1 n = true) ∧
        (EdgeIs E g → BlackAcc E g → BlackAcc E g1) := by
  induction order with
  | nil =>
    intro g g1 h _
    simp only [detectLoop, Option.some.injEq, Prod.mk.injEq, true_and] at h
    subst h
    exact ⟨Grows.grows_refl g, by simp, fun _ hb => hb⟩
  | cons name rest ih =>
    intro g g1 h hns
    simp only [detectLoop] at h
    cases hn : mapGet g name with
    | none =>
      simp only [hn] at h
      obtain ⟨hg, hvis, hacc⟩ := ih g g1 h hns
      refine ⟨hg, ?_, hacc⟩
      intro n hmem hk
      rcases List.mem_cons.1 hmem with rfl | hmem
      · rw [← mapGet_isSome_iff] at hk
        obtain ⟨v, hv⟩ := hk
        rw [hn] at hv; cases hv
      · exact hvis n hmem hk
    | some info =>
      simp only [hn] at h
      by_cases hv : info.visited = true
      · simp only [hv, if_true] at h
        obtain ⟨hg, hvis, hacc⟩ := ih g g1 h hns
        refine ⟨hg, ?_, hacc⟩
        intro n hmem hk
        rcases List.mem_cons.1 hmem with rfl | hmem
        · exact hg.visited _ (by simp only [isVisited, hn]; exact hv)
        · exact hvis n hmem hk
      · simp only [hv, if_false] at h
        cases hr : findCycle fuel name g with
        | none => simp [hr] at h
        | some r =>
          obtain ⟨b, g2⟩ := r
          cases b with
          | true => simp [hr] at h
          | false =>
            simp only [hr] at h
            obtain ⟨hg2, hvis2, hacc2⟩ := findCycle_false E fuel name g g2 hr (hns name)
            obtain ⟨hg, hvis, hacc⟩ := ih g2 g1 h (fun n => (hg2.stack n).trans (hns n))
            refine ⟨hg2.grows_trans hg, ?_, fun hE hB => hacc (hg2.edgeIs hE) (hacc2 hE hB)⟩
            intro n hmem hk
            rcases List.mem_cons.1 hmem with rfl | hmem
            · exact hg.visited _ hvis2
            · exact hvis n hmem (by rw [hg2.keys]; exact hk)

theorem detectLoop_isSome (fuel : Nat) (order : List String) :
    ∀ g, Closed g → (∀ n, onStack g n = false) → unvisited g ≤ fuel →
      ∃ r, detectLoop fuel order g = some r := by
  induction order with
  | nil => intro g _ _ _; exact ⟨_, rfl⟩
  | cons name rest ih =>
    intro g hc hns hb
    simp only [detectLoop]
    cases hn : mapGet g name with
    | none => exact ih g hc hns hb
    | some info =>
      simp only
      by_cases hv : info.visited = true
      · simp only [hv, if_true]
        exact ih g hc hns hb
      · simp only [hv, if_false]
        have hvis : isVisited g name = false := by
          simp only [isVisited, hn]; simpa using hv
        obtain ⟨r, hr⟩ := findCycle_isSome fuel name g hc ⟨info, hn⟩ hvis hb
        obtain ⟨b, g2⟩ := r
        cases b with
        | true => simp [hr]
        | false =>
          simp only [hr]
          obtain ⟨hg, -, -⟩ := findCycle_false (fun _ _ => True) fuel name g g2 hr (hns name)
          exact ih g2 (hg.closed hc) (fun n => (hg.stack n).trans (hns n))
            (le_trans hg.count hb)

/-! ## The graph built from the config -/

theorem isDepInTests_iff (curDep : String) (tests : List String) :
    isDepInTests curDep tests = true ↔ curDep ∈ tests := by
  induction tests with
  | nil => simp [isDepInTests]
  | cons t rest ih =>
    by_cases h : curDep = t
    · simp [isDepInTests, h]
    · simp [isDepInTests, h, ih]

theorem collectDeps_eq (tests : List String) (l : List String) :
    ∀ deps, collectDeps tests l deps = deps ++ l.filter fun d => decide (d ∈ tests) := by
  induction l with
  | nil => intro deps; simp [collectDeps]
  | cons d rest ih =>
    intro deps
    by_cases h : d ∈ tests
    · simp [collectDeps, (isDepInTests_iff d tests).2 h, ih, h]
    · have h1 : isDepInTests d tests = false := by
        rw [← Bool.not_eq_true, isDepInTests_iff]; exact h
      simp [collectDeps, h1, ih, h]

theorem mapGet_buildDepGraphFrom (config : Config) (tests todo : List String) :
    ∀ (acc : testDepGraph) (n : String),
      mapGet (buildDepGraphFrom config tests todo acc) n =
        if n ∈ todo then
          some { deps := collectDeps tests (config.TestDependencies n) [] }
        else mapGet acc n := by
  induction todo with
  | nil => intro acc n; simp [buildDepGraphFrom]
  | cons t rest ih =>
    intro acc n
    simp only [buildDepGraphFrom, ih, mapGet_mapSet]
    by_cases h1 : n ∈ rest
    · simp [h1]
    · by_cases h2 : t = n
      · subst h2; simp [h1]
      · have h3 : ¬ n = t := fun h => h2 h.symm
        simp [h1, h2, h3]

theorem mapGet_buildDepGraph (config : Config) (tests : List String) (n : String) :
    mapGet (buildDepGraph config tests) n =
      if n ∈ tests then
        some { deps := (config.TestDependencies n).filter fun d => decide (d ∈ tests) }
      else none := by
  unfold buildDepGraph
  rw [mapGet_buildDepGraphFrom, collectDeps_eq]
  simp [mapGet]

theorem mem_mapKeys_buildDepGraph (config : Config) (tests : List String) (n : String) :
    n ∈ mapKeys (buildDepGraph config tests) ↔ n ∈ tests := by
  rw [← mapGet_isSome_iff, mapGet_buildDepGraph]
  by_cases h : n ∈ tests <;> simp [h]

theorem nodup_mapKeys_mapSet {β : Type} (m : GoMap β) (k : String) (v : β)
    (h : (mapKeys m).Nodup) : (mapKeys (mapSet m k v)).Nodup := by
  induction m with
  | nil => simp [mapSet, mapKeys]
  | cons p m ih =>
    obtain ⟨k1, v1⟩ := p
    have h1 : k1 ∉ mapKeys m ∧ (mapKeys m).Nodup := by
      simpa [mapKeys] using h
    by_cases hk : k1 = k
    · subst hk
      simpa [mapSet, mapKeys] using h
    · have h2 : k1 ∉ mapKeys (mapSet m k v) := by
        rw [mem_mapKeys_mapSet]
        rintro (h3 | h3)
        · exact hk h3
        · exact h1.1 h3
      have h3 := ih h1.2
      simp only [mapKeys] at h2 h3
      simp [mapSet, mapKeys, hk, h2, h3]

theorem nodup_mapKeys_buildDepGraphFrom (config : Config) (tests todo : List String) :
    ∀ acc : testDepGraph, (mapKeys acc).Nodup →
      (mapKeys (buildDepGraphFrom config tests todo acc)).Nodup := by
  induction todo with
  | nil => intro acc h; exact h
  | cons t rest ih =>
    intro acc h
    exact ih _ (nodup_mapKeys_mapSet acc t _ h)

theorem nodup_mapKeys_buildDepGraph (config : Config) (tests : List String) :
    (mapKeys (buildDepGraph config tests)).Nodup :=
  nodup_mapKeys_buildDepGraphFrom config tests tests [] (by simp [mapKeys])

theorem buildDepGraph_closed (config : Config) (tests : List String) :
    Closed (buildDepGraph config tests) := by
  intro n node hn d hd
  rw [mapGet_buildDepGraph] at hn
  by_cases h : n ∈ tests
  · simp only [h, if_true, Option.some.injEq] at hn
    subst hn
    have hd1 : d ∈ tests := by simpa using (List.mem_filter.1 hd).2
    exact ⟨_, by rw [mapGet_buildDepGraph, if_pos hd1]⟩
  · simp [h] at hn

theorem buildDepGraph_onStack (config : Config) (tests : List String) (n : String) :
    onStack (buildDepGraph config tests) n = false := by
  unfold onStack
  rw [mapGet_buildDepGraph]
  by_cases h : n ∈ tests <;> simp [h]

theorem buildDepGraph_isVisited (config : Config) (tests : List String) (n : String) :
    isVisited (buildDepGraph config tests) n = false := by
  unfold isVisited
  rw [mapGet_buildDepGraph]
  by_cases h : n ∈ tests <;> simp [h]

theorem unvisited_le_length (g : testDepGraph) : unvisited g ≤ g.length :=
  List.length_filter_le _ _

theorem edge_buildDepGraph (config : Config) (tests : List String) (d n : String) :
    Edge (buildDepGraph config tests) d n ↔ dependsOn config tests n d := by
  unfold Edge dependsOn
  rw [mapGet_buildDepGraph]
  by_cases h : n ∈ tests
  · simp only [h, if_true, Option.some.injEq, true_and]
    constructor
    · rintro ⟨node, rfl, hd⟩
      have := List.mem_filter.1 hd
      exact ⟨by simpa using this.2, this.1⟩
    · rintro ⟨h1, h2⟩
      exact ⟨_, rfl, List.mem_filter.2 ⟨h2, by simpa using h1⟩⟩
  · simp [h]

theorem acc_not_transGen {α : Type} {r : α → α → Prop} {a : α} (h : Acc r a) :
    ¬ Relation.TransGen r a a := by
  have h1 : Acc (Relation.TransGen r) a := h.transGen
  clear h
  induction h1 with
  | intro x _ ih => intro hx; exact ih x hx hx

/-- The search of `createTestDepGraph` never exhausts its budget and never
dereferences a nil node. -/
theorem createTestDepGraph_ne_panic (config : Config) (tests order : List String) :
    createTestDepGraph config tests order ≠ .error .panic := by
  obtain ⟨r, hr⟩ := detectLoop_isSome (buildDepGraph config tests).length order
    (buildDepGraph config tests) (buildDepGraph_closed config tests)
    (buildDepGraph_onStack config tests) (unvisited_le_length _)
  obtain ⟨b, g⟩ := r
  cases b <;> simp [createTestDepGraph, hr]

theorem createTestDepGraph_ok_grows (config : Config) (tests order : List String)
    (graph : testDepGraph) (h : createTestDepGraph config tests order = .ok graph) :
    Grows (buildDepGraph config tests) graph ∧
      (∀ n ∈ order, n ∈ tests → isVisited graph n = true) ∧
      BlackAcc (Edge (buildDepGraph config tests)) graph := by
  simp only [createTestDepGraph] at h
  cases hr : detectLoop (buildDepGraph config tests).length order (buildDepGraph config tests) with
  | none => simp [hr] at h
  | some r =>
    obtain ⟨b, g⟩ := r
    cases b with
    | true => simp [hr] at h
    | false =>
      simp only [hr, Except.ok.injEq] at h
      subst h
      obtain ⟨hg, hvis, hacc⟩ := detectLoop_false (Edge (buildDepGraph config tests)) _ order
        _ _ hr (buildDepGraph_onStack config tests)
      refine ⟨hg, ?_, ?_⟩
      · intro n hn ht
        exact hvis n hn ((mem_mapKeys_buildDepGraph config tests n).2 ht)
      · apply hacc (fun _ _ => Iff.rfl)
        intro n hb
        have := buildDepGraph_isVisited config tests n
        rw [hb.1] at this
        cases this

theorem createTestDepGraph_cycle (config : Config) (tests order : List String)
    (hcycle : HasCycle config tests) (horder : ∀ t ∈ tests, t ∈ order) :
    ∃ g, createTestDepGraph config tests order = .error (.dependencyLoop g) := by
  cases hc : createTestDepGraph config tests order with
  | error f =>
    cases f with
    | error e => simp [createTestDepGraph] at hc; split at hc <;> simp at hc
    | dependencyLoop g => exact ⟨g, rfl⟩
    | panic => exact absurd hc (createTestDepGraph_ne_panic config tests order)
  | ok graph =>
    exfalso
    obtain ⟨hg, hvis, hacc⟩ := createTestDepGraph_ok_grows config tests order graph hc
    obtain ⟨t, ht⟩ := hcycle
    have hmem : t ∈ tests := by
      cases ht with
      | single h => exact h.1
      | tail _ h => exact h.2.1
    have hblack : Black graph t :=
      ⟨hvis t (horder t hmem) hmem, (hg.stack t).trans (buildDepGraph_onStack config tests t)⟩
    have hswap : Relation.TransGen (Edge (buildDepGraph config tests)) t t := by
      rw [← Relation.transGen_swap]
      refine Relation.TransGen.mono ?_ ht
      intro a b hab
      exact (edge_buildDepGraph config tests b a).2 hab
    exact acc_not_transGen (hacc t hblack) hswap

/-! ## A reported loop is a cycle -/

theorem findCycleDeps_true (E : String → String → Prop)
    (recurse : String → testDepGraph → Option (Bool × testDepGraph))
    (hspec : SearchSpec E recurse) (hcyc : CycleSpec E recurse) (name : String)
    (deps : List String) :
    ∀ g g1, findCycleDeps recurse deps g = some (true, g1) → EdgeIs E g →
      (∀ d ∈ deps, E d name) → (∀ n, onStack g n = true → Relation.ReflTransGen E name n) →
      ∃ t, Relation.TransGen E t t := by
  induction deps with
  | nil => intro g g1 h; simp [findCycleDeps] at h
  | cons dep rest ih =>
    intro g g1 h hE hdeps hst
    have hedge : E dep name := hdeps dep (List.mem_cons_self _ _)
    have hrest : ∀ d ∈ rest, E d name := fun d hd => hdeps d (List.mem_cons_of_mem _ hd)
    simp only [findCycleDeps] at h
    cases hdep : mapGet g dep with
    | none => simp [hdep] at h
    | some depNode =>
      simp only [hdep] at h
      by_cases hs : depNode.stack = true
      · have h1 : onStack g dep = true := by simp only [onStack, hdep]; exact hs
        exact ⟨dep, Relation.TransGen.head' hedge (hst dep h1)⟩
      · simp only [hs, if_false] at h
        have hstack : onStack g dep = false := by
          simp only [onStack, hdep]; simpa using hs
        by_cases hv : depNode.visited = true
        · simp only [hv, if_true] at h
          exact ih g g1 h hE hrest hst
        · simp only [hv, if_false] at h
          cases hr : recurse dep g with
          | none => simp [hr] at h
          | some r =>
            obtain ⟨b, g2⟩ := r
            cases b with
            | true =>
              apply hcyc dep g g2 hr hE
              intro n hn
              exact Relation.ReflTransGen.head hedge (hst n hn)
            | false =>
              simp only [hr] at h
              obtain ⟨hg2, -, -⟩ := hspec dep g g2 hr hstack
              apply ih g2 g1 h (hg2.edgeIs hE) hrest
              intro n hn
              rw [hg2.stack n] at hn
              exact hst n hn

theorem findCycle_true (E : String → String → Prop) (fuel : Nat) :
    CycleSpec E (findCycle fuel) := by
  induction fuel with
  | zero => intro name g g1 h; simp [findCycle] at h
  | succ fuel ih =>
    intro name g g3 h hE hst
    simp only [findCycle] at h
    cases hn : mapGet g name with
    | none => simp [hn] at h
    | some node =>
      simp only [hn] at h
      cases hl : findCycleDeps (findCycle fuel) node.deps
          (mapSet g name { node with visited := true, stack := true }) with
      | none => simp [hl] at h
      | some r =>
        obtain ⟨b, g2⟩ := r
        cases b with
        | false =>
          simp only [hl] at h
          cases hn2 : mapGet g2 name with
          | none => simp [hn2] at h
          | some node2 => simp [hn2] at h
        | true =>
          apply findCycleDeps_true E _ (findCycle_false E fuel) ih name node.deps _ _ hl
          · intro d m
            rw [hE d m, edge_iff_nodeDeps, edge_iff_nodeDeps,
              nodeDeps_mapSet g name m node { node with visited := true, stack := true } hn rfl]
          · intro d hd
            exact (hE d name).2 ⟨node, hn, hd⟩
          · intro n hns
            rw [onStack_mapSet] at hns
            by_cases hk : name = n
            · subst hk; exact Relation.ReflTransGen.refl
            · simp only [hk, if_false] at hns
              exact hst n hns

theorem detectLoop_true (E : String → String → Prop) (fuel : Nat) (order : List String) :
    ∀ g g1, detectLoop fuel order g = some (true, g1) → EdgeIs E g →
      (∀ n, onStack g n = false) → ∃ t, Relation.TransGen E t t := by
  induction order with
  | nil => intro g g1 h; simp [detectLoop] at h
  | cons name rest ih =>
    intro g g1 h hE hns
    simp only [detectLoop] at h
    cases hn : mapGet g name with
    | none =>
      simp only [hn] at h
      exact ih g g1 h hE hns
    | some info =>
      simp only [hn] at h
      by_cases hv : info.visited = true
      · simp only [hv, if_true] at h
        exact ih g g1 h hE hns
      · simp only [hv, if_false] at h
        cases hr : findCycle fuel name g with
        | none => simp [hr] at h
        | some r =>
          obtain ⟨b, g2⟩ := r
          cases b with
          | true =>
            apply findCycle_true E fuel name g g2 hr hE
            intro n hn1
            rw [hns n] at hn1
            cases hn1
          | false =>
            simp only [hr] at h
            obtain ⟨hg2, -, -⟩ := findCycle_false E fuel name g g2 hr (hns name)
            exact ih g2 g1 h (hg2.edgeIs hE) (fun n => (hg2.stack n).trans (hns n))

theorem createTestDepGraph_acyclic (config : Config) (tests order : List String)
    (hacyclic : ¬ HasCycle config tests) :
    ∃ graph, createTestDepGraph config tests order = .ok graph := by
  cases hr : detectLoop (buildDepGraph config tests).length order (buildDepGraph config tests) with
  | none =>
    exfalso
    apply createTestDepGraph_ne_panic config tests order
    simp [createTestDepGraph, hr]
  | some r =>
    obtain ⟨b, g⟩ := r
    cases b with
    | false => exact ⟨g, by simp [createTestDepGraph, hr]⟩
    | true =>
      exfalso
      obtain ⟨t, ht⟩ := detectLoop_true (Edge (buildDepGraph config tests)) _ order _ _ hr
        (fun _ _ => Iff.rfl) (buildDepGraph_onStack config tests)
      apply hacyclic
      refine ⟨t, ?_⟩
      rw [← Relation.transGen_swap]
      refine Relation.TransGen.mono ?_ ht
      intro a b hab
      exact (edge_buildDepGraph config tests a b).1 hab

/-! ## The graph returned by `createTestDepGraph` -/

theorem hasCycle_congr (config : Config) (l1 l2 : List String)
    (h : ∀ t, t ∈ l1 ↔ t ∈ l2) (hc : HasCycle config l1) : HasCycle config l2 := by
  obtain ⟨t, ht⟩ := hc
  refine ⟨t, Relation.TransGen.mono ?_ ht⟩
  intro a b hab
  exact ⟨(h a).1 hab.1, (h b).1 hab.2.1, hab.2.2⟩

theorem mem_sortStrings (l : List String) (t : String) : t ∈ sortStrings l ↔ t ∈ l :=
  (List.perm_insertionSort stringLE l).mem_iff

/-- C1. When the dependency relation restricted to the target tests has a
cycle (a test that depends on itself included), `createTestDepGraph` returns
the dependency-loop error, whichever order its map is ranged over in; and
`RunProjectTests`, for a config whose tests for the given projects are these
target tests, returns that error with no event recorded, so no test function
is invoked. -/
theorem dependency_cycle_rejected (config : Config) (tests order : List String)
    (hcycle : HasCycle config tests) (horder : ∀ t ∈ tests, t ∈ order) :
    (∃ g, createTestDepGraph config tests order = .error (.dependencyLoop g)) ∧
    ∀ (σ : Type) (env : Env σ) (projects : List String) (opts : List Opt) (w : σ),
      env.LoadConfig w = .ok config → config.ProjectTests projects = tests →
      (∃ g, (RunProjectTests env projects opts order w).ret = .error (.dependencyLoop g)) ∧
        (RunProjectTests env projects opts order w).trace = [] := by
  refine ⟨createTestDepGraph_cycle config tests order hcycle horder, ?_⟩
  intro σ env projects opts w hload htests
  have hne : tests.length ≠ 0 := by
    obtain ⟨t, ht⟩ := hcycle
    have hmem : t ∈ tests := by
      cases ht with
      | single h => exact h.1
      | tail _ h => exact h.2.1
    intro h0
    rw [List.length_eq_zero] at h0
    rw [h0] at hmem
    cases hmem
  obtain ⟨g, hg⟩ := createTestDepGraph_cycle config (sortStrings tests) order
    (hasCycle_congr config tests _ (fun t => (mem_sortStrings tests t).symm) hcycle)
    (fun t ht => horder t ((mem_sortStrings tests t).1 ht))
  simp only [RunProjectTests, hload, htests, hne, if_false, hg]
  exact ⟨⟨g, rfl⟩, trivial⟩

theorem loopConfig_hasCycle : HasCycle loopConfig ["A", "B"] := by
  have h1 : dependsOn loopConfig ["A", "B"] "A" "B" := by unfold dependsOn; decide
  have h2 : dependsOn loopConfig ["A", "B"] "B" "A" := by unfold dependsOn; decide
  exact ⟨"A", Relation.TransGen.tail (Relation.TransGen.single h1) h2⟩

/-- C1, on the tests `A` and `B` that depend on each other: the graph is
refused and `RunProjectTests` invokes nothing. -/
theorem dependency_cycle_rejected_witness :
    HasCycle loopConfig ["A", "B"] ∧ (∀ t ∈ ["A", "B"], t ∈ ["B", "A"]) ∧
      (∃ g, createTestDepGraph loopConfig ["A", "B"] ["B", "A"] = .error (.dependencyLoop g)) ∧
      (RunProjectTests (quietEnv [("A", returning .Passed), ("B", returning .Passed)]
        loopConfig) ["p"] [] ["B", "A"] ()).trace = [] :=
  have h := dependency_cycle_rejected loopConfig ["A", "B"] ["B", "A"] loopConfig_hasCycle
    (by decide)
  ⟨loopConfig_hasCycle, by decide, h.1,
    (h.2 Unit (quietEnv [("A", returning .Passed), ("B", returning .Passed)] loopConfig)
      ["p"] [] () rfl (by decide)).2⟩

theorem graph_nodes (config : Config) (tests order : List String)
    (graph : testDepGraph) (h : createTestDepGraph config tests order = .ok graph) :
    (∀ name, name ∈ mapKeys graph ↔ name ∈ tests) ∧ (mapKeys graph).Nodup ∧
    ∀ t ∈ tests, ∃ node, mapGet graph t = some node ∧
      node.deps = (config.TestDependencies t).filter (fun dep => decide (dep ∈ tests)) := by
  obtain ⟨hg, -, -⟩ := createTestDepGraph_ok_grows config tests order graph h
  refine ⟨?_, ?_, ?_⟩
  · intro name
    rw [hg.keys]
    exact mem_mapKeys_buildDepGraph config tests name
  · rw [hg.keys]
    exact nodup_mapKeys_buildDepGraph config tests
  · intro t ht
    have hd := hg.deps t
    simp only [nodeDeps, mapGet_buildDepGraph, ht, if_true, Option.map_some'] at hd
    cases hn : mapGet graph t with
    | none => simp [hn] at hd
    | some node =>
      simp only [hn, Option.map_some', Option.some.injEq] at hd
      exact ⟨node, rfl, hd⟩

/-- C10. When `createTestDepGraph` succeeds, the keys of the returned graph
are exactly the target tests (each once), and the `deps` of the node of a
target test `t` is the list `config.TestDependencies(t)` with the entries
that do not occur in the target list removed, the others kept in order. -/
theorem createTestDepGraph_nodes (config : Config) (tests order : List String)
    (graph : testDepGraph) (h : createTestDepGraph config tests order = .ok graph) :
    (∀ name, name ∈ mapKeys graph ↔ name ∈ tests) ∧ (mapKeys graph).Nodup ∧
    ∀ t ∈ tests, ∃ node, mapGet graph t = some node ∧
      node.deps = (config.TestDependencies t).filter (fun dep => decide (dep ∈ tests)) ∧
      node.deps.Sublist (config.TestDependencies t) ∧
      ∀ dep, dep ∈ node.deps ↔ dep ∈ config.TestDependencies t ∧ dep ∈ tests := by
  obtain ⟨hkeys, hnodup, hnodes⟩ := graph_nodes config tests order graph h
  refine ⟨hkeys, hnodup, ?_⟩
  intro t ht
  obtain ⟨node, hn, hd⟩ := hnodes t ht
  refine ⟨node, hn, hd, ?_, ?_⟩
  · rw [hd]; exact List.filter_sublist _
  · intro dep
    rw [hd, List.mem_filter]
    simp

/-- C10, on the tests `A`, `B`, `C` of `fanConfig`: the dependency of `C` on
the outside test `X` is dropped. -/
theorem createTestDepGraph_nodes_witness :
    createTestDepGraph fanConfig ["A", "B", "C"] ["C", "A", "B"] =
        .ok [("A", { deps := [], visited := true }), ("B", { deps := ["A"], visited := true }),
          ("C", { deps := ["A"], visited := true })] ∧
      ∀ t ∈ ["A", "B", "C"], ∃ node,
        mapGet [("A", ({ deps := [], visited := true } : testNode)),
          ("B", { deps := ["A"], visited := true }),
          ("C", { deps := ["A"], visited := true })] t = some node ∧
        node.deps = (fanConfig.TestDependencies t).filter
          (fun dep => decide (dep ∈ ["A", "B", "C"])) :=
  ⟨by decide, fun t ht =>
    let ⟨node, h1, h2, _⟩ := (createTestDepGraph_nodes fanConfig ["A", "B", "C"] ["C", "A", "B"]
      _ (by decide)).2.2 t ht
    ⟨node, h1, h2⟩⟩

/-! ## One call of `runTests` -/

theorem invocations_append (a b : List Event) :
    invocations (a ++ b) = invocations a ++ invocations b := by
  simp [invocations, List.filterMap_append]

theorem skips_append (a b : List Event) : skips (a ++ b) = skips a ++ skips b := by
  simp [skips, List.filterMap_append]

theorem SameMarks.sameMarks_refl {σ : Type} (s : RunState σ) : SameMarks s s := ⟨rfl, rfl, rfl, rfl⟩

theorem SameMarks.sameMarks_trans {σ : Type} {s s1 s2 : RunState σ} (h1 : SameMarks s s1)
    (h2 : SameMarks s1 s2) : SameMarks s s2 :=
  ⟨h2.invocations.trans h1.invocations, h2.skips.trans h1.skips,
    h2.iterations.trans h1.iterations, h2.results.trans h1.results⟩

theorem reportTimedOut_sameMarks {σ : Type} (env : Env σ) (t : String) (ret : TestFnReturn)
    (s : RunState σ) : SameMarks s (reportTimedOut env t ret s) := by
  unfold reportTimedOut
  split
  · split
    · exact ⟨by simp [invocations_append, invocations], by simp [skips_append, skips], rfl, rfl⟩
    · exact SameMarks.sameMarks_refl s
  · exact SameMarks.sameMarks_refl s

theorem writeOutput_sameMarks {σ : Type} (env : Env σ) (outputFile : Option String)
    (out : String) (s : RunState σ) : SameMarks s (writeOutput env outputFile out s).2 := by
  unfold writeOutput
  split
  · exact SameMarks.sameMarks_refl s
  · split
    · exact ⟨rfl, rfl, rfl, rfl⟩
    · exact ⟨by simp [invocations_append, invocations], by simp [skips_append, skips], rfl, rfl⟩

theorem writeResults_sameMarks {σ : Type} (env : Env σ) (outputDir : String)
    (s : RunState σ) : SameMarks s (writeResults env outputDir s).2 := by
  unfold writeResults
  split
  · split
    · exact SameMarks.sameMarks_refl s
    · simp only
      split
      · exact ⟨rfl, rfl, rfl, rfl⟩
      · exact ⟨by simp [invocations_append, invocations], by simp [skips_append, skips],
          rfl, rfl⟩
  · exact SameMarks.sameMarks_refl s

theorem generateXUnitReportForError_status {σ : Type} (env : Env σ) (testName : String)
    (err : GoError) (output : String) (w : σ) (r : Result) (w1 : σ)
    (h : generateXUnitReportForError env testName err output w = (.ok r, w1)) :
    r.Status.fromError := by
  unfold generateXUnitReportForError at h
  split at h
  · cases h; trivial
  · split at h
    · cases h
    · cases h; trivial
    · simp only at h
      split at h
      · cases h
      · split at h <;> cases h <;> trivial

theorem settleResult_ok {σ : Type} (env : Env σ) (t : String) (ret : TestFnReturn)
    (out : String) (w : σ) (result : Option Result)
    (h : (settleResult env t ret out w).1 = .ok result) :
    (ret.err = none ∧ ret.result = result) ∨ ∃ r, result = some r ∧ r.Status.fromError := by
  unfold settleResult at h
  simp only at h
  split at h
  · rename_i hc
    left
    constructor
    · cases he : ret.err with
      | none => rfl
      | some e => simp [checkedError, he] at hc
    · simpa using h
  · split at h
    · cases h
    · rename_i r w1 hg
      right
      refine ⟨r, ?_, generateXUnitReportForError_status env t _ _ _ r w1 hg⟩
      simpa using h.symm

theorem runTest_spec {σ : Type} (env : Env σ) (opts : List Opt) (outputFile : Option String)
    (t : String) (s : RunState σ) (f : TestFn σ) (hf : mapGet env.testFunctions t = some f) :
    Invoked t (f t opts s.world).1 s (runTest env opts outputFile t s).2 ∧
      ((runTest env opts outputFile t s).1 = none →
        ∃ res, (runTest env opts outputFile t s).2.results = mapSet s.results t (some res) ∧
          Settles (f t opts s.world).1 res) := by
  have h1 := reportTimedOut_sameMarks env t (f t opts s.world).1
    { s with world := (f t opts s.world).2,
             trace := s.trace ++ [.invoke t s.results (f t opts s.world).1] }
  have hinv : invocations (s.trace ++ [Event.invoke t s.results (f t opts s.world).1])
      = invocations s.trace ++ [(t, s.results, (f t opts s.world).1)] := by
    simp [invocations_append, invocations]
  have hsk : skips (s.trace ++ [Event.invoke t s.results (f t opts s.world).1])
      = skips s.trace := by
    simp [skips_append, skips]
  simp only [runTest, hf]
  split
  · refine ⟨⟨?_, ?_, ?_⟩, ?_⟩
    · exact h1.invocations.trans hinv
    · exact h1.skips.trans hsk
    · exact h1.iterations
    · intro h; cases h
  · rename_i result hs
    generalize hout : settledOutput env t (f t opts s.world).1 _ _ = out
    generalize hworld : (settleResult env t (f t opts s.world).1 _ _).2 = world
    have h2 := writeOutput_sameMarks env outputFile out
      { reportTimedOut env t (f t opts s.world).1
          { s with world := (f t opts s.world).2,
                   trace := s.trace ++ [.invoke t s.results (f t opts s.world).1] } with
        world := world,
        results := mapSet (reportTimedOut env t (f t opts s.world).1
            { s with world := (f t opts s.world).2,
                     trace := s.trace ++ [.invoke t s.results (f t opts s.world).1] }).results
          t result }
    have hmarks : Invoked t (f t opts s.world).1 s (writeOutput env outputFile out
        { reportTimedOut env t (f t opts s.world).1
            { s with world := (f t opts s.world).2,
                     trace := s.trace ++ [.invoke t s.results (f t opts s.world).1] } with
          world := world,
          results := mapSet (reportTimedOut env t (f t opts s.world).1
              { s with world := (f t opts s.world).2,
                       trace := s.trace ++ [.invoke t s.results (f t opts s.world).1] }).results
            t result }).2 :=
      ⟨h2.invocations.trans (h1.invocations.trans hinv), h2.skips.trans (h1.skips.trans hsk),
        h2.iterations.trans h1.iterations⟩
    split
    · exact ⟨hmarks, fun h => by cases h⟩
    · split
      · exact ⟨hmarks, fun h => by cases h⟩
      · rename_i res _
        refine ⟨hmarks, fun _ => ⟨res, ?_, ?_⟩⟩
        · rw [h2.results]
          show mapSet _ t (some res) = _
          rw [h1.results]
        · rcases settleResult_ok env t _ _ _ _ hs with h3 | ⟨r, h3, h4⟩
          · exact Or.inl h3
          · cases h3; exact Or.inr h4

theorem Invoked.of_sameMarks_left {σ : Type} {t : String} {ret : TestFnReturn}
    {s s0 s1 : RunState σ} (h0 : SameMarks s s0) (h : Invoked t ret s0 s1) :
    Invoked t ret s s1 :=
  ⟨by rw [h.invocations, h0.invocations, h0.results], h.skips.trans h0.skips,
    h.iterations.trans h0.iterations⟩

theorem Invoked.of_sameMarks_right {σ : Type} {t : String} {ret : TestFnReturn}
    {s s1 s2 : RunState σ} (h : Invoked t ret s s1) (h2 : SameMarks s1 s2) :
    Invoked t ret s s2 :=
  ⟨h2.invocations.trans h.invocations, h2.skips.trans h.skips,
    h2.iterations.trans h.iterations⟩

theorem runTestsLoop_single {σ : Type} (env : Env σ) (opts : List Opt)
    (outputFile : Option String) (t : String) (s : RunState σ) :
    runTestsLoop env opts outputFile [t] s = runTest env opts outputFile t s := by
  simp only [runTestsLoop]
  split
  · rename_i h; exact h.symm
  · rename_i h; exact h.symm

theorem runTestsBody_single {σ : Type} (env : Env σ) (opts : List Opt) (outputDir : String)
    (outputFile : Option String) (t : String) (s : RunState σ) :
    (mapGet env.testFunctions t = none ∧
      runTestsBody env opts outputDir outputFile [t] s =
        (some (.error (.errorf ("test " ++ t ++ " does not exist"))), s)) ∨
    ∃ f, mapGet env.testFunctions t = some f ∧
      Invoked t (f t opts s.world).1 s (runTestsBody env opts outputDir outputFile [t] s).2 ∧
      ((runTestsBody env opts outputDir outputFile [t] s).1 = none →
        ∃ res, (runTestsBody env opts outputDir outputFile [t] s).2.results
            = mapSet s.results t (some res) ∧ Settles (f t opts s.world).1 res) := by
  cases hf : mapGet env.testFunctions t with
  | none =>
    left
    simp [runTestsBody, List.find?, hf]
  | some f =>
    right
    refine ⟨f, rfl, ?_⟩
    obtain ⟨hinv, hres⟩ := runTest_spec env opts outputFile t s f hf
    simp only [runTestsBody, List.find?, hf, Option.isNone_some, runTestsLoop_single]
    split
    · rename_i f1 s1 hrun
      rw [hrun] at hinv
      exact ⟨hinv, fun h => by cases h⟩
    · rename_i s1 hrun
      rw [hrun] at hinv hres
      have hw := writeResults_sameMarks env outputDir s1
      refine ⟨hinv.of_sameMarks_right hw, fun _ => ?_⟩
      obtain ⟨res, h1, h2⟩ := hres rfl
      exact ⟨res, hw.results.trans h1, h2⟩

theorem collectError_eq_none {closeErr : Option GoError} {e : Option Failure}
    (h : collectError closeErr e = none) : e = none := by
  unfold collectError at h
  split at h
  · cases h
  · exact h

theorem runTests_single {σ : Type} (env : Env σ) (t : String) (opts : List Opt)
    (s : RunState σ) :
    (SameMarks s (runTests env [t] opts s).2 ∧ (runTests env [t] opts s).1 ≠ none) ∨
    ∃ f w, mapGet env.testFunctions t = some f ∧
      Invoked t (f t opts w).1 s (runTests env [t] opts s).2 ∧
      ((runTests env [t] opts s).1 = none →
        ∃ res, (runTests env [t] opts s).2.results = mapSet s.results t (some res) ∧
          Settles (f t opts w).1 res) := by
  unfold runTests
  simp only
  split
  · split
    · left
      exact ⟨⟨rfl, rfl, rfl, rfl⟩, by simp⟩
    · rename_i w hcreate
      rcases runTestsBody_single env opts (outputDirOf opts)
        (some (env.Join (outputDirOf opts) "output")) t
        { s with world := w } with ⟨hf, hbody⟩ | ⟨f, hf, hinv, hres⟩
      · left
        rw [hbody]
        exact ⟨⟨rfl, rfl, rfl, rfl⟩, by simp [collectError]⟩
      · right
        have h0 : SameMarks s { s with world := w } := ⟨rfl, rfl, rfl, rfl⟩
        have h1 : Invoked t (f t opts w).1 s _ := Invoked.of_sameMarks_left h0 hinv
        refine ⟨f, w, hf, ?_, ?_⟩
        · dsimp only
          exact Invoked.of_sameMarks_right h1 ⟨rfl, rfl, rfl, rfl⟩
        · intro h
          exact hres (collectError_eq_none h)
  · rcases runTestsBody_single env opts (outputDirOf opts) none t
      { s with world := applyCleanGo env opts s.world } with ⟨hf, hbody⟩ | ⟨f, hf, hinv, hres⟩
    · left
      rw [hbody]
      exact ⟨⟨rfl, rfl, rfl, rfl⟩, by simp⟩
    · right
      have h0 : SameMarks s { s with world := applyCleanGo env opts s.world } :=
        ⟨rfl, rfl, rfl, rfl⟩
      have h1 : Invoked t (f t opts (applyCleanGo env opts s.world)).1 s _ :=
        Invoked.of_sameMarks_left h0 hinv
      exact ⟨f, _, hf, h1, hres⟩

/-! ## One pass of the scheduling loop -/

theorem statusOf_mapSet (results : ResultMap) (t n : String) (res : Result) :
    statusOf (mapSet results t (some res)) n
      = if t = n then some res.Status else statusOf results n := by
  unfold statusOf
  rw [mapGet_mapSet]
  by_cases h : t = n <;> simp [h]

theorem statusOf_eq_some {results : ResultMap} {t : String} {st : Status}
    (h : statusOf results t = some st) :
    ∃ r, mapGet results t = some (some r) ∧ r.Status = st := by
  unfold statusOf at h
  split at h
  · rename_i r hr
    exact ⟨r, hr, by simpa using h⟩
  · cases h

theorem checkDeps_ready_true (results : ResultMap) (deps : List String) :
    ∀ b, checkDeps results deps b = .ready true →
      b = true ∧ ∀ d ∈ deps, ∃ st, statusOf results d = some st ∧ st.letsRun = true := by
  induction deps with
  | nil => intro b h; simp only [checkDeps, DepsVerdict.ready.injEq] at h; simp [h]
  | cons dep rest ih =>
    intro b h
    simp only [checkDeps] at h
    cases hd : mapGet results dep with
    | none => simp [hd] at h
    | some o =>
      cases o with
      | none => simp [hd] at h
      | some r =>
        simp only [hd] at h
        have hst : statusOf results dep = some r.Status := by simp [statusOf, hd]
        cases hs : r.Status <;> simp only [hs] at h hst
        · exact absurd (ih false h).1 (by simp)
        · cases h
        · obtain ⟨h1, h2⟩ := ih b h
          exact ⟨h1, fun d hd1 => by
            rcases List.mem_cons.1 hd1 with rfl | hd1
            · exact ⟨_, hst, rfl⟩
            · exact h2 d hd1⟩
        · cases h
        · obtain ⟨h1, h2⟩ := ih b h
          exact ⟨h1, fun d hd1 => by
            rcases List.mem_cons.1 hd1 with rfl | hd1
            · exact ⟨_, hst, rfl⟩
            · exact h2 d hd1⟩
        · obtain ⟨h1, h2⟩ := ih b h
          exact ⟨h1, fun d hd1 => by
            rcases List.mem_cons.1 hd1 with rfl | hd1
            · exact ⟨_, hst, rfl⟩
            · exact h2 d hd1⟩
        · cases h

theorem checkDeps_ready_false (results : ResultMap) (deps : List String) :
    ∀ b, checkDeps results deps b = .ready false →
      b = false ∨ ∃ d ∈ deps, statusOf results d = some .Pending := by
  induction deps with
  | nil => intro b h; simp only [checkDeps, DepsVerdict.ready.injEq] at h; exact Or.inl h
  | cons dep rest ih =>
    intro b h
    simp only [checkDeps] at h
    cases hd : mapGet results dep with
    | none => simp [hd] at h
    | some o =>
      cases o with
      | none => simp [hd] at h
      | some r =>
        simp only [hd] at h
        have hst : statusOf results dep = some r.Status := by simp [statusOf, hd]
        have hmono : (b = false ∨ ∃ d ∈ rest, statusOf results d = some .Pending) →
            b = false ∨ ∃ d ∈ dep :: rest, statusOf results d = some .Pending := by
          rintro (h1 | ⟨d, h1, h2⟩)
          · exact Or.inl h1
          · exact Or.inr ⟨d, List.mem_cons_of_mem _ h1, h2⟩
        cases hs : r.Status <;> simp only [hs] at h hst
        · exact Or.inr ⟨dep, List.mem_cons_self _ _, hst⟩
        · cases h
        · exact hmono (ih b h)
        · cases h
        · exact hmono (ih b h)
        · exact hmono (ih b h)
        · cases h

theorem checkDeps_skip (results : ResultMap) (deps : List String) :
    ∀ b, checkDeps results deps b = .skip →
      ∃ d ∈ deps, ∃ st, statusOf results d = some st ∧ st.blocks = true := by
  induction deps with
  | nil => intro b h; simp [checkDeps] at h
  | cons dep rest ih =>
    intro b h
    simp only [checkDeps] at h
    cases hd : mapGet results dep with
    | none => simp [hd] at h
    | some o =>
      cases o with
      | none => simp [hd] at h
      | some r =>
        simp only [hd] at h
        have hst : statusOf results dep = some r.Status := by simp [statusOf, hd]
        have hmono : (∃ d ∈ rest, ∃ st, statusOf results d = some st ∧ st.blocks = true) →
            ∃ d ∈ dep :: rest, ∃ st, statusOf results d = some st ∧ st.blocks = true := by
          rintro ⟨d, h1, h2⟩
          exact ⟨d, List.mem_cons_of_mem _ h1, h2⟩
        cases hs : r.Status <;> simp only [hs] at h hst
        · exact hmono (ih false h)
        · exact ⟨dep, List.mem_cons_self _ _, _, hst, rfl⟩
        · exact hmono (ih b h)
        · exact ⟨dep, List.mem_cons_self _ _, _, hst, rfl⟩
        · exact hmono (ih b h)
        · exact hmono (ih b h)
        · exact ⟨dep, List.mem_cons_self _ _, _, hst, rfl⟩

theorem checkDeps_panic (results : ResultMap) (deps : List String) :
    ∀ b, checkDeps results deps b = .panic → ∃ d ∈ deps, statusOf results d = none := by
  induction deps with
  | nil => intro b h; simp [checkDeps] at h
  | cons dep rest ih =>
    intro b h
    simp only [checkDeps] at h
    have hmono : (∃ d ∈ rest, statusOf results d = none) →
        ∃ d ∈ dep :: rest, statusOf results d = none := by
      rintro ⟨d, h1, h2⟩
      exact ⟨d, List.mem_cons_of_mem _ h1, h2⟩
    cases hd : mapGet results dep with
    | none => exact ⟨dep, List.mem_cons_self _ _, by simp [statusOf, hd]⟩
    | some o =>
      cases o with
      | none => exact ⟨dep, List.mem_cons_self _ _, by simp [statusOf, hd]⟩
      | some r =>
        simp only [hd] at h
        cases hs : r.Status <;> simp only [hs] at h
        · exact hmono (ih false h)
        · cases h
        · exact hmono (ih b h)
        · cases h
        · exact hmono (ih b h)
        · exact hmono (ih b h)
        · cases h

theorem scanTests_spec {σ : Type} (env : Env σ) (opts : List Opt) (graph : testDepGraph)
    (s : RunState σ) (l : List String) :
    (scanTests env opts graph l s = .exhausted s ∧ ∀ t ∈ l, Waits graph s.results t) ∨
    (scanTests env opts graph l s = .fail .panic s ∧ ∃ t ∈ l, PanicAt graph s.results t) ∨
    (∃ t ∈ l, Acts env opts graph s t (scanTests env opts graph l s)) := by
  induction l with
  | nil => left; simp [scanTests]
  | cons t rest ih =>
    have hpass : Waits graph s.results t →
        scanTests env opts graph (t :: rest) s = scanTests env opts graph rest s →
        (scanTests env opts graph (t :: rest) s = .exhausted s ∧
            ∀ x ∈ t :: rest, Waits graph s.results x) ∨
          (scanTests env opts graph (t :: rest) s = .fail .panic s ∧
            ∃ x ∈ t :: rest, PanicAt graph s.results x) ∨
          (∃ x ∈ t :: rest, Acts env opts graph s x (scanTests env opts graph (t :: rest) s)) := by
      intro hw heq
      rw [heq]
      rcases ih with ⟨h1, h2⟩ | ⟨h1, x, h2, h3⟩ | ⟨x, h1, h2⟩
      · left
        refine ⟨h1, ?_⟩
        intro x hx
        rcases List.mem_cons.1 hx with rfl | hx
        · exact hw
        · exact h2 x hx
      · right; left
        exact ⟨h1, x, List.mem_cons_of_mem _ h2, h3⟩
      · right; right
        exact ⟨x, List.mem_cons_of_mem _ h1, h2⟩
    cases hr : mapGet s.results t with
    | none =>
      right; left
      exact ⟨by simp [scanTests, hr], t, List.mem_cons_self _ _, Or.inl (by simp [statusOf, hr])⟩
    | some o =>
      cases o with
      | none =>
        right; left
        exact ⟨by simp [scanTests, hr], t, List.mem_cons_self _ _,
          Or.inl (by simp [statusOf, hr])⟩
      | some result =>
        have hst : statusOf s.results t = some result.Status := by simp [statusOf, hr]
        by_cases hp : result.Status = .Pending
        · rw [hp] at hst
          cases hg : mapGet graph t with
          | none =>
            right; left
            exact ⟨by simp [scanTests, hr, hp, hg], t, List.mem_cons_self _ _,
              Or.inr ⟨hst, Or.inl hg⟩⟩
          | some node =>
            cases hc : checkDeps s.results node.deps true with
            | skip =>
              right; right
              refine ⟨t, List.mem_cons_self _ _, ?_⟩
              have : scanTests env opts graph (t :: rest) s
                  = .continueRun (markSkipped s t result) := by
                simp [scanTests, hr, hp, hg, hc, markSkipped]
              rw [this]
              exact Acts.skip result node hr hp hg hc
            | panic =>
              right; left
              exact ⟨by simp [scanTests, hr, hp, hg, hc], t, List.mem_cons_self _ _,
                Or.inr ⟨hst, Or.inr ⟨node, hg, hc⟩⟩⟩
            | ready b =>
              cases b with
              | false =>
                apply hpass ⟨_, hst, Or.inr ⟨node, hg, hc⟩⟩
                simp [scanTests, hr, hp, hg, hc]
              | true =>
                right; right
                refine ⟨t, List.mem_cons_self _ _, ?_⟩
                cases hrun : runTests env [t] opts s with
                | mk e s1 =>
                  cases e with
                  | none =>
                    have : scanTests env opts graph (t :: rest) s = .continueRun s1 := by
                      simp [scanTests, hr, hp, hg, hc, hrun]
                    rw [this]
                    exact Acts.ran node s1 hst hg hc hrun
                  | some f =>
                    have : scanTests env opts graph (t :: rest) s = .fail f s1 := by
                      simp [scanTests, hr, hp, hg, hc, hrun]
                    rw [this]
                    exact Acts.failed node f s1 hst hg hc hrun
        · apply hpass ⟨_, hst, Or.inl hp⟩
          simp [scanTests, hr, hp]

/-! ## Invariants of the scheduling loop -/

theorem Extends.extends_refl (r : ResultMap) : Extends r r := fun _ _ h _ => h

theorem Extends.extends_trans {r1 r2 r3 : ResultMap} (h1 : Extends r1 r2) (h2 : Extends r2 r3) :
    Extends r1 r3 := fun n st h hp => h2 n st (h1 n st h hp) hp

theorem Extends.extends_mapSet {r : ResultMap} {t : String} (res : Result)
    (h : statusOf r t = some .Pending) : Extends r (mapSet r t (some res)) := by
  intro n st hn hp
  rw [statusOf_mapSet]
  by_cases hk : t = n
  · subst hk
    rw [h] at hn
    cases hn
    exact absurd rfl hp
  · simp [hk, hn]

theorem letsRun_not_blocks {st : Status} (h : st.letsRun = true) : st.blocks = false := by
  cases st <;> simp_all [Status.letsRun, Status.blocks]

theorem letsRun_ne_pending {st : Status} (h : st.letsRun = true) : st ≠ .Pending := by
  cases st <;> simp_all [Status.letsRun]

theorem Sched.sched_skip {graph : testDepGraph} {inv : List (String × ResultMap × TestFnReturn)}
    {sk : List String} {results : ResultMap} (h : Sched graph inv sk results)
    (t : String) (result : Result) (node : testNode)
    (hp : statusOf results t = some .Pending) (hg : mapGet graph t = some node)
    (hc : checkDeps results node.deps true = .skip) :
    Sched graph inv (sk ++ [t]) (mapSet results t (some { result with Status := .Skipped })) := by
  have hext := Extends.extends_mapSet { result with Status := .Skipped } hp
  refine ⟨⟨h.traceOK.pending, h.traceOK.deps, h.traceOK.order, ?_⟩, ?_, ?_, ?_⟩
  · intro x hx
    rcases List.mem_append.1 hx with hx | hx
    · exact h.traceOK.apart x hx
    · have hxt : x = t := by simpa using hx
      subst hxt
      intro hmem
      obtain ⟨⟨t1, snap, ret⟩, hmem1, ht1⟩ := List.mem_map.1 hmem
      simp only at ht1
      subst ht1
      obtain ⟨d, hd, st, hst, hb⟩ := checkDeps_skip results node.deps true hc
      obtain ⟨node1, hg1, hdeps1⟩ := h.traceOK.deps t1 snap ret hmem1
      rw [hg] at hg1
      cases hg1
      obtain ⟨st1, hst1, hl⟩ := hdeps1 d hd
      have := h.ext t1 snap ret hmem1 d st1 hst1 (letsRun_ne_pending hl)
      rw [hst] at this
      cases this
      rw [letsRun_not_blocks hl] at hb
      cases hb
  · intro x snap ret hx
    exact (h.ext x snap ret hx).extends_trans hext
  · intro x hx
    rw [statusOf_mapSet]
    by_cases hk : t = x
    · simp [hk]
    · rcases List.mem_append.1 hx with hx | hx
      · simp [hk, h.skipped x hx]
      · exact absurd (by simpa using hx : x = t).symm hk
  · intro x st hx hst
    rw [statusOf_mapSet] at hx
    by_cases hk : t = x
    · right; rw [← hk]; simp
    · simp only [hk, if_false] at hx
      rcases h.settled x st hx hst with h1 | h1
      · exact Or.inl h1
      · exact Or.inr (List.mem_append_left _ h1)

theorem Sched.invoke_traceOK {graph : testDepGraph}
    {inv : List (String × ResultMap × TestFnReturn)}
    {sk : List String} {results : ResultMap} (h : Sched graph inv sk results)
    (t : String) (ret : TestFnReturn) (node : testNode)
    (hp : statusOf results t = some .Pending) (hg : mapGet graph t = some node)
    (hc : checkDeps results node.deps true = .ready true) :
    TraceOK graph (inv ++ [(t, results, ret)]) sk := by
  refine ⟨?_, ?_, ?_, ?_⟩
  · intro x snap r hx
    rcases List.mem_append.1 hx with hx | hx
    · exact h.traceOK.pending x snap r hx
    · simp only [List.mem_singleton, Prod.mk.injEq] at hx
      obtain ⟨rfl, rfl, rfl⟩ := hx
      exact hp
  · intro x snap r hx
    rcases List.mem_append.1 hx with hx | hx
    · exact h.traceOK.deps x snap r hx
    · simp only [List.mem_singleton, Prod.mk.injEq] at hx
      obtain ⟨rfl, rfl, rfl⟩ := hx
      exact ⟨node, hg, (checkDeps_ready_true _ _ true hc).2⟩
  · rw [List.pairwise_append]
    refine ⟨h.traceOK.order, List.pairwise_singleton _ _, ?_⟩
    intro a ha b hb
    simp only [List.mem_singleton] at hb
    subst hb
    exact h.ext a.1 a.2.1 a.2.2 ha
  · intro x hx hmem
    rw [List.map_append, List.mem_append] at hmem
    rcases hmem with hmem | hmem
    · exact h.traceOK.apart x hx hmem
    · have hxt : x = t := by simpa using hmem
      subst hxt
      have := h.skipped x hx
      rw [hp] at this
      cases this

theorem Sched.sched_invoke {graph : testDepGraph}
    {inv : List (String × ResultMap × TestFnReturn)}
    {sk : List String} {results : ResultMap} (h : Sched graph inv sk results)
    (t : String) (ret : TestFnReturn) (res : Result) (node : testNode)
    (hp : statusOf results t = some .Pending) (hg : mapGet graph t = some node)
    (hc : checkDeps results node.deps true = .ready true) :
    Sched graph (inv ++ [(t, results, ret)]) sk (mapSet results t (some res)) := by
  have hext := Extends.extends_mapSet res hp
  refine ⟨h.invoke_traceOK t ret node hp hg hc, ?_, ?_, ?_⟩
  · intro x snap r hx
    rcases List.mem_append.1 hx with hx | hx
    · exact (h.ext x snap r hx).extends_trans hext
    · simp only [List.mem_singleton, Prod.mk.injEq] at hx
      obtain ⟨rfl, rfl, rfl⟩ := hx
      exact hext
  · intro x hx
    rw [statusOf_mapSet]
    by_cases hk : t = x
    · subst hk
      have := h.skipped t hx
      rw [hp] at this
      cases this
    · simp [hk, h.skipped x hx]
  · intro x st hx hst
    rw [statusOf_mapSet] at hx
    by_cases hk : t = x
    · left; rw [← hk]; simp
    · simp only [hk, if_false] at hx
      rcases h.settled x st hx hst with h1 | h1
      · left; rw [List.map_append]; exact List.mem_append_left _ h1
      · exact Or.inr h1

theorem runLoop_sched {σ : Type} (env : Env σ) (opts : List Opt) (graph : testDepGraph)
    (tests : List String) :
    ∀ (n : Nat) (s : RunState σ),
      Sched graph (invocations s.trace) (skips s.trace) s.results →
      TraceOK graph (invocations (runLoop env opts graph tests n s).2.trace)
          (skips (runLoop env opts graph tests n s).2.trace) ∧
        ((runLoop env opts graph tests n s).1 = none →
          Sched graph (invocations (runLoop env opts graph tests n s).2.trace)
              (skips (runLoop env opts graph tests n s).2.trace)
              (runLoop env opts graph tests n s).2.results ∧
            (runLoop env opts graph tests n s).2.iterations = s.iterations + n) := by
  intro n
  induction n with
  | zero =>
    intro s h
    simp only [runLoop]
    exact ⟨h.traceOK, fun _ => ⟨h, rfl⟩⟩
  | succ n ih =>
    intro s h
    have h' : Sched graph (invocations { s with iterations := s.iterations + 1 }.trace)
        (skips { s with iterations := s.iterations + 1 }.trace)
        { s with iterations := s.iterations + 1 }.results := h
    rcases scanTests_spec env opts graph { s with iterations := s.iterations + 1 } tests with
      ⟨h1, -⟩ | ⟨h1, -⟩ | ⟨t, -, hacts⟩
    · simp only [runLoop, h1]
      exact ⟨h.traceOK, fun hn => by cases hn⟩
    · simp only [runLoop, h1]
      exact ⟨h.traceOK, fun hn => by cases hn⟩
    · generalize hout : scanTests env opts graph tests { s with iterations := s.iterations + 1 }
        = out at hacts
      cases hacts with
      | skip result node hr hp hg hc =>
        have hpend : statusOf s.results t = some .Pending := by
          simp only [statusOf]
          rw [show mapGet s.results t = some (some result) from hr]
          simp [hp]
        have hs := h.sched_skip t result node hpend hg hc
        have hs1 : Sched graph
            (invocations (markSkipped { s with iterations := s.iterations + 1 } t result).trace)
            (skips (markSkipped { s with iterations := s.iterations + 1 } t result).trace)
            (markSkipped { s with iterations := s.iterations + 1 } t result).results := by
          simp only [markSkipped, invocations_append, skips_append]
          simpa [invocations, skips] using hs
        obtain ⟨ih1, ih2⟩ := ih _ hs1
        simp only [runLoop, hout]
        refine ⟨ih1, fun hn => ?_⟩
        obtain ⟨ih3, ih4⟩ := ih2 hn
        refine ⟨ih3, ?_⟩
        rw [ih4]
        simp only [markSkipped]
        omega
      | ran node s1 hp hg hc hrun =>
        rcases runTests_single env t opts { s with iterations := s.iterations + 1 } with
          ⟨-, hne⟩ | ⟨f, w, -, hinv, hres⟩
        · rw [hrun] at hne
          exact absurd rfl hne
        · rw [hrun] at hinv hres
          obtain ⟨res, hres1, -⟩ := hres rfl
          have hs1 : Sched graph (invocations s1.trace) (skips s1.trace) s1.results := by
            rw [hinv.invocations, hinv.skips, hres1]
            exact h.sched_invoke t _ res node hp hg hc
          obtain ⟨ih1, ih2⟩ := ih _ hs1
          simp only [runLoop, hout]
          refine ⟨ih1, fun hn => ?_⟩
          obtain ⟨ih3, ih4⟩ := ih2 hn
          refine ⟨ih3, ?_⟩
          rw [ih4, hinv.iterations]
          simp only
          omega
      | failed node f s1 hp hg hc hrun =>
        simp only [runLoop, hout]
        refine ⟨?_, fun hn => by cases hn⟩
        rcases runTests_single env t opts { s with iterations := s.iterations + 1 } with
          ⟨hsame, -⟩ | ⟨f1, w, -, hinv, -⟩
        · rw [hrun] at hsame
          rw [hsame.invocations, hsame.skips]
          exact h.traceOK
        · rw [hrun] at hinv
          rw [hinv.invocations, hinv.skips]
          exact h.invoke_traceOK t _ node hp hg hc

/-! ## Runs of `RunProjectTests` -/

theorem mapGet_initResults_from (l : List String) (t : String) :
    ∀ acc : ResultMap,
      mapGet (l.foldl (fun results t => mapSet results t (some {})) acc) t
        = if t ∈ l then some (some {}) else mapGet acc t := by
  induction l with
  | nil => intro acc; simp
  | cons x rest ih =>
    intro acc
    simp only [List.foldl_cons, ih, mapGet_mapSet]
    by_cases h1 : t ∈ rest
    · simp [h1]
    · by_cases h2 : x = t
      · subst h2; simp
      · have h3 : ¬ t = x := fun h => h2 h.symm
        simp [h1, h2, h3]

theorem statusOf_initResults (tests : List String) (t : String) :
    statusOf (initResults tests) t = if t ∈ tests then some .Pending else none := by
  unfold statusOf initResults
  rw [mapGet_initResults_from]
  by_cases h : t ∈ tests <;> simp [h, mapGet]

theorem sched_init (graph : testDepGraph) (tests : List String) :
    Sched graph (invocations []) (skips []) (initResults tests) := by
  refine ⟨⟨?_, ?_, ?_, ?_⟩, ?_, ?_, ?_⟩
  · intro t snap ret h; simp [invocations] at h
  · intro t snap ret h; simp [invocations] at h
  · simp [invocations]
  · intro t h; simp [skips] at h
  · intro t snap ret h; simp [invocations] at h
  · intro t h; simp [skips] at h
  · intro t st h hp
    rw [statusOf_initResults] at h
    by_cases ht : t ∈ tests
    · simp only [ht, if_true, Option.some.injEq] at h
      exact absurd h.symm hp
    · simp [ht] at h

theorem RunProjectTests_eq {σ : Type} (env : Env σ) (projects : List String)
    (opts : List Opt) (order : List String) (w : σ) (config : Config) (graph : testDepGraph)
    (hload : env.LoadConfig w = .ok config) (hne : config.ProjectTests projects ≠ [])
    (hgraph : createTestDepGraph config (sortStrings (config.ProjectTests projects)) order
      = .ok graph) :
    (RunProjectTests env projects opts order w).trace
        = (runLoop env opts graph (sortStrings (config.ProjectTests projects)) graph.length
            { results := initResults (sortStrings (config.ProjectTests projects)),
              world := w }).2.trace ∧
      (RunProjectTests env projects opts order w).iterations
        = (runLoop env opts graph (sortStrings (config.ProjectTests projects)) graph.length
            { results := initResults (sortStrings (config.ProjectTests projects)),
              world := w }).2.iterations ∧
      (RunProjectTests env projects opts order w).ret
        = match (runLoop env opts graph (sortStrings (config.ProjectTests projects))
            graph.length
            { results := initResults (sortStrings (config.ProjectTests projects)),
              world := w }) with
          | (some f, _) => .error f
          | (none, s) => .ok (some s.results) := by
  have hlen : ¬ (config.ProjectTests projects).length = 0 := by
    rw [List.length_eq_zero]; exact hne
  simp only [RunProjectTests, hload, hlen, if_false, hgraph]
  split <;> simp_all

theorem RunProjectTests_early {σ : Type} (env : Env σ) (projects : List String)
    (opts : List Opt) (order : List String) (w : σ) :
    ((RunProjectTests env projects opts order w).trace = [] ∧
      (RunProjectTests env projects opts order w).iterations = 0 ∧
      ∀ results, (RunProjectTests env projects opts order w).ret ≠ .ok (some results)) ∨
    ∃ config graph, env.LoadConfig w = .ok config ∧ config.ProjectTests projects ≠ [] ∧
      createTestDepGraph config (sortStrings (config.ProjectTests projects)) order
        = .ok graph := by
  cases hload : env.LoadConfig w with
  | error e => left; simp [RunProjectTests, hload]
  | ok config =>
    by_cases hne : (config.ProjectTests projects).length = 0
    · left; simp [RunProjectTests, hload, hne]
    · cases hgraph : createTestDepGraph config (sortStrings (config.ProjectTests projects))
        order with
      | error f => left; simp [RunProjectTests, hload, hne, hgraph]
      | ok graph =>
        right
        exact ⟨config, graph, rfl, by rwa [List.length_eq_zero] at hne, hgraph⟩

theorem mem_invocations (trace : List Event) (t : String) (snap : ResultMap)
    (ret : TestFnReturn) :
    (t, snap, ret) ∈ invocations trace ↔ Event.invoke t snap ret ∈ trace := by
  unfold invocations
  rw [List.mem_filterMap]
  constructor
  · rintro ⟨e, he, h⟩
    cases e <;> simp at h
    obtain ⟨rfl, rfl, rfl⟩ := h
    exact he
  · intro h
    exact ⟨_, h, rfl⟩

theorem mem_skips (trace : List Event) (t : String) :
    t ∈ skips trace ↔ Event.markSkipped t ∈ trace := by
  unfold skips
  rw [List.mem_filterMap]
  constructor
  · rintro ⟨e, he, h⟩
    cases e <;> simp at h
    subst h
    exact he
  · intro h
    exact ⟨_, h, rfl⟩

theorem graph_deps (config : Config) (tests order : List String) (graph : testDepGraph)
    (h : createTestDepGraph config tests order = .ok graph) (t : String) (node : testNode)
    (hn : mapGet graph t = some node) (d : String) :
    d ∈ node.deps ↔ d ∈ config.TestDependencies t ∧ d ∈ tests := by
  obtain ⟨hkeys, -, hnodes⟩ := graph_nodes config tests order graph h
  have ht : t ∈ tests := (hkeys t).1 ((mapGet_isSome_iff graph t).1 ⟨node, hn⟩)
  obtain ⟨node1, hn1, hd⟩ := hnodes t ht
  rw [hn] at hn1
  cases hn1
  rw [hd, List.mem_filter]
  simp

theorem RunProjectTests_traceOK {σ : Type} (env : Env σ) (projects : List String)
    (opts : List Opt) (order : List String) (w : σ) :
    (RunProjectTests env projects opts order w).trace = [] ∨
    ∃ config graph, env.LoadConfig w = .ok config ∧
      createTestDepGraph config (sortStrings (config.ProjectTests projects)) order
        = .ok graph ∧
      TraceOK graph (invocations (RunProjectTests env projects opts order w).trace)
        (skips (RunProjectTests env projects opts order w).trace) := by
  rcases RunProjectTests_early env projects opts order w with
    ⟨h, -, -⟩ | ⟨config, graph, hload, hne, hgraph⟩
  · exact Or.inl h
  · right
    refine ⟨config, graph, hload, hgraph, ?_⟩
    obtain ⟨htrace, -, -⟩ := RunProjectTests_eq env projects opts order w config graph
      hload hne hgraph
    rw [htrace]
    exact (runLoop_sched env opts graph _ graph.length _ (sched_init graph _)).1

/-- C2. In every run of `RunProjectTests`, at the moment the function of a
test `t` is invoked every dependency `d` of `t` that is a target test has a
status, and it is not `Pending`; `d` is another test than `t`, and no
invocation of the function of `d` follows that invocation of `t` in the
record of the run: the function of `d`, if it runs at all, runs before. -/
theorem dependencies_settled_before_invocation {σ : Type} (env : Env σ)
    (projects : List String) (opts : List Opt) (order : List String) (w : σ)
    (config : Config) (hload : env.LoadConfig w = .ok config)
    (t d : String) (snap : ResultMap) (ret : TestFnReturn)
    (hinv : Event.invoke t snap ret ∈ (RunProjectTests env projects opts order w).trace)
    (hdep : d ∈ config.TestDependencies t) (htarget : d ∈ config.ProjectTests projects) :
    (∃ st, statusOf snap d = some st ∧ st ≠ .Pending) ∧ d ≠ t ∧
    ∀ pre post,
      (RunProjectTests env projects opts order w).trace = pre ++ Event.invoke t snap ret :: post →
      ∀ snap1 ret1, Event.invoke d snap1 ret1 ∉ post := by
  rcases RunProjectTests_traceOK env projects opts order w with
    h | ⟨config1, graph, hload1, hgraph, hok⟩
  · rw [h] at hinv; cases hinv
  · rw [hload] at hload1
    cases hload1
    obtain ⟨node, hn, hdeps⟩ := hok.deps t snap ret ((mem_invocations _ _ _ _).2 hinv)
    have hd : d ∈ node.deps :=
      (graph_deps config _ order graph hgraph t node hn d).2
        ⟨hdep, (mem_sortStrings _ d).2 htarget⟩
    obtain ⟨st, hst, hl⟩ := hdeps d hd
    refine ⟨⟨st, hst, letsRun_ne_pending hl⟩, ?_, ?_⟩
    · intro hdt
      subst hdt
      have := hok.pending d snap ret ((mem_invocations _ _ _ _).2 hinv)
      rw [hst] at this
      cases this
      exact absurd hl (by simp [Status.letsRun])
    intro pre post htrace snap1 ret1 hpost
    have hord := hok.order
    rw [htrace, invocations_append] at hord
    have hcons : invocations (Event.invoke t snap ret :: post)
        = (t, snap, ret) :: invocations post := by
      simp [invocations]
    rw [hcons, List.pairwise_append] at hord
    have hext : Extends snap snap1 :=
      (List.pairwise_cons.1 hord.2.1).1 (d, snap1, ret1) ((mem_invocations _ _ _ _).2 hpost)
    have hpend : statusOf snap1 d = some .Pending := by
      apply hok.pending d snap1 ret1
      rw [mem_invocations, htrace]
      exact List.mem_append_right _ (List.mem_cons_of_mem _ hpost)
    have := hext d st hst (letsRun_ne_pending hl)
    rw [hpend] at this
    cases this
    exact absurd hl (by simp [Status.letsRun])

/-- C2, on the tests `A` and `B` of `chainConfig`, both passing: when the
function of `B` is invoked, `A` has the status `Passed`. -/
theorem dependencies_settled_before_invocation_witness :
    Event.invoke "B" [("A", some { Status := .Passed }), ("B", some {})]
        { result := some { Status := .Passed } } ∈
      (RunProjectTests (quietEnv [("A", returning .Passed), ("B", returning .Passed)]
        chainConfig) ["p"] [] ["A", "B"] ()).trace ∧
    ∃ st, statusOf [("A", some { Status := .Passed }), ("B", some {})] "A" = some st ∧
      st ≠ .Pending :=
  ⟨by decide,
    (dependencies_settled_before_invocation
      (quietEnv [("A", returning .Passed), ("B", returning .Passed)] chainConfig)
      ["p"] [] ["A", "B"] () chainConfig rfl "B" "A"
      [("A", some { Status := .Passed }), ("B", some {})]
      { result := some { Status := .Passed } } (by decide) (by decide) (by decide)).1⟩

/-! ## Runs whose test functions return settled results -/

theorem pendingCount_mapSet (results : ResultMap) (t : String) (res : Result)
    (hp : statusOf results t = some .Pending) (hres : res.Status ≠ .Pending) :
    pendingCount (mapSet results t (some res)) + 1 = pendingCount results := by
  induction results with
  | nil => simp [statusOf, mapGet] at hp
  | cons p m ih =>
    obtain ⟨k, v⟩ := p
    by_cases hk : k = t
    · subst hk
      have hv : ∃ r, v = some r ∧ r.Status = .Pending := by
        obtain ⟨r, h1, h2⟩ := statusOf_eq_some hp
        simp only [mapGet, if_true, Option.some.injEq] at h1
        exact ⟨r, h1, h2⟩
      obtain ⟨r, rfl, hr⟩ := hv
      simp [mapSet, pendingCount, List.filter_cons, isPending, hr, hres]
    · have hp1 : statusOf m t = some .Pending := by
        simpa [statusOf, mapGet, hk] using hp
      have := ih hp1
      simp only [pendingCount] at this
      simp only [mapSet, hk, if_false, pendingCount, List.filter_cons]
      cases hb : isPending v
      · simpa using this
      · simp only [if_true, List.length_cons]
        omega

theorem mapGet_mem {β : Type} (m : GoMap β) (k : String) (v : β) (h : mapGet m k = some v) :
    (k, v) ∈ m := by
  induction m with
  | nil => simp [mapGet] at h
  | cons p m ih =>
    obtain ⟨k1, v1⟩ := p
    by_cases hk : k1 = k
    · simp only [mapGet, hk, if_true, Option.some.injEq] at h
      subst hk; subst h
      exact List.mem_cons_self _ _
    · simp only [mapGet, hk, if_false] at h
      exact List.mem_cons_of_mem _ (ih h)

theorem pendingCount_zero (results : ResultMap) (h : pendingCount results = 0) (t : String)
    (st : Status) (hst : statusOf results t = some st) : st ≠ .Pending := by
  obtain ⟨r, h1, h2⟩ := statusOf_eq_some hst
  have hmem := mapGet_mem results t (some r) h1
  unfold pendingCount at h
  rw [List.length_eq_zero, List.filter_eq_nil_iff] at h
  have := h _ hmem
  simp only [isPending, decide_eq_true_eq] at this
  rw [← h2]
  exact this

theorem Keeps.keeps_refl (r : ResultMap) : Keeps r r := fun _ h => h

theorem Keeps.keeps_trans {r1 r2 r3 : ResultMap} (h1 : Keeps r1 r2) (h2 : Keeps r2 r3) :
    Keeps r1 r3 := fun n h => h2 n (h1 n h)

theorem Keeps.keeps_mapSet (r : ResultMap) (t : String) (res : Result) :
    Keeps r (mapSet r t (some res)) := by
  intro n h
  rw [statusOf_mapSet]
  by_cases hk : t = n <;> simp [hk, h]

theorem Done.done_skip {inv : List (String × ResultMap × TestFnReturn)} {results : ResultMap}
    (h : Done inv results) (t : String) (res : Result)
    (hp : statusOf results t = some .Pending) : Done inv (mapSet results t (some res)) := by
  refine ⟨?_, h.nodup⟩
  intro x hx
  obtain ⟨st, hst, hne⟩ := h.done x hx
  refine ⟨st, ?_, hne⟩
  rw [statusOf_mapSet]
  by_cases hk : t = x
  · subst hk
    rw [hp] at hst
    cases hst
    exact absurd rfl hne
  · simp [hk, hst]

theorem Done.not_invoked {inv : List (String × ResultMap × TestFnReturn)}
    {results : ResultMap} (h : Done inv results) (t : String)
    (hp : statusOf results t = some .Pending) : t ∉ inv.map Prod.fst := by
  intro hx
  obtain ⟨st, hst, hne⟩ := h.done t hx
  rw [hp] at hst
  cases hst
  exact hne rfl

theorem Done.invoke_nodup {inv : List (String × ResultMap × TestFnReturn)}
    {results : ResultMap} (h : Done inv results) (t : String) (snap : ResultMap)
    (ret : TestFnReturn) (hp : statusOf results t = some .Pending) :
    ((inv ++ [(t, snap, ret)]).map Prod.fst).Nodup := by
  rw [List.map_append, List.nodup_append]
  refine ⟨h.nodup, by simp, ?_⟩
  intro x hx hx1
  have hxt : x = t := by simpa using hx1
  subst hxt
  exact h.not_invoked x hp hx

theorem Done.done_invoke {inv : List (String × ResultMap × TestFnReturn)}
    {results : ResultMap} (h : Done inv results) (t : String) (snap : ResultMap)
    (ret : TestFnReturn) (res : Result)
    (hp : statusOf results t = some .Pending) (hres : res.Status ≠ .Pending) :
    Done (inv ++ [(t, snap, ret)]) (mapSet results t (some res)) := by
  refine ⟨?_, h.invoke_nodup t snap ret hp⟩
  intro x hx
  rw [statusOf_mapSet]
  by_cases hk : t = x
  · exact ⟨res.Status, by simp [hk], hres⟩
  · rw [List.map_append, List.mem_append] at hx
    rcases hx with hx | hx
    · obtain ⟨st, hst, hne⟩ := h.done x hx
      exact ⟨st, by simp [hk, hst], hne⟩
    · exact absurd (by simpa using hx : x = t).symm hk

theorem fromError_ne_pending {st : Status} (h : st.fromError) : st ≠ .Pending := by
  cases st <;> simp_all [Status.fromError]

theorem Settles.ne_pending {ret : TestFnReturn} {res : Result} (h : Settles ret res)
    (hret : ∀ r, ret.result = some r → r.Status ≠ .Pending) : res.Status ≠ .Pending := by
  rcases h with ⟨-, h1⟩ | h1
  · exact hret res h1
  · exact fromError_ne_pending h1

theorem runLoop_invocations_mono {σ : Type} (env : Env σ) (opts : List Opt)
    (graph : testDepGraph) (tests : List String) :
    ∀ (n : Nat) (s : RunState σ) (x : String × ResultMap × TestFnReturn),
      x ∈ invocations s.trace → x ∈ invocations (runLoop env opts graph tests n s).2.trace := by
  intro n
  induction n with
  | zero => intro s x hx; simpa [runLoop] using hx
  | succ n ih =>
    intro s x hx
    rcases scanTests_spec env opts graph { s with iterations := s.iterations + 1 } tests with
      ⟨h1, -⟩ | ⟨h1, -⟩ | ⟨t, -, hacts⟩
    · simpa [runLoop, h1] using hx
    · simpa [runLoop, h1] using hx
    · generalize hout : scanTests env opts graph tests { s with iterations := s.iterations + 1 }
        = out at hacts
      cases hacts with
      | skip result node hr hp hg hc =>
        simp only [runLoop, hout]
        apply ih
        simp only [markSkipped, invocations_append]
        exact List.mem_append_left _ hx
      | ran node s1 hp hg hc hrun =>
        simp only [runLoop, hout]
        apply ih
        rcases runTests_single env t opts { s with iterations := s.iterations + 1 } with
          ⟨hsame, -⟩ | ⟨f, w, -, hinv, -⟩
        · rw [hrun] at hsame
          rw [hsame.invocations]; exact hx
        · rw [hrun] at hinv
          rw [hinv.invocations]; exact List.mem_append_left _ hx
      | failed node f s1 hp hg hc hrun =>
        simp only [runLoop, hout]
        rcases runTests_single env t opts { s with iterations := s.iterations + 1 } with
          ⟨hsame, -⟩ | ⟨f1, w, -, hinv, -⟩
        · rw [hrun] at hsame
          rw [hsame.invocations]; exact hx
        · rw [hrun] at hinv
          rw [hinv.invocations]; exact List.mem_append_left _ hx

theorem runLoop_done {σ : Type} (env : Env σ) (opts : List Opt) (graph : testDepGraph)
    (tests : List String) :
    ∀ (n : Nat) (s : RunState σ),
      Done (invocations s.trace) s.results →
      ReturnsSettled (runLoop env opts graph tests n s).2.trace →
      (invoked (runLoop env opts graph tests n s).2.trace).Nodup ∧
        ((runLoop env opts graph tests n s).1 = none →
          Done (invocations (runLoop env opts graph tests n s).2.trace)
              (runLoop env opts graph tests n s).2.results ∧
            pendingCount (runLoop env opts graph tests n s).2.results + n
              = pendingCount s.results ∧
            Keeps s.results (runLoop env opts graph tests n s).2.results) := by
  intro n
  induction n with
  | zero =>
    intro s h _
    simp only [runLoop]
    exact ⟨h.nodup, fun _ => ⟨h, rfl, Keeps.keeps_refl _⟩⟩
  | succ n ih =>
    intro s h hsettled
    rcases scanTests_spec env opts graph { s with iterations := s.iterations + 1 } tests with
      ⟨h1, -⟩ | ⟨h1, -⟩ | ⟨t, -, hacts⟩
    · simp only [runLoop, h1]
      exact ⟨h.nodup, fun hn => by cases hn⟩
    · simp only [runLoop, h1]
      exact ⟨h.nodup, fun hn => by cases hn⟩
    · generalize hout : scanTests env opts graph tests { s with iterations := s.iterations + 1 }
        = out at hacts
      cases hacts with
      | skip result node hr hp hg hc =>
        have hpend : statusOf s.results t = some .Pending := by
          simp only [statusOf]
          rw [show mapGet s.results t = some (some result) from hr]
          simp [hp]
        simp only [runLoop, hout] at hsettled ⊢
        have hd : Done
            (invocations (markSkipped { s with iterations := s.iterations + 1 } t result).trace)
            (markSkipped { s with iterations := s.iterations + 1 } t result).results := by
          simp only [markSkipped, invocations_append]
          simpa [invocations] using h.done_skip t { result with Status := .Skipped } hpend
        obtain ⟨ih1, ih2⟩ := ih _ hd hsettled
        refine ⟨ih1, fun hn => ?_⟩
        obtain ⟨ih3, ih4, ih5⟩ := ih2 hn
        refine ⟨ih3, ?_, ?_⟩
        · have := pendingCount_mapSet s.results t { result with Status := .Skipped } hpend
            (by simp)
          have e4 : _ + n
              = pendingCount (mapSet s.results t (some { result with Status := .Skipped })) :=
            ih4
          omega
        · exact (Keeps.keeps_mapSet s.results t { result with Status := .Skipped }).keeps_trans ih5
      | ran node s1 hp hg hc hrun =>
        simp only [runLoop, hout] at hsettled ⊢
        rcases runTests_single env t opts { s with iterations := s.iterations + 1 } with
          ⟨-, hne⟩ | ⟨f, w, -, hinv, hres⟩
        · rw [hrun] at hne
          exact absurd rfl hne
        · rw [hrun] at hinv hres
          obtain ⟨res, hres1, hset⟩ := hres rfl
          have hmem : (t, s.results, (f t opts w).1) ∈ invocations s1.trace := by
            rw [hinv.invocations]; simp
          have hne : res.Status ≠ .Pending :=
            hset.ne_pending (hsettled t _ _
              (runLoop_invocations_mono env opts graph tests n s1 _ hmem))
          have hd : Done (invocations s1.trace) s1.results := by
            rw [hinv.invocations, hres1]
            exact h.done_invoke t _ _ res hp hne
          obtain ⟨ih1, ih2⟩ := ih _ hd hsettled
          refine ⟨ih1, fun hn => ?_⟩
          obtain ⟨ih3, ih4, ih5⟩ := ih2 hn
          refine ⟨ih3, ?_, ?_⟩
          · have := pendingCount_mapSet s.results t res hp hne
            rw [hres1] at ih4
            simp only at ih4
            omega
          · rw [hres1] at ih5
            exact (Keeps.keeps_mapSet s.results t res).keeps_trans ih5
      | failed node f s1 hp hg hc hrun =>
        simp only [runLoop, hout]
        refine ⟨?_, fun hn => by cases hn⟩
        rcases runTests_single env t opts { s with iterations := s.iterations + 1 } with
          ⟨hsame, -⟩ | ⟨f1, w, -, hinv, -⟩
        · rw [hrun] at hsame
          unfold invoked
          rw [hsame.invocations]
          exact h.nodup
        · rw [hrun] at hinv
          unfold invoked
          rw [hinv.invocations]
          exact h.invoke_nodup t _ _ hp

theorem mapKeys_mapSet_congr {β γ : Type} (k : String) (v1 : β) (v2 : γ) :
    ∀ (m1 : GoMap β) (m2 : GoMap γ), mapKeys m1 = mapKeys m2 →
      mapKeys (mapSet m1 k v1) = mapKeys (mapSet m2 k v2) := by
  intro m1
  induction m1 with
  | nil =>
    intro m2 h
    cases m2 with
    | nil => simp [mapSet, mapKeys]
    | cons p m2 => simp [mapKeys] at h
  | cons p m1 ih =>
    intro m2 h
    cases m2 with
    | nil => simp [mapKeys] at h
    | cons q m2 =>
      obtain ⟨k1, w1⟩ := p
      obtain ⟨k2, w2⟩ := q
      simp only [mapKeys, List.map_cons, List.cons.injEq] at h
      obtain ⟨hk, hrest⟩ := h
      subst hk
      by_cases hkk : k1 = k
      · simp [mapSet, mapKeys, hkk, hrest]
      · have := ih m2 hrest
        simp only [mapKeys] at this
        simp [mapSet, mapKeys, hkk, this]

theorem mapKeys_initResults_from (config : Config) (tests todo : List String) :
    ∀ (acc1 : ResultMap) (acc2 : testDepGraph), mapKeys acc1 = mapKeys acc2 →
      mapKeys (todo.foldl (fun results t => mapSet results t (some {})) acc1)
        = mapKeys (buildDepGraphFrom config tests todo acc2) := by
  induction todo with
  | nil => intro acc1 acc2 h; simpa [buildDepGraphFrom] using h
  | cons t rest ih =>
    intro acc1 acc2 h
    simp only [List.foldl_cons, buildDepGraphFrom]
    exact ih _ _ (mapKeys_mapSet_congr t _ _ acc1 acc2 h)

theorem mapKeys_initResults (config : Config) (tests : List String) :
    mapKeys (initResults tests) = mapKeys (buildDepGraph config tests) :=
  mapKeys_initResults_from config tests tests [] [] rfl

theorem mem_mapSet {β : Type} (m : GoMap β) (k : String) (v : β) (p : String × β)
    (h : p ∈ mapSet m k v) : p = (k, v) ∨ p ∈ m := by
  induction m with
  | nil => simpa [mapSet] using h
  | cons q m ih =>
    obtain ⟨k1, v1⟩ := q
    by_cases hk : k1 = k
    · simp only [mapSet, hk, if_true, List.mem_cons] at h
      rcases h with h | h
      · exact Or.inl h
      · exact Or.inr (List.mem_cons_of_mem _ h)
    · simp only [mapSet, hk, if_false, List.mem_cons] at h
      rcases h with h | h
      · exact Or.inr (by rw [h]; exact List.mem_cons_self _ _)
      · rcases ih h with h1 | h1
        · exact Or.inl h1
        · exact Or.inr (List.mem_cons_of_mem _ h1)

theorem initResults_pending_from (l : List String) :
    ∀ acc : ResultMap, (∀ p ∈ acc, isPending p.2 = true) →
      ∀ p ∈ l.foldl (fun results t => mapSet results t (some {})) acc, isPending p.2 = true := by
  induction l with
  | nil => intro acc h; simpa using h
  | cons t rest ih =>
    intro acc h
    simp only [List.foldl_cons]
    apply ih
    intro p hp
    rcases mem_mapSet acc t _ p hp with h1 | h1
    · rw [h1]; rfl
    · exact h p h1

theorem pendingCount_initResults (tests : List String) :
    pendingCount (initResults tests) = (initResults tests).length := by
  unfold pendingCount
  rw [List.filter_eq_self.2]
  exact initResults_pending_from tests [] (by simp)

theorem length_initResults (config : Config) (tests order : List String)
    (graph : testDepGraph) (h : createTestDepGraph config tests order = .ok graph) :
    (initResults tests).length = graph.length := by
  obtain ⟨hg, -, -⟩ := createTestDepGraph_ok_grows config tests order graph h
  have h1 := mapKeys_initResults config tests
  have h2 := hg.keys
  have := congrArg List.length (h1.trans h2.symm)
  simpa [mapKeys] using this

/-- What a run of `RunProjectTests` that returns a result map satisfies when
the results returned by the invoked test functions are settled. -/
theorem RunProjectTests_settled {σ : Type} (env : Env σ) (projects : List String)
    (opts : List Opt) (order : List String) (w : σ) (results : ResultMap)
    (hret : (RunProjectTests env projects opts order w).ret = .ok (some results))
    (hsettled : ReturnsSettled (RunProjectTests env projects opts order w).trace) :
    ∃ config graph, env.LoadConfig w = .ok config ∧
      createTestDepGraph config (sortStrings (config.ProjectTests projects)) order
        = .ok graph ∧
      Sched graph (invocations (RunProjectTests env projects opts order w).trace)
        (skips (RunProjectTests env projects opts order w).trace) results ∧
      Done (invocations (RunProjectTests env projects opts order w).trace) results ∧
      (∀ t st, statusOf results t = some st → st ≠ .Pending) ∧
      (∀ t ∈ config.ProjectTests projects, ∃ st, statusOf results t = some st) ∧
      (RunProjectTests env projects opts order w).iterations = graph.length := by
  rcases RunProjectTests_early env projects opts order w with
    ⟨-, -, h⟩ | ⟨config, graph, hload, hne, hgraph⟩
  · exact absurd hret (h results)
  · obtain ⟨htrace, hiter, hr⟩ := RunProjectTests_eq env projects opts order w config graph
      hload hne hgraph
    rw [htrace] at hsettled ⊢
    rw [hiter]
    rw [hret] at hr
    have hsched := runLoop_sched env opts graph (sortStrings (config.ProjectTests projects))
      graph.length
      { results := initResults (sortStrings (config.ProjectTests projects)), world := w }
      (sched_init graph _)
    have hdone := runLoop_done env opts graph (sortStrings (config.ProjectTests projects))
      graph.length
      { results := initResults (sortStrings (config.ProjectTests projects)), world := w }
      ⟨by simp [invocations], by simp [invocations]⟩ hsettled
    generalize hout : runLoop env opts graph (sortStrings (config.ProjectTests projects))
      graph.length
      { results := initResults (sortStrings (config.ProjectTests projects)), world := w }
      = out at hr hsched hdone hsettled
    obtain ⟨e, sf⟩ := out
    cases e with
    | some f => simp at hr
    | none =>
      simp only [Except.ok.injEq, Option.some.injEq] at hr
      subst hr
      obtain ⟨hs1, hs2⟩ := hsched.2 rfl
      obtain ⟨hd1, hd2, hd3⟩ := hdone.2 rfl
      refine ⟨config, graph, hload, hgraph, hs1, hd1, ?_, ?_, ?_⟩
      · apply pendingCount_zero
        simp only at hd2
        rw [pendingCount_initResults,
          length_initResults config _ order graph hgraph] at hd2
        omega
      · intro t ht
        have : statusOf (initResults (sortStrings (config.ProjectTests projects))) t ≠ none := by
          rw [statusOf_initResults, if_pos ((mem_sortStrings _ t).2 ht)]
          simp
        have := hd3 t this
        cases hst : statusOf sf.results t with
        | none => exact absurd hst this
        | some st => exact ⟨st, rfl⟩
      · simpa using hs2

theorem returnsSettled_iff (trace : List Event) (h : returnsSettled trace = true) :
    ReturnsSettled trace := by
  intro t snap ret hmem r hr
  unfold returnsSettled at h
  rw [List.all_eq_true] at h
  have := h _ hmem
  simp only [hr, decide_eq_true_eq] at this
  exact this

theorem checkDeps_of_letsRun (results : ResultMap) (deps : List String)
    (h : ∀ d ∈ deps, ∃ st, statusOf results d = some st ∧ st.letsRun = true) :
    ∀ b, checkDeps results deps b = .ready b := by
  induction deps with
  | nil => intro b; rfl
  | cons dep rest ih =>
    intro b
    obtain ⟨st, hst, hl⟩ := h dep (List.mem_cons_self _ _)
    obtain ⟨r, hr, hs⟩ := statusOf_eq_some hst
    have ih1 := ih (fun d hd => h d (List.mem_cons_of_mem _ hd)) b
    simp only [checkDeps, hr]
    subst hs
    cases hrs : r.Status <;> simp_all [Status.letsRun]

theorem letsRun_iff (st : Status) :
    st.letsRun = true ↔ st = .Passed ∨ st = .MergeConflict ∨ st = .ToolsBuildFailure := by
  cases st <;> simp [Status.letsRun]

theorem blocks_iff (st : Status) :
    st.blocks = true ↔ st = .Failed ∨ st = .TimedOut ∨ st = .Skipped := by
  cases st <;> simp [Status.blocks]

/-- C3, refuted as stated: with `B` depending on `A` and the function of `A`
returning `MergeConflict`, the function of `B` is invoked at a moment when
the status of `A` is `MergeConflict`, not `Passed`. -/
theorem invoked_after_merge_conflict :
    ¬ ∀ (t d : String) (snap : ResultMap) (ret : TestFnReturn),
      Event.invoke t snap ret ∈
        (RunProjectTests (quietEnv [("A", returning .MergeConflict), ("B", returning .Passed)]
          chainConfig) ["p"] [] ["A", "B"] ()).trace →
      d ∈ chainConfig.TestDependencies t → d ∈ chainConfig.ProjectTests ["p"] →
      statusOf snap d = some .Passed := by
  intro h
  have := h "B" "A" [("A", some { Status := .MergeConflict }), ("B", some {})]
    { result := some { Status := .Passed } } (by decide) (by decide) (by decide)
  revert this
  decide

/-- C3, amended. In every run of `RunProjectTests`, at the moment the
function of a test `t` is invoked every dependency of `t` that is a target
test has the status `Passed`, `MergeConflict` or `ToolsBuildFailure`; and the
loop over the dependencies finds a test ready whose dependencies all have
such a status, in particular a test with no dependency. -/
theorem invoked_only_when_dependencies_let_run {σ : Type} (env : Env σ)
    (projects : List String) (opts : List Opt) (order : List String) (w : σ)
    (config : Config) (hload : env.LoadConfig w = .ok config)
    (t d : String) (snap : ResultMap) (ret : TestFnReturn)
    (hinv : Event.invoke t snap ret ∈ (RunProjectTests env projects opts order w).trace)
    (hdep : d ∈ config.TestDependencies t) (htarget : d ∈ config.ProjectTests projects) :
    (statusOf snap d = some .Passed ∨ statusOf snap d = some .MergeConflict ∨
      statusOf snap d = some .ToolsBuildFailure) ∧
    ∀ (results : ResultMap) (deps : List String),
      (∀ x ∈ deps, statusOf results x = some .Passed ∨ statusOf results x = some .MergeConflict ∨
        statusOf results x = some .ToolsBuildFailure) →
      checkDeps results deps true = .ready true := by
  constructor
  · rcases RunProjectTests_traceOK env projects opts order w with
      h | ⟨config1, graph, hload1, hgraph, hok⟩
    · rw [h] at hinv; cases hinv
    · rw [hload] at hload1
      cases hload1
      obtain ⟨node, hn, hdeps⟩ := hok.deps t snap ret ((mem_invocations _ _ _ _).2 hinv)
      have hd : d ∈ node.deps :=
        (graph_deps config _ order graph hgraph t node hn d).2
          ⟨hdep, (mem_sortStrings _ d).2 htarget⟩
      obtain ⟨st, hst, hl⟩ := hdeps d hd
      rw [hst]
      rcases (letsRun_iff st).1 hl with h1 | h1 | h1 <;> simp [h1]
  · intro results deps h
    apply checkDeps_of_letsRun
    intro x hx
    rcases h x hx with h1 | h1 | h1
    · exact ⟨_, h1, rfl⟩
    · exact ⟨_, h1, rfl⟩
    · exact ⟨_, h1, rfl⟩

/-- C3 amended, on the run in which the function of `A` returns
`MergeConflict`: `B` is invoked with `A` in that status. -/
theorem invoked_only_when_dependencies_let_run_witness :
    Event.invoke "B" [("A", some { Status := .MergeConflict }), ("B", some {})]
        { result := some { Status := .Passed } } ∈
      (RunProjectTests (quietEnv [("A", returning .MergeConflict), ("B", returning .Passed)]
        chainConfig) ["p"] [] ["A", "B"] ()).trace ∧
    (statusOf [("A", some { Status := .MergeConflict }), ("B", some {})] "A" = some .Passed ∨
      statusOf [("A", some { Status := .MergeConflict }), ("B", some {})] "A"
        = some .MergeConflict ∨
      statusOf [("A", some { Status := .MergeConflict }), ("B", some {})] "A"
        = some .ToolsBuildFailure) :=
  ⟨by decide,
    (invoked_only_when_dependencies_let_run
      (quietEnv [("A", returning .MergeConflict), ("B", returning .Passed)] chainConfig)
      ["p"] [] ["A", "B"] () chainConfig rfl "B" "A"
      [("A", some { Status := .MergeConflict }), ("B", some {})]
      { result := some { Status := .Passed } } (by decide) (by decide) (by decide)).1⟩

theorem Sched.blocked_dependent {graph : testDepGraph}
    {inv : List (String × ResultMap × TestFnReturn)} {sk : List String} {results : ResultMap}
    (h : Sched graph inv sk results) (t d : String) (node : testNode)
    (hn : mapGet graph t = some node) (hd : d ∈ node.deps)
    (st : Status) (hst : statusOf results d = some st) (hb : st.blocks = true) :
    t ∉ inv.map Prod.fst := by
  intro hmem
  obtain ⟨⟨t1, snap, ret⟩, hmem1, ht1⟩ := List.mem_map.1 hmem
  simp only at ht1
  subst ht1
  obtain ⟨node1, hn1, hdeps⟩ := h.traceOK.deps t1 snap ret hmem1
  rw [hn] at hn1
  cases hn1
  obtain ⟨st1, hst1, hl⟩ := hdeps d hd
  have := h.ext t1 snap ret hmem1 d st1 hst1 (letsRun_ne_pending hl)
  rw [hst] at this
  cases this
  rw [letsRun_not_blocks hl] at hb
  cases hb

theorem mem_invoked (trace : List Event) (t : String) :
    t ∈ invoked trace ↔ ∃ snap ret, Event.invoke t snap ret ∈ trace := by
  unfold invoked
  rw [List.mem_map]
  constructor
  · rintro ⟨⟨t1, snap, ret⟩, h, rfl⟩
    exact ⟨snap, ret, (mem_invocations _ _ _ _).1 h⟩
  · rintro ⟨snap, ret, h⟩
    exact ⟨(t, snap, ret), (mem_invocations _ _ _ _).2 h, rfl⟩

/-- C4. In a run of `RunProjectTests` that returns a result map and in which
every result returned by an invoked test function has a status other than
`Pending`: when a test `d` ends `Failed`, `TimedOut` or `Skipped`, every
target test `t` that depends on `d` directly or through a chain of
dependencies among the target tests ends `Skipped`, and its function is not
invoked in the run. -/
theorem failure_skips_dependents {σ : Type} (env : Env σ) (projects : List String)
    (opts : List Opt) (order : List String) (w : σ) (config : Config) (results : ResultMap)
    (hload : env.LoadConfig w = .ok config)
    (hret : (RunProjectTests env projects opts order w).ret = .ok (some results))
    (hsettled : ReturnsSettled (RunProjectTests env projects opts order w).trace)
    (t d : String)
    (hd : statusOf results d = some .Failed ∨ statusOf results d = some .TimedOut ∨
      statusOf results d = some .Skipped)
    (hdep : Relation.TransGen (dependsOn config (config.ProjectTests projects)) t d) :
    statusOf results t = some .Skipped ∧
      ∀ snap ret, Event.invoke t snap ret ∉ (RunProjectTests env projects opts order w).trace := by
  obtain ⟨config1, graph, hload1, hgraph, hsched, -, hnp, hall, -⟩ :=
    RunProjectTests_settled env projects opts order w results hret hsettled
  rw [hload] at hload1
  cases hload1
  have hstep : ∀ x y, dependsOn config (config.ProjectTests projects) x y →
      (∃ st, statusOf results y = some st ∧ st.blocks = true) →
      statusOf results x = some .Skipped ∧
        x ∉ invoked (RunProjectTests env projects opts order w).trace := by
    intro x y hxy ⟨st, hst, hb⟩
    obtain ⟨hx, hy, hyx⟩ := hxy
    obtain ⟨hkeys, -, hnodes⟩ := graph_nodes config _ order graph hgraph
    obtain ⟨node, hn, -⟩ := hnodes x ((mem_sortStrings _ x).2 hx)
    have hyd : y ∈ node.deps :=
      (graph_deps config _ order graph hgraph x node hn y).2
        ⟨hyx, (mem_sortStrings _ y).2 hy⟩
    have hni := hsched.blocked_dependent x y node hn hyd st hst hb
    obtain ⟨stx, hstx⟩ := hall x hx
    rcases hsched.settled x stx hstx (hnp x stx hstx) with h1 | h1
    · exact absurd h1 hni
    · exact ⟨hsched.skipped x h1, hni⟩
  have hmain : statusOf results t = some .Skipped ∧
      t ∉ invoked (RunProjectTests env projects opts order w).trace := by
    induction hdep using Relation.TransGen.head_induction_on with
    | base hxy =>
      apply hstep _ _ hxy
      rcases hd with h1 | h1 | h1
      · exact ⟨_, h1, rfl⟩
      · exact ⟨_, h1, rfl⟩
      · exact ⟨_, h1, rfl⟩
    | ih hxy _ ih =>
      exact hstep _ _ hxy ⟨_, ih.1, rfl⟩
  refine ⟨hmain.1, fun snap ret hmem => hmain.2 ?_⟩
  exact (mem_invoked _ _).2 ⟨snap, ret, hmem⟩

/-- C4, on the tests of `fanConfig` with the function of `A` returning
`Failed`: `B`, which depends on `A`, ends `Skipped`. -/
theorem failure_skips_dependents_witness :
    (RunProjectTests (quietEnv [("A", returning .Failed), ("B", returning .Passed),
        ("C", returning .Passed)] fanConfig) ["p"] [] ["A", "B", "C"] ()).ret
      = .ok (some [("A", some { Status := .Failed }), ("B", some { Status := .Skipped }),
          ("C", some { Status := .Skipped })]) ∧
    statusOf [("A", some { Status := .Failed }), ("B", some { Status := .Skipped }),
      ("C", some { Status := .Skipped })] "B" = some .Skipped :=
  ⟨by decide,
    (failure_skips_dependents
      (quietEnv [("A", returning .Failed), ("B", returning .Passed), ("C", returning .Passed)]
        fanConfig) ["p"] [] ["A", "B", "C"] () fanConfig _ rfl (by decide)
      (returnsSettled_iff _ (by decide)) "B" "A" (Or.inl (by decide))
      (Relation.TransGen.single (by unfold dependsOn; decide))).1⟩

/-- C6, amended. When every result returned by an invoked test function has
a status other than `Pending`, `RunProjectTests` invokes no test function
more than once and only functions of target tests; and when the run returns
a result map, the target tests whose function it has invoked are exactly
those the scheduling loop has not marked `Skipped`. -/
theorem each_test_invoked_at_most_once {σ : Type} (env : Env σ) (projects : List String)
    (opts : List Opt) (order : List String) (w : σ)
    (hsettled : ReturnsSettled (RunProjectTests env projects opts order w).trace) :
    (invoked (RunProjectTests env projects opts order w).trace).Nodup ∧
    ∀ config, env.LoadConfig w = .ok config →
      (∀ t ∈ invoked (RunProjectTests env projects opts order w).trace,
        t ∈ config.ProjectTests projects) ∧
      ∀ results, (RunProjectTests env projects opts order w).ret = .ok (some results) →
        ∀ t ∈ config.ProjectTests projects,
          (t ∈ invoked (RunProjectTests env projects opts order w).trace ↔
            t ∉ skips (RunProjectTests env projects opts order w).trace) := by
  refine ⟨?_, ?_⟩
  · rcases RunProjectTests_early env projects opts order w with
      ⟨h, -, -⟩ | ⟨config, graph, hload, hne, hgraph⟩
    · rw [h]; simp [invoked, invocations]
    · obtain ⟨htrace, -, -⟩ := RunProjectTests_eq env projects opts order w config graph
        hload hne hgraph
      rw [htrace] at hsettled ⊢
      exact (runLoop_done env opts graph _ graph.length _
        ⟨by simp [invocations], by simp [invocations]⟩ hsettled).1
  · intro config hload
    refine ⟨?_, ?_⟩
    · intro t ht
      rcases RunProjectTests_traceOK env projects opts order w with
        h | ⟨config1, graph, hload1, hgraph, hok⟩
      · rw [h] at ht; simp [invoked, invocations] at ht
      · rw [hload] at hload1
        cases hload1
        obtain ⟨⟨t1, snap, ret⟩, hmem, rfl⟩ := List.mem_map.1 ht
        obtain ⟨node, hn, -⟩ := hok.deps t1 snap ret hmem
        have := (graph_nodes config _ order graph hgraph).1 t1
        exact (mem_sortStrings _ _).1 (this.1 ((mapGet_isSome_iff graph t1).1 ⟨node, hn⟩))
    · intro results hret t ht
      obtain ⟨config1, graph, hload1, hgraph, hsched, -, hnp, hall, -⟩ :=
        RunProjectTests_settled env projects opts order w results hret hsettled
      rw [hload] at hload1
      cases hload1
      constructor
      · intro hi hs
        exact hsched.traceOK.apart t hs hi
      · intro hs
        obtain ⟨st, hst⟩ := hall t ht
        rcases hsched.settled t st hst (hnp t st hst) with h1 | h1
        · exact h1
        · exact absurd h1 hs

/-- C6 amended, on the tests of `fanConfig` with the function of `A`
returning `Failed`: `A` is invoked, `B` and `C` are marked. -/
theorem each_test_invoked_at_most_once_witness :
    returnsSettled (RunProjectTests (quietEnv [("A", returning .Failed),
        ("B", returning .Passed), ("C", returning .Passed)] fanConfig)
        ["p"] [] ["A", "B", "C"] ()).trace = true ∧
    (invoked (RunProjectTests (quietEnv [("A", returning .Failed),
        ("B", returning .Passed), ("C", returning .Passed)] fanConfig)
        ["p"] [] ["A", "B", "C"] ()).trace).Nodup :=
  ⟨by decide,
    (each_test_invoked_at_most_once
      (quietEnv [("A", returning .Failed), ("B", returning .Passed), ("C", returning .Passed)]
        fanConfig) ["p"] [] ["A", "B", "C"] () (returnsSettled_iff _ (by decide))).1⟩

/-! ## Runs in which nothing fails -/

theorem settleResult_of_check {σ : Type} (env : Env σ) (t : String) (ret : TestFnReturn)
    (out : String) (w : σ) (herr : ret.err = none)
    (hcheck : (checkTestReportFile env t w).1 = none) :
    (settleResult env t ret out w).1 = .ok ret.result := by
  simp [settleResult, checkedError, herr, hcheck]

theorem writeOutput_ok {σ : Type} (env : Env σ) (outputFile : Option String) (out : String)
    (s : RunState σ) (h : outputFile = none ∨ ∀ path data w, (env.Write path data w).1 = none) :
    (writeOutput env outputFile out s).1 = none := by
  unfold writeOutput
  cases outputFile with
  | none => rfl
  | some fileName =>
    rcases h with h | h
    · cases h
    · simp only
      have := h fileName out s.world
      split
      · rename_i e w1 heq
        rw [heq] at this
        cases this
      · rfl

theorem runTest_ok {σ : Type} (env : Env σ) (opts : List Opt) (outputFile : Option String)
    (t : String) (s : RunState σ) (f : TestFn σ) (hf : mapGet env.testFunctions t = some f)
    (hret : ∀ w, (f t opts w).1.err = none ∧ ∃ r, (f t opts w).1.result = some r)
    (hcheck : ∀ w, (checkTestReportFile env t w).1 = none)
    (hwrite : outputFile = none ∨ ∀ path data w, (env.Write path data w).1 = none) :
    (runTest env opts outputFile t s).1 = none := by
  obtain ⟨herr, r, hr⟩ := hret s.world
  simp only [runTest, hf, settleResult_of_check env t _ _ _ herr (hcheck _), hr,
    writeOutput_ok env outputFile _ _ hwrite]

theorem writeResults_ok {σ : Type} (env : Env σ) (outputDir : String) (s : RunState σ)
    (h : outputDir = "" ∨ OutputOK env) : (writeResults env outputDir s).1 = none := by
  unfold writeResults
  by_cases hd : outputDir = ""
  · simp [hd]
  · rcases h with h | h
    · exact absurd h hd
    · obtain ⟨bytes, hb⟩ := h.marshal s.results
      simp only [ne_eq, hd, not_false_eq_true, if_true, hb]
      have := h.writeFile (env.Join outputDir "results") bytes s.world
      split
      · rename_i e w1 heq
        rw [heq] at this
        cases this
      · rfl

theorem runTests_single_ok {σ : Type} (env : Env σ) (opts : List Opt) (tests : List String)
    (h : Reliable env opts tests) (t : String) (ht : t ∈ tests) (s : RunState σ) :
    (runTests env [t] opts s).1 = none := by
  obtain ⟨f, hf⟩ := h.registered t ht
  have hret : ∀ w, (f t opts w).1.err = none ∧ ∃ r, (f t opts w).1.result = some r := by
    intro w
    obtain ⟨h1, r, h2, -⟩ := h.returns t f w hf
    exact ⟨h1, r, h2⟩
  have hbody : ∀ (outputFile : Option String) (s1 : RunState σ),
      (outputFile = none ∨ ∀ path data w, (env.Write path data w).1 = none) →
      (runTestsBody env opts (outputDirOf opts) outputFile [t] s1).1 = none := by
    intro outputFile s1 hw
    have h1 := runTest_ok env opts outputFile t s1 f hf hret (h.check t) hw
    simp only [runTestsBody, List.find?, hf, Option.isNone_some, runTestsLoop_single]
    split
    · rename_i f1 s2 heq
      rw [heq] at h1
      cases h1
    · exact writeResults_ok env _ _ h.output
  unfold runTests
  simp only
  by_cases hd : outputDirOf opts = ""
  · simp only [hd, ne_eq, not_true_eq_false, if_false]
    have := hbody none { s with world := applyCleanGo env opts s.world } (Or.inl rfl)
    rw [hd] at this
    exact this
  · rcases h.output with ho | ho
    · exact absurd ho hd
    · simp only [ne_eq, hd, not_false_eq_true, if_true]
      have hc := ho.create (env.Join (outputDirOf opts) "output") (applyCleanGo env opts s.world)
      split
      · rename_i e w1 heq
        rw [heq] at hc
        cases hc
      · rename_i w1 heq
        simp only [hbody _ _ (Or.inr ho.write), ho.close, collectError]

theorem createTestDepGraph_acc (config : Config) (tests order : List String)
    (graph : testDepGraph) (h : createTestDepGraph config tests order = .ok graph)
    (horder : ∀ t ∈ tests, t ∈ order) : ∀ t ∈ tests, Acc (Edge graph) t := by
  obtain ⟨hg, hvis, hacc⟩ := createTestDepGraph_ok_grows config tests order graph h
  have hE : Edge graph = Edge (buildDepGraph config tests) := by
    funext d n
    exact propext ((hg.edgeIs (E := Edge (buildDepGraph config tests))
      (fun _ _ => Iff.rfl) d n).symm)
  intro t ht
  rw [hE]
  exact hacc t ⟨hvis t (horder t ht) ht,
    (hg.stack t).trans (buildDepGraph_onStack config tests t)⟩

theorem createTestDepGraph_closed (config : Config) (tests order : List String)
    (graph : testDepGraph) (h : createTestDepGraph config tests order = .ok graph)
    (t : String) (node : testNode) (hn : mapGet graph t = some node) :
    ∀ d ∈ node.deps, d ∈ tests := by
  intro d hd
  exact ((graph_deps config tests order graph h t node hn d).1 hd).2

theorem pending_not_waiting (graph : testDepGraph) (results : ResultMap)
    (tests : List String)
    (hclosed : ∀ t node, mapGet graph t = some node → ∀ d ∈ node.deps, d ∈ tests)
    (hwait : ∀ x ∈ tests, Waits graph results x) :
    ∀ t, Acc (Edge graph) t → t ∈ tests → statusOf results t ≠ some .Pending := by
  intro t hacc
  induction hacc with
  | intro t _ ih =>
    intro ht hp
    obtain ⟨st, hst, h⟩ := hwait t ht
    rw [hp] at hst
    cases hst
    rcases h with h | ⟨node, hn, hc⟩
    · exact h rfl
    · rcases checkDeps_ready_false results node.deps true hc with h1 | ⟨d, hd, hpd⟩
      · cases h1
      · exact ih d ⟨node, hn, hd⟩ (hclosed t node hn d hd) hpd

theorem mapGet_of_mem_nodup {β : Type} (m : GoMap β) (k : String) (v : β)
    (hnd : (mapKeys m).Nodup) (h : (k, v) ∈ m) : mapGet m k = some v := by
  induction m with
  | nil => cases h
  | cons p m ih =>
    obtain ⟨k1, v1⟩ := p
    have hnd1 : k1 ∉ mapKeys m ∧ (mapKeys m).Nodup := by simpa [mapKeys] using hnd
    rcases List.mem_cons.1 h with h | h
    · cases h
      simp [mapGet]
    · have hk : k1 ≠ k := by
        intro hk
        subst hk
        exact hnd1.1 (List.mem_map.2 ⟨(k1, v), h, rfl⟩)
      simp only [mapGet, hk, if_false]
      exact ih hnd1.2 h

theorem exists_pending (results : ResultMap) (hnd : (mapKeys results).Nodup)
    (h : 0 < pendingCount results) :
    ∃ t, t ∈ mapKeys results ∧ statusOf results t = some .Pending := by
  unfold pendingCount at h
  obtain ⟨p, hp⟩ := List.exists_mem_of_length_pos h
  obtain ⟨hmem, hpend⟩ := List.mem_filter.1 hp
  obtain ⟨k, v⟩ := p
  cases v with
  | none => simp [isPending] at hpend
  | some r =>
    simp only [isPending, decide_eq_true_eq] at hpend
    refine ⟨k, List.mem_map.2 ⟨(k, some r), hmem, rfl⟩, ?_⟩
    simp [statusOf, mapGet_of_mem_nodup results k (some r) hnd hmem, hpend]

theorem mapKeys_mapSet_status (results : ResultMap) (t : String) (st : Status)
    (h : statusOf results t = some st) (v : Option Result) :
    mapKeys (mapSet results t v) = mapKeys results := by
  obtain ⟨r, hr, -⟩ := statusOf_eq_some h
  exact mapKeys_mapSet_of_get results t v (some r) hr

theorem runLoop_ok {σ : Type} (env : Env σ) (opts : List Opt) (graph : testDepGraph)
    (tests : List String) (hrel : Reliable env opts tests)
    (hkeys : ∀ t, t ∈ mapKeys graph ↔ t ∈ tests)
    (hclosed : ∀ t node, mapGet graph t = some node → ∀ d ∈ node.deps, d ∈ tests)
    (hacc : ∀ t ∈ tests, Acc (Edge graph) t) :
    ∀ (n : Nat) (s : RunState σ),
      (∀ t ∈ tests, ∃ st, statusOf s.results t = some st) →
      (mapKeys s.results).Nodup → (∀ t ∈ mapKeys s.results, t ∈ tests) →
      n ≤ pendingCount s.results →
      (runLoop env opts graph tests n s).1 = none ∧
        mapKeys (runLoop env opts graph tests n s).2.results = mapKeys s.results ∧
        pendingCount (runLoop env opts graph tests n s).2.results + n = pendingCount s.results ∧
        Keeps s.results (runLoop env opts graph tests n s).2.results := by
  intro n
  induction n with
  | zero => intro s _ _ _ _; exact ⟨rfl, rfl, rfl, Keeps.keeps_refl _⟩
  | succ n ih =>
    intro s hw hnd hsub hcount
    obtain ⟨p, hpk, hpp⟩ := exists_pending s.results hnd (by omega)
    rcases scanTests_spec env opts graph { s with iterations := s.iterations + 1 } tests with
      ⟨-, hwait⟩ | ⟨-, x, hx, hpanic⟩ | ⟨t, ht, hacts⟩
    · exact absurd hpp
        (pending_not_waiting graph s.results tests hclosed hwait p (hacc p (hsub p hpk))
          (hsub p hpk))
    · exfalso
      rcases hpanic with h1 | ⟨-, h1 | ⟨node, hn, hc⟩⟩
      · obtain ⟨st, hst⟩ := hw x hx
        have h2 : statusOf s.results x = none := h1
        rw [hst] at h2
        cases h2
      · obtain ⟨v, hv⟩ := (mapGet_isSome_iff graph x).2 ((hkeys x).2 hx)
        rw [hv] at h1
        cases h1
      · obtain ⟨d, hd, hdn⟩ := checkDeps_panic _ _ _ hc
        obtain ⟨st, hst⟩ := hw d (hclosed x node hn d hd)
        have h2 : statusOf s.results d = none := hdn
        rw [hst] at h2
        cases h2
    · generalize hout : scanTests env opts graph tests { s with iterations := s.iterations + 1 }
        = out at hacts
      cases hacts with
      | skip result node hr hp hg hc =>
        have hpend : statusOf s.results t = some .Pending := by
          simp only [statusOf]
          rw [show mapGet s.results t = some (some result) from hr]
          simp [hp]
        have hk := mapKeys_mapSet_status s.results t _ hpend
          (some { result with Status := .Skipped })
        have hcnt := pendingCount_mapSet s.results t { result with Status := .Skipped } hpend
          (by simp)
        have hkeep := Keeps.keeps_mapSet s.results t { result with Status := .Skipped }
        obtain ⟨ih1, ih2, ih3, ih4⟩ :=
          ih (markSkipped { s with iterations := s.iterations + 1 } t result)
          (by
            intro y hy
            obtain ⟨st, hst⟩ := hw y hy
            have := hkeep y (by rw [hst]; simp)
            cases h3 : statusOf (mapSet s.results t (some { result with Status := .Skipped })) y with
            | none => exact absurd h3 this
            | some st1 => exact ⟨st1, h3⟩)
          (by show (mapKeys (mapSet s.results t _)).Nodup; rw [hk]; exact hnd)
          (by show ∀ y ∈ mapKeys (mapSet s.results t _), y ∈ tests; rw [hk]; exact hsub)
          (by show n ≤ pendingCount (mapSet s.results t _); omega)
        simp only [runLoop, hout]
        have e3 : _ + n
            = pendingCount (mapSet s.results t (some { result with Status := .Skipped })) := ih3
        exact ⟨ih1, ih2.trans hk, by omega, hkeep.keeps_trans ih4⟩
      | ran node s1 hp hg hc hrun =>
        rcases runTests_single env t opts { s with iterations := s.iterations + 1 } with
          ⟨-, hne⟩ | ⟨f, w, hf, hinv, hres⟩
        · rw [hrun] at hne
          exact absurd rfl hne
        · rw [hrun] at hres
          obtain ⟨res, hres1, hset⟩ := hres rfl
          have hres2 : s1.results = mapSet s.results t (some res) := hres1
          have hne : res.Status ≠ .Pending := by
            apply hset.ne_pending
            intro r hr
            obtain ⟨-, r1, hr1, hr2⟩ := hrel.returns t f w hf
            rw [hr1] at hr
            cases hr
            exact hr2
          have hk := mapKeys_mapSet_status s.results t _ hp (some res)
          have hcnt := pendingCount_mapSet s.results t res hp hne
          have hkeep := Keeps.keeps_mapSet s.results t res
          obtain ⟨ih1, ih2, ih3, ih4⟩ := ih s1
            (by
              intro y hy
              obtain ⟨st, hst⟩ := hw y hy
              have := hkeep y (by rw [hst]; simp)
              rw [hres2]
              cases h3 : statusOf (mapSet s.results t (some res)) y with
              | none => exact absurd h3 this
              | some st1 => exact ⟨st1, rfl⟩)
            (by rw [hres2, hk]; exact hnd)
            (by rw [hres2, hk]; exact hsub)
            (by rw [hres2]; omega)
          simp only [runLoop, hout]
          rw [hres2] at ih3 ih4
          exact ⟨ih1, by rw [ih2, hres2, hk], by omega, hkeep.keeps_trans ih4⟩
      | failed node f s1 hp hg hc hrun =>
        have := runTests_single_ok env opts tests hrel t ht
          { s with iterations := s.iterations + 1 }
        rw [hrun] at this
        cases this

theorem nodup_sortStrings (l : List String) (h : l.Nodup) : (sortStrings l).Nodup :=
  (List.perm_insertionSort stringLE l).nodup_iff.2 h

theorem nodup_projectTests (config : Config) (projects : List String) :
    (config.ProjectTests projects).Nodup :=
  nodup_sortStrings _ (List.nodup_dedup _)

theorem length_sortStrings (l : List String) : (sortStrings l).length = l.length :=
  (List.perm_insertionSort stringLE l).length_eq

theorem graph_length (config : Config) (tests order : List String) (graph : testDepGraph)
    (h : createTestDepGraph config tests order = .ok graph) (hnd : tests.Nodup) :
    graph.length = tests.length := by
  obtain ⟨hkeys, hnd1, -⟩ := graph_nodes config tests order graph h
  have := ((List.perm_ext_iff_of_nodup hnd1 hnd).2 hkeys).length_eq
  simpa [mapKeys] using this

theorem mem_mapKeys_initResults (tests : List String) (t : String) :
    t ∈ mapKeys (initResults tests) ↔ t ∈ tests := by
  rw [← mapGet_isSome_iff]
  unfold initResults
  rw [mapGet_initResults_from]
  by_cases h : t ∈ tests <;> simp [h, mapGet]

theorem not_hasCycle_of_ok (config : Config) (tests order : List String)
    (graph : testDepGraph) (h : createTestDepGraph config tests order = .ok graph)
    (horder : ∀ t ∈ tests, t ∈ order) : ¬ HasCycle config tests := by
  intro hc
  obtain ⟨g, hg⟩ := createTestDepGraph_cycle config tests order hc horder
  rw [h] at hg
  cases hg

theorem returning_reliable (fns : GoMap (TestFn Unit)) (opts : List Opt)
    (h : ∀ p ∈ fns, ∃ st, p.2 = returning st ∧ st ≠ .Pending) (t : String) (f : TestFn Unit)
    (w : Unit) (hf : mapGet fns t = some f) :
    (f t opts w).1.err = none ∧ ∃ r, (f t opts w).1.result = some r ∧ r.Status ≠ .Pending := by
  obtain ⟨st, hst, hne⟩ := h _ (mapGet_mem fns t f hf)
  simp only at hst
  subst hst
  exact ⟨rfl, _, rfl, hne⟩

theorem quietEnv_reliable (fns : GoMap (TestFn Unit)) (config : Config) (tests : List String)
    (hreg : ∀ t ∈ tests, ∃ f, mapGet fns t = some f)
    (h : ∀ p ∈ fns, ∃ st, p.2 = returning st ∧ st ≠ .Pending) :
    Reliable (quietEnv fns config) [] tests :=
  ⟨hreg, fun t f w hf => returning_reliable fns [] h t f w hf,
    fun t w => by
      simp only [checkTestReportFile, quietEnv]
      split <;> simp,
    Or.inl rfl⟩

/-- C6, refuted as stated: the target tests `A` and `B` are not on a cycle
and their functions return `Passed` without error, but the aggregate output
file cannot be created; the run stops with that error, and `A` is neither
invoked nor marked `Skipped`. -/
theorem not_invoked_not_skipped :
    ¬ HasCycle chainConfig (chainConfig.ProjectTests ["p"]) ∧
    (∀ t f w,
      mapGet (createFailEnv [("A", returning .Passed), ("B", returning .Passed)]
        chainConfig).testFunctions t = some f →
      (f t [.OutputDirOpt "out"] w).1.err = none ∧
        ∃ r, (f t [.OutputDirOpt "out"] w).1.result = some r ∧ r.Status ≠ .Pending) ∧
    ¬ ∀ t ∈ chainConfig.ProjectTests ["p"],
      (t ∈ invoked (RunProjectTests
          (createFailEnv [("A", returning .Passed), ("B", returning .Passed)] chainConfig)
          ["p"] [.OutputDirOpt "out"] ["A", "B"] ()).trace ↔
        t ∉ skips (RunProjectTests
          (createFailEnv [("A", returning .Passed), ("B", returning .Passed)] chainConfig)
          ["p"] [.OutputDirOpt "out"] ["A", "B"] ()).trace) := by
  refine ⟨?_, ?_, ?_⟩
  · exact not_hasCycle_of_ok chainConfig _ ["A", "B"]
      [("A", { deps := [], visited := true }), ("B", { deps := ["A"], visited := true })]
      (by decide) (by decide)
  · intro t f w hf
    exact returning_reliable [("A", returning .Passed), ("B", returning .Passed)] _ (by
      intro p hp
      simp only [List.mem_cons, List.mem_singleton, List.not_mem_nil, or_false] at hp
      rcases hp with rfl | rfl
      · exact ⟨_, rfl, by decide⟩
      · exact ⟨_, rfl, by decide⟩) t f w hf
  · intro h
    have := h "A" (by decide)
    revert this
    decide

/-- C5, refuted as stated: the target tests `A` and `B` are not on a cycle
and their functions return `Passed` without error, but the report file of
`A` cannot be examined, and `RunProjectTests` returns that error and no
result map. -/
theorem report_failure_aborts_run :
    ¬ HasCycle chainConfig (chainConfig.ProjectTests ["p"]) ∧
    (∀ t f w,
      mapGet (statFailEnv [("A", returning .Passed), ("B", returning .Passed)]
        chainConfig).testFunctions t = some f →
      (f t [] w).1.err = none ∧ ∃ r, (f t [] w).1.result = some r ∧ r.Status ≠ .Pending) ∧
    (RunProjectTests (statFailEnv [("A", returning .Passed), ("B", returning .Passed)]
      chainConfig) ["p"] [] ["A", "B"] ()).ret
      = .error (.error (.external "permission denied")) := by
  refine ⟨?_, ?_, by decide⟩
  · exact not_hasCycle_of_ok chainConfig _ ["A", "B"]
      [("A", { deps := [], visited := true }), ("B", { deps := ["A"], visited := true })]
      (by decide) (by decide)
  · intro t f w hf
    exact returning_reliable [("A", returning .Passed), ("B", returning .Passed)] [] (by
      intro p hp
      simp only [List.mem_cons, List.mem_singleton, List.not_mem_nil, or_false] at hp
      rcases hp with rfl | rfl
      · exact ⟨_, rfl, by decide⟩
      · exact ⟨_, rfl, by decide⟩) t f w hf

/-- C5, amended. For a config whose dependency relation restricted to the
`N` target tests has no cycle, when each target test has a registered
function that returns without error a result whose status is not `Pending`
and neither the check of the report files nor the output files fail
(`Reliable`), `RunProjectTests` returns a result map (nil when there is no
target test) whose keys are exactly the target tests and in which every
target test has a status other than `Pending`, after exactly `N` iterations
of the scheduling loop. -/
theorem all_tests_settle {σ : Type} (env : Env σ) (projects : List String)
    (opts : List Opt) (order : List String) (w : σ) (config : Config)
    (hload : env.LoadConfig w = .ok config)
    (hacyclic : ¬ HasCycle config (config.ProjectTests projects))
    (horder : ∀ t ∈ config.ProjectTests projects, t ∈ order)
    (hrel : Reliable env opts (config.ProjectTests projects)) :
    ∃ results, (RunProjectTests env projects opts order w).ret = .ok results ∧
      (∀ t, t ∈ returnedKeys results ↔ t ∈ config.ProjectTests projects) ∧
      (∀ t ∈ config.ProjectTests projects,
        ∃ st, statusOf (results.getD []) t = some st ∧ st ≠ .Pending) ∧
      (RunProjectTests env projects opts order w).iterations
        = (config.ProjectTests projects).length := by
  by_cases hne : config.ProjectTests projects = []
  · refine ⟨none, ?_, ?_, ?_, ?_⟩
    · simp [RunProjectTests, hload, hne]
    · intro t; simp [returnedKeys, mapKeys, hne]
    · intro t ht; rw [hne] at ht; cases ht
    · simp [RunProjectTests, hload, hne]
  · have hmem : ∀ t, t ∈ sortStrings (config.ProjectTests projects)
        ↔ t ∈ config.ProjectTests projects := mem_sortStrings _
    obtain ⟨graph, hgraph⟩ := createTestDepGraph_acyclic config
      (sortStrings (config.ProjectTests projects)) order
      (fun hc => hacyclic (hasCycle_congr config _ _ hmem hc))
    obtain ⟨htrace, hiter, hr⟩ := RunProjectTests_eq env projects opts order w config graph
      hload hne hgraph
    have hrel1 : Reliable env opts (sortStrings (config.ProjectTests projects)) :=
      ⟨fun t ht => hrel.registered t ((hmem t).1 ht), hrel.returns, hrel.check, hrel.output⟩
    have hkeys : mapKeys (initResults (sortStrings (config.ProjectTests projects)))
        = mapKeys (buildDepGraph config (sortStrings (config.ProjectTests projects))) :=
      mapKeys_initResults config _
    obtain ⟨hok, hk, hcount, hkeep⟩ := runLoop_ok env opts graph
      (sortStrings (config.ProjectTests projects)) hrel1
      (graph_nodes config _ order graph hgraph).1
      (createTestDepGraph_closed config _ order graph hgraph)
      (createTestDepGraph_acc config _ order graph hgraph
        (fun t ht => horder t ((hmem t).1 ht)))
      graph.length
      { results := initResults (sortStrings (config.ProjectTests projects)), world := w }
      (fun t ht => ⟨.Pending, by rw [statusOf_initResults, if_pos ht]⟩)
      (by rw [hkeys]; exact nodup_mapKeys_buildDepGraph config _)
      (fun t ht => (mem_mapKeys_initResults _ t).1 ht)
      (by
        show graph.length ≤ pendingCount (initResults _)
        rw [pendingCount_initResults, length_initResults config _ order graph hgraph])
    have hsched := (runLoop_sched env opts graph (sortStrings (config.ProjectTests projects))
      graph.length
      { results := initResults (sortStrings (config.ProjectTests projects)), world := w }
      (sched_init graph _)).2 hok
    generalize hout : runLoop env opts graph (sortStrings (config.ProjectTests projects))
      graph.length
      { results := initResults (sortStrings (config.ProjectTests projects)), world := w }
      = out at hr hiter hok hk hcount hkeep hsched
    obtain ⟨e, sf⟩ := out
    simp only at hok
    subst hok
    simp only at hr hk hcount hkeep hiter
    refine ⟨some sf.results, hr, ?_, ?_, ?_⟩
    · intro t
      show t ∈ mapKeys sf.results ↔ _
      rw [hk, mem_mapKeys_initResults, hmem]
    · intro t ht
      have h1 : statusOf (initResults (sortStrings (config.ProjectTests projects))) t ≠ none := by
        rw [statusOf_initResults, if_pos ((hmem t).2 ht)]
        simp
      have h2 := hkeep t h1
      cases hst : statusOf sf.results t with
      | none => exact absurd hst h2
      | some st =>
        refine ⟨st, hst, ?_⟩
        apply pendingCount_zero sf.results _ t st hst
        rw [pendingCount_initResults, length_initResults config _ order graph hgraph] at hcount
        omega
    · rw [hiter, hsched.2]
      simp only
      rw [graph_length config _ order graph hgraph
        (nodup_sortStrings _ (nodup_projectTests config projects)), length_sortStrings]
      omega

/-- C5 amended, on the tests of `fanConfig` with the function of `A`
returning `Failed`: three iterations settle the three tests. -/
theorem all_tests_settle_witness :
    ∃ results,
      (RunProjectTests (quietEnv [("A", returning .Failed), ("B", returning .Passed),
        ("C", returning .Passed)] fanConfig) ["p"] [] ["A", "B", "C"] ()).ret = .ok results ∧
      (RunProjectTests (quietEnv [("A", returning .Failed), ("B", returning .Passed),
        ("C", returning .Passed)] fanConfig) ["p"] [] ["A", "B", "C"] ()).iterations
        = (fanConfig.ProjectTests ["p"]).length :=
  let ⟨results, h1, _, _, h4⟩ := all_tests_settle
    (quietEnv [("A", returning .Failed), ("B", returning .Passed), ("C", returning .Passed)]
      fanConfig) ["p"] [] ["A", "B", "C"] () fanConfig rfl
    (not_hasCycle_of_ok fanConfig _ ["A", "B", "C"]
      [("A", { deps := [], visited := true }), ("B", { deps := ["A"], visited := true }),
        ("C", { deps := ["A"], visited := true })] (by decide) (by decide))
    (by decide)
    (quietEnv_reliable _ fanConfig _
      (by
        intro t ht
        have : t = "A" ∨ t = "B" ∨ t = "C" := by
          revert t; decide
        rcases this with rfl | rfl | rfl <;> exact ⟨_, rfl⟩)
      (by
        intro p hp
        simp only [List.mem_cons, List.mem_singleton, List.not_mem_nil, or_false] at hp
        rcases hp with rfl | rfl | rfl
        · exact ⟨_, rfl, by decide⟩
        · exact ⟨_, rfl, by decide⟩
        · exact ⟨_, rfl, by decide⟩))
  ⟨results, h1, h4⟩


/-! ## The statuses `runTests` records -/

theorem afterRun_of_fromError {st : Status} (h : st.fromError) : st.afterRun := by
  cases st <;> simp_all [Status.fromError, Status.afterRun]

theorem afterRun_of_ne {st : Status} (h1 : st ≠ .Pending) (h2 : st ≠ .Skipped) :
    st.afterRun := by
  cases st <;> simp_all [Status.afterRun]

theorem runTestsLoop_ranStatus {σ : Type} (env : Env σ) (opts : List Opt)
    (outputFile : Option String)
    (hfns : ∀ t f w, mapGet env.testFunctions t = some f →
      ∀ r, (f t opts w).1.result = some r → r.Status ≠ .Pending ∧ r.Status ≠ .Skipped)
    (l : List String) :
    ∀ s : RunState σ, (runTestsLoop env opts outputFile l s).1 = none →
      (∀ t, RanStatus s.results t → RanStatus (runTestsLoop env opts outputFile l s).2.results t) ∧
      ∀ t ∈ l, RanStatus (runTestsLoop env opts outputFile l s).2.results t := by
  induction l with
  | nil => intro s _; exact ⟨fun _ h => h, by simp⟩
  | cons t rest ih =>
    intro s h
    simp only [runTestsLoop] at h ⊢
    cases hrun : runTest env opts outputFile t s with
    | mk e s1 =>
      cases e with
      | some f => simp [hrun] at h
      | none =>
        simp only [hrun] at h ⊢
        obtain ⟨ih1, ih2⟩ := ih s1 h
        cases hf : mapGet env.testFunctions t with
        | none => simp [runTest, hf] at hrun
        | some f =>
          obtain ⟨-, hres⟩ := runTest_spec env opts outputFile t s f hf
          rw [hrun] at hres
          obtain ⟨res, hres1, hset⟩ := hres rfl
          have hres2 : s1.results = mapSet s.results t (some res) := hres1
          have hgood : res.Status.afterRun := by
            rcases hset with ⟨-, h1⟩ | h1
            · obtain ⟨h2, h3⟩ := hfns t f s.world hf res h1
              exact afterRun_of_ne h2 h3
            · exact afterRun_of_fromError h1
          have hkeep : ∀ x, RanStatus s.results x → RanStatus s1.results x := by
            intro x ⟨st, hst, hg⟩
            rw [hres2]
            unfold RanStatus
            rw [statusOf_mapSet]
            by_cases hk : t = x
            · exact ⟨_, by simp [hk], hgood⟩
            · exact ⟨st, by simp [hk, hst], hg⟩
          refine ⟨fun x hx => ih1 x (hkeep x hx), ?_⟩
          intro x hx
          rcases List.mem_cons.1 hx with rfl | hx
          · apply ih1
            rw [hres2]
            exact ⟨_, by rw [statusOf_mapSet]; simp, hgood⟩
          · exact ih2 x hx

theorem runTestsBody_none {σ : Type} (env : Env σ) (opts : List Opt) (outputDir : String)
    (outputFile : Option String) (tests : List String) (s : RunState σ)
    (h : (runTestsBody env opts outputDir outputFile tests s).1 = none) :
    (runTestsLoop env opts outputFile tests s).1 = none ∧
      (runTestsBody env opts outputDir outputFile tests s).2.results
        = (runTestsLoop env opts outputFile tests s).2.results := by
  unfold runTestsBody at h ⊢
  split at h
  · cases h
  · cases hl : runTestsLoop env opts outputFile tests s with
    | mk e s1 =>
      cases e with
      | some f => simp [hl] at h
      | none =>
        simp only [hl]
        exact ⟨trivial, (writeResults_sameMarks env outputDir s1).results⟩

theorem runTests_none {σ : Type} (env : Env σ) (tests : List String) (opts : List Opt)
    (s : RunState σ) (h : (runTests env tests opts s).1 = none) :
    ∃ outputFile s0, (runTestsLoop env opts outputFile tests s0).1 = none ∧
      (runTests env tests opts s).2.results
        = (runTestsLoop env opts outputFile tests s0).2.results := by
  unfold runTests at h ⊢
  simp only at h ⊢
  by_cases hd : outputDirOf opts = ""
  · simp only [hd, ne_eq, not_true_eq_false, if_false] at h ⊢
    have hb := runTestsBody_none env opts _ _ tests _ h
    exact ⟨_, _, hb.1, hb.2⟩
  · simp only [ne_eq, hd, not_false_eq_true, if_true] at h ⊢
    cases hc : env.Create (env.Join (outputDirOf opts) "output")
        (applyCleanGo env opts s.world) with
    | mk e w =>
      cases e with
      | some err => simp [hc] at h
      | none =>
        simp only [hc] at h ⊢
        have hb := runTestsBody_none env opts _ _ tests _ (collectError_eq_none h)
        exact ⟨_, _, hb.1, hb.2⟩

/-- C7, refuted as stated: a test function that returns a result with status
`Pending` and no error leaves the status `Pending` recorded, and `runTests`
returns no error. -/
theorem pending_status_recorded :
    (runTests (quietEnv [("A", returning .Pending)] {}) ["A"] []
      { results := initResults ["A"], world := () }).1 = none ∧
    invoked (runTests (quietEnv [("A", returning .Pending)] {}) ["A"] []
      { results := initResults ["A"], world := () }).2.trace = ["A"] ∧
    statusOf (runTests (quietEnv [("A", returning .Pending)] {}) ["A"] []
      { results := initResults ["A"], world := () }).2.results "A" = some .Pending := by
  decide

/-- C7, amended. When no registered test function returns a result whose
status is `Pending` or `Skipped`, and `runTests` returns no error and does
not panic, the status recorded for every test it ran is one of `Passed`,
`Failed`, `TimedOut`, `MergeConflict` and `ToolsBuildFailure`. -/
theorem recorded_status_after_run {σ : Type} (env : Env σ) (tests : List String)
    (opts : List Opt) (s : RunState σ)
    (hfns : ∀ t f w, mapGet env.testFunctions t = some f →
      ∀ r, (f t opts w).1.result = some r → r.Status ≠ .Pending ∧ r.Status ≠ .Skipped)
    (hok : (runTests env tests opts s).1 = none) (t : String) (ht : t ∈ tests) :
    statusOf (runTests env tests opts s).2.results t = some .Passed ∨
      statusOf (runTests env tests opts s).2.results t = some .Failed ∨
      statusOf (runTests env tests opts s).2.results t = some .TimedOut ∨
      statusOf (runTests env tests opts s).2.results t = some .MergeConflict ∨
      statusOf (runTests env tests opts s).2.results t = some .ToolsBuildFailure := by
  have hmain : RanStatus (runTests env tests opts s).2.results t := by
    obtain ⟨outputFile, s0, h1, h2⟩ := runTests_none env tests opts s hok
    rw [h2]
    exact (runTestsLoop_ranStatus env opts _ hfns tests _ h1).2 t ht
  obtain ⟨st, hst, hg⟩ := hmain
  rw [hst]
  cases st <;> simp [Status.afterRun] at hg <;> simp

theorem returning_settled (fns : GoMap (TestFn Unit)) (opts : List Opt)
    (h : ∀ p ∈ fns, ∃ st, p.2 = returning st ∧ st ≠ .Pending ∧ st ≠ .Skipped) (t : String)
    (f : TestFn Unit) (w : Unit) (hf : mapGet fns t = some f) :
    ∀ r, (f t opts w).1.result = some r → r.Status ≠ .Pending ∧ r.Status ≠ .Skipped := by
  obtain ⟨st, hst, hne⟩ := h _ (mapGet_mem fns t f hf)
  simp only at hst
  subst hst
  intro r hr
  simp only [returning, Option.some.injEq] at hr
  subst hr
  exact hne

/-- C7 amended, on a test whose function returns `ToolsBuildFailure`. -/
theorem recorded_status_after_run_witness :
    (runTests (quietEnv [("A", returning .ToolsBuildFailure)] {}) ["A"] []
      { results := initResults ["A"], world := () }).1 = none ∧
    (statusOf (runTests (quietEnv [("A", returning .ToolsBuildFailure)] {}) ["A"] []
        { results := initResults ["A"], world := () }).2.results "A" = some .Passed ∨
      statusOf (runTests (quietEnv [("A", returning .ToolsBuildFailure)] {}) ["A"] []
        { results := initResults ["A"], world := () }).2.results "A" = some .Failed ∨
      statusOf (runTests (quietEnv [("A", returning .ToolsBuildFailure)] {}) ["A"] []
        { results := initResults ["A"], world := () }).2.results "A" = some .TimedOut ∨
      statusOf (runTests (quietEnv [("A", returning .ToolsBuildFailure)] {}) ["A"] []
        { results := initResults ["A"], world := () }).2.results "A" = some .MergeConflict ∨
      statusOf (runTests (quietEnv [("A", returning .ToolsBuildFailure)] {}) ["A"] []
        { results := initResults ["A"], world := () }).2.results "A"
        = some .ToolsBuildFailure) :=
  ⟨by decide,
    recorded_status_after_run (quietEnv [("A", returning .ToolsBuildFailure)] {}) ["A"] []
      { results := initResults ["A"], world := () }
      (fun t f w hf => returning_settled [("A", returning .ToolsBuildFailure)] [] (by
        intro p hp
        simp only [List.mem_singleton] at hp
        subst hp
        exact ⟨_, rfl, by decide, by decide⟩) t f w hf)
      (by decide) "A" (by decide)⟩

theorem find_first_unknown {σ : Type} (fns : GoMap (TestFn σ)) (pre post : List String)
    (t : String) (hpre : ∀ x ∈ pre, ∃ f, mapGet fns x = some f) (ht : mapGet fns t = none) :
    (pre ++ t :: post).find? (fun x => (mapGet fns x).isNone) = some t := by
  induction pre with
  | nil => simp [List.find?, ht]
  | cons x rest ih =>
    obtain ⟨f, hf⟩ := hpre x (List.mem_cons_self _ _)
    simp only [List.cons_append, List.find?, hf, Option.isNone_some]
    exact ih (fun y hy => hpre y (List.mem_cons_of_mem _ hy))

/-- C9, refuted as stated: with an output directory in which the aggregate
output file cannot be created, `RunTests` on a list with the unregistered
name `X` returns the error of the creation, not `test X does not exist`. -/
theorem create_error_before_validation :
    (mapGet (createFailEnv [("A", returning .Passed)] {}).testFunctions "X").isNone = true ∧
    (RunTests (createFailEnv [("A", returning .Passed)] {}) ["A", "X"]
      [.OutputDirOpt "out"] ()).ret
      = .error (.error (.errorf "Create(out/output) failed: no space left on device")) := by
  decide

/-- C9, amended. When the list of tests passed to `RunTests` contains a name
with no entry in `testFunctions`, and the aggregate output file can be
created if an output directory is given, the call returns the error
`test <name> does not exist` for the first such name in list order and no
result map, and no test function is invoked; the same holds of `runTests`,
which leaves the result map as it was. -/
theorem unknown_test_rejected {σ : Type} (env : Env σ) (pre post : List String) (t : String)
    (opts : List Opt) (w : σ)
    (hpre : ∀ x ∈ pre, ∃ f, mapGet env.testFunctions x = some f)
    (ht : mapGet env.testFunctions t = none)
    (hcreate : outputDirOf opts = "" ∨
      (env.Create (env.Join (outputDirOf opts) "output") (applyCleanGo env opts w)).1 = none) :
    (RunTests env (pre ++ t :: post) opts w).ret
        = .error (.error (.errorf ("test " ++ t ++ " does not exist"))) ∧
      (RunTests env (pre ++ t :: post) opts w).trace = [] ∧
      ∀ s : RunState σ, s.world = w →
        (runTests env (pre ++ t :: post) opts s).1
            = some (.error (.errorf ("test " ++ t ++ " does not exist"))) ∧
          (runTests env (pre ++ t :: post) opts s).2.trace = s.trace ∧
          (runTests env (pre ++ t :: post) opts s).2.results = s.results := by
  have hfind := find_first_unknown env.testFunctions pre post t hpre ht
  have hbody : ∀ (outputDir : String) (outputFile : Option String) (s : RunState σ),
      runTestsBody env opts outputDir outputFile (pre ++ t :: post) s
        = (some (.error (.errorf ("test " ++ t ++ " does not exist"))), s) := by
    intro outputDir outputFile s
    simp only [runTestsBody, hfind]
  have hrun : ∀ s : RunState σ, s.world = w →
      (runTests env (pre ++ t :: post) opts s).1
          = some (.error (.errorf ("test " ++ t ++ " does not exist"))) ∧
        (runTests env (pre ++ t :: post) opts s).2.trace = s.trace ∧
        (runTests env (pre ++ t :: post) opts s).2.results = s.results := by
    intro s hs
    unfold runTests
    simp only [hbody]
    by_cases hd : outputDirOf opts = ""
    · simp [hd]
    · rcases hcreate with hc | hc
      · exact absurd hc hd
      · simp only [ne_eq, hd, not_false_eq_true, if_true]
        rw [hs]
        cases hcr : env.Create (env.Join (outputDirOf opts) "output")
            (applyCleanGo env opts w) with
        | mk e w1 =>
          rw [hcr] at hc
          simp only at hc
          subst hc
          simp [collectError]
  obtain ⟨h1, h2, -⟩ := hrun { results := initResults (pre ++ t :: post), world := w } rfl
  refine ⟨?_, ?_, hrun⟩
  · unfold RunTests
    split
    · rename_i f s1 heq
      rw [heq] at h1
      simp only [Option.some.injEq] at h1
      rw [h1]
    · rename_i s1 heq
      rw [heq] at h1
      cases h1
  · unfold RunTests
    split
    · rename_i f s1 heq
      rw [heq] at h2
      exact h2
    · rename_i s1 heq
      rw [heq] at h1
      cases h1

/-- C9 amended, on the list `A`, `X`, `Y` of which only `A` is registered:
the error names `X`. -/
theorem unknown_test_rejected_witness :
    (RunTests (quietEnv [("A", returning .Passed)] {}) (["A"] ++ "X" :: ["Y"])
      [.OutputDirOpt "out"] ()).ret = .error (.error (.errorf ("test " ++ "X" ++ " does not exist"))) ∧
    (RunTests (quietEnv [("A", returning .Passed)] {}) (["A"] ++ "X" :: ["Y"])
      [.OutputDirOpt "out"] ()).trace = [] :=
  let h := unknown_test_rejected (quietEnv [("A", returning .Passed)] {}) ["A"] ["Y"] "X"
    [.OutputDirOpt "out"] ()
    (by
      intro x hx
      simp only [List.mem_singleton] at hx
      subst hx
      exact ⟨_, rfl⟩)
    rfl (Or.inr rfl)
  ⟨h.1, h.2.1⟩

/-- C8: the code at the failing inputs. With the target tests `A` and `B`,
no dependency, and a function registered for `A` only, `RunProjectTests`
invokes the function of `A` and then returns `test B does not exist`; and
when `B` depends on `A` and the function of `A` returns `Failed`, it returns
a result map and no error. -/
theorem unregistered_test_found_late :
    (RunProjectTests (quietEnv [("A", returning .Passed)] pairConfig) ["p"] []
        ["A", "B"] ()).ret = .error (.error (.errorf "test B does not exist")) ∧
    invoked (RunProjectTests (quietEnv [("A", returning .Passed)] pairConfig) ["p"] []
        ["A", "B"] ()).trace = ["A"] ∧
    (RunProjectTests (quietEnv [("A", returning .Failed)] chainConfig) ["p"] []
        ["A", "B"] ()).ret
      = .ok (some [("A", some { Status := .Failed }), ("B", some { Status := .Skipped })]) := by
  decide

/-! ## The order of strings and the lists of tests of a config -/

theorem lessChars_irrefl (a : List Char) : lessChars a a = false := by
  induction a with
  | nil => rfl
  | cons x xs ih => simp [lessChars, ih]

theorem lessChars_trans : ∀ (a b c : List Char), lessChars a b = true → lessChars b c = true →
    lessChars a c = true
  | [], [], _, h, _ => by simp [lessChars] at h
  | [], _ :: _, [], _, h => by simp [lessChars] at h
  | [], _ :: _, _ :: _, _, _ => by simp [lessChars]
  | _ :: _, [], _, h, _ => by simp [lessChars] at h
  | _ :: _, _ :: _, [], _, h => by simp [lessChars] at h
  | x :: xs, y :: ys, z :: zs, h1, h2 => by
    have ih := lessChars_trans xs ys zs
    simp only [lessChars] at h1 h2 ⊢
    by_cases hxy : x.toNat < y.toNat
    · by_cases hyz : y.toNat < z.toNat
      · rw [if_pos (by omega)]
      · rw [if_neg hyz] at h2
        by_cases hzy : z.toNat < y.toNat
        · simp [hzy] at h2
        · rw [if_pos (by omega)]
    · rw [if_neg hxy] at h1
      by_cases hyx : y.toNat < x.toNat
      · simp [hyx] at h1
      · rw [if_neg hyx] at h1
        by_cases hyz : y.toNat < z.toNat
        · rw [if_pos (by omega)]
        · rw [if_neg hyz] at h2
          by_cases hzy : z.toNat < y.toNat
          · simp [hzy] at h2
          · rw [if_neg hzy] at h2
            rw [if_neg (by omega), if_neg (by omega)]
            exact ih h1 h2

theorem char_eq_of_toNat (x y : Char) (h : x.toNat = y.toNat) : x = y := by
  apply Char.ext
  apply UInt32.ext
  exact h

theorem lessChars_total : ∀ (a b : List Char), lessChars a b = false → lessChars b a = false →
    a = b
  | [], [], _, _ => rfl
  | [], _ :: _, h, _ => by simp [lessChars] at h
  | _ :: _, [], _, h => by simp [lessChars] at h
  | x :: xs, y :: ys, h1, h2 => by
    simp only [lessChars] at h1 h2
    by_cases hxy : x.toNat < y.toNat
    · simp [hxy] at h1
    · by_cases hyx : y.toNat < x.toNat
      · simp [hyx] at h2
      · rw [if_neg hxy, if_neg hyx] at h1
        rw [if_neg hyx, if_neg hxy] at h2
        rw [char_eq_of_toNat x y (by omega), lessChars_total xs ys h1 h2]

theorem lessChars_asymm (a b : List Char) (h : lessChars a b = true) : lessChars b a = false := by
  cases h1 : lessChars b a
  · rfl
  · have := lessChars_trans a b a h h1
    rw [lessChars_irrefl] at this
    cases this

instance stringLE_total : IsTotal String stringLE where
  total a b := by
    unfold stringLE
    cases h : lessChars b.data a.data
    · exact Or.inl rfl
    · exact Or.inr (lessChars_asymm _ _ h)

instance stringLE_trans : IsTrans String stringLE where
  trans a b c h1 h2 := by
    unfold stringLE at *
    cases h : lessChars c.data a.data
    · rfl
    · -- c < a, not (b < a), so a ≤ b ; not (c < b)
      cases h3 : lessChars a.data b.data
      · have := lessChars_total _ _ h3 h1
        rw [this] at h
        rw [h] at h2; cases h2
      · have := lessChars_trans _ _ _ h h3
        rw [this] at h2; cases h2

theorem sorted_sortStrings (l : List String) : (sortStrings l).Sorted stringLE :=
  List.sorted_insertionSort stringLE l

theorem string_eq_of_data (a b : String) (h : a.data = b.data) : a = b := by
  cases a; cases b; simp_all

theorem ascending_sortStrings (l : List String) (h : l.Nodup) :
    (sortStrings l).Pairwise stringLess := by
  have h1 := sorted_sortStrings l
  have h2 := nodup_sortStrings l h
  unfold List.Sorted at h1
  rw [List.Nodup] at h2
  refine (h1.and h2).imp ?_
  intro a b hab
  unfold stringLess
  cases h3 : lessChars a.data b.data
  · exact absurd (string_eq_of_data _ _ (lessChars_total _ _ h3 hab.1)) hab.2
  · rfl

/-- C17. `Config.ProjectTests` returns a strictly ascending list, hence
sorted and free of duplicates. Its elements are exactly the entries of the
test lists of the given projects that name no test group, and the members
of the test groups that such entries name; a member of a group is not
expanded again, and a project that is no key of the config has no test
list to take entries from. -/
theorem projectTests_sorted_members (c : Config) (projects : List String) :
    (c.ProjectTests projects).Pairwise stringLess ∧
    ∀ t, t ∈ c.ProjectTests projects ↔
      ∃ project ∈ projects, ∃ entries, mapGet c.projectTests project = some entries ∧
        ∃ entry ∈ entries,
          (mapGet c.testGroups entry = none ∧ t = entry) ∨
          ∃ members, mapGet c.testGroups entry = some members ∧ t ∈ members := by
  refine ⟨ascending_sortStrings _ (List.nodup_dedup _), ?_⟩
  intro t
  unfold Config.ProjectTests
  simp only [mem_sortStrings, List.mem_dedup, List.mem_flatMap]
  constructor
  · rintro ⟨project, hp, entry, he, ht⟩
    refine ⟨project, hp, ?_⟩
    cases hg : mapGet c.projectTests project with
    | none => simp [hg] at he
    | some entries =>
      simp only [hg, Option.getD_some] at he
      refine ⟨entries, rfl, entry, he, ?_⟩
      unfold Config.expandTest at ht
      cases hm : mapGet c.testGroups entry with
      | none => simp [hm] at ht; exact Or.inl ⟨rfl, ht⟩
      | some members => simp only [hm] at ht; exact Or.inr ⟨members, rfl, ht⟩
  · rintro ⟨project, hp, entries, hg, entry, he, ht⟩
    refine ⟨project, hp, entry, by simp [hg, he], ?_⟩
    unfold Config.expandTest
    rcases ht with ⟨hm, ht⟩ | ⟨members, hm, ht⟩
    · simp [hm, ht]
    · simp only [hm]; exact ht

/-- C18. `Config.GroupTests` returns a strictly ascending list, hence
sorted and free of duplicates, whose elements are exactly the members of
the given groups that are keys of the config; a group that is no key adds
nothing, and the function has no error to return. -/
theorem groupTests_sorted_members (c : Config) (groups : List String) :
    (c.GroupTests groups).Pairwise stringLess ∧
    ∀ t, t ∈ c.GroupTests groups ↔
      ∃ group ∈ groups, ∃ members, mapGet c.testGroups group = some members ∧ t ∈ members := by
  refine ⟨ascending_sortStrings _ (List.nodup_dedup _), ?_⟩
  intro t
  unfold Config.GroupTests
  simp only [mem_sortStrings, List.mem_dedup, List.mem_flatMap]
  constructor
  · rintro ⟨group, hg, ht⟩
    refine ⟨group, hg, ?_⟩
    cases hm : mapGet c.testGroups group with
    | none => simp [hm] at ht
    | some members => simp only [hm] at ht; exact ⟨members, rfl, ht⟩
  · rintro ⟨group, hg, members, hm, ht⟩
    exact ⟨group, hg, by simp only [hm]; exact ht⟩

/-! ## The operations of `computeOperations` -/

theorem toInt_injective (a b : operationType) (h : a.toInt = b.toInt) : a = b := by
  cases a <;> cases b <;> simp [operationType.toInt] at h <;> rfl

theorem operationsLE_iff (a b : operation) :
    operationsLE a b ↔
      a.ty.toInt < b.ty.toInt ∨ (a.ty = b.ty ∧ stringLE a.project.Name b.project.Name) := by
  unfold operationsLE operations.Less stringLE
  by_cases h : b.ty = a.ty
  · simp [h]
  · have h1 : a.ty.toInt ≠ b.ty.toInt := fun e => h (toInt_injective _ _ e).symm
    have h2 : ¬ a.ty = b.ty := fun e => h e.symm
    simp only [ne_eq, h, not_false_eq_true, if_true, decide_eq_false_iff_not, h2, false_and,
      or_false]
    omega

instance operationsLE_total : IsTotal operation operationsLE where
  total a b := by
    rw [operationsLE_iff, operationsLE_iff]
    by_cases h : a.ty = b.ty
    · rcases stringLE_total.total a.project.Name b.project.Name with h1 | h1
      · exact Or.inl (Or.inr ⟨h, h1⟩)
      · exact Or.inr (Or.inr ⟨h.symm, h1⟩)
    · have h1 : a.ty.toInt ≠ b.ty.toInt := fun e => h (toInt_injective _ _ e)
      rcases Int.lt_or_gt_of_ne h1 with h2 | h2
      · exact Or.inl (Or.inl h2)
      · exact Or.inr (Or.inl h2)

instance operationsLE_trans : IsTrans operation operationsLE where
  trans a b c h1 h2 := by
    rw [operationsLE_iff] at *
    rcases h1 with h1 | ⟨h1, h3⟩
    · rcases h2 with h2 | ⟨h2, _⟩
      · exact Or.inl (by omega)
      · exact Or.inl (by rw [← h2]; exact h1)
    · rcases h2 with h2 | ⟨h2, h4⟩
      · exact Or.inl (by rw [h1]; exact h2)
      · exact Or.inr ⟨h1.trans h2, stringLE_trans.trans _ _ _ h3 h4⟩

theorem sorted_sortOperations (ops : List operation) :
    (sortOperations ops).Pairwise operationsLE :=
  List.sorted_insertionSort operationsLE ops

theorem perm_sortOperations (ops : List operation) : (sortOperations ops).Perm ops :=
  List.perm_insertionSort operationsLE ops

/-- C19. The list of operations that `computeOperations` returns is sorted
by the type of the operations, in the order delete, move, create, update,
and among operations of one type by ascending name of the project. Hence
no move stands before a delete and no create before a delete or a move. -/
theorem computeOperations_sorted (localProjects remoteProjects : Projects) (gc : Bool)
    (order : List String) (ops : List operation)
    (h : computeOperations localProjects remoteProjects gc order = .ok ops) :
    ops.Pairwise (fun a b =>
      a.ty.toInt < b.ty.toInt ∨ (a.ty = b.ty ∧ stringLE a.project.Name b.project.Name)) ∧
    ops.Pairwise (fun a b =>
      (a.ty = .moveOperation → b.ty ≠ .deleteOperation) ∧
      (a.ty = .createOperation → b.ty ≠ .deleteOperation ∧ b.ty ≠ .moveOperation)) := by
  unfold computeOperations at h
  split at h
  · cases h
  · rename_i result _
    injection h with h
    subst h
    have h1 := sorted_sortOperations result
    refine ⟨h1.imp fun hab => (operationsLE_iff _ _).1 hab, h1.imp ?_⟩
    intro a b hab
    rw [operationsLE_iff] at hab
    refine ⟨fun ha hb => ?_, fun ha => ⟨fun hb => ?_, fun hb => ?_⟩⟩ <;>
      simp [ha, hb, operationType.toInt] at hab

theorem mem_mapKeys_foldl_mapSet (names : List String) (m : GoMap Unit) (n : String) :
    n ∈ mapKeys (names.foldl (fun m name => mapSet m name ()) m) ↔ n ∈ names ∨ n ∈ mapKeys m := by
  induction names generalizing m with
  | nil => simp
  | cons k names ih =>
    simp only [List.foldl_cons, ih, mem_mapKeys_mapSet, List.mem_cons]
    tauto

theorem mem_mapKeys_allProjects (localProjects remoteProjects : Projects) (n : String) :
    n ∈ mapKeys (allProjects localProjects remoteProjects) ↔
      n ∈ mapKeys localProjects ∨ n ∈ mapKeys remoteProjects := by
  unfold allProjects
  rw [mem_mapKeys_foldl_mapSet, mem_mapKeys_foldl_mapSet]
  simp [mapKeys]
  tauto

theorem operationFor_ok (localProjects remoteProjects : Projects) (gc : Bool) (name : String)
    (h : name ∈ mapKeys (allProjects localProjects remoteProjects)) :
    operationFor localProjects remoteProjects gc name =
      .ok (appended localProjects remoteProjects gc name) := by
  rw [mem_mapKeys_allProjects, ← mapGet_isSome_iff, ← mapGet_isSome_iff] at h
  unfold appended
  cases h1 : operationFor localProjects remoteProjects gc name with
  | ok op => rfl
  | error e =>
    exfalso
    unfold operationFor at h1
    rcases h with ⟨v, hv⟩ | ⟨v, hv⟩
    · rw [hv] at h1
      simp only at h1
      split at h1 <;> split at h1 <;> cases h1
    · rw [hv] at h1
      split at h1
      · split at h1
        · split at h1 <;> cases h1
        · split at h1 <;> cases h1
      · cases h1

theorem appended_of_not_mem (localProjects remoteProjects : Projects) (gc : Bool)
    (name : String) (h : name ∉ mapKeys (allProjects localProjects remoteProjects)) :
    appended localProjects remoteProjects gc name = none := by
  rw [mem_mapKeys_allProjects, ← mapGet_isSome_iff, ← mapGet_isSome_iff] at h
  have h1 : mapGet localProjects name = none := by
    cases e : mapGet localProjects name with
    | none => rfl
    | some v => exact absurd (Or.inl ⟨v, e⟩) h
  have h2 : mapGet remoteProjects name = none := by
    cases e : mapGet remoteProjects name with
    | none => rfl
    | some v => exact absurd (Or.inr ⟨v, e⟩) h
  simp [appended, operationFor, h1, h2]

theorem operationsLoop_eq (localProjects remoteProjects : Projects) (gc : Bool)
    (order : List String) (result : List operation) :
    operationsLoop localProjects remoteProjects gc (allProjects localProjects remoteProjects)
        order result =
      .ok (result ++ order.filterMap (appended localProjects remoteProjects gc)) := by
  induction order generalizing result with
  | nil => simp [operationsLoop]
  | cons name rest ih =>
    unfold operationsLoop
    cases hk : mapGet (allProjects localProjects remoteProjects) name with
    | none =>
      have h1 : name ∉ mapKeys (allProjects localProjects remoteProjects) := by
        rw [← mapGet_isSome_iff]
        rintro ⟨v, hv⟩
        rw [hv] at hk
        cases hk
      simp only [ih, List.filterMap_cons, appended_of_not_mem _ _ _ _ h1]
    | some u =>
      have h1 : name ∈ mapKeys (allProjects localProjects remoteProjects) :=
        (mapGet_isSome_iff _ _).1 ⟨u, hk⟩
      simp only [operationFor_ok _ _ _ _ h1]
      cases ha : appended localProjects remoteProjects gc name with
      | none => simp only [ih, List.filterMap_cons, ha]
      | some op => simp only [ih, List.filterMap_cons, ha, List.append_assoc, List.singleton_append]

theorem operationOf_appended (localProjects remoteProjects : Projects) (gc : Bool)
    (name : String) :
    OperationOf localProjects remoteProjects gc name
      (appended localProjects remoteProjects gc name) := by
  unfold OperationOf appended operationFor
  cases mapGet localProjects name <;> cases mapGet remoteProjects name <;> simp <;>
    split <;> simp_all

/-- C20. When the range over `allProjects` yields every project name of the
two maps once, `computeOperations` returns no error, and its operations
are, up to their order, those of a function `opOf` that gives every project
name at most one operation: an update for a name in both maps with equal
paths, a move from the local to the remote path for a name in both maps
with different paths, a delete for a name only in the local map when `gc`
is set and nothing when it is not, a create at the remote path for a name
only in the remote map. -/
theorem computeOperations_spec (localProjects remoteProjects : Projects) (gc : Bool)
    (order : List String)
    (horder : order.Perm (projectNames localProjects remoteProjects)) :
    ∃ (ops : List operation) (opOf : String → Option operation),
      computeOperations localProjects remoteProjects gc order = .ok ops ∧
      (∀ name, OperationOf localProjects remoteProjects gc name (opOf name)) ∧
      ops.Perm ((projectNames localProjects remoteProjects).filterMap opOf) := by
  refine ⟨sortOperations (order.filterMap (appended localProjects remoteProjects gc)),
    appended localProjects remoteProjects gc, ?_, operationOf_appended _ _ _, ?_⟩
  · unfold computeOperations
    rw [operationsLoop_eq]
    rfl
  · exact (perm_sortOperations _).trans (horder.filterMap _)

theorem computeOperations_spec_witness :
    ["d", "c", "b", "a"].Perm (projectNames localExample remoteExample) ∧
    ∃ (ops : List operation) (opOf : String → Option operation),
      computeOperations localExample remoteExample true ["d", "c", "b", "a"] = .ok ops ∧
      (∀ name, OperationOf localExample remoteExample true name (opOf name)) ∧
      ops.Perm ((projectNames localExample remoteExample).filterMap opOf) :=
  ⟨by decide, computeOperations_spec localExample remoteExample true ["d", "c", "b", "a"]
    (by decide)⟩

theorem computeOperations_sorted_witness :
    computeOperations localExample remoteExample true ["d", "c", "b", "a"] =
      .ok exampleOperations ∧
    exampleOperations.Pairwise (fun a b =>
      a.ty.toInt < b.ty.toInt ∨ (a.ty = b.ty ∧ stringLE a.project.Name b.project.Name)) ∧
    exampleOperations.Pairwise (fun a b =>
      (a.ty = .moveOperation → b.ty ≠ .deleteOperation) ∧
      (a.ty = .createOperation → b.ty ≠ .deleteOperation ∧ b.ty ≠ .moveOperation)) :=
  ⟨by decide, computeOperations_sorted localExample remoteExample true ["d", "c", "b", "a"]
    exampleOperations (by decide)⟩

/-! ## Progress of the scheduling loop -/

theorem pendingCount_mapSet_le (results : ResultMap) (t : String) (v : Option Result) :
    pendingCount results ≤ pendingCount (mapSet results t v) + 1 := by
  induction results with
  | nil => simp [pendingCount]
  | cons p m ih =>
    obtain ⟨k, v1⟩ := p
    by_cases hk : k = t
    · subst hk
      simp only [mapSet, if_true, pendingCount, List.filter_cons]
      cases isPending v1 <;> cases isPending v <;> simp
      omega
    · simp only [pendingCount] at ih
      simp only [mapSet, hk, if_false, pendingCount, List.filter_cons]
      cases isPending v1
      · simpa using ih
      · simp only [if_true, List.length_cons]
        omega

theorem Whole.whole_mapSet {tests : List String} {results : ResultMap} (h : Whole tests results)
    (t : String) (res : Result) (st : Status) (hst : statusOf results t = some st) :
    Whole tests (mapSet results t (some res)) := by
  have hk := mapKeys_mapSet_status results t st hst (some res)
  refine ⟨?_, by rw [hk]; exact h.nodup, by rw [hk]; exact h.sub⟩
  intro y hy
  rw [statusOf_mapSet]
  by_cases e : t = y
  · exact ⟨_, by rw [if_pos e]⟩
  · rw [if_neg e]; exact h.has y hy

theorem acts_whole {σ : Type} (env : Env σ) (opts : List Opt) (graph : testDepGraph)
    (tests : List String) (s s1 : RunState σ) (t : String)
    (hacts : Acts env opts graph s t (.continueRun s1)) (hw : Whole tests s.results) :
    Whole tests s1.results ∧ pendingCount s.results ≤ pendingCount s1.results + 1 := by
  generalize hout : ScanResult.continueRun s1 = out at hacts
  cases hacts with
  | skip result node hr hp hg hc =>
    cases hout
    have hpend : statusOf s.results t = some .Pending := by
      simp only [statusOf]
      rw [show mapGet s.results t = some (some result) from hr]
      simp [hp]
    exact ⟨hw.whole_mapSet t _ _ hpend, pendingCount_mapSet_le _ _ _⟩
  | ran node s2 hp hg hc hrun =>
    cases hout
    rcases runTests_single env t opts s with ⟨-, hne⟩ | ⟨f, w, hf, hinv, hres⟩
    · rw [hrun] at hne
      exact absurd rfl hne
    · rw [hrun] at hres
      obtain ⟨res, hres1, -⟩ := hres rfl
      have hres2 : s1.results = mapSet s.results t (some res) := hres1
      rw [hres2]
      exact ⟨hw.whole_mapSet t _ _ hp, pendingCount_mapSet_le _ _ _⟩
  | failed node f s2 hp hg hc hrun => cases hout

theorem scan_acts {σ : Type} (env : Env σ) (opts : List Opt) (graph : testDepGraph)
    (tests : List String)
    (hkeys : ∀ t, t ∈ mapKeys graph ↔ t ∈ tests)
    (hclosed : ∀ t node, mapGet graph t = some node → ∀ d ∈ node.deps, d ∈ tests)
    (hacc : ∀ t ∈ tests, Acc (Edge graph) t)
    (s : RunState σ) (hw : Whole tests s.results) (hcount : 0 < pendingCount s.results) :
    ∃ t ∈ tests, Acts env opts graph s t (scanTests env opts graph tests s) := by
  obtain ⟨p, hpk, hpp⟩ := exists_pending s.results hw.nodup hcount
  rcases scanTests_spec env opts graph s tests with
    ⟨-, hwait⟩ | ⟨-, x, hx, hpanic⟩ | h
  · exact absurd hpp
      (pending_not_waiting graph s.results tests hclosed hwait p (hacc p (hw.sub p hpk))
        (hw.sub p hpk))
  · exfalso
    rcases hpanic with h1 | ⟨-, h1 | ⟨node, hn, hc⟩⟩
    · obtain ⟨st, hst⟩ := hw.has x hx
      rw [hst] at h1
      cases h1
    · obtain ⟨v, hv⟩ := (mapGet_isSome_iff graph x).2 ((hkeys x).2 hx)
      rw [hv] at h1
      cases h1
    · obtain ⟨d, hd, hdn⟩ := checkDeps_panic _ _ _ hc
      obtain ⟨st, hst⟩ := hw.has d (hclosed x node hn d hd)
      rw [hst] at hdn
      cases hdn
  · exact h

theorem continueRun_acts {σ : Type} (env : Env σ) (opts : List Opt) (graph : testDepGraph)
    (tests : List String) (s s1 : RunState σ)
    (h : scanTests env opts graph tests s = .continueRun s1) :
    ∃ t ∈ tests, Acts env opts graph s t (.continueRun s1) := by
  rcases scanTests_spec env opts graph s tests with ⟨h1, -⟩ | ⟨h1, -⟩ | ⟨t, ht, hacts⟩
  · rw [h] at h1; cases h1
  · rw [h] at h1; cases h1
  · rw [h] at hacts; exact ⟨t, ht, hacts⟩

theorem runLoop_whole {σ : Type} (env : Env σ) (opts : List Opt) (graph : testDepGraph)
    (tests : List String) :
    ∀ (n : Nat) (s : RunState σ), Whole tests s.results →
      (runLoop env opts graph tests n s).1 = none →
      Whole tests (runLoop env opts graph tests n s).2.results ∧
        pendingCount s.results ≤ pendingCount (runLoop env opts graph tests n s).2.results + n := by
  intro n
  induction n with
  | zero => intro s hw _; exact ⟨hw, Nat.le_refl _⟩
  | succ n ih =>
    intro s hw hrun
    simp only [runLoop] at hrun ⊢
    cases hscan : scanTests env opts graph tests { s with iterations := s.iterations + 1 } with
    | continueRun s1 =>
      rw [hscan] at hrun
      simp only at hrun ⊢
      obtain ⟨t, -, hacts⟩ := continueRun_acts env opts graph tests _ s1 hscan
      obtain ⟨hw1, hc1⟩ := acts_whole env opts graph tests _ s1 t hacts hw
      obtain ⟨hw2, hc2⟩ := ih s1 hw1 hrun
      have hc1 : pendingCount s.results ≤ pendingCount s1.results + 1 := hc1
      exact ⟨hw2, by omega⟩
    | fail f s1 => rw [hscan] at hrun; cases hrun
    | exhausted s1 => rw [hscan] at hrun; cases hrun

theorem runLoop_failure {σ : Type} (env : Env σ) (opts : List Opt) (graph : testDepGraph)
    (tests : List String)
    (hkeys : ∀ t, t ∈ mapKeys graph ↔ t ∈ tests)
    (hclosed : ∀ t node, mapGet graph t = some node → ∀ d ∈ node.deps, d ∈ tests)
    (hacc : ∀ t ∈ tests, Acc (Edge graph) t) :
    ∀ (n : Nat) (s : RunState σ), Whole tests s.results → n ≤ pendingCount s.results →
      ∀ f, (runLoop env opts graph tests n s).1 = some f →
        ∃ t ∈ tests, ∃ s0 : RunState σ, statusOf s0.results t = some .Pending ∧
          (runTests env [t] opts s0).1 = some f := by
  intro n
  induction n with
  | zero => intro s _ _ f h; cases h
  | succ n ih =>
    intro s hw hcount f hrun
    obtain ⟨t, ht, hacts⟩ := scan_acts env opts graph tests hkeys hclosed hacc
      { s with iterations := s.iterations + 1 } hw (by show 0 < pendingCount s.results; omega)
    simp only [runLoop] at hrun
    generalize hout : scanTests env opts graph tests { s with iterations := s.iterations + 1 }
      = out at hacts hrun
    cases hacts with
    | skip result node hr hp hg hc =>
      have hacts2 : Acts env opts graph { s with iterations := s.iterations + 1 } t
          (.continueRun (markSkipped { s with iterations := s.iterations + 1 } t result)) :=
        Acts.skip result node hr hp hg hc
      obtain ⟨hw1, hc1⟩ := acts_whole env opts graph tests _ _ t hacts2 hw
      have hc1 : pendingCount s.results ≤ pendingCount
          (markSkipped { s with iterations := s.iterations + 1 } t result).results + 1 := hc1
      exact ih _ hw1 (by omega) f hrun
    | ran node s1 hp hg hc hrun1 =>
      have hacts2 : Acts env opts graph { s with iterations := s.iterations + 1 } t
          (.continueRun s1) := Acts.ran node s1 hp hg hc hrun1
      obtain ⟨hw1, hc1⟩ := acts_whole env opts graph tests _ _ t hacts2 hw
      have hc1 : pendingCount s.results ≤ pendingCount s1.results + 1 := hc1
      exact ih _ hw1 (by omega) f hrun
    | failed node f1 s1 hp hg hc hrun1 =>
      simp only [Option.some.injEq] at hrun
      subst hrun
      exact ⟨t, ht, { s with iterations := s.iterations + 1 }, hp, by rw [hrun1]⟩

theorem whole_initResults (config : Config) (tests : List String) :
    Whole tests (initResults tests) :=
  ⟨fun t ht => ⟨.Pending, by rw [statusOf_initResults, if_pos ht]⟩,
    by rw [mapKeys_initResults config]; exact nodup_mapKeys_buildDepGraph config _,
    fun t ht => (mem_mapKeys_initResults _ t).1 ht⟩

/-- The loop with one iteration more: the iterations before, then the last
one. -/
theorem runLoop_succ {σ : Type} (env : Env σ) (opts : List Opt) (graph : testDepGraph)
    (tests : List String) :
    ∀ (k : Nat) (s : RunState σ) (s1 : RunState σ),
      runLoop env opts graph tests k s = (none, s1) →
      runLoop env opts graph tests (k + 1) s = runLoop env opts graph tests 1 s1 := by
  intro k
  induction k with
  | zero => intro s s1 h; simp only [runLoop] at h; cases h; rfl
  | succ k ih =>
    intro s s1 h
    rw [runLoop] at h ⊢
    cases hscan : scanTests env opts graph tests { s with iterations := s.iterations + 1 } with
    | continueRun s2 =>
      rw [hscan] at h
      simp only at h ⊢
      exact ih s2 s1 h
    | fail f s2 => rw [hscan] at h; cases h
    | exhausted s2 => rw [hscan] at h; cases h

/-- C11. For a graph that `createTestDepGraph` returns for the target
tests, the range over the graph map yielding every target test, and
whatever the test functions and the other operations do: a failure of
`RunProjectTests` is one that a call of `runTests` on a pending target
test returned, so that the statement that returns "erroneous test running
logic" is not reached, and `RunProjectTests` returns no error of this text
unless `runTests` does; and in every iteration of the scheduling loop, which
begins in the state that `runLoop` leaves after the `k` iterations before
it, the scan acts on a pending target test: it marks the test `Skipped` or
hands it to `runTests`. -/
theorem scheduling_loop_progress {σ : Type} (env : Env σ) (projects : List String)
    (opts : List Opt) (order : List String) (w : σ) (config : Config) (graph : testDepGraph)
    (hload : env.LoadConfig w = .ok config)
    (hgraph : createTestDepGraph config (sortStrings (config.ProjectTests projects)) order
      = .ok graph)
    (horder : ∀ t ∈ config.ProjectTests projects, t ∈ order) :
    (∀ f, (RunProjectTests env projects opts order w).ret = .error f →
      ∃ t ∈ config.ProjectTests projects, ∃ s : RunState σ,
        statusOf s.results t = some .Pending ∧ (runTests env [t] opts s).1 = some f) ∧
    ((∀ t (s : RunState σ), (runTests env [t] opts s).1 ≠
        some (.error (.errorf "erroneous test running logic"))) →
      (RunProjectTests env projects opts order w).ret ≠
        .error (.error (.errorf "erroneous test running logic"))) ∧
    (∀ k, k < graph.length →
      (runLoop env opts graph (sortStrings (config.ProjectTests projects)) k
        { results := initResults (sortStrings (config.ProjectTests projects)),
          world := w }).1 = none →
      ∃ t ∈ config.ProjectTests projects,
        Acts env opts graph
          (runLoop env opts graph (sortStrings (config.ProjectTests projects)) k
            { results := initResults (sortStrings (config.ProjectTests projects)),
              world := w }).2.begin t
          (scanTests env opts graph (sortStrings (config.ProjectTests projects))
            (runLoop env opts graph (sortStrings (config.ProjectTests projects)) k
              { results := initResults (sortStrings (config.ProjectTests projects)),
                world := w }).2.begin)) := by
  have hmem : ∀ t, t ∈ sortStrings (config.ProjectTests projects)
      ↔ t ∈ config.ProjectTests projects := mem_sortStrings _
  have hkeys := (graph_nodes config _ order graph hgraph).1
  have hclosed := createTestDepGraph_closed config _ order graph hgraph
  have hacc := createTestDepGraph_acc config _ order graph hgraph
    (fun t ht => horder t ((hmem t).1 ht))
  have hw0 := whole_initResults config (sortStrings (config.ProjectTests projects))
  have hcount : graph.length
      = pendingCount (initResults (sortStrings (config.ProjectTests projects))) := by
    rw [pendingCount_initResults, length_initResults config _ order graph hgraph]
  have hfail : ∀ f, (RunProjectTests env projects opts order w).ret = .error f →
      ∃ t ∈ config.ProjectTests projects, ∃ s : RunState σ,
        statusOf s.results t = some .Pending ∧ (runTests env [t] opts s).1 = some f := by
    intro f hf
    by_cases hne : config.ProjectTests projects = []
    · simp [RunProjectTests, hload, hne] at hf
    · obtain ⟨-, -, hr⟩ := RunProjectTests_eq env projects opts order w config graph
        hload hne hgraph
      rw [hr] at hf
      generalize hout : runLoop env opts graph (sortStrings (config.ProjectTests projects))
        graph.length
        { results := initResults (sortStrings (config.ProjectTests projects)), world := w }
        = out at hf
      obtain ⟨e, sf⟩ := out
      cases e with
      | none => cases hf
      | some f1 =>
        simp only [Except.error.injEq] at hf
        subst hf
        obtain ⟨t, ht, s0, hp, hrun⟩ := runLoop_failure env opts graph _ hkeys hclosed hacc
          graph.length
          { results := initResults (sortStrings (config.ProjectTests projects)), world := w }
          hw0 (Nat.le_of_eq hcount) f1 (by rw [hout])
        exact ⟨t, (hmem t).1 ht, s0, hp, hrun⟩
  refine ⟨hfail, ?_, ?_⟩
  · intro hno hret
    obtain ⟨t, -, s, -, hrun⟩ := hfail _ hret
    exact hno t s hrun
  · intro k hk hrun
    obtain ⟨hw1, hc1⟩ := runLoop_whole env opts graph _ k
      { results := initResults (sortStrings (config.ProjectTests projects)), world := w }
      hw0 hrun
    have hc1 : pendingCount (initResults (sortStrings (config.ProjectTests projects)))
        ≤ pendingCount (runLoop env opts graph (sortStrings (config.ProjectTests projects)) k
          { results := initResults (sortStrings (config.ProjectTests projects)),
            world := w }).2.results + k := hc1
    obtain ⟨t, ht, hacts⟩ := scan_acts env opts graph _ hkeys hclosed hacc
      (runLoop env opts graph (sortStrings (config.ProjectTests projects)) k
        { results := initResults (sortStrings (config.ProjectTests projects)),
          world := w }).2.begin hw1
      (by
        show 0 < pendingCount (runLoop env opts graph
          (sortStrings (config.ProjectTests projects)) k
          { results := initResults (sortStrings (config.ProjectTests projects)),
            world := w }).2.results
        omega)
    exact ⟨t, (hmem t).1 ht, hacts⟩

/-- C11, on the tests of `fanConfig`, where the function of `A` returns
`Failed` and that of `B` returns `Pending`. -/
theorem scheduling_loop_progress_witness :
    (quietEnv [("A", returning .Failed), ("B", returning .Pending), ("C", returning .Passed)]
      fanConfig).LoadConfig () = .ok fanConfig ∧
    createTestDepGraph fanConfig (sortStrings (fanConfig.ProjectTests ["p"])) ["C", "B", "A"]
      = .ok [("A", { deps := [], visited := true }), ("B", { deps := ["A"], visited := true }),
          ("C", { deps := ["A"], visited := true })] ∧
    ∀ f, (RunProjectTests (quietEnv [("A", returning .Failed), ("B", returning .Pending),
        ("C", returning .Passed)] fanConfig) ["p"] [] ["C", "B", "A"] ()).ret = .error f →
      ∃ t ∈ fanConfig.ProjectTests ["p"], ∃ s : RunState Unit,
        statusOf s.results t = some .Pending ∧
        (runTests (quietEnv [("A", returning .Failed), ("B", returning .Pending),
          ("C", returning .Passed)] fanConfig) [t] [] s).1 = some f :=
  ⟨rfl, by decide,
    (scheduling_loop_progress (quietEnv [("A", returning .Failed), ("B", returning .Pending),
      ("C", returning .Passed)] fanConfig) ["p"] [] ["C", "B", "A"] () fanConfig
      [("A", { deps := [], visited := true }), ("B", { deps := ["A"], visited := true }),
        ("C", { deps := ["A"], visited := true })] rfl (by decide) (by decide)).1⟩

/-! ## Two runs in environments that answer alike -/

theorem invoked_append (a b : List Event) : invoked (a ++ b) = invoked a ++ invoked b := by
  simp [invoked, invocations_append]

theorem pair_alike {α σ : Type} {R : σ → σ → Prop} {a b : α × σ} (h : a.1 = b.1 ∧ R a.2 b.2) :
    ∃ x u v, a = (x, u) ∧ b = (x, v) ∧ R u v := by
  obtain ⟨a1, a2⟩ := a
  obtain ⟨b1, b2⟩ := b
  obtain ⟨h1, h2⟩ := h
  cases h1
  exact ⟨a1, a2, b2, rfl, rfl, h2⟩

theorem checkTestReportFile_alike {σ : Type} {env : Env σ} {opts : List Opt}
    {R : σ → σ → Prop} (h : Alike env opts R) (t : String) (w1 w2 : σ) (hw : R w1 w2) :
    (checkTestReportFile env t w1).1 = (checkTestReportFile env t w2).1 ∧
      R (checkTestReportFile env t w1).2 (checkTestReportFile env t w2).2 := by
  unfold checkTestReportFile
  by_cases ht : t = "vanadium-presubmit-test"
  · rw [if_pos ht, if_pos ht]; exact ⟨rfl, hw⟩
  · rw [if_neg ht, if_neg ht]
    simp only
    rw [← h.stat _ w1 w2 hw, ← h.readFile _ w1 w2 hw]
    cases env.Stat (env.ReportPath t) w1 with
    | some err =>
      simp only
      by_cases hn : env.IsNotExist err = true
      · simp only [hn, Bool.not_true, Bool.false_eq_true, if_false]
        obtain ⟨x, u, v, e1, e2, huv⟩ := pair_alike
          (h.writeFile (env.Join (env.Dir (env.ReportPath t)) "tests_dummy.xml")
            dummyTestResult w1 w2 hw)
        rw [e1, e2]
        cases x <;> exact ⟨rfl, huv⟩
      · simp only [hn, Bool.not_false, if_true]
        exact ⟨trivial, hw⟩
    | none =>
      simp only
      cases env.ReadFile (env.ReportPath t) w1 with
      | error err => exact ⟨rfl, hw⟩
      | ok bytes =>
        simp only
        cases env.Unmarshal bytes with
        | error err =>
          exact h.createFailureReport _ _ _ _ _ _ _ (h.removeAll _ _ _ hw)
        | ok suites =>
          simp only
          split
          · exact h.createFailureReport _ _ _ _ _ _ _ (h.removeAll _ _ _ hw)
          · exact ⟨rfl, hw⟩

theorem createXUnitFile_alike {σ : Type} {env : Env σ} {opts : List Opt}
    {R : σ → σ → Prop} (h : Alike env opts R) (path : String) (w1 w2 : σ) (hw : R w1 w2) :
    createXUnitFile env path w1 = createXUnitFile env path w2 := by
  unfold createXUnitFile
  rw [← h.stat _ w1 w2 hw, ← h.readFile _ w1 w2 hw]

theorem generateXUnitReportForError_alike {σ : Type} {env : Env σ} {opts : List Opt}
    {R : σ → σ → Prop} (h : Alike env opts R) (t : String) (err : GoError)
    (out : String) (w1 w2 : σ) (hw : R w1 w2) :
    (generateXUnitReportForError env t err out w1).1 =
        (generateXUnitReportForError env t err out w2).1 ∧
      R (generateXUnitReportForError env t err out w1).2
        (generateXUnitReportForError env t err out w2).2 := by
  unfold generateXUnitReportForError
  by_cases ht : t = "vanadium-presubmit-test"
  · rw [if_pos ht, if_pos ht]; exact ⟨rfl, hw⟩
  · rw [if_neg ht, if_neg ht, ← createXUnitFile_alike h _ w1 w2 hw]
    cases createXUnitFile env (env.ReportPath t) w1 with
    | error e => exact ⟨rfl, hw⟩
    | ok b =>
      cases b with
      | false => exact ⟨rfl, hw⟩
      | true =>
        simp only
        obtain ⟨x, u, v, e1, e2, huv⟩ := pair_alike
          (h.createFailureReport t t
            (match err with
              | .internalTestError inner name _ => (name, inner)
              | other => ("Internal Error", other)).1
            (match err with
              | .internalTestError inner name _ => (name, inner)
              | other => ("Internal Error", other)).1
            ("Error message:\n" ++ (match err with
              | .internalTestError inner name _ => (name, inner)
              | other => ("Internal Error", other)).1 ++ ":\n" ++
              (match err with
              | .internalTestError inner name _ => (name, inner)
              | other => ("Internal Error", other)).2.Error ++
              "\n\n\nConsole output:\n" ++ consoleOutput out ++ "\n")
            w1 w2 hw)
        cases err <;> simp only at e1 e2 ⊢ <;> rw [e1, e2] <;> cases x <;>
          first
          | exact ⟨rfl, huv⟩
          | (simp only; split <;> exact ⟨rfl, huv⟩)

theorem agree_of_trace {σ : Type} {R : σ → σ → Prop} {s1 s2 t1 t2 : RunState σ}
    (h : Agree R s1 s2) (hr1 : t1.results = s1.results) (hr2 : t2.results = s2.results)
    (hi1 : invoked t1.trace = invoked s1.trace) (hi2 : invoked t2.trace = invoked s2.trace)
    (hs1 : skips t1.trace = skips s1.trace) (hs2 : skips t2.trace = skips s2.trace)
    (hw : R t1.world t2.world) : Agree R t1 t2 :=
  ⟨by rw [hr1, hr2, h.results], by rw [hi1, hi2, h.invoked], by rw [hs1, hs2, h.skips], hw⟩

theorem reportTimedOut_alike {σ : Type} {env : Env σ} {opts : List Opt}
    {R : σ → σ → Prop} (h : Alike env opts R) (t : String) (ret : TestFnReturn)
    (s1 s2 : RunState σ) (hs : Agree R s1 s2) :
    Agree R (reportTimedOut env t ret s1) (reportTimedOut env t ret s2) := by
  have m1 := reportTimedOut_sameMarks env t ret s1
  have m2 := reportTimedOut_sameMarks env t ret s2
  refine agree_of_trace hs m1.results m2.results
    (by rw [invoked, invoked, m1.invocations]) (by rw [invoked, invoked, m2.invocations])
    m1.skips m2.skips ?_
  unfold reportTimedOut
  cases ret.result with
  | none => exact hs.world
  | some result =>
    simp only
    split
    · exact (h.createFailureReport _ _ _ _ _ _ _ hs.world).2
    · exact hs.world

theorem timedOutOutput_alike {σ : Type} {env : Env σ} {opts : List Opt}
    {R : σ → σ → Prop} (h : Alike env opts R) (t : String) (ret : TestFnReturn) (w1 w2 : σ)
    (hw : R w1 w2) : timedOutOutput env t ret w1 = timedOutOutput env t ret w2 := by
  unfold timedOutOutput
  cases ret.result with
  | none => rfl
  | some result =>
    simp only
    split
    · simp only [writeTimedOutTestReport]
      rw [(h.createFailureReport _ _ _ _ _ _ _ hw).1]
    · rfl

theorem checkedError_alike {σ : Type} {env : Env σ} {opts : List Opt}
    {R : σ → σ → Prop} (h : Alike env opts R) (t : String) (ret : TestFnReturn) (w1 w2 : σ)
    (hw : R w1 w2) :
    (checkedError env t ret w1).1 = (checkedError env t ret w2).1 ∧
      R (checkedError env t ret w1).2 (checkedError env t ret w2).2 := by
  unfold checkedError
  cases ret.err with
  | some e => exact ⟨rfl, hw⟩
  | none => exact checkTestReportFile_alike h t w1 w2 hw

theorem settledOutput_alike {σ : Type} {env : Env σ} {opts : List Opt}
    {R : σ → σ → Prop} (h : Alike env opts R) (t : String) (ret : TestFnReturn) (out : String)
    (w1 w2 : σ) (hw : R w1 w2) :
    settledOutput env t ret out w1 = settledOutput env t ret out w2 := by
  unfold settledOutput
  rw [(checkedError_alike h t ret w1 w2 hw).1]

theorem settleResult_alike {σ : Type} {env : Env σ} {opts : List Opt}
    {R : σ → σ → Prop} (h : Alike env opts R) (t : String) (ret : TestFnReturn) (out : String)
    (w1 w2 : σ) (hw : R w1 w2) :
    (settleResult env t ret out w1).1 = (settleResult env t ret out w2).1 ∧
      R (settleResult env t ret out w1).2 (settleResult env t ret out w2).2 := by
  unfold settleResult
  simp only
  obtain ⟨x, u, v, e1, e2, huv⟩ := pair_alike (checkedError_alike h t ret w1 w2 hw)
  rw [e1, e2]
  cases x with
  | none => exact ⟨rfl, huv⟩
  | some e =>
    simp only
    obtain ⟨y, u1, v1, e3, e4, huv1⟩ := pair_alike
      (generateXUnitReportForError_alike h t e (out ++ errorLine (some e)) u v huv)
    rw [e3, e4]
    cases y <;> exact ⟨rfl, huv1⟩

theorem writeOutput_alike {σ : Type} {env : Env σ} {opts : List Opt}
    {R : σ → σ → Prop} (h : Alike env opts R) (outputFile : Option String)
    (out : String) (s1 s2 : RunState σ) (hs : Agree R s1 s2) :
    (writeOutput env outputFile out s1).1 = (writeOutput env outputFile out s2).1 ∧
      Agree R (writeOutput env outputFile out s1).2 (writeOutput env outputFile out s2).2 := by
  have m1 := writeOutput_sameMarks env outputFile out s1
  have m2 := writeOutput_sameMarks env outputFile out s2
  have hagree : ∀ (hw : R (writeOutput env outputFile out s1).2.world
      (writeOutput env outputFile out s2).2.world),
      Agree R (writeOutput env outputFile out s1).2 (writeOutput env outputFile out s2).2 :=
    fun hw => agree_of_trace hs m1.results m2.results
      (by rw [invoked, invoked, m1.invocations]) (by rw [invoked, invoked, m2.invocations])
      m1.skips m2.skips hw
  revert hagree
  unfold writeOutput
  cases outputFile with
  | none => intro hagree; exact ⟨rfl, hagree hs.world⟩
  | some fileName =>
    simp only
    obtain ⟨x, u, v, e1, e2, huv⟩ := pair_alike (h.write fileName out _ _ hs.world)
    rw [e1, e2]
    cases x <;> intro hagree <;> exact ⟨rfl, hagree huv⟩

theorem pair_agree {α σ : Type} {R : σ → σ → Prop} {a b : α × RunState σ}
    (h : a.1 = b.1 ∧ Agree R a.2 b.2) :
    ∃ x u v, a = (x, u) ∧ b = (x, v) ∧ Agree R u v := by
  obtain ⟨a1, a2⟩ := a
  obtain ⟨b1, b2⟩ := b
  obtain ⟨h1, h2⟩ := h
  cases h1
  exact ⟨a1, a2, b2, rfl, rfl, h2⟩

theorem runTest_alike {σ : Type} {env : Env σ} {opts : List Opt}
    {R : σ → σ → Prop} (h : Alike env opts R) (outputFile : Option String) (t : String)
    (s1 s2 : RunState σ) (hs : Agree R s1 s2) :
    (runTest env opts outputFile t s1).1 = (runTest env opts outputFile t s2).1 ∧
      Agree R (runTest env opts outputFile t s1).2 (runTest env opts outputFile t s2).2 := by
  unfold runTest
  cases hf : mapGet env.testFunctions t with
  | none => exact ⟨rfl, hs⟩
  | some f =>
    simp only
    obtain ⟨hret, hw⟩ := h.fns t f s1.world s2.world hf hs.world
    rw [← hret]
    have hA : Agree R
        { s1 with world := (f t opts s1.world).2,
                  trace := s1.trace ++ [.invoke t s1.results (f t opts s1.world).1] }
        { s2 with world := (f t opts s2.world).2,
                  trace := s2.trace ++ [.invoke t s2.results (f t opts s1.world).1] } :=
      ⟨hs.results, by rw [invoked_append, invoked_append, hs.invoked]; rfl,
        by rw [skips_append, skips_append, hs.skips]; rfl, hw⟩
    have hB := reportTimedOut_alike h t (f t opts s1.world).1 _ _ hA
    rw [← timedOutOutput_alike h t (f t opts s1.world).1 _ _ hw,
      ← settledOutput_alike h t (f t opts s1.world).1 _ _ _ hB.world]
    obtain ⟨x, u, v, e1, e2, huv⟩ := pair_alike
      (settleResult_alike h t (f t opts s1.world).1
        ((f t opts s1.world).1.out ++
          timedOutOutput env t (f t opts s1.world).1 (f t opts s1.world).2) _ _ hB.world)
    rw [e1, e2]
    cases x with
    | error e =>
      exact ⟨rfl, agree_of_trace hB rfl rfl rfl rfl rfl rfl huv⟩
    | ok result =>
      simp only
      have hC : Agree R
          { reportTimedOut env t (f t opts s1.world).1
              { s1 with world := (f t opts s1.world).2,
                        trace := s1.trace ++ [.invoke t s1.results (f t opts s1.world).1] } with
            world := u,
            results := mapSet (reportTimedOut env t (f t opts s1.world).1
              { s1 with world := (f t opts s1.world).2,
                        trace := s1.trace ++ [.invoke t s1.results (f t opts s1.world).1] }).results
              t result }
          { reportTimedOut env t (f t opts s1.world).1
              { s2 with world := (f t opts s2.world).2,
                        trace := s2.trace ++ [.invoke t s2.results (f t opts s1.world).1] } with
            world := v,
            results := mapSet (reportTimedOut env t (f t opts s1.world).1
              { s2 with world := (f t opts s2.world).2,
                        trace := s2.trace ++ [.invoke t s2.results (f t opts s1.world).1] }).results
              t result } :=
        ⟨by show mapSet _ t result = mapSet _ t result; rw [hB.results], hB.invoked, hB.skips,
          huv⟩
      obtain ⟨y, p, q, e3, e4, hpq⟩ := pair_agree
        (writeOutput_alike h outputFile _ _ _ hC)
      rw [e3, e4]
      cases y with
      | some e => exact ⟨rfl, hpq⟩
      | none => cases result <;> exact ⟨rfl, hpq⟩

theorem runTestsLoop_alike {σ : Type} {env : Env σ} {opts : List Opt}
    {R : σ → σ → Prop} (h : Alike env opts R) (outputFile : Option String)
    (tests : List String) (s1 s2 : RunState σ) (hs : Agree R s1 s2) :
    (runTestsLoop env opts outputFile tests s1).1 = (runTestsLoop env opts outputFile tests s2).1 ∧
      Agree R (runTestsLoop env opts outputFile tests s1).2
        (runTestsLoop env opts outputFile tests s2).2 := by
  induction tests generalizing s1 s2 with
  | nil => exact ⟨rfl, hs⟩
  | cons t rest ih =>
    unfold runTestsLoop
    obtain ⟨x, u, v, e1, e2, huv⟩ := pair_agree (runTest_alike h outputFile t s1 s2 hs)
    rw [e1, e2]
    cases x with
    | some f => exact ⟨rfl, huv⟩
    | none => exact ih u v huv

theorem writeResults_alike {σ : Type} {env : Env σ} {opts : List Opt}
    {R : σ → σ → Prop} (h : Alike env opts R) (outputDir : String)
    (s1 s2 : RunState σ) (hs : Agree R s1 s2) :
    (writeResults env outputDir s1).1 = (writeResults env outputDir s2).1 ∧
      Agree R (writeResults env outputDir s1).2 (writeResults env outputDir s2).2 := by
  have m1 := writeResults_sameMarks env outputDir s1
  have m2 := writeResults_sameMarks env outputDir s2
  have hagree : ∀ (hw : R (writeResults env outputDir s1).2.world
      (writeResults env outputDir s2).2.world),
      Agree R (writeResults env outputDir s1).2 (writeResults env outputDir s2).2 :=
    fun hw => agree_of_trace hs m1.results m2.results
      (by rw [invoked, invoked, m1.invocations]) (by rw [invoked, invoked, m2.invocations])
      m1.skips m2.skips hw
  revert hagree
  unfold writeResults
  rw [← hs.results]
  by_cases hd : outputDir ≠ ""
  · rw [if_pos hd, if_pos hd]
    cases env.Marshal s1.results with
    | error err => intro hagree; exact ⟨rfl, hagree hs.world⟩
    | ok bytes =>
      simp only
      obtain ⟨x, u, v, e1, e2, huv⟩ := pair_alike
        (h.writeFile (env.Join outputDir "results") bytes _ _ hs.world)
      rw [e1, e2]
      cases x <;> intro hagree <;> exact ⟨rfl, hagree huv⟩
  · rw [if_neg hd, if_neg hd]
    intro hagree; exact ⟨rfl, hagree hs.world⟩

theorem runTestsBody_alike {σ : Type} {env : Env σ} {opts : List Opt}
    {R : σ → σ → Prop} (h : Alike env opts R) (outputDir : String)
    (outputFile : Option String) (tests : List String) (s1 s2 : RunState σ)
    (hs : Agree R s1 s2) :
    (runTestsBody env opts outputDir outputFile tests s1).1 =
        (runTestsBody env opts outputDir outputFile tests s2).1 ∧
      Agree R (runTestsBody env opts outputDir outputFile tests s1).2
        (runTestsBody env opts outputDir outputFile tests s2).2 := by
  unfold runTestsBody
  cases tests.find? fun t => (mapGet env.testFunctions t).isNone with
  | some t => exact ⟨rfl, hs⟩
  | none =>
    simp only
    obtain ⟨x, u, v, e1, e2, huv⟩ := pair_agree (runTestsLoop_alike h outputFile tests s1 s2 hs)
    rw [e1, e2]
    cases x with
    | some f => exact ⟨rfl, huv⟩
    | none => exact writeResults_alike h outputDir u v huv

theorem applyCleanGo_alike {σ : Type} {env : Env σ} {opts : List Opt}
    {R : σ → σ → Prop} (h : Alike env opts R) (l : List Opt) (w1 w2 : σ) (hw : R w1 w2) :
    R (applyCleanGo env l w1) (applyCleanGo env l w2) := by
  unfold applyCleanGo
  induction l generalizing w1 w2 with
  | nil => exact hw
  | cons opt rest ih =>
    simp only [List.foldl_cons]
    apply ih
    cases opt with
    | CleanGoOpt b => exact h.setCleanGo b w1 w2 hw
    | OutputDirOpt d => exact hw
    | other n => exact hw

theorem runTests_alike {σ : Type} {env : Env σ} {opts : List Opt}
    {R : σ → σ → Prop} (h : Alike env opts R) (tests : List String)
    (s1 s2 : RunState σ) (hs : Agree R s1 s2) :
    (runTests env tests opts s1).1 = (runTests env tests opts s2).1 ∧
      Agree R (runTests env tests opts s1).2 (runTests env tests opts s2).2 := by
  unfold runTests
  simp only
  have hc := applyCleanGo_alike h opts s1.world s2.world hs.world
  by_cases hd : outputDirOf opts ≠ ""
  · rw [if_pos hd, if_pos hd]
    obtain ⟨x, u, v, e1, e2, huv⟩ := pair_alike
      (h.create (env.Join (outputDirOf opts) "output") _ _ hc)
    rw [e1, e2]
    cases x with
    | some err => exact ⟨rfl, hs.results, hs.invoked, hs.skips, huv⟩
    | none =>
      simp only
      have h0 : Agree R { s1 with world := u } { s2 with world := v } :=
        ⟨hs.results, hs.invoked, hs.skips, huv⟩
      obtain ⟨y, p, q, e3, e4, hpq⟩ := pair_agree
        (runTestsBody_alike h (outputDirOf opts) (some (env.Join (outputDirOf opts) "output"))
          tests _ _ h0)
      rw [e3, e4]
      obtain ⟨z, a, b, e5, e6, hab⟩ := pair_alike
        (h.close (env.Join (outputDirOf opts) "output") _ _ hpq.world)
      simp only
      rw [e5, e6]
      exact ⟨rfl, hpq.results, hpq.invoked, hpq.skips, hab⟩
  · rw [if_neg hd, if_neg hd]
    exact runTestsBody_alike h _ _ tests _ _ ⟨hs.results, hs.invoked, hs.skips, hc⟩

theorem scanTests_alike {σ : Type} {env : Env σ} {opts : List Opt}
    {R : σ → σ → Prop} (h : Alike env opts R) (g1 g2 : testDepGraph)
    (hdeps : ∀ t, nodeDeps g1 t = nodeDeps g2 t) (l : List String)
    (s1 s2 : RunState σ) (hs : Agree R s1 s2) :
    AgreeScan R (scanTests env opts g1 l s1) (scanTests env opts g2 l s2) := by
  induction l with
  | nil => exact hs
  | cons t rest ih =>
    unfold scanTests
    rw [← hs.results]
    cases mapGet s1.results t with
    | none => exact ⟨rfl, hs⟩
    | some entry =>
      cases entry with
      | none => exact ⟨rfl, hs⟩
      | some result =>
        simp only
        by_cases hp : result.Status ≠ .Pending
        · rw [if_pos hp, if_pos hp]; exact ih
        · rw [if_neg hp, if_neg hp]
          have hd := hdeps t
          unfold nodeDeps at hd
          cases hg1 : mapGet g1 t with
          | none =>
            rw [hg1] at hd
            cases hg2 : mapGet g2 t with
            | none => exact ⟨rfl, hs⟩
            | some node2 => rw [hg2] at hd; cases hd
          | some node1 =>
            rw [hg1] at hd
            cases hg2 : mapGet g2 t with
            | none => rw [hg2] at hd; cases hd
            | some node2 =>
              rw [hg2] at hd
              simp only [Option.map_some', Option.some.injEq] at hd
              simp only
              rw [← hd]
              cases checkDeps s1.results node1.deps true with
              | skip =>
                exact ⟨by show mapSet _ _ _ = mapSet _ _ _; rw [hs.results],
                  by rw [invoked_append, invoked_append, hs.invoked],
                  by rw [skips_append, skips_append, hs.skips], hs.world⟩
              | panic => exact ⟨rfl, hs⟩
              | ready b =>
                cases b with
                | false => exact ih
                | true =>
                  simp only
                  obtain ⟨x, u, v, e1, e2, huv⟩ := pair_agree (runTests_alike h [t] s1 s2 hs)
                  rw [e1, e2]
                  cases x with
                  | some f => exact ⟨rfl, huv⟩
                  | none => exact huv

theorem runLoop_alike {σ : Type} {env : Env σ} {opts : List Opt}
    {R : σ → σ → Prop} (h : Alike env opts R) (g1 g2 : testDepGraph)
    (hdeps : ∀ t, nodeDeps g1 t = nodeDeps g2 t) (tests : List String) :
    ∀ (n : Nat) (s1 s2 : RunState σ), Agree R s1 s2 →
      (runLoop env opts g1 tests n s1).1 = (runLoop env opts g2 tests n s2).1 ∧
        Agree R (runLoop env opts g1 tests n s1).2 (runLoop env opts g2 tests n s2).2 := by
  intro n
  induction n with
  | zero => intro s1 s2 hs; exact ⟨rfl, hs⟩
  | succ n ih =>
    intro s1 s2 hs
    have h0 : Agree R { s1 with iterations := s1.iterations + 1 }
        { s2 with iterations := s2.iterations + 1 } :=
      ⟨hs.results, hs.invoked, hs.skips, hs.world⟩
    have hscan := scanTests_alike h g1 g2 hdeps tests _ _ h0
    simp only [runLoop]
    generalize scanTests env opts g1 tests { s1 with iterations := s1.iterations + 1 } = o1
      at hscan
    generalize scanTests env opts g2 tests { s2 with iterations := s2.iterations + 1 } = o2
      at hscan
    cases o1 <;> cases o2 <;> simp only [AgreeScan] at hscan
    · exact ih _ _ hscan
    · exact ⟨by rw [hscan.1], hscan.2⟩
    · exact ⟨rfl, hscan⟩

theorem createTestDepGraph_orders (config : Config) (tests order1 order2 : List String)
    (horder1 : ∀ t ∈ tests, t ∈ order1) (horder2 : ∀ t ∈ tests, t ∈ order2) :
    (∃ f1 f2, createTestDepGraph config tests order1 = .error f1 ∧
      createTestDepGraph config tests order2 = .error f2) ∨
    ∃ g1 g2, createTestDepGraph config tests order1 = .ok g1 ∧
      createTestDepGraph config tests order2 = .ok g2 ∧
      (∀ t, nodeDeps g1 t = nodeDeps g2 t) ∧ mapKeys g1 = mapKeys g2 := by
  by_cases hc : HasCycle config tests
  · obtain ⟨f1, h1⟩ := createTestDepGraph_cycle config tests order1 hc horder1
    obtain ⟨f2, h2⟩ := createTestDepGraph_cycle config tests order2 hc horder2
    exact Or.inl ⟨_, _, h1, h2⟩
  · obtain ⟨g1, h1⟩ := createTestDepGraph_acyclic config tests order1 hc
    obtain ⟨g2, h2⟩ := createTestDepGraph_acyclic config tests order2 hc
    obtain ⟨hg1, -, -⟩ := createTestDepGraph_ok_grows config tests order1 g1 h1
    obtain ⟨hg2, -, -⟩ := createTestDepGraph_ok_grows config tests order2 g2 h2
    exact Or.inr ⟨g1, g2, h1, h2, fun t => (hg1.deps t).trans (hg2.deps t).symm,
      hg1.keys.trans hg2.keys.symm⟩

/-- C12, amended. Two runs of `RunProjectTests` for the same projects and
options, whose worlds give the same config and in which the environment
answers alike (`Alike`: what a test function returns and prints and what
the operations on files answer are the same in both runs, as they are in
two runs from the same world), return the same result map or both fail,
and invoke the test functions in the same sequence, whatever the two orders
in which the graph map is ranged over during the search for a loop. -/
theorem runs_agree {σ : Type} (env : Env σ) (projects : List String)
    (opts : List Opt) (order1 order2 : List String) (w1 w2 : σ) (config : Config)
    (R : σ → σ → Prop)
    (hload1 : env.LoadConfig w1 = .ok config) (hload2 : env.LoadConfig w2 = .ok config)
    (horder1 : ∀ t ∈ config.ProjectTests projects, t ∈ order1)
    (horder2 : ∀ t ∈ config.ProjectTests projects, t ∈ order2)
    (halike : Alike env opts R) (hw : R w1 w2) :
    (∀ results, (RunProjectTests env projects opts order1 w1).ret = .ok results ↔
      (RunProjectTests env projects opts order2 w2).ret = .ok results) ∧
    invoked (RunProjectTests env projects opts order1 w1).trace =
      invoked (RunProjectTests env projects opts order2 w2).trace := by
  have hmem : ∀ t, t ∈ sortStrings (config.ProjectTests projects)
      ↔ t ∈ config.ProjectTests projects := mem_sortStrings _
  by_cases hne : config.ProjectTests projects = []
  · simp [RunProjectTests, hload1, hload2, hne]
  · rcases createTestDepGraph_orders config (sortStrings (config.ProjectTests projects))
      order1 order2 (fun t ht => horder1 t ((hmem t).1 ht))
      (fun t ht => horder2 t ((hmem t).1 ht)) with
      ⟨f1, f2, h1, h2⟩ | ⟨g1, g2, h1, h2, hdeps, hkeys⟩
    · have hlen : ¬ (config.ProjectTests projects).length = 0 := by
        simpa [List.length_eq_zero] using hne
      simp [RunProjectTests, hload1, hload2, hlen, h1, h2]
    · obtain ⟨ht1, -, hr1⟩ := RunProjectTests_eq env projects opts order1 w1 config g1
        hload1 hne h1
      obtain ⟨ht2, -, hr2⟩ := RunProjectTests_eq env projects opts order2 w2 config g2
        hload2 hne h2
      have hlen : g1.length = g2.length := by
        have := congrArg List.length hkeys
        simpa [mapKeys] using this
      have h0 : Agree R
          { results := initResults (sortStrings (config.ProjectTests projects)), world := w1 }
          { results := initResults (sortStrings (config.ProjectTests projects)), world := w2 } :=
        ⟨rfl, rfl, rfl, hw⟩
      obtain ⟨x, u, v, e1, e2, huv⟩ := pair_agree
        (runLoop_alike halike g1 g2 hdeps (sortStrings (config.ProjectTests projects))
          g1.length _ _ h0)
      rw [hlen] at e2
      rw [e1] at ht1 hr1
      rw [e2] at ht2 hr2
      rw [ht1, ht2, hr1, hr2]
      refine ⟨?_, huv.invoked⟩
      cases x with
      | some f => intro results; simp
      | none => intro results; simp only [huv.results]

/-- Every environment answers alike in one and the same world. -/
theorem alike_eq {σ : Type} (env : Env σ) (opts : List Opt) : Alike env opts Eq := by
  constructor <;> intros <;> subst_vars <;> first | rfl | exact ⟨rfl, rfl⟩

/-- C12 amended, on the tests of `fanConfig` with the graph map ranged over
in two opposite orders. -/
theorem runs_agree_witness :
    (∀ results,
      (RunProjectTests (spaceEnv [("A", passing), ("B", passing), ("C", passing)] fanConfig)
        ["p"] [.OutputDirOpt "out"] ["A", "B", "C"] false).ret = .ok results ↔
      (RunProjectTests (spaceEnv [("A", passing), ("B", passing), ("C", passing)] fanConfig)
        ["p"] [.OutputDirOpt "out"] ["C", "B", "A"] false).ret = .ok results) ∧
    invoked (RunProjectTests (spaceEnv [("A", passing), ("B", passing), ("C", passing)]
        fanConfig) ["p"] [.OutputDirOpt "out"] ["A", "B", "C"] false).trace =
      invoked (RunProjectTests (spaceEnv [("A", passing), ("B", passing), ("C", passing)]
        fanConfig) ["p"] [.OutputDirOpt "out"] ["C", "B", "A"] false).trace :=
  runs_agree (spaceEnv [("A", passing), ("B", passing), ("C", passing)] fanConfig)
    ["p"] [.OutputDirOpt "out"] ["A", "B", "C"] ["C", "B", "A"] false false fanConfig Eq
    rfl rfl (by decide) (by decide) (alike_eq _ _) rfl

/-- C12, refuted as stated: the config, the projects and the test functions
are the same, and the functions return `Passed` whatever the world, but the
run on a disk with space returns a result map and the run on a full disk
fails, as the output file cannot be created. -/
theorem runs_differ_on_full_disk :
    (∀ t opts w1 w2, (passing t opts w1).1 = (passing t opts w2).1) ∧
    (RunProjectTests (spaceEnv [("A", passing), ("B", passing)] chainConfig)
      ["p"] [.OutputDirOpt "out"] ["A", "B"] false).ret =
      .ok (some [("A", some { Status := .Passed }), ("B", some { Status := .Passed })]) ∧
    (RunProjectTests (spaceEnv [("A", passing), ("B", passing)] chainConfig)
      ["p"] [.OutputDirOpt "out"] ["A", "B"] true).ret =
      .error (.error (.errorf "Create(out/output) failed: no space left on device")) :=
  ⟨fun _ _ _ _ => rfl, by decide, by decide⟩

/-! ## The status recorded for an error -/

theorem reportTimedOut_world {σ : Type} (env : Env σ) (t : String) (ret : TestFnReturn)
    (s : RunState σ) :
    (reportTimedOut env t ret s).world = reportedWorld env t ret s.world := by
  unfold reportTimedOut reportedWorld
  cases ret.result with
  | none => rfl
  | some result =>
    by_cases h : result.Status = .TimedOut
    · simp [h]
    · simp [h]

theorem reportTimedOut_results {σ : Type} (env : Env σ) (t : String) (ret : TestFnReturn)
    (s : RunState σ) : (reportTimedOut env t ret s).results = s.results :=
  (reportTimedOut_sameMarks env t ret s).results

theorem generateXUnitReportForError_presubmit {σ : Type} (env : Env σ) (err : GoError)
    (output : String) (w : σ) :
    generateXUnitReportForError env "vanadium-presubmit-test" err output w =
      (.ok { Status := .Passed }, w) := by
  simp [generateXUnitReportForError]

theorem generateXUnitReportForError_created {σ : Type} (env : Env σ) (testName : String)
    (err : GoError) (output : String) (w : σ) (r : Result) (w1 : σ)
    (hname : testName ≠ "vanadium-presubmit-test")
    (hcreate : createXUnitFile env (env.ReportPath testName) w = .ok true)
    (h : generateXUnitReportForError env testName err output w = (.ok r, w1)) :
    r.Status = if env.IsTimeout err.cause then .TimedOut else .Failed := by
  unfold generateXUnitReportForError at h
  rw [if_neg hname, hcreate] at h
  cases err <;> simp only [GoError.cause] at h ⊢ <;> split at h <;>
    first
    | (cases h)
    | (split at h <;> rename_i ht <;> cases h <;> simp [ht])

theorem settleResult_examined {σ : Type} (env : Env σ) (opts : List Opt) (t : String)
    (f : TestFn σ) (s : RunState σ) (e : GoError) (r : Result) (w1 : σ) (out : String)
    (herr : (examined env opts t f s).1 = some e)
    (h : settleResult env t (f t opts s.world).1 out
        (reportedWorld env t (f t opts s.world).1 (f t opts s.world).2) = (.ok (some r), w1)) :
    generateXUnitReportForError env t e (out ++ errorLine (some e))
      (examined env opts t f s).2 = (.ok r, w1) := by
  unfold settleResult checkedError at h
  unfold examined at herr ⊢
  cases hE : (f t opts s.world).1.err with
  | none =>
    simp only [hE] at herr h ⊢
    simp only [herr] at h
    split at h
    · cases h
    · rename_i r1 w2 hg
      cases h
      exact hg
  | some e0 =>
    simp only [hE] at herr h ⊢
    cases herr
    split at h
    · cases h
    · rename_i r1 w2 hg
      cases h
      exact hg

theorem statusOf_mapSet_self (results : ResultMap) (t : String) (r : Result) :
    statusOf (mapSet results t (some r)) t = some r.Status := by
  simp [statusOf, mapGet_mapSet_self]

theorem runTest_recorded {σ : Type} (env : Env σ) (opts : List Opt)
    (outputFile : Option String) (t : String) (s : RunState σ) (f : TestFn σ)
    (hf : mapGet env.testFunctions t = some f)
    (hrun : (runTest env opts outputFile t s).1 = none) :
    ∃ out r w1, settleResult env t (f t opts s.world).1 out
        (reportedWorld env t (f t opts s.world).1 (f t opts s.world).2) = (.ok (some r), w1) ∧
      statusOf (runTest env opts outputFile t s).2.results t = some r.Status := by
  simp only [runTest, hf] at hrun ⊢
  rw [reportTimedOut_world] at hrun ⊢
  simp only at hrun ⊢
  refine ⟨(f t opts s.world).1.out ++
    timedOutOutput env t (f t opts s.world).1 (f t opts s.world).2, ?_⟩
  generalize hset : settleResult env t (f t opts s.world).1 _
    (reportedWorld env t (f t opts s.world).1 (f t opts s.world).2) = settled at hrun ⊢
  obtain ⟨res, w1⟩ := settled
  cases res with
  | error e1 => simp at hrun
  | ok result =>
    simp only at hrun ⊢
    split at hrun
    · cases hrun
    · cases result with
      | none => simp at hrun
      | some r =>
        refine ⟨r, w1, rfl, ?_⟩
        simp only
        rw [(writeOutput_sameMarks env outputFile _ _).results]
        exact statusOf_mapSet_self _ _ _

/-- C13, amended. When the function of the test `t` or the check of its
report file after it returns the error `e`, and `runTests` goes on to
record a result for `t`: the recorded status is `Passed` when `t` is
`vanadium-presubmit-test`; for another test for which the failure report is
to be created (no report file, one that is no xUnit report, or one without
failure and error), it is `TimedOut` when the error, or the error inside an
`internalTestError`, is a timeout, and `Failed` when it is not. -/
theorem error_status_recorded {σ : Type} (env : Env σ) (opts : List Opt)
    (outputFile : Option String) (t : String) (s : RunState σ) (f : TestFn σ) (e : GoError)
    (hf : mapGet env.testFunctions t = some f)
    (herr : (examined env opts t f s).1 = some e)
    (hrun : (runTest env opts outputFile t s).1 = none) :
    (t = "vanadium-presubmit-test" →
      statusOf (runTest env opts outputFile t s).2.results t = some .Passed) ∧
    (t ≠ "vanadium-presubmit-test" →
      createXUnitFile env (env.ReportPath t) (examined env opts t f s).2 = .ok true →
      statusOf (runTest env opts outputFile t s).2.results t =
        some (if env.IsTimeout e.cause then .TimedOut else .Failed)) := by
  obtain ⟨out, r, w1, hset, hst⟩ := runTest_recorded env opts outputFile t s f hf hrun
  have hgen := settleResult_examined env opts t f s e r w1 out herr hset
  rw [hst]
  constructor
  · intro ht
    subst ht
    rw [generateXUnitReportForError_presubmit] at hgen
    cases hgen
    rfl
  · intro ht hcreate
    rw [generateXUnitReportForError_created env t e _ _ r w1 ht hcreate hgen]

/-- C13 amended, on a test whose function returns an `internalTestError`
around a timeout: the recorded status is `TimedOut`. -/
theorem error_status_recorded_witness :
    mapGet (timeoutEnv [("A", erring (.internalTestError (.external "deadline exceeded")
      "Test" "run"))] {}).testFunctions "A" = some (erring (.internalTestError
        (.external "deadline exceeded") "Test" "run")) ∧
    (examined (timeoutEnv [("A", erring (.internalTestError (.external "deadline exceeded")
        "Test" "run"))] {}) [] "A" (erring (.internalTestError (.external "deadline exceeded")
        "Test" "run")) { results := initResults ["A"], world := () }).1 =
      some (.internalTestError (.external "deadline exceeded") "Test" "run") ∧
    statusOf (runTest (timeoutEnv [("A", erring (.internalTestError
        (.external "deadline exceeded") "Test" "run"))] {}) [] none "A"
        { results := initResults ["A"], world := () }).2.results "A" = some .TimedOut :=
  ⟨rfl, by decide,
    ((error_status_recorded (timeoutEnv [("A", erring (.internalTestError
        (.external "deadline exceeded") "Test" "run"))] {}) [] none "A"
      { results := initResults ["A"], world := () }
      (erring (.internalTestError (.external "deadline exceeded") "Test" "run"))
      (.internalTestError (.external "deadline exceeded") "Test" "run")
      rfl (by decide) (by decide)).2 (by decide) (by decide)).trans (by decide)⟩

/-- C13, refuted as stated: the function of `vanadium-presubmit-test`
returns an error that is no timeout, and `runTests` records the status
`Passed`, not `Failed`. -/
theorem presubmit_error_recorded_passed :
    (erring (.external "exit status 1") "vanadium-presubmit-test" [] ()).1.err =
      some (.external "exit status 1") ∧
    (quietEnv [("vanadium-presubmit-test", erring (.external "exit status 1"))] {}).IsTimeout
      (.external "exit status 1") = false ∧
    (RunTests (quietEnv [("vanadium-presubmit-test", erring (.external "exit status 1"))] {})
      ["vanadium-presubmit-test"] [] ()).ret =
      .ok (some [("vanadium-presubmit-test", some { Status := .Passed })]) := by
  decide

/-! ## The files left in the output directory -/

/-- C14, on the tests of `fanConfig` with an output directory, where the
function of `A` returns `Failed`: `RunProjectTests` returns a result map in
which `B` and `C` are `Skipped`, but the file `results` holds the map
written by the only call of `runTests`, in which `B` and `C` are
`Pending`. -/
theorem results_file_misses_skipped :
    (RunProjectTests (diskEnv [("A", printing .Failed ""), ("B", printing .Passed ""),
        ("C", printing .Passed "")] fanConfig) ["p"] [.OutputDirOpt "out"] ["A", "B", "C"]
        []).ret =
      .ok (some [("A", some { Status := .Failed }), ("B", some { Status := .Skipped }),
        ("C", some { Status := .Skipped })]) ∧
    mapGet (RunProjectTests (diskEnv [("A", printing .Failed ""), ("B", printing .Passed ""),
        ("C", printing .Passed "")] fanConfig) ["p"] [.OutputDirOpt "out"] ["A", "B", "C"]
        []).world "out/results" =
      some (renderResults [("A", some { Status := .Failed }),
        ("B", some { Status := .Pending }), ("C", some { Status := .Pending })]) ∧
    renderResults [("A", some { Status := .Failed }),
        ("B", some { Status := .Pending }), ("C", some { Status := .Pending })] ≠
      renderResults [("A", some { Status := .Failed }), ("B", some { Status := .Skipped }),
        ("C", some { Status := .Skipped })] := by
  decide

/-- C15, on the tests of `chainConfig` with an output directory, where the
function of `A` prints `a` and that of `B` prints `b`: both are executed,
in this order, and after `RunProjectTests` the file `output` holds the
output of `B` only, each call of `runTests` creating the file anew; after
`RunTests` on the two tests it holds the output of both. -/
theorem output_file_keeps_last_test :
    invoked (RunProjectTests (diskEnv [("A", printing .Passed "a\n"),
        ("B", printing .Passed "b\n")] chainConfig) ["p"] [.OutputDirOpt "out"] ["A", "B"]
        []).trace = ["A", "B"] ∧
    mapGet (RunProjectTests (diskEnv [("A", printing .Passed "a\n"),
        ("B", printing .Passed "b\n")] chainConfig) ["p"] [.OutputDirOpt "out"] ["A", "B"]
        []).world "out/output" = some "b\n" ∧
    mapGet (RunTests (diskEnv [("A", printing .Passed "a\n"),
        ("B", printing .Passed "b\n")] chainConfig) ["A", "B"] [.OutputDirOpt "out"]
        []).world "out/output" = some "a\nb\n" := by
  decide

/-! ## The timeout reports -/

theorem timeoutReportsDue_append {σ : Type} (env : Env σ)
    (a b : List (String × ResultMap × TestFnReturn)) :
    timeoutReportsDue env (a ++ b) = timeoutReportsDue env a ++ timeoutReportsDue env b := by
  simp [timeoutReportsDue, List.filterMap_append]

theorem isTimeout_timeoutReport (format : Int → String) (t : String) (result : Result) :
    (timeoutReport format t result).isTimeout = true := by
  simp only [ReportCall.isTimeout, timeoutReport, decide_True, Bool.true_and,
    String.data_append, List.append_assoc]
  exact List.isPrefixOf_iff_prefix.2 (List.prefix_append _ _)

/-- The call of `generateXUnitReportForError`, whose message is the name of
its case, writes no timeout report. -/
theorem isTimeout_same_case (a b c m : String) :
    (ReportCall.mk a b c c m).isTimeout = false := by
  by_cases h : c = "Timeout"
  · subst h
    rfl
  · simp [ReportCall.isTimeout, h]

theorem writeTimedOutTestReport_calls {σ : Type} {env : Env σ} {opts : List Opt}
    {calls : σ → List ReportCall} (h : Logs env opts calls) (t : String) (result : Result)
    (w : σ) :
    calls (writeTimedOutTestReport env t result w).2 =
      calls w ++ [timeoutReport env.formatDuration t result] :=
  h.createFailureReport _ _ _ _ _ w

theorem Quiet.quiet_refl {σ : Type} (calls : σ → List ReportCall) (w : σ) : Quiet calls w w :=
  ⟨[], by simp, rfl⟩

theorem Quiet.of_calls {σ : Type} {calls : σ → List ReportCall} {w w1 : σ}
    (h : calls w1 = calls w) : Quiet calls w w1 :=
  ⟨[], by simp [h], rfl⟩

theorem Quiet.quiet_trans {σ : Type} {calls : σ → List ReportCall} {w w1 w2 : σ}
    (h1 : Quiet calls w w1) (h2 : Quiet calls w1 w2) : Quiet calls w w2 := by
  obtain ⟨c1, e1, f1⟩ := h1
  obtain ⟨c2, e2, f2⟩ := h2
  exact ⟨c1 ++ c2, by rw [e2, e1, List.append_assoc], by rw [List.filter_append, f1, f2]; rfl⟩

/-- A failure report whose message is the name of its case is no timeout
report. -/
theorem Quiet.of_report {σ : Type} {env : Env σ} {opts : List Opt}
    {calls : σ → List ReportCall} (h : Logs env opts calls) (a b c m : String) (w w0 : σ)
    (hw : calls w0 = calls w) : Quiet calls w (env.CreateFailureReport a b c c m w0).2 :=
  ⟨[⟨a, b, c, c, m⟩], by rw [h.createFailureReport, hw], by simp [isTimeout_same_case]⟩

theorem checkTestReportFile_quiet {σ : Type} {env : Env σ} {opts : List Opt}
    {calls : σ → List ReportCall} (h : Logs env opts calls) (t : String) (w : σ) :
    Quiet calls w (checkTestReportFile env t w).2 := by
  unfold checkTestReportFile
  split
  · exact Quiet.quiet_refl calls w
  · simp only
    split
    · split
      · exact Quiet.quiet_refl calls w
      · have hw := h.writeFile (env.Join (env.Dir (env.ReportPath t)) "tests_dummy.xml")
          dummyTestResult w
        split
        · rename_i heq; rw [heq] at hw; exact Quiet.of_calls hw
        · rename_i heq; rw [heq] at hw; exact Quiet.of_calls hw
    · split
      · exact Quiet.quiet_refl calls w
      · split
        · exact Quiet.of_report h _ _ _ _ _ _ (h.removeAll _ _)
        · split
          · exact Quiet.of_report h _ _ _ _ _ _ (h.removeAll _ _)
          · exact Quiet.quiet_refl calls w

theorem generateXUnitReportForError_quiet {σ : Type} {env : Env σ} {opts : List Opt}
    {calls : σ → List ReportCall} (h : Logs env opts calls) (t : String) (err : GoError)
    (output : String) (w : σ) :
    Quiet calls w (generateXUnitReportForError env t err output w).2 := by
  unfold generateXUnitReportForError
  split
  · exact Quiet.quiet_refl calls w
  · split
    · exact Quiet.quiet_refl calls w
    · exact Quiet.quiet_refl calls w
    · cases err <;> simp only <;> split <;> rename_i heq <;>
        have h2 := congrArg Prod.snd heq <;> simp only at h2 <;> subst h2 <;>
        first
        | exact Quiet.of_report h _ _ _ _ _ _ rfl
        | (split <;> exact Quiet.of_report h _ _ _ _ _ _ rfl)

theorem checkedError_quiet {σ : Type} {env : Env σ} {opts : List Opt}
    {calls : σ → List ReportCall} (h : Logs env opts calls) (t : String) (ret : TestFnReturn)
    (w : σ) : Quiet calls w (checkedError env t ret w).2 := by
  unfold checkedError
  cases ret.err with
  | none => exact checkTestReportFile_quiet h t w
  | some e => exact Quiet.quiet_refl calls w

theorem settleResult_quiet {σ : Type} {env : Env σ} {opts : List Opt}
    {calls : σ → List ReportCall} (h : Logs env opts calls) (t : String) (ret : TestFnReturn)
    (out : String) (w : σ) : Quiet calls w (settleResult env t ret out w).2 := by
  have h1 := checkedError_quiet h t ret w
  unfold settleResult
  simp only
  split
  · exact h1
  · have h2 := fun (e : GoError) (o : String) =>
      generateXUnitReportForError_quiet h t e o (checkedError env t ret w).2
    split
    · rename_i heq
      have h3 := congrArg Prod.snd heq
      simp only at h3
      subst h3
      exact Quiet.quiet_trans h1 (h2 _ _)
    · rename_i heq
      have h3 := congrArg Prod.snd heq
      simp only at h3
      subst h3
      exact Quiet.quiet_trans h1 (h2 _ _)

theorem Logged.logged_refl {σ : Type} (env : Env σ) (calls : σ → List ReportCall)
    (s : RunState σ) : Logged env calls s s :=
  ⟨[], [], by simp, by simp, rfl⟩

theorem Logged.logged_trans {σ : Type} {env : Env σ} {calls : σ → List ReportCall}
    {s s1 s2 : RunState σ} (h1 : Logged env calls s s1) (h2 : Logged env calls s1 s2) :
    Logged env calls s s2 := by
  obtain ⟨e1, c1, t1, w1, r1⟩ := h1
  obtain ⟨e2, c2, t2, w2, r2⟩ := h2
  refine ⟨e1 ++ e2, c1 ++ c2, by rw [t2, t1, List.append_assoc],
    by rw [w2, w1, List.append_assoc], ?_⟩
  rw [List.filter_append, invocations_append, timeoutReportsDue_append, r1, r2]

/-- A step that leaves the trace as it is and writes no timeout report. -/
theorem Logged.of_quiet {σ : Type} {env : Env σ} {calls : σ → List ReportCall}
    {s s1 : RunState σ} (ht : s1.trace = s.trace) (hw : Quiet calls s.world s1.world) :
    Logged env calls s s1 := by
  obtain ⟨c, e, f⟩ := hw
  exact ⟨[], c, by simp [ht], e, by rw [f]; rfl⟩

theorem Logged.of_world {σ : Type} {env : Env σ} {calls : σ → List ReportCall}
    (s : RunState σ) (w : σ) (results : ResultMap) (hw : Quiet calls s.world w) :
    Logged env calls s { s with world := w, results := results } :=
  Logged.of_quiet rfl hw

theorem writeOutput_logged {σ : Type} {env : Env σ} {opts : List Opt}
    {calls : σ → List ReportCall} (h : Logs env opts calls) (outputFile : Option String)
    (out : String) (s : RunState σ) :
    Logged env calls s (writeOutput env outputFile out s).2 := by
  unfold writeOutput
  split
  · exact Logged.logged_refl env calls s
  · rename_i fileName
    have hw := h.write fileName out s.world
    split
    · rename_i heq; rw [heq] at hw
      exact Logged.of_quiet rfl (Quiet.of_calls hw)
    · rename_i heq; rw [heq] at hw
      exact ⟨[.outputWrite fileName out], [], rfl, by simpa using hw, rfl⟩

theorem writeResults_logged {σ : Type} {env : Env σ} {opts : List Opt}
    {calls : σ → List ReportCall} (h : Logs env opts calls) (outputDir : String)
    (s : RunState σ) : Logged env calls s (writeResults env outputDir s).2 := by
  unfold writeResults
  split
  · split
    · exact Logged.logged_refl env calls s
    · rename_i bytes _
      simp only
      have hw := h.writeFile (env.Join outputDir "results") bytes s.world
      split
      · rename_i heq; rw [heq] at hw
        exact Logged.of_quiet rfl (Quiet.of_calls hw)
      · rename_i heq; rw [heq] at hw
        exact ⟨[.resultsWrite _ _], [], rfl, by simpa using hw, rfl⟩
  · exact Logged.logged_refl env calls s

/-- The invocation of the function `f` of `t` and the statement after it:
the timeout report is written when, and only when, the function returns a
result with the status `TimedOut`. -/
theorem reportTimedOut_logged {σ : Type} {env : Env σ} {opts : List Opt}
    {calls : σ → List ReportCall} (h : Logs env opts calls) (t : String) (f : TestFn σ)
    (hf : mapGet env.testFunctions t = some f) (s : RunState σ) :
    Logged env calls s (reportTimedOut env t (f t opts s.world).1
      { s with world := (f t opts s.world).2,
               trace := s.trace ++ [.invoke t s.results (f t opts s.world).1] }) := by
  have hw := h.fns t f s.world hf
  unfold reportTimedOut
  cases hr : (f t opts s.world).1.result with
  | none =>
    exact ⟨[.invoke t s.results (f t opts s.world).1], [], rfl, by simpa using hw,
      by simp [invocations, timeoutReportsDue, hr]⟩
  | some result =>
    by_cases hs : result.Status = .TimedOut
    · refine ⟨[.invoke t s.results (f t opts s.world).1,
        .timedOutReport t (timedOutMessage env result)],
        [timeoutReport env.formatDuration t result], ?_, ?_, ?_⟩
      · simp [hs]
      · simp only [hs, if_true]
        rw [writeTimedOutTestReport_calls h, hw]
      · simp [invocations, timeoutReportsDue, hr, hs, isTimeout_timeoutReport]
    · refine ⟨[.invoke t s.results (f t opts s.world).1], [], ?_, ?_, ?_⟩
      · simp [hs]
      · simpa [hs] using hw
      · simp [invocations, timeoutReportsDue, hr, hs]

theorem runTest_logged {σ : Type} {env : Env σ} {opts : List Opt}
    {calls : σ → List ReportCall} (h : Logs env opts calls) (outputFile : Option String)
    (t : String) (s : RunState σ) :
    Logged env calls s (runTest env opts outputFile t s).2 := by
  unfold runTest
  cases hf : mapGet env.testFunctions t with
  | none => exact Logged.logged_refl env calls s
  | some f =>
    simp only
    have h1 := reportTimedOut_logged h t f hf s
    have h2 := fun (out : String) (w : σ) => settleResult_quiet h t (f t opts s.world).1 out w
    have h3 := fun (out : String) (x : RunState σ) => writeOutput_logged h outputFile out x
    split
    · exact Logged.logged_trans h1 (Logged.of_world _ _ _ (h2 _ _))
    · split
      · refine Logged.logged_trans h1 (Logged.logged_trans ?_ (h3 _ _))
        exact Logged.of_world _ _ _ (h2 _ _)
      · split
        · refine Logged.logged_trans h1 (Logged.logged_trans ?_ (h3 _ _))
          exact Logged.of_world _ _ _ (h2 _ _)
        · refine Logged.logged_trans h1 (Logged.logged_trans ?_ (h3 _ _))
          exact Logged.of_world _ _ _ (h2 _ _)

theorem runTestsLoop_logged {σ : Type} {env : Env σ} {opts : List Opt}
    {calls : σ → List ReportCall} (h : Logs env opts calls) (outputFile : Option String)
    (tests : List String) (s : RunState σ) :
    Logged env calls s (runTestsLoop env opts outputFile tests s).2 := by
  induction tests generalizing s with
  | nil => exact Logged.logged_refl env calls s
  | cons t rest ih =>
    unfold runTestsLoop
    have h1 := runTest_logged h outputFile t s
    split
    · rename_i f s1 heq; rw [heq] at h1; exact h1
    · rename_i s1 heq; rw [heq] at h1; exact Logged.logged_trans h1 (ih s1)

theorem runTestsBody_logged {σ : Type} {env : Env σ} {opts : List Opt}
    {calls : σ → List ReportCall} (h : Logs env opts calls) (outputDir : String)
    (outputFile : Option String) (tests : List String) (s : RunState σ) :
    Logged env calls s (runTestsBody env opts outputDir outputFile tests s).2 := by
  unfold runTestsBody
  split
  · exact Logged.logged_refl env calls s
  · have h1 := runTestsLoop_logged h outputFile tests s
    split
    · rename_i f s1 heq; rw [heq] at h1; exact h1
    · rename_i s1 heq; rw [heq] at h1
      exact Logged.logged_trans h1 (writeResults_logged h outputDir s1)

theorem applyCleanGo_calls {σ : Type} {env : Env σ} {opts : List Opt}
    {calls : σ → List ReportCall} (h : Logs env opts calls) (l : List Opt) (w : σ) :
    calls (applyCleanGo env l w) = calls w := by
  unfold applyCleanGo
  induction l generalizing w with
  | nil => rfl
  | cons o rest ih =>
    rw [List.foldl_cons, ih]
    cases o <;> first | rfl | exact h.setCleanGo _ _

theorem runTests_logged {σ : Type} {env : Env σ} {opts : List Opt}
    {calls : σ → List ReportCall} (h : Logs env opts calls) (tests : List String)
    (s : RunState σ) : Logged env calls s (runTests env tests opts s).2 := by
  have h0 : Quiet calls s.world (applyCleanGo env opts s.world) :=
    Quiet.of_calls (applyCleanGo_calls h opts s.world)
  unfold runTests
  simp only
  split
  · have hc := h.create (env.Join (outputDirOf opts) "output") (applyCleanGo env opts s.world)
    split
    · rename_i heq; rw [heq] at hc
      exact Logged.of_quiet rfl (Quiet.quiet_trans h0 (Quiet.of_calls hc))
    · rename_i w heq
      rw [heq] at hc
      have h1 : Logged env calls s { s with world := w } :=
        Logged.of_quiet rfl (Quiet.quiet_trans h0 (Quiet.of_calls hc))
      exact Logged.logged_trans h1 (Logged.logged_trans
        (runTestsBody_logged h _ _ tests { s with world := w })
        (Logged.of_quiet rfl (Quiet.of_calls (h.close _ _))))
  · have h1 : Logged env calls s { s with world := applyCleanGo env opts s.world } :=
      Logged.of_quiet rfl h0
    exact Logged.logged_trans h1 (runTestsBody_logged h _ _ tests _)

theorem logEnv_logs (fns : GoMap (TestFn (List ReportCall))) (opts : List Opt)
    (hfns : ∀ p ∈ fns, ∀ w, (p.2 p.1 opts w).2 = w) : Logs (logEnv fns) opts id :=
  { fns := fun t f w hf => hfns (t, f) (mapGet_mem fns t f hf) w
    setCleanGo := fun _ _ => rfl
    create := fun _ _ => rfl
    write := fun _ _ _ => rfl
    close := fun _ _ => rfl
    writeFile := fun _ _ _ => rfl
    removeAll := fun _ _ => rfl
    createFailureReport := fun _ _ _ _ _ _ => rfl }

/-- C16. Let `calls` read off the world the calls of
`xunit.CreateFailureReport` that `run.go` has made. A call of `runTests`
adds to them, as timeout reports, exactly one for each test function that
it invokes and that returns a result, not nil, with the status `TimedOut`,
in the order of the invocations, and none for the other invocations: the
report for the test `t` is the failure report of `t` of the case `Timeout`
with the message "The test timed out after <d>.", where `<d>` renders the
`TimeoutValue` of the result when that is not zero and `DefaultTimeout`
when it is; and `DefaultTimeout` is ten minutes. -/
theorem timeout_reports_written {σ : Type} (env : Env σ) (opts : List Opt)
    (calls : σ → List ReportCall) (h : Logs env opts calls) (tests : List String)
    (s : RunState σ) :
    (∃ events new,
      (runTests env tests opts s).2.trace = s.trace ++ events ∧
      calls (runTests env tests opts s).2.world = calls s.world ++ new ∧
      new.filter ReportCall.isTimeout =
        (invocations events).filterMap fun call =>
          match call.2.2.result with
          | some result =>
            if result.Status = .TimedOut then
              some (ReportCall.mk call.1 call.1 "Timeout"
                ("The test timed out after " ++ env.formatDuration
                  (if result.TimeoutValue ≠ 0 then result.TimeoutValue else DefaultTimeout) ++ ".")
                ("The test timed out after " ++ env.formatDuration
                  (if result.TimeoutValue ≠ 0 then result.TimeoutValue else DefaultTimeout) ++ "."))
            else none
          | none => none) ∧
    DefaultTimeout = 10 * 60 * 1000000000 :=
  ⟨runTests_logged h tests s, rfl⟩

/-- C16 on the tests `A`, `B` and `C` of `timeoutFns`, where the functions
of `A` and `C` return `TimedOut`, that of `A` without a timeout value and
that of `C` with the value of five seconds, and the function of `B` returns
`Passed`: the calls that `runTests` makes are the timeout reports of `A`,
which names ten minutes, and of `C`, which names five seconds. -/
theorem timeout_reports_written_witness :
    Logs (logEnv timeoutFns) [] id ∧
    ((∃ events new,
      (runTests (logEnv timeoutFns) ["A", "B", "C"] []
        { results := initResults ["A", "B", "C"], world := [] }).2.trace = [] ++ events ∧
      id (runTests (logEnv timeoutFns) ["A", "B", "C"] []
        { results := initResults ["A", "B", "C"], world := [] }).2.world = id [] ++ new ∧
      new.filter ReportCall.isTimeout =
        (invocations events).filterMap fun call =>
          match call.2.2.result with
          | some result =>
            if result.Status = .TimedOut then
              some (ReportCall.mk call.1 call.1 "Timeout"
                ("The test timed out after " ++ (logEnv timeoutFns).formatDuration
                  (if result.TimeoutValue ≠ 0 then result.TimeoutValue else DefaultTimeout) ++ ".")
                ("The test timed out after " ++ (logEnv timeoutFns).formatDuration
                  (if result.TimeoutValue ≠ 0 then result.TimeoutValue else DefaultTimeout) ++ "."))
            else none
          | none => none) ∧
      DefaultTimeout = 10 * 60 * 1000000000) ∧
    (runTests (logEnv timeoutFns) ["A", "B", "C"] []
        { results := initResults ["A", "B", "C"], world := [] }).2.world =
      [⟨"A", "A", "Timeout", "The test timed out after 10m0s.",
          "The test timed out after 10m0s."⟩,
        ⟨"C", "C", "Timeout", "The test timed out after 5s.",
          "The test timed out after 5s."⟩] :=
  ⟨logEnv_logs timeoutFns [] (by
      intro p hp w
      simp only [timeoutFns, List.mem_cons, List.not_mem_nil, or_false] at hp
      rcases hp with rfl | rfl | rfl <;> rfl),
    timeout_reports_written (logEnv timeoutFns) [] id
      (logEnv_logs timeoutFns [] (by
        intro p hp w
        simp only [timeoutFns, List.mem_cons, List.not_mem_nil, or_false] at hp
        rcases hp with rfl | rfl | rfl <;> rfl))
      ["A", "B", "C"] { results := initResults ["A", "B", "C"], world := [] },
    by decide⟩

/-! ## The values of `splitCommaSeparatedValues` -/

theorem splitChar_ne_nil (sep : Char) (cs : List Char) : splitChar sep cs ≠ [] := by
  cases cs with
  | nil => simp [splitChar]
  | cons c cs =>
    simp only [splitChar]
    split
    · simp
    · split <;> simp

theorem intercalate_splitChar (sep : Char) (cs : List Char) :
    List.intercalate [sep] (splitChar sep cs) = cs := by
  induction cs with
  | nil => simp [splitChar, List.intercalate]
  | cons c cs ih =>
    simp only [splitChar]
    cases h : splitChar sep cs with
    | nil => exact absurd h (splitChar_ne_nil sep cs)
    | cons piece pieces =>
      rw [h] at ih
      simp only
      by_cases hc : c = sep
      · rw [if_pos hc]
        subst hc
        rw [← ih]
        simp [List.intercalate]
      · rw [if_neg hc]
        rw [← ih]
        cases pieces <;> simp [List.intercalate]

theorem splitChar_no_sep (sep : Char) (cs : List Char) :
    ∀ piece ∈ splitChar sep cs, sep ∉ piece := by
  induction cs with
  | nil => simp [splitChar]
  | cons c cs ih =>
    simp only [splitChar]
    cases h : splitChar sep cs with
    | nil => exact absurd h (splitChar_ne_nil sep cs)
    | cons piece pieces =>
      rw [h] at ih
      simp only
      by_cases hc : c = sep
      · rw [if_pos hc]
        intro l hl
        rcases List.mem_cons.1 hl with rfl | hl
        · simp
        · exact ih l hl
      · rw [if_neg hc]
        intro l hl
        rcases List.mem_cons.1 hl with rfl | hl
        · intro hm
          rcases List.mem_cons.1 hm with e | hm
          · exact hc e.symm
          · exact ih piece (List.mem_cons_self _ _) hm
        · exact ih l (List.mem_cons_of_mem _ hl)

theorem dropWhile_split (p : Char → Bool) (l : List Char) :
    ∃ a, l = a ++ l.dropWhile p ∧ (∀ c ∈ a, p c = true) ∧
      ∀ c, (l.dropWhile p).head? = some c → p c = false := by
  induction l with
  | nil => exact ⟨[], rfl, fun c hc => absurd hc (List.not_mem_nil c), fun c hc => (by cases hc)⟩
  | cons x l ih =>
    by_cases hx : p x = true
    · obtain ⟨a, h1, h2, h3⟩ := ih
      refine ⟨x :: a, ?_, ?_, ?_⟩
      · simp only [List.dropWhile_cons, hx, if_true, List.cons_append]
        rw [← h1]
      · intro c hc
        rcases List.mem_cons.1 hc with rfl | hc
        · exact hx
        · exact h2 c hc
      · simpa only [List.dropWhile_cons, hx, if_true] using h3
    · refine ⟨[], ?_, fun c hc => absurd hc (List.not_mem_nil c), ?_⟩
      · simp [List.dropWhile_cons, hx]
      · intro c hc
        simp only [List.dropWhile_cons, hx] at hc
        simp only [Bool.false_eq_true, if_false, List.head?_cons, Option.some.injEq] at hc
        subst hc
        simpa using hx

/-- The text between the white space that `trimSpace` removes. -/
theorem trimSpace_spec (v : List Char) :
    ∃ a b, v = a ++ trimSpace v ++ b ∧ (∀ c ∈ a, isSpace c = true) ∧
      (∀ c ∈ b, isSpace c = true) ∧
      (∀ c, (trimSpace v).head? = some c → isSpace c = false) ∧
      (∀ c, (trimSpace v).getLast? = some c → isSpace c = false) := by
  obtain ⟨a, h1, h2, h3⟩ := dropWhile_split isSpace v
  obtain ⟨b, h4, h5, h6⟩ := dropWhile_split isSpace (v.dropWhile isSpace).reverse
  have h7 : v.dropWhile isSpace = trimSpace v ++ b.reverse := by
    have := congrArg List.reverse h4
    simpa [trimSpace] using this
  refine ⟨a, b.reverse, ?_, h2, ?_, ?_, ?_⟩
  · rw [List.append_assoc, ← h7]
    exact h1
  · intro c hc
    exact h5 c (List.mem_reverse.1 hc)
  · intro c hc
    cases ht : trimSpace v with
    | nil => rw [ht] at hc; cases hc
    | cons x xs =>
      rw [ht] at hc h7
      apply h3
      rw [h7]
      simpa using hc
  · intro c hc
    apply h6
    rw [← List.getLast?_reverse] 
    simpa [trimSpace] using hc

theorem mem_trimSpace (v : List Char) (c : Char) (h : c ∈ trimSpace v) : c ∈ v := by
  obtain ⟨a, b, h1, -⟩ := trimSpace_spec v
  rw [h1]
  simp [h]

theorem filterMap_trim (l : List (List Char)) :
    (l.filterMap fun v =>
      let trimmed := trimSpace v
      if trimmed.length > 0 then some (String.mk trimmed) else none)
    = ((l.map trimSpace).filter fun t => decide (t ≠ [])).map String.mk := by
  induction l with
  | nil => rfl
  | cons v l ih =>
    simp only [List.filterMap_cons, List.map_cons, List.filter_cons]
    cases h : trimSpace v with
    | nil => simpa using ih
    | cons x xs => simpa using ih

/-- C21. The components of `s` between its commas are the pieces
`splitChar ',' s.data`: joined by commas they give `s`, and none holds a
comma. `splitCommaSeparatedValues s` is the list, in order, of these
components with the white space at both ends removed (`trimSpace` leaves
what stands between the leading and the trailing white space), without
those that are empty then. So no element is empty, holds a comma, or begins
or ends with white space; and `"x, y,z,"` yields `["x", "y", "z"]`. -/
theorem splitCommaSeparatedValues_spec (s : String) :
    (List.intercalate [','] (splitChar ',' s.data) = s.data ∧
      ∀ v ∈ splitChar ',' s.data, ',' ∉ v) ∧
    splitCommaSeparatedValues s
      = (((splitChar ',' s.data).map trimSpace).filter fun t => decide (t ≠ [])).map
          String.mk ∧
    (∀ v : List Char, ∃ a b, v = a ++ trimSpace v ++ b ∧ (∀ c ∈ a, isSpace c = true) ∧
      (∀ c ∈ b, isSpace c = true) ∧
      (∀ c, (trimSpace v).head? = some c → isSpace c = false) ∧
      (∀ c, (trimSpace v).getLast? = some c → isSpace c = false)) ∧
    (∀ x ∈ splitCommaSeparatedValues s, x ≠ "" ∧ ',' ∉ x.data ∧
      (∀ c, x.data.head? = some c → isSpace c = false) ∧
      (∀ c, x.data.getLast? = some c → isSpace c = false)) ∧
    splitCommaSeparatedValues "x, y,z," = ["x", "y", "z"] := by
  refine ⟨⟨intercalate_splitChar _ _, splitChar_no_sep _ _⟩, filterMap_trim _, trimSpace_spec,
    ?_, by decide⟩
  intro x hx
  unfold splitCommaSeparatedValues at hx
  rw [filterMap_trim] at hx
  obtain ⟨t, ht, rfl⟩ := List.mem_map.1 hx
  obtain ⟨ht1, ht2⟩ := List.mem_filter.1 ht
  obtain ⟨v, hv, rfl⟩ := List.mem_map.1 ht1
  obtain ⟨a, b, -, -, -, h3, h4⟩ := trimSpace_spec v
  refine ⟨?_, ?_, h3, h4⟩
  · intro h
    have := congrArg String.data h
    simp at ht2
    exact ht2 this
  · intro hc
    exact splitChar_no_sep ',' s.data v hv (mem_trimSpace v _ hc)

/-! ## The tags of `processGoCmdAndArgs` -/

theorem skipFlags_one (nonBool : List String) (arg : String) (tags : Option String)
    (m : List String) (g : String) (h : classify nonBool arg = .one tags) :
    skipFlags nonBool (arg :: m) g = skipFlags nonBool m (tags.getD g) := by
  cases m with
  | nil => simp [skipFlags, h]
  | cons x m => simp [skipFlags, h]

theorem skipFlags_two (nonBool : List String) (arg value : String) (isTags : Bool)
    (m : List String) (g : String) (h : classify nonBool arg = .two isTags) :
    skipFlags nonBool (arg :: value :: m) g
      = skipFlags nonBool m (if isTags then value else g) := by
  simp [skipFlags, h]

theorem skipFlags_flags (nonBool : List String) (l m : List String) (h : Flags nonBool l) :
    ∀ g, ∃ g1, skipFlags nonBool (l ++ m) g = skipFlags nonBool m g1 := by
  induction h with
  | nil => intro g; exact ⟨g, rfl⟩
  | one arg tags rest hc _ ih =>
    intro g
    obtain ⟨g1, h1⟩ := ih (tags.getD g)
    exact ⟨g1, by rw [List.cons_append, skipFlags_one _ _ _ _ _ hc, h1]⟩
  | two arg value isTags rest hc _ ih =>
    intro g
    obtain ⟨g1, h1⟩ := ih (if isTags then value else g)
    exact ⟨g1, by rw [List.cons_append, List.cons_append, skipFlags_two _ _ _ _ _ _ hc, h1]⟩

theorem skipFlags_otherFlags (nonBool : List String) (l m : List String)
    (h : OtherFlags nonBool l) :
    ∀ g, skipFlags nonBool (l ++ m) g = skipFlags nonBool m g := by
  induction h with
  | nil => intro g; rfl
  | one arg rest hc _ ih =>
    intro g
    rw [List.cons_append, skipFlags_one _ _ _ _ _ hc]
    exact ih g
  | two arg value rest hc _ ih =>
    intro g
    rw [List.cons_append, List.cons_append, skipFlags_two _ _ _ _ _ _ hc]
    exact ih g

theorem skipFlags_ends (nonBool : List String) (rest : List String) (g : String)
    (h : EndsFlags nonBool rest) :
    ∃ rest1, skipFlags nonBool rest g = .rest rest1 g ∧
      (rest = rest1 ∨ rest = "--" :: rest1) := by
  rcases h with rfl | ⟨a, r, rfl, h⟩
  · exact ⟨[], rfl, Or.inl rfl⟩
  · rcases h with h | h
    · have ha : a = "--" := by
        unfold classify at h
        by_cases e : a = "--"
        · exact e
        · rw [if_neg e] at h
          split at h
          · cases h
          · split at h
            · cases h
            · split at h <;> cases h
      refine ⟨r, ?_, Or.inr (by rw [ha])⟩
      cases r <;> simp [skipFlags, h]
    · refine ⟨a :: r, ?_, Or.inl rfl⟩
      cases r <;> simp [skipFlags, h]

theorem takeWhile_no_newline (l : List Char) (h : Char.ofNat 10 ∉ l) :
    l.takeWhile (fun x => !decide (x = Char.ofNat 10)) = l := by
  induction l with
  | nil => rfl
  | cons x l ih =>
    have hx : x ≠ Char.ofNat 10 := fun e => h (e ▸ List.mem_cons_self _ _)
    simp only [List.takeWhile_cons, hx, decide_False, Bool.not_false, if_true]
    rw [ih (fun hm => h (List.mem_cons_of_mem _ hm))]

theorem goFlagMatch_tags (foo : String) (h : Char.ofNat 10 ∉ foo.data) :
    goFlagMatch ("-tags=" ++ foo) = some ("tags", "=", foo) := by
  have hd : ("-tags=" ++ foo).data = '-' :: 't' :: 'a' :: 'g' :: 's' :: '=' :: foo.data := by
    rw [String.data_append]; rfl
  unfold goFlagMatch
  rw [hd]
  simp [List.takeWhile, List.dropWhile]
  rw [takeWhile_no_newline _ h]

theorem classify_tags (nonBool : List String) (foo : String) (h : Char.ofNat 10 ∉ foo.data) :
    classify nonBool ("-tags=" ++ foo) = .one (some foo) := by
  have hne : "-tags=" ++ foo ≠ "--" := by
    intro e
    have := congrArg String.data e
    rw [String.data_append] at this
    have h2 : "-tags=".data ++ foo.data = '-' :: 't' :: ('a' :: 'g' :: 's' :: '=' :: foo.data) := rfl
    rw [h2] at this
    cases this
  unfold classify
  rw [if_neg hne, goFlagMatch_tags foo h]
  simp

theorem selectArgs_prefix (cmd : String) (rest : List String) :
    ∃ post, rest = selectArgs cmd rest ++ post := by
  unfold selectArgs
  split
  · exact ⟨_, (List.takeWhile_append_dropWhile _ _).symm⟩
  · split
    · exact ⟨_, (List.takeWhile_append_dropWhile _ _).symm⟩
    · exact ⟨[], by simp⟩

theorem processGoCmdAndArgs_rest (cmd : String) (args rest : List String) (goTags : String)
    (h : skipFlags (nonBoolOf cmd) args "" = .rest rest goTags) :
    ∃ pkgs files post, processGoCmdAndArgs cmd args = some (pkgs, files, goTags) ∧
      rest = pkgs ++ files ++ post := by
  obtain ⟨post, hpost⟩ := selectArgs_prefix cmd rest
  unfold processGoCmdAndArgs
  rw [h]
  simp only
  by_cases hs : selectArgs cmd rest = []
  · rw [if_pos hs]
    exact ⟨[], [], rest, rfl, rfl⟩
  · rw [if_neg hs]
    cases rest with
    | nil => exact ⟨_, [], post, rfl, by simpa using hpost⟩
    | cons first r =>
      simp only
      split
      · exact ⟨[], _, post, rfl, by simpa using hpost⟩
      · exact ⟨_, [], post, rfl, by simpa using hpost⟩

/-- C22, amended. For a command among build, generate, install, run and
test and arguments that begin with flags, each with its value, among which
the last flag `tags` is written `-tags=foo`, with `foo` free of line
breaks, or, for a command other than generate, in the two tokens `-tags`
and `foo`: `processGoCmdAndArgs` returns `foo` as the tags, and the
packages or files it returns are taken from the arguments behind the
flags, so that the token `foo` of the flag is not among them. -/
theorem tags_value_returned (cmd : String) (before tagsFlag after rest : List String)
    (foo : String)
    (hcmd : cmd = "build" ∨ cmd = "generate" ∨ cmd = "install" ∨ cmd = "run" ∨ cmd = "test")
    (hbefore : Flags (nonBoolOf cmd) before)
    (htags : (tagsFlag = ["-tags=" ++ foo] ∧ Char.ofNat 10 ∉ foo.data) ∨
      (cmd ≠ "generate" ∧ tagsFlag = ["-tags", foo]))
    (hafter : OtherFlags (nonBoolOf cmd) after)
    (hrest : EndsFlags (nonBoolOf cmd) rest) :
    ∃ pkgs files post,
      processGoCmdAndArgs cmd (before ++ tagsFlag ++ after ++ rest) = some (pkgs, files, foo) ∧
      (rest = pkgs ++ files ++ post ∨ rest = "--" :: (pkgs ++ files ++ post)) := by
  obtain ⟨g1, h1⟩ := skipFlags_flags (nonBoolOf cmd) before (tagsFlag ++ after ++ rest)
    hbefore ""
  have h2 : skipFlags (nonBoolOf cmd) (tagsFlag ++ after ++ rest) g1
      = skipFlags (nonBoolOf cmd) (after ++ rest) foo := by
    rcases htags with ⟨rfl, hnl⟩ | ⟨hgen, rfl⟩
    · simp only [List.singleton_append, List.cons_append, List.nil_append]
      rw [skipFlags_one _ _ _ _ _ (classify_tags _ foo hnl)]
      rfl
    · have hc : classify (nonBoolOf cmd) "-tags" = .two true := by
        rcases hcmd with rfl | rfl | rfl | rfl | rfl
        · decide
        · exact absurd rfl hgen
        · decide
        · decide
        · decide
      simp only [List.cons_append, List.nil_append]
      rw [skipFlags_two _ _ _ _ _ _ hc]
      rfl
  obtain ⟨rest1, h3, h4⟩ := skipFlags_ends (nonBoolOf cmd) rest foo hrest
  have h5 : skipFlags (nonBoolOf cmd) (before ++ tagsFlag ++ after ++ rest) ""
      = .rest rest1 foo := by
    rw [List.append_assoc, List.append_assoc, ← List.append_assoc tagsFlag, h1, h2,
      skipFlags_otherFlags _ _ _ hafter, h3]
  obtain ⟨pkgs, files, post, h6, h7⟩ := processGoCmdAndArgs_rest cmd _ rest1 foo h5
  refine ⟨pkgs, files, post, h6, ?_⟩
  rcases h4 with h4 | h4
  · left; rw [h4, h7]
  · right; rw [h4, h7]

/-- C22 amended, on `go test -v -tags foo -run X pkg -x`. -/
theorem tags_value_returned_witness :
    ∃ pkgs files post,
      processGoCmdAndArgs "test" (["-v"] ++ ["-tags", "foo"] ++ ["-run", "X"] ++ ["pkg", "-x"])
        = some (pkgs, files, "foo") ∧
      (["pkg", "-x"] = pkgs ++ files ++ post ∨ ["pkg", "-x"] = "--" :: (pkgs ++ files ++ post)) :=
  tags_value_returned "test" ["-v"] ["-tags", "foo"] ["-run", "X"] ["pkg", "-x"] "foo"
    (by decide)
    (Flags.one "-v" none [] (by decide) Flags.nil)
    (Or.inr ⟨by decide, rfl⟩)
    (OtherFlags.two "-run" "X" [] (by decide) OtherFlags.nil)
    (Or.inr ⟨"pkg", ["-x"], rfl, Or.inr (by decide)⟩)

/-- C22, refuted as stated: for `go generate -tags foo pkg` the tags
returned are `-tags` and `foo` is among the packages, `tags` being no flag
with a value for generate; and for `-tags=` followed by two lines the tags
returned are the first line only. -/
theorem generate_tags_not_returned :
    processGoCmdAndArgs "generate" ["-tags", "foo", "pkg"]
      = some (["foo", "pkg"], [], "-tags") ∧
    processGoCmdAndArgs "build" ["-tags=a\nb", "pkg"] = some (["pkg"], [], "a") := by
  decide

/-! ## The nicknames of `madb` -/

theorem mapGet_mapDelete {β : Type} (m : GoMap β) (k n : String) :
    mapGet (mapDelete m k) n = if n = k then none else mapGet m n := by
  induction m with
  | nil => simp [mapDelete, mapGet]
  | cons p m ih =>
    obtain ⟨k1, v1⟩ := p
    unfold mapDelete at ih ⊢
    by_cases h1 : k1 = k
    · subst h1
      simp only [List.filter_cons, ne_eq, not_true_eq_false, decide_False, Bool.false_eq_true,
        if_false, ih]
      by_cases h2 : n = k1
      · simp [h2]
      · have h3 : ¬ k1 = n := fun e => h2 e.symm
        simp [h2, mapGet, h3]
    · simp only [List.filter_cons, ne_eq, h1, not_false_eq_true, decide_True, if_true, mapGet]
      by_cases h2 : k1 = n
      · subst h2
        simp [h1]
      · simp only [h2, if_false]
        exact ih

theorem reverseMap_sound_from (source : GoMap String) (order : List String) :
    ∀ acc : GoMap String, (∀ v k, mapGet acc v = some k → mapGet source k = some v) →
      ∀ v k, mapGet (order.foldl (fun reversed k =>
        match mapGet source k with
        | some v => mapSet reversed v k
        | none => reversed) acc) v = some k → mapGet source k = some v := by
  induction order with
  | nil => intro acc h; exact h
  | cons x order ih =>
    intro acc h
    simp only [List.foldl_cons]
    apply ih
    cases hx : mapGet source x with
    | none => exact h
    | some w =>
      intro v k hk
      simp only at hk
      rw [mapGet_mapSet] at hk
      by_cases e : w = v
      · rw [if_pos e] at hk
        cases hk
        rw [← e]; exact hx
      · rw [if_neg e] at hk
        exact h v k hk

theorem reverseMap_sound (source : GoMap String) (order : List String) (v k : String)
    (h : mapGet (reverseMap source order) v = some k) : mapGet source k = some v :=
  reverseMap_sound_from source order [] (fun v k hk => by simp [mapGet] at hk) v k h

theorem reverseMap_complete_from (source : GoMap String) (order : List String) (v : String) :
    ∀ acc : GoMap String,
      ((∃ k, mapGet acc v = some k) ∨ ∃ k ∈ order, mapGet source k = some v) →
      ∃ k, mapGet (order.foldl (fun reversed k =>
        match mapGet source k with
        | some v => mapSet reversed v k
        | none => reversed) acc) v = some k := by
  induction order with
  | nil =>
    intro acc h
    rcases h with h | ⟨k, hk, -⟩
    · exact h
    · cases hk
  | cons x order ih =>
    intro acc h
    simp only [List.foldl_cons]
    apply ih
    cases hx : mapGet source x with
    | none =>
      rcases h with h | ⟨k, hk, hs⟩
      · exact Or.inl h
      · rcases List.mem_cons.1 hk with rfl | hk
        · rw [hx] at hs; cases hs
        · exact Or.inr ⟨k, hk, hs⟩
    | some w =>
      simp only
      by_cases e : w = v
      · left
        exact ⟨x, by rw [mapGet_mapSet, if_pos e]⟩
      · rcases h with ⟨k, hk⟩ | ⟨k, hk, hs⟩
        · left
          exact ⟨k, by rw [mapGet_mapSet, if_neg e]; exact hk⟩
        · rcases List.mem_cons.1 hk with rfl | hk
          · rw [hx] at hs; cases hs; exact absurd rfl e
          · exact Or.inr ⟨k, hk, hs⟩

theorem reverseMap_complete (source : GoMap String) (order : List String) (v k : String)
    (hk : k ∈ order) (h : mapGet source k = some v) :
    ∃ k1, mapGet (reverseMap source order) v = some k1 :=
  reverseMap_complete_from source order v [] (Or.inr ⟨k, hk, h⟩)

theorem readNicknameSerialMap_ok (io : NameIO) (file file1 : NameFile) (nsm : GoMap String)
    (h : readNicknameSerialMap io file = (.ok nsm, file1)) :
    nsm = storedMap file ∧ storedMap file1 = storedMap file := by
  unfold readNicknameSerialMap at h
  cases file with
  | missing => cases h; exact ⟨rfl, rfl⟩
  | corrupt =>
    simp only at h
    split at h
    · cases h
    · split at h
      · cases h
      · cases h; exact ⟨rfl, rfl⟩
  | stored m =>
    simp only at h
    split at h
    · cases h
    · cases h; exact ⟨rfl, rfl⟩

theorem readNicknameSerialMap_error (io : NameIO) (file file1 : NameFile) (err : GoError)
    (h : readNicknameSerialMap io file = (.error err, file1)) : file1 = file := by
  unfold readNicknameSerialMap at h
  cases file with
  | missing => cases h
  | corrupt =>
    simp only at h
    split at h
    · cases h; rfl
    · split at h
      · cases h; rfl
      · cases h
  | stored m =>
    simp only at h
    split at h
    · cases h; rfl
    · cases h

theorem writeNicknameSerialMap_ok (io : NameIO) (nsm : GoMap String) (file file1 : NameFile)
    (h : writeNicknameSerialMap io nsm file = (none, file1)) : file1 = .stored nsm := by
  unfold writeNicknameSerialMap at h
  split at h
  · cases h
  · split at h
    · cases h
    · cases h; rfl

/-- What a successful `runMadbNameSet` has done. -/
theorem runMadbNameSet_ok (io : NameIO) (order : List String) (serial nickname : String)
    (file file1 : NameFile)
    (h : runMadbNameSet io order [serial, nickname] file = (none, file1)) :
    mapGet (storedMap file) nickname = none ∧
    file1 = .stored (mapSet
      (match mapGet (reverseMap (storedMap file) order) serial with
        | some nn => mapDelete (storedMap file) nn
        | none => storedMap file) nickname serial) := by
  unfold runMadbNameSet at h
  simp only at h
  split at h
  · cases h
  · split at h
    · cases h
    · split at h
      · cases h
      · rename_i nsm file2 hread
        obtain ⟨rfl, -⟩ := readNicknameSerialMap_ok io file file2 nsm hread
        split at h
        · cases h
        · rename_i hnone
          refine ⟨by simpa using hnone, ?_⟩
          exact writeNicknameSerialMap_ok io _ _ _ h

/-- C23. When the stored map of nicknames is one-to-one and the range of
`reverseMap` yields every nickname, after `runMadbNameSet` has returned no
error for the arguments `serial` and `nickname` the stored map is
one-to-one, maps `nickname` to `serial`, has no other nickname for
`serial`, and has the same entries as before among those whose serial is
not `serial`. -/
theorem name_set_keeps_one_to_one (io : NameIO) (order : List String)
    (serial nickname : String) (file file1 : NameFile)
    (hone : OneToOne (storedMap file))
    (horder : ∀ k ∈ mapKeys (storedMap file), k ∈ order)
    (hrun : runMadbNameSet io order [serial, nickname] file = (none, file1)) :
    OneToOne (storedMap file1) ∧
    mapGet (storedMap file1) nickname = some serial ∧
    (∀ k, mapGet (storedMap file1) k = some serial → k = nickname) ∧
    ∀ k v, v ≠ serial →
      (mapGet (storedMap file1) k = some v ↔ mapGet (storedMap file) k = some v) := by
  obtain ⟨hnew, hfile⟩ := runMadbNameSet_ok io order serial nickname file file1 hrun
  subst hfile
  generalize hnsm : storedMap file = nsm at *
  simp only [storedMap]
  have hget : ∀ k, k ≠ nickname → ∀ v,
      (mapGet (mapSet
        (match mapGet (reverseMap nsm order) serial with
          | some nn => mapDelete nsm nn
          | none => nsm) nickname serial) k = some v ↔
      (mapGet nsm k = some v ∧ v ≠ serial)) := by
    intro k hk v
    rw [mapGet_mapSet_ne _ _ _ _ (Ne.symm hk)]
    cases hrev : mapGet (reverseMap nsm order) serial with
    | none =>
      simp only
      constructor
      · intro h
        refine ⟨h, ?_⟩
        rintro rfl
        obtain ⟨k1, hk1⟩ := reverseMap_complete nsm order v k
          (horder k ((mapGet_isSome_iff nsm k).1 ⟨v, h⟩)) h
        rw [hk1] at hrev
        cases hrev
      · exact fun h => h.1
    | some nn =>
      simp only
      have hnn := reverseMap_sound nsm order serial nn hrev
      rw [mapGet_mapDelete]
      by_cases e : k = nn
      · subst e
        rw [if_pos rfl]
        constructor
        · intro h; cases h
        · rintro ⟨h1, h2⟩
          rw [hnn] at h1
          cases h1
          exact absurd rfl h2
      · rw [if_neg e]
        constructor
        · intro h
          refine ⟨h, ?_⟩
          rintro rfl
          exact e (hone k nn v h hnn)
        · exact fun h => h.1
  have hself := mapGet_mapSet_self
    (match mapGet (reverseMap nsm order) serial with
      | some nn => mapDelete nsm nn
      | none => nsm) nickname serial
  have honly : ∀ k, mapGet (mapSet
      (match mapGet (reverseMap nsm order) serial with
        | some nn => mapDelete nsm nn
        | none => nsm) nickname serial) k = some serial → k = nickname := by
    intro k hk
    by_contra hne
    exact ((hget k hne serial).1 hk).2 rfl
  refine ⟨?_, hself, honly, ?_⟩
  · intro k1 k2 v h1 h2
    by_cases hv : v = serial
    · subst hv
      rw [honly k1 h1, honly k2 h2]
    · have hk1 : k1 ≠ nickname := by
        rintro rfl
        rw [hself] at h1
        cases h1
        exact hv rfl
      have hk2 : k2 ≠ nickname := by
        rintro rfl
        rw [hself] at h2
        cases h2
        exact hv rfl
      exact hone k1 k2 v ((hget k1 hk1 v).1 h1).1 ((hget k2 hk2 v).1 h2).1
  · intro k v hv
    by_cases hk : k = nickname
    · subst hk
      rw [hself, hnew]
      constructor
      · intro h; cases h; exact absurd rfl hv
      · intro h; cases h
    · rw [hget k hk v]
      exact ⟨fun h => h.1, fun h => ⟨h, hv⟩⟩

/-- C24. `runMadbNameSet` returns an error and leaves the file of nicknames
as it is when the number of arguments is not two, when the serial or the
nickname is not valid, and when the nickname is a key of the stored map,
whatever its serial. -/
theorem name_set_rejected (io : NameIO) (order : List String) (args : List String)
    (file : NameFile)
    (h : args.length ≠ 2 ∨ ∃ serial nickname, args = [serial, nickname] ∧
      (isValidDeviceSerial serial = false ∨ isValidNickname nickname = false ∨
        ∃ nsm v, file = .stored nsm ∧ mapGet nsm nickname = some v)) :
    ∃ err, runMadbNameSet io order args file = (some err, file) := by
  rcases h with h | ⟨serial, nickname, rfl, h⟩
  · unfold runMadbNameSet
    split
    · simp at h
    · exact ⟨_, rfl⟩
  · unfold runMadbNameSet
    simp only
    by_cases h1 : isValidDeviceSerial serial = true
    · by_cases h2 : isValidNickname nickname = true
      · rcases h with h | h | ⟨nsm, v, rfl, hv⟩
        · rw [h1] at h; cases h
        · rw [h2] at h; cases h
        · simp only [h1, h2, Bool.not_true, Bool.false_eq_true, if_false,
            readNicknameSerialMap]
          cases io.openErr with
          | some err => exact ⟨_, rfl⟩
          | none => simp only [hv, Option.isSome_some, if_true]; exact ⟨_, rfl⟩
      · have h3 : isValidNickname nickname = false := by simpa using h2
        simp only [h1, h3, Bool.not_true, Bool.not_false, Bool.false_eq_true, if_false,
          if_true]
        exact ⟨_, rfl⟩
    · have h3 : isValidDeviceSerial serial = false := by simpa using h1
      simp only [h3, Bool.not_false, if_true]
      exact ⟨_, rfl⟩

theorem unsetLoop_some (name : String) (nsm : GoMap String) (order : List String)
    (nsm1 : GoMap String) (h : unsetLoop name nsm order = some nsm1) :
    ∃ nickname serial, mapGet nsm nickname = some serial ∧
      (nickname = name ∨ serial = name) ∧ nsm1 = mapDelete nsm nickname := by
  induction order with
  | nil => cases h
  | cons x order ih =>
    unfold unsetLoop at h
    cases hx : mapGet nsm x with
    | none => rw [hx] at h; exact ih h
    | some serial =>
      rw [hx] at h
      simp only at h
      split at h
      · rename_i hm
        cases h
        exact ⟨x, serial, hx, hm, rfl⟩
      · exact ih h

theorem unsetLoop_none (name : String) (nsm : GoMap String) (order : List String)
    (h : unsetLoop name nsm order = none) :
    ∀ nickname ∈ order, ∀ serial, mapGet nsm nickname = some serial →
      ¬ (nickname = name ∨ serial = name) := by
  induction order with
  | nil => intro k hk; cases hk
  | cons x order ih =>
    unfold unsetLoop at h
    intro k hk serial hs
    cases hx : mapGet nsm x with
    | none =>
      rw [hx] at h
      rcases List.mem_cons.1 hk with rfl | hk
      · rw [hx] at hs; cases hs
      · exact ih h k hk serial hs
    | some v =>
      rw [hx] at h
      simp only at h
      split at h
      · cases h
      · rename_i hm
        rcases List.mem_cons.1 hk with rfl | hk
        · rw [hx] at hs; cases hs; exact hm
        · exact ih h k hk serial hs

/-- The steps of `runMadbNameUnset` for a valid argument. -/
theorem runMadbNameUnset_eq (io : NameIO) (order : List String) (name : String)
    (file : NameFile)
    (hvalid : isValidDeviceSerial name = true ∨ isValidNickname name = true) :
    runMadbNameUnset io order [name] file =
      match readNicknameSerialMap io file with
      | (.error err, file1) => (some err, file1)
      | (.ok nsm, file1) =>
        match unsetLoop name nsm order with
        | none =>
          (some (.errorf
            "The provided argument is neither a known nickname nor a device serial."), file1)
        | some nsm1 => writeNicknameSerialMap io nsm1 file1 := by
  unfold runMadbNameUnset
  simp only
  rw [if_neg]
  rcases hvalid with h | h <;> simp [h]

/-- C25, amended. For a valid argument `name`, the range over the map
yielding every nickname: when no operation on the file fails,
`runMadbNameUnset` succeeds exactly when a stored entry has the nickname or
the serial `name`; after success one such entry is removed and every other
entry is as before, so that no stored entry has the nickname or the serial
`name` when only the removed one had; on failure the stored map is as
before, unless the file was created anew and could not be written. -/
theorem name_unset_removes_one (io : NameIO) (order : List String) (name : String)
    (file : NameFile)
    (hvalid : isValidDeviceSerial name = true ∨ isValidNickname name = true)
    (horder : ∀ k ∈ mapKeys (storedMap file), k ∈ order) :
    (io.openErr = none → io.removeErr = none → io.createErr = none → io.encodeErr = none →
      ((runMadbNameUnset io order [name] file).1 = none ↔
        ∃ nickname serial, mapGet (storedMap file) nickname = some serial ∧
          (nickname = name ∨ serial = name))) ∧
    ((runMadbNameUnset io order [name] file).1 = none →
      ∃ nickname serial, mapGet (storedMap file) nickname = some serial ∧
        (nickname = name ∨ serial = name) ∧
        (runMadbNameUnset io order [name] file).2
          = .stored (mapDelete (storedMap file) nickname) ∧
        (∀ k, mapGet (mapDelete (storedMap file) nickname) k
          = if k = nickname then none else mapGet (storedMap file) k) ∧
        ((∀ k v, mapGet (storedMap file) k = some v → (k = name ∨ v = name) → k = nickname) →
          ∀ k v, mapGet (mapDelete (storedMap file) nickname) k = some v →
            k ≠ name ∧ v ≠ name)) ∧
    ((runMadbNameUnset io order [name] file).1 ≠ none →
      (io.createErr ≠ none ∨ io.encodeErr = none) →
      storedMap (runMadbNameUnset io order [name] file).2 = storedMap file) := by
  rw [runMadbNameUnset_eq io order name file hvalid]
  cases hread : readNicknameSerialMap io file with
  | mk res file1 =>
    cases res with
    | error err =>
      have hfile := readNicknameSerialMap_error io file file1 err hread
      subst hfile
      simp only
      refine ⟨?_, (fun h => by cases h), fun _ _ => trivial⟩
      intro h1 h2 _ _
      exfalso
      unfold readNicknameSerialMap at hread
      cases file1 <;> simp [h1, h2] at hread
    | ok nsm =>
      obtain ⟨rfl, hstored⟩ := readNicknameSerialMap_ok io file file1 _ hread
      simp only
      cases hloop : unsetLoop name (storedMap file) order with
      | none =>
        have hnone := unsetLoop_none name _ order hloop
        simp only
        refine ⟨?_, (fun h => by cases h), fun _ _ => hstored⟩
        intro _ _ _ _
        constructor
        · intro h; cases h
        · rintro ⟨nickname, serial, hg, hm⟩
          exact absurd hm (hnone nickname
            (horder nickname ((mapGet_isSome_iff _ nickname).1 ⟨serial, hg⟩)) serial hg)
      | some nsm1 =>
        obtain ⟨nickname, serial, hg, hm, rfl⟩ := unsetLoop_some name _ order _ hloop
        simp only
        refine ⟨?_, ?_, ?_⟩
        · intro _ _ h3 h4
          simp only [writeNicknameSerialMap, h3, h4, true_iff]
          exact ⟨nickname, serial, hg, hm⟩
        · intro hok
          refine ⟨nickname, serial, hg, hm, ?_, mapGet_mapDelete _ _, ?_⟩
          · generalize hw : writeNicknameSerialMap io
              (mapDelete (storedMap file) nickname) file1 = out at hok
            obtain ⟨e, f2⟩ := out
            simp only at hok
            subst hok
            exact writeNicknameSerialMap_ok io _ _ _ hw
          · intro huniq k v hk
            rw [mapGet_mapDelete] at hk
            by_cases e : k = nickname
            · rw [if_pos e] at hk; cases hk
            · rw [if_neg e] at hk
              constructor
              · intro hkn; exact e (huniq k v hk (Or.inl hkn))
              · intro hvn; exact e (huniq k v hk (Or.inr hvn))
        · intro hfail hio
          unfold writeNicknameSerialMap at hfail ⊢
          cases hc : io.createErr with
          | some err => simp only [hc]; exact hstored
          | none =>
            rw [hc] at hfail
            simp only at hfail ⊢
            rcases hio with hio | hio
            · exact absurd hc hio
            · rw [hio] at hfail
              exact absurd rfl hfail

theorem oneToOne_of_nodup (nsm : GoMap String) (h : (nsm.map Prod.snd).Nodup) :
    OneToOne nsm := by
  induction nsm with
  | nil => intro k1 k2 v h1; simp [mapGet] at h1
  | cons p m ih =>
    obtain ⟨k, w⟩ := p
    simp only [List.map_cons, List.nodup_cons, List.mem_map, not_exists, not_and] at h
    have hmem : ∀ k1 v, mapGet m k1 = some v → (k1, v) ∈ m := fun k1 v h1 => mapGet_mem m k1 v h1
    intro k1 k2 v h1 h2
    simp only [mapGet] at h1 h2
    by_cases e1 : k = k1
    · by_cases e2 : k = k2
      · rw [← e1, ← e2]
      · rw [if_pos e1] at h1
        rw [if_neg e2] at h2
        cases h1
        exact absurd rfl (h.1 (k2, w) (hmem k2 w h2))
    · by_cases e2 : k = k2
      · rw [if_neg e1] at h1
        rw [if_pos e2] at h2
        cases h2
        exact absurd rfl (h.1 (k1, w) (hmem k1 w h1))
      · rw [if_neg e1] at h1
        rw [if_neg e2] at h2
        exact ih h.2 k1 k2 v h1 h2

/-- C23, on the map with `old` for `S1` and `x` for `S2`, where `S1` gets the
nickname `new`. -/
theorem name_set_keeps_one_to_one_witness :
    OneToOne [("x", "S2"), ("new", "S1")] ∧
    mapGet [("x", "S2"), ("new", "S1")] "new" = some "S1" ∧
    (∀ k, mapGet [("x", "S2"), ("new", "S1")] k = some "S1" → k = "new") ∧
    ∀ k v, v ≠ "S1" →
      (mapGet [("x", "S2"), ("new", "S1")] k = some v ↔
        mapGet [("old", "S1"), ("x", "S2")] k = some v) :=
  name_set_keeps_one_to_one {} ["x", "old"] "S1" "new"
    (.stored [("old", "S1"), ("x", "S2")]) (.stored [("x", "S2"), ("new", "S1")])
    (oneToOne_of_nodup _ (by decide)) (by decide) (by decide)

/-- C24, on the nickname `foo` already given to the same serial. -/
theorem name_set_rejected_witness :
    ∃ err, runMadbNameSet {} ["foo"] ["S1", "foo"] (.stored [("foo", "S1")])
      = (some err, .stored [("foo", "S1")]) :=
  name_set_rejected {} ["foo"] ["S1", "foo"] (.stored [("foo", "S1")])
    (Or.inr ⟨"S1", "foo", rfl, Or.inr (Or.inr ⟨[("foo", "S1")], "S1", rfl, by decide⟩)⟩)

/-- C25 amended, on the serial `S1` whose nickname is `foo`. -/
theorem name_unset_removes_one_witness :
    (runMadbNameUnset {} ["bar", "foo"] ["S1"] (.stored [("foo", "S1"), ("bar", "S2")])).1
      = none ∧
    ∃ nickname serial,
      mapGet (storedMap (.stored [("foo", "S1"), ("bar", "S2")])) nickname = some serial ∧
      (nickname = "S1" ∨ serial = "S1") ∧
      (runMadbNameUnset {} ["bar", "foo"] ["S1"] (.stored [("foo", "S1"), ("bar", "S2")])).2
        = .stored (mapDelete (storedMap (.stored [("foo", "S1"), ("bar", "S2")])) nickname) :=
  ⟨by decide,
    let ⟨nickname, serial, h1, h2, h3, _⟩ :=
      (name_unset_removes_one {} ["bar", "foo"] "S1" (.stored [("foo", "S1"), ("bar", "S2")])
        (Or.inl (by decide)) (by decide)).2.1 (by decide)
    ⟨nickname, serial, h1, h2, h3⟩⟩

/-- C25, refuted as stated: in the one-to-one map with `foo` for `S1` and
`bar` for `foo`, `unset foo` succeeds and leaves the entry of `bar`, whose
serial is `foo`; and with the entry `foo` stored, `unset foo` fails when
the file cannot be written, and leaves a file that stores no map. -/
theorem unset_leaves_matching_entry :
    OneToOne [("foo", "S1"), ("bar", "foo")] ∧ isValidNickname "foo" = true ∧
    runMadbNameUnset {} ["foo", "bar"] ["foo"] (.stored [("foo", "S1"), ("bar", "foo")])
      = (none, .stored [("bar", "foo")]) ∧
    mapGet [("bar", "foo")] "bar" = some "foo" ∧
    runMadbNameUnset { encodeErr := some (.external "no space left on device") } ["foo"]
        ["foo"] (.stored [("foo", "S1")])
      = (some (.external "no space left on device"), .corrupt) :=
  ⟨oneToOne_of_nodup _ (by decide), by decide, by decide, by decide, by decide⟩

/-- C26. `isValidNickname` holds exactly of the strings that are not empty
and whose characters are letters `A-Z` and `a-z`, digits, or underscores;
so it holds of `my_tablet`, though the underscore is neither a letter nor a
digit. -/
theorem underscore_nickname_accepted :
    isValidNickname "my_tablet" = true ∧ '_'.isAlpha = false ∧ '_'.isDigit = false ∧
    ∀ s : String, isValidNickname s = true ↔
      s.data ≠ [] ∧ ∀ c ∈ s.data, c.isAlpha = true ∨ c.isDigit = true ∨ c = '_' := by
  refine ⟨by decide, by decide, by decide, ?_⟩
  intro s
  unfold isValidNickname isWordChar Char.isAlphanum
  cases s.data with
  | nil => simp
  | cons c cs => simp [or_assoc]

/-! ## The test that an iteration acts on -/

theorem checkDeps_blocked (results : ResultMap) (deps : List String)
    (hhas : ∀ d ∈ deps, ∃ st, statusOf results d = some st)
    (h : ∃ d ∈ deps, ∃ st, statusOf results d = some st ∧ st.blocks = true) :
    ∀ b, checkDeps results deps b = .skip := by
  induction deps with
  | nil => obtain ⟨d, hd, -⟩ := h; cases hd
  | cons dep rest ih =>
    intro b
    obtain ⟨st, hst⟩ := hhas dep (List.mem_cons_self _ _)
    obtain ⟨r, hr, hs⟩ := statusOf_eq_some hst
    have hrest : (∃ d ∈ rest, ∃ st, statusOf results d = some st ∧ st.blocks = true) →
        ∀ b, checkDeps results rest b = .skip :=
      ih (fun d hd => hhas d (List.mem_cons_of_mem _ hd))
    have h1 : st.blocks = false →
        ∃ d ∈ rest, ∃ st, statusOf results d = some st ∧ st.blocks = true := by
      intro hb
      obtain ⟨d, hd, st1, hst1, hb1⟩ := h
      rcases List.mem_cons.1 hd with rfl | hd
      · rw [hst] at hst1; cases hst1; rw [hb] at hb1; cases hb1
      · exact ⟨d, hd, st1, hst1, hb1⟩
    simp only [checkDeps, hr]
    subst hs
    cases hrs : r.Status <;> simp only [hrs] at h1 ⊢ <;>
      first
      | rfl
      | exact hrest (h1 rfl) _

theorem checkDeps_ready (results : ResultMap) (deps : List String) :
    ∀ b b1, checkDeps results deps b = .ready b1 →
      ∀ d ∈ deps, ∀ st, statusOf results d = some st → st.blocks = false := by
  induction deps with
  | nil => intro b b1 _ d hd; cases hd
  | cons dep rest ih =>
    intro b b1 h d hd st hst
    simp only [checkDeps] at h
    cases hg : mapGet results dep with
    | none => rw [hg] at h; cases h
    | some entry =>
      cases entry with
      | none => rw [hg] at h; cases h
      | some r =>
        rw [hg] at h
        simp only at h
        rcases List.mem_cons.1 hd with rfl | hd
        · have : st = r.Status := by simp [statusOf, hg] at hst; exact hst.symm
          subst this
          cases hrs : r.Status <;> simp_all [Status.blocks]
        · cases hrs : r.Status <;> simp only [hrs] at h <;>
            first
            | cases h
            | exact ih _ _ h d hd st hst

theorem waits_of_not_actionable (graph : testDepGraph) (results : ResultMap) (t : String)
    (hst : ∃ st, statusOf results t = some st)
    (hnode : ∃ node, mapGet graph t = some node ∧
      ∀ d ∈ node.deps, ∃ st, statusOf results d = some st)
    (h : ¬ Actionable graph results t) : Waits graph results t := by
  obtain ⟨st, hst⟩ := hst
  refine ⟨st, hst, ?_⟩
  by_cases hp : st = .Pending
  · right
    subst hp
    obtain ⟨node, hn, hdeps⟩ := hnode
    refine ⟨node, hn, ?_⟩
    have h1 : ¬ HasBlockedDep graph results t := fun hb => h ⟨hst, Or.inl hb⟩
    have h2 : HasPendingDep graph results t := by
      by_contra hnp
      exact h ⟨hst, Or.inr hnp⟩
    cases hc : checkDeps results node.deps true with
    | skip =>
      obtain ⟨d, hd, st1, hst1, hb⟩ := checkDeps_skip results node.deps true hc
      exact absurd ⟨node, hn, d, hd, st1, hst1, hb⟩ h1
    | panic =>
      obtain ⟨d, hd, hdn⟩ := checkDeps_panic _ _ _ hc
      obtain ⟨st1, hst1⟩ := hdeps d hd
      rw [hst1] at hdn
      cases hdn
    | ready b =>
      cases b with
      | false => rfl
      | true =>
        obtain ⟨-, hall⟩ := checkDeps_ready_true results node.deps true hc
        obtain ⟨node1, hn1, d, hd, hpd⟩ := h2
        rw [hn] at hn1
        cases hn1
        obtain ⟨st1, hst1, hl⟩ := hall d hd
        rw [hpd] at hst1
        cases hst1
        simp [Status.letsRun] at hl
  · exact Or.inl hp

theorem scanTests_pass {σ : Type} (env : Env σ) (opts : List Opt) (graph : testDepGraph)
    (s : RunState σ) (pre l : List String) (h : ∀ x ∈ pre, Waits graph s.results x) :
    scanTests env opts graph (pre ++ l) s = scanTests env opts graph l s := by
  induction pre with
  | nil => rfl
  | cons x pre ih =>
    have ih1 := ih (fun y hy => h y (List.mem_cons_of_mem _ hy))
    obtain ⟨st, hst, hw⟩ := h x (List.mem_cons_self _ _)
    obtain ⟨r, hr, hs⟩ := statusOf_eq_some hst
    simp only [List.cons_append, scanTests, hr]
    rcases hw with hw | ⟨node, hn, hc⟩
    · rw [if_pos (by rw [hs]; exact hw)]
      exact ih1
    · by_cases hp : r.Status ≠ .Pending
      · rw [if_pos hp]; exact ih1
      · rw [if_neg hp]
        simp only [hn, hc]
        exact ih1

theorem runTest_frame {σ : Type} (env : Env σ) (opts : List Opt)
    (outputFile : Option String) (t : String) (s : RunState σ) (x : String) (hx : x ≠ t) :
    mapGet (runTest env opts outputFile t s).2.results x = mapGet s.results x := by
  unfold runTest
  cases mapGet env.testFunctions t with
  | none => rfl
  | some f =>
    simp only
    split
    · simp only [reportTimedOut_results]
    · have hw := fun (out : String) (u : RunState σ) =>
        (writeOutput_sameMarks env outputFile out u).results
      split
      · rw [hw]
        simp only [reportTimedOut_results]
        exact mapGet_mapSet_ne _ _ _ _ (Ne.symm hx)
      · split
        · rw [hw]
          simp only [reportTimedOut_results]
          exact mapGet_mapSet_ne _ _ _ _ (Ne.symm hx)
        · rw [hw]
          simp only [reportTimedOut_results]
          exact mapGet_mapSet_ne _ _ _ _ (Ne.symm hx)

theorem runTestsLoop_frame {σ : Type} (env : Env σ) (opts : List Opt)
    (outputFile : Option String) (tests : List String) (s : RunState σ) (x : String)
    (hx : x ∉ tests) :
    mapGet (runTestsLoop env opts outputFile tests s).2.results x = mapGet s.results x := by
  induction tests generalizing s with
  | nil => rfl
  | cons t rest ih =>
    have h1 := runTest_frame env opts outputFile t s x
      (fun e => hx (e ▸ List.mem_cons_self _ _))
    unfold runTestsLoop
    split
    · rename_i f s1 h; rw [h] at h1; exact h1
    · rename_i s1 h; rw [h] at h1
      rw [ih s1 (fun hm => hx (List.mem_cons_of_mem _ hm))]
      exact h1

theorem runTests_frame {σ : Type} (env : Env σ) (tests : List String) (opts : List Opt)
    (s : RunState σ) (x : String) (hx : x ∉ tests) :
    mapGet (runTests env tests opts s).2.results x = mapGet s.results x := by
  have hbody : ∀ (outputDir : String) (outputFile : Option String) (u : RunState σ),
      mapGet (runTestsBody env opts outputDir outputFile tests u).2.results x
        = mapGet u.results x := by
    intro outputDir outputFile u
    unfold runTestsBody
    split
    · rfl
    · have h1 := runTestsLoop_frame env opts outputFile tests u x hx
      split
      · rename_i f s1 h; rw [h] at h1; exact h1
      · rename_i s1 h; rw [h] at h1
        rw [(writeResults_sameMarks env outputDir s1).results]
        exact h1
  unfold runTests
  simp only
  split
  · split
    · rfl
    · exact hbody _ _ _
  · exact hbody _ _ _

theorem exists_first {α : Type} (P : α → Prop) (l : List α) (h : ∃ x ∈ l, P x) :
    ∃ pre t post, l = pre ++ t :: post ∧ (∀ x ∈ pre, ¬ P x) ∧ P t := by
  induction l with
  | nil => obtain ⟨x, hx, -⟩ := h; cases hx
  | cons a l ih =>
    by_cases ha : P a
    · exact ⟨[], a, l, rfl, fun x hx => absurd hx (List.not_mem_nil x), ha⟩
    · obtain ⟨x, hx, hp⟩ := h
      rcases List.mem_cons.1 hx with rfl | hx
      · exact absurd hp ha
      · obtain ⟨pre, t, post, e, h1, h2⟩ := ih ⟨x, hx, hp⟩
        refine ⟨a :: pre, t, post, by rw [e]; rfl, ?_, h2⟩
        intro y hy
        rcases List.mem_cons.1 hy with rfl | hy
        · exact ha
        · exact h1 y hy

theorem actionable_of_acts {σ : Type} (env : Env σ) (opts : List Opt) (graph : testDepGraph)
    (s : RunState σ) (t : String) (out : ScanResult σ) (h : Acts env opts graph s t out) :
    Actionable graph s.results t := by
  cases h with
  | skip result node hr hp hg hc =>
    refine ⟨by simp [statusOf, hr, hp], Or.inl ⟨node, hg, ?_⟩⟩
    exact checkDeps_skip s.results node.deps true hc
  | ran node s1 hp hg hc hrun =>
    refine ⟨hp, Or.inr ?_⟩
    rintro ⟨node1, hn1, d, hd, hpd⟩
    rw [hg] at hn1
    cases hn1
    obtain ⟨st1, hst1, hl⟩ := (checkDeps_ready_true s.results node.deps true hc).2 d hd
    rw [hpd] at hst1
    cases hst1
    simp [Status.letsRun] at hl
  | failed node f s1 hp hg hc hrun =>
    refine ⟨hp, Or.inr ?_⟩
    rintro ⟨node1, hn1, d, hd, hpd⟩
    rw [hg] at hn1
    cases hn1
    obtain ⟨st1, hst1, hl⟩ := (checkDeps_ready_true s.results node.deps true hc).2 d hd
    rw [hpd] at hst1
    cases hst1
    simp [Status.letsRun] at hl

/-- What the scan does with the first test to act on. -/
theorem scanTests_first {σ : Type} (env : Env σ) (opts : List Opt) (graph : testDepGraph)
    (tests : List String)
    (hkeys : ∀ t, t ∈ mapKeys graph ↔ t ∈ tests)
    (hclosed : ∀ t node, mapGet graph t = some node → ∀ d ∈ node.deps, d ∈ tests)
    (s : RunState σ) (hw : Whole tests s.results)
    (pre : List String) (t : String) (post : List String)
    (hsplit : tests = pre ++ t :: post)
    (hpre : ∀ x ∈ pre, ¬ Actionable graph s.results x)
    (ht : Actionable graph s.results t) :
    (HasBlockedDep graph s.results t →
      ∃ result, mapGet s.results t = some (some result) ∧
        scanTests env opts graph tests s = .continueRun (markSkipped s t result)) ∧
    (¬ HasBlockedDep graph s.results t →
      (∀ f s1, runTests env [t] opts s = (some f, s1) →
        scanTests env opts graph tests s = .fail f s1) ∧
      (∀ s1, runTests env [t] opts s = (none, s1) →
        scanTests env opts graph tests s = .continueRun s1)) ∧
    ∀ x, x ≠ t →
      mapGet (scanTests env opts graph tests s).state.results x = mapGet s.results x := by
  have hnode : ∀ x ∈ tests, ∃ node, mapGet graph x = some node ∧
      ∀ d ∈ node.deps, ∃ st, statusOf s.results d = some st := by
    intro x hx
    obtain ⟨node, hn⟩ := (mapGet_isSome_iff graph x).2 ((hkeys x).2 hx)
    exact ⟨node, hn, fun d hd => hw.has d (hclosed x node hn d hd)⟩
  have hpass : scanTests env opts graph tests s = scanTests env opts graph (t :: post) s := by
    rw [hsplit]
    apply scanTests_pass
    intro x hx
    have hxt : x ∈ tests := by rw [hsplit]; exact List.mem_append_left _ hx
    exact waits_of_not_actionable graph s.results x (hw.has x hxt) (hnode x hxt) (hpre x hx)
  have htt : t ∈ tests := by rw [hsplit]; simp
  obtain ⟨node, hn, hdeps⟩ := hnode t htt
  obtain ⟨hp, hact⟩ := ht
  obtain ⟨r, hr, hs⟩ := statusOf_eq_some hp
  have hblocked : HasBlockedDep graph s.results t →
      scanTests env opts graph tests s = .continueRun (markSkipped s t r) := by
    rintro ⟨node1, hn1, hb⟩
    rw [hn] at hn1
    cases hn1
    rw [hpass]
    simp only [scanTests, hr, hn, checkDeps_blocked s.results node.deps hdeps hb true]
    rw [if_neg (by simp [hs])]
    rfl
  have hrun : ¬ HasBlockedDep graph s.results t →
      (∀ f s1, runTests env [t] opts s = (some f, s1) →
        scanTests env opts graph tests s = .fail f s1) ∧
      (∀ s1, runTests env [t] opts s = (none, s1) →
        scanTests env opts graph tests s = .continueRun s1) := by
    intro hnb
    have hnp : ¬ HasPendingDep graph s.results t := by
      rcases hact with h | h
      · exact absurd h hnb
      · exact h
    have hc : checkDeps s.results node.deps true = .ready true := by
      apply checkDeps_of_letsRun
      intro d hd
      obtain ⟨st, hst⟩ := hdeps d hd
      refine ⟨st, hst, ?_⟩
      cases st with
      | Pending => exact absurd ⟨node, hn, d, hd, hst⟩ hnp
      | Skipped => exact absurd ⟨node, hn, d, hd, _, hst, rfl⟩ hnb
      | Failed => exact absurd ⟨node, hn, d, hd, _, hst, rfl⟩ hnb
      | TimedOut => exact absurd ⟨node, hn, d, hd, _, hst, rfl⟩ hnb
      | Passed => rfl
      | MergeConflict => rfl
      | ToolsBuildFailure => rfl
    rw [hpass]
    simp only [scanTests, hr, hn, hc]
    rw [if_neg (by simp [hs])]
    exact ⟨fun f s1 h => by rw [h], fun s1 h => by rw [h]⟩
  refine ⟨fun hb => ⟨r, hr, hblocked hb⟩, hrun, ?_⟩
  intro x hx
  by_cases hb : HasBlockedDep graph s.results t
  · rw [hblocked hb]
    exact mapGet_mapSet_ne _ _ _ _ (Ne.symm hx)
  · have hf := runTests_frame env [t] opts s x (by simpa using hx)
    obtain ⟨h1, h2⟩ := hrun hb
    generalize hout : runTests env [t] opts s = out at hf h1 h2
    obtain ⟨e, s1⟩ := out
    cases e with
    | none => rw [h2 s1 rfl]; exact hf
    | some f => rw [h1 f s1 rfl]; exact hf

/-- C28. In the iteration of the scheduling loop of `RunProjectTests` that
follows `k` iterations without error, `s` being the state they leave: the
tests are scanned in strictly ascending order of their names, and the first
of them that is `Actionable` (pending, with a dependency that is `Skipped`,
`Failed` or `TimedOut`, or with no pending dependency) is acted on. When it
has a dependency that is `Skipped`, `Failed` or `TimedOut` it is marked
`Skipped`, whether or not another dependency is pending; otherwise it is
handed to `runTests`. The results of all other tests, those before it
among them, are left as they were. -/
theorem first_actionable_test {σ : Type} (env : Env σ) (projects : List String)
    (opts : List Opt) (order : List String) (w : σ) (config : Config) (graph : testDepGraph)
    (tests : List String) (k : Nat) (s : RunState σ)
    (htests : tests = sortStrings (config.ProjectTests projects))
    (hgraph : createTestDepGraph config tests order = .ok graph)
    (horder : ∀ t ∈ tests, t ∈ order)
    (hk : k < graph.length)
    (hrun : runLoop env opts graph tests k { results := initResults tests, world := w }
      = (none, s)) :
    tests.Pairwise stringLess ∧
    ∃ pre t post, tests = pre ++ t :: post ∧
      (∀ x ∈ pre, ¬ Actionable graph s.results x) ∧
      Actionable graph s.results t ∧
      (HasBlockedDep graph s.results t →
        ∃ result, mapGet s.results t = some (some result) ∧
          scanTests env opts graph tests s.begin = .continueRun (markSkipped s.begin t result)) ∧
      (¬ HasBlockedDep graph s.results t →
        (∀ f s1, runTests env [t] opts s.begin = (some f, s1) →
          scanTests env opts graph tests s.begin = .fail f s1) ∧
        (∀ s1, runTests env [t] opts s.begin = (none, s1) →
          scanTests env opts graph tests s.begin = .continueRun s1)) ∧
      ∀ x, x ≠ t →
        mapGet (scanTests env opts graph tests s.begin).state.results x
          = mapGet s.results x := by
  have hkeys := (graph_nodes config _ order graph hgraph).1
  have hclosed := createTestDepGraph_closed config _ order graph hgraph
  have hacc := createTestDepGraph_acc config _ order graph hgraph horder
  have hw0 := whole_initResults config tests
  have hcount : graph.length = pendingCount (initResults tests) := by
    rw [pendingCount_initResults, length_initResults config _ order graph hgraph]
  obtain ⟨hw1, hc1⟩ := runLoop_whole env opts graph tests k
    { results := initResults tests, world := w } hw0 (by rw [hrun])
  rw [hrun] at hw1 hc1
  have hc2 : pendingCount (initResults tests) ≤ pendingCount s.results + k := hc1
  have hw2 : Whole tests s.begin.results := hw1
  obtain ⟨t0, ht0, hacts⟩ := scan_acts env opts graph tests hkeys hclosed hacc s.begin hw2
    (by show 0 < pendingCount s.results; omega)
  obtain ⟨pre, t, post, hsplit, hpre, ht⟩ := exists_first (Actionable graph s.results) tests
    ⟨t0, ht0, actionable_of_acts env opts graph s.begin t0 _ hacts⟩
  refine ⟨?_, pre, t, post, hsplit, hpre, ht, ?_⟩
  · rw [htests]
    exact ascending_sortStrings _ (nodup_projectTests config projects)
  · exact scanTests_first env opts graph tests hkeys hclosed s.begin hw2 pre t post hsplit
      hpre ht

/-- C28, on the first iteration for the tests of `fanConfig`. -/
theorem first_actionable_test_witness :
    ["A", "B", "C"].Pairwise stringLess ∧
    ∃ pre t post, ["A", "B", "C"] = pre ++ t :: post ∧
      (∀ x ∈ pre, ¬ Actionable [("A", { deps := [], visited := true }),
        ("B", { deps := ["A"], visited := true }), ("C", { deps := ["A"], visited := true })]
        (initResults ["A", "B", "C"]) x) ∧
      Actionable [("A", { deps := [], visited := true }),
        ("B", { deps := ["A"], visited := true }), ("C", { deps := ["A"], visited := true })]
        (initResults ["A", "B", "C"]) t :=
  let ⟨h1, pre, t, post, h2, h3, h4, _⟩ := first_actionable_test
    (quietEnv [("A", returning .Failed), ("B", returning .Passed), ("C", returning .Passed)]
      fanConfig) ["p"] [] ["C", "B", "A"] () fanConfig
    [("A", { deps := [], visited := true }), ("B", { deps := ["A"], visited := true }),
      ("C", { deps := ["A"], visited := true })]
    ["A", "B", "C"] 0 { results := initResults ["A", "B", "C"], world := () }
    (by decide) (by decide) (by decide) (by decide) rfl
  ⟨h1, pre, t, post, h2, h3, h4⟩

/-! ## The console output and the graph of acyclic dependencies -/

theorem splitLines_ne_nil (cs : List Char) : splitLines cs ≠ [] := by
  cases cs with
  | nil => simp [splitLines]
  | cons c cs =>
    simp only [splitLines]
    split
    · simp
    · split <;> simp

theorem intercalate_splitLines (cs : List Char) :
    List.intercalate [Char.ofNat 10] (splitLines cs) = cs := by
  induction cs with
  | nil => simp [splitLines, List.intercalate]
  | cons c cs ih =>
    simp only [splitLines]
    cases h : splitLines cs with
    | nil => exact absurd h (splitLines_ne_nil cs)
    | cons line lines =>
      rw [h] at ih
      simp only
      by_cases hc : c = Char.ofNat 10
      · rw [if_pos hc]
        subst hc
        rw [← ih]
        simp [List.intercalate]
      · rw [if_neg hc]
        rw [← ih]
        cases lines <;> simp [List.intercalate]

theorem splitLines_no_newline (cs : List Char) :
    ∀ line ∈ splitLines cs, Char.ofNat 10 ∉ line := by
  induction cs with
  | nil => simp [splitLines]
  | cons c cs ih =>
    simp only [splitLines]
    cases h : splitLines cs with
    | nil => exact absurd h (splitLines_ne_nil cs)
    | cons line lines =>
      rw [h] at ih
      simp only
      by_cases hc : c = Char.ofNat 10
      · rw [if_pos hc]
        intro l hl
        rcases List.mem_cons.1 hl with rfl | hl
        · simp
        · exact ih l hl
      · rw [if_neg hc]
        intro l hl
        rcases List.mem_cons.1 hl with rfl | hl
        · intro hm
          rcases List.mem_cons.1 hm with e | hm
          · exact hc e.symm
          · exact ih line (List.mem_cons_self _ _) hm
        · exact ih l (List.mem_cons_of_mem _ hl)

theorem intercalate_go_data (sep acc : String) (l : List String) :
    (String.intercalate.go acc sep l).data
      = acc.data ++ (l.map fun s => sep.data ++ s.data).flatten := by
  induction l generalizing acc with
  | nil => simp [String.intercalate.go]
  | cons a as ih =>
    simp only [String.intercalate.go, ih, String.data_append, List.map_cons, List.flatten_cons,
      List.append_assoc]

theorem intercalate_data (sep : String) (l : List (List Char)) :
    (String.intercalate sep (l.map String.mk)).data = List.intercalate sep.data l := by
  cases l with
  | nil => simp [String.intercalate, List.intercalate]
  | cons a as =>
    simp only [List.map_cons, String.intercalate, intercalate_go_data]
    induction as generalizing a with
    | nil => simp [List.intercalate]
    | cons b bs ih =>
      have := ih b
      simp [List.intercalate] at this ⊢
      exact this

/-- C29. The lines of the output are the pieces of `splitLines`: joined by
line breaks they give the output, and none holds a line break.
`consoleOutput` is `"......\n"` followed by the last lines, fifty of them
or all when there are fewer, joined by line breaks; it is followed by the
whole output when that has at most fifty lines. The index `startLine` is
the larger of zero and the number of lines less fifty, so it is not
negative, and it is at most the number of lines. -/
theorem consoleOutput_last_lines (output : String) :
    (List.intercalate [Char.ofNat 10] (splitLines output.data) = output.data ∧
      ∀ line ∈ splitLines output.data, Char.ofNat 10 ∉ line) ∧
    (∃ before shown, splitLines output.data = before ++ shown ∧
      shown.length = min 50 (splitLines output.data).length ∧
      consoleOutput output = "......\n" ++ "\n".intercalate (shown.map String.mk)) ∧
    ((splitLines output.data).length ≤ 50 → consoleOutput output = "......\n" ++ output) ∧
    ((startLine (splitLines output.data) : Int)
      = max 0 (((splitLines output.data).length : Int) - 50)) ∧
    startLine (splitLines output.data) ≤ (splitLines output.data).length := by
  refine ⟨⟨intercalate_splitLines _, splitLines_no_newline _⟩, ?_, ?_, ?_, ?_⟩
  · refine ⟨(splitLines output.data).take (startLine (splitLines output.data)),
      (splitLines output.data).drop (startLine (splitLines output.data)),
      (List.take_append_drop _ _).symm, ?_, rfl⟩
    simp only [List.length_drop, startLine, numLinesToOutput]
    omega
  · intro h
    have h0 : startLine (splitLines output.data) = 0 := by
      simp only [startLine, numLinesToOutput]; omega
    unfold consoleOutput
    simp only [h0, List.drop_zero]
    congr 1
    apply string_eq_of_data
    rw [intercalate_data]
    exact intercalate_splitLines _
  · simp only [startLine, numLinesToOutput]
    omega
  · simp only [startLine]
    omega

/-- C27. When the dependency relation restricted to the target tests has no
cycle, `createTestDepGraph` returns a graph and no error, whatever the
order in which the map of the graph is ranged over; the search passes over
a dependency whose node is visited and off the stack. -/
theorem acyclic_graph_accepted (config : Config) (tests order : List String)
    (hacyclic : ¬ HasCycle config tests) :
    (∃ graph, createTestDepGraph config tests order = .ok graph) ∧
    ∀ (recurse : String → testDepGraph → Option (Bool × testDepGraph)) (dep : String)
      (rest : List String) (g : testDepGraph) (depNode : testNode),
      mapGet g dep = some depNode → depNode.visited = true → depNode.stack = false →
      findCycleDeps recurse (dep :: rest) g = findCycleDeps recurse rest g := by
  refine ⟨createTestDepGraph_acyclic config tests order hacyclic, ?_⟩
  intro recurse dep rest g depNode hg hv hs
  simp [findCycleDeps, hg, hv, hs]

/-- C27, on the tests of `fanConfig`. -/
theorem acyclic_graph_accepted_witness :
    ¬ HasCycle fanConfig (fanConfig.ProjectTests ["p"]) ∧
    ∃ graph, createTestDepGraph fanConfig (fanConfig.ProjectTests ["p"]) ["C", "A", "B"]
      = .ok graph :=
  ⟨not_hasCycle_of_ok fanConfig _ ["A", "B", "C"]
      [("A", { deps := [], visited := true }), ("B", { deps := ["A"], visited := true }),
        ("C", { deps := ["A"], visited := true })] (by decide) (by decide),
    (acyclic_graph_accepted fanConfig (fanConfig.ProjectTests ["p"]) ["C", "A", "B"]
      (not_hasCycle_of_ok fanConfig _ ["A", "B", "C"]
        [("A", { deps := [], visited := true }), ("B", { deps := ["A"], visited := true }),
          ("C", { deps := ["A"], visited := true })] (by decide) (by decide))).1⟩

end Devtools
